import Mathlib

/-!
# BVM code generator (`source/blender/blenvm/compile/bvm_codegen.cc`)

A shallow embedding of the graph-to-bytecode compiler `bvm::BVMCompiler`
and a verification of its specification.

Conventions of the embedding.

* The headers `bvm_codegen.h`, `bvm_eval.h`, `bvm_function.h` and
  `bvm_nodegraph.h` are not part of the sources at hand.  The constants and
  tables they declare (`BVM_STACK_SIZE`, `BVM_STACK_INVALID`,
  `TypeDesc::stack_size`, `get_opcode_from_node_type`) are the fields of a
  `Config`; the data types they declare (`NodeGraph`, `NodeInstance`,
  `NodeType`, `NodeSocket`, `Value`, `Function`) are modelled from the way
  `bvm_codegen.cc` uses them.
* A stack index (`StackIndex`) is a natural number; so is a node pointer (see
  below).
* Instruction words are 32 bit wide.  A word is either an opcode (the numeric
  values of `enum OpCode` are not known, so opcodes stay symbolic) or a raw
  data word.
* A `float` is its IEEE-754 single precision bit pattern.
* A node is identified by its position in `NodeGraph.nodes`, which lists the
  node instances in the iteration order of `NodeGraph::NodeInstanceMap`.
* `assert` failures and null dereferences are `Fault`s.
-/

namespace bvm

/-! ## Types, values, opcodes -/

/-- Base kinds of a value (`enum BVMType`). -/
inductive BVMType
  | BVM_FLOAT | BVM_FLOAT3 | BVM_FLOAT4 | BVM_INT | BVM_MATRIX44 | BVM_POINTER | BVM_MESH
  deriving DecidableEq, Repr

/-- Type descriptor (`struct TypeDesc`). -/
structure TypeDesc where
  base_type : BVMType
  deriving DecidableEq, Repr

/-- Opcodes (`enum OpCode`): the ones `bvm_codegen.cc` names, and all the others. -/
inductive OpCode
  | OP_NOOP
  | OP_VALUE_FLOAT | OP_VALUE_FLOAT3 | OP_VALUE_FLOAT4 | OP_VALUE_INT
  | OP_VALUE_MATRIX44 | OP_VALUE_POINTER | OP_VALUE_MESH
  | OP_INIT_MESH_PTR | OP_RELEASE_MESH_PTR
  | OP_END
  | OP_OTHER (code : Nat)
  deriving DecidableEq, Repr

/-- One word of the instruction stream (`typedef ... Instruction`). -/
inductive Instruction
  | opcode (op : OpCode)
  | data (w : Nat)
  deriving DecidableEq, Repr

/-- The number of values of a 32 bit word. -/
def WORD : Nat := 2 ^ 32

/-- A single precision float, as its bit pattern. -/
structure float where
  bits : Nat
  deriving DecidableEq, Repr

/-- The rational number an IEEE-754 single precision bit pattern stands for
(`none` for infinities and NaNs). -/
def float.toRat (f : float) : Option ℚ :=
  let sign : ℚ := if (f.bits / 2 ^ 31) % 2 = 1 then -1 else 1
  let e : Nat := (f.bits / 2 ^ 23) % 2 ^ 8
  let m : Nat := f.bits % 2 ^ 23
  if e = 255 then none
  else if e = 0 then some (sign * (m : ℚ) / 2 ^ 149)
  else if 127 ≤ e then some (sign * (2 ^ 23 + (m : ℚ)) * 2 ^ (e - 127) / 2 ^ 23)
  else some (sign * (2 ^ 23 + (m : ℚ)) / 2 ^ (127 - e) / 2 ^ 23)

structure float3 where
  x : float
  y : float
  z : float

structure float4 where
  x : float
  y : float
  z : float
  w : float

structure matrix44 where
  data : Fin 4 → Fin 4 → float

/-- The fields of `PointerRNA` that `push_pointer` reads: three 64 bit pointers. -/
structure PointerRNA where
  id_data : Nat
  type : Nat
  data : Nat

/-- A typed constant (`struct Value`): `typedesc()` and `get()` are the
constructor and its payload. -/
inductive Value
  | float (f : float)
  | float3 (f : float3)
  | float4 (f : float4)
  | int (i : Int)
  | matrix44 (m : matrix44)
  | pointer (p : PointerRNA)
  | mesh

def Value.typedesc : Value → TypeDesc
  | .float _ => ⟨.BVM_FLOAT⟩
  | .float3 _ => ⟨.BVM_FLOAT3⟩
  | .float4 _ => ⟨.BVM_FLOAT4⟩
  | .int _ => ⟨.BVM_INT⟩
  | .matrix44 _ => ⟨.BVM_MATRIX44⟩
  | .pointer _ => ⟨.BVM_POINTER⟩
  | .mesh => ⟨.BVM_MESH⟩

/-- `float_to_instruction`: the bit pattern of the float. -/
def float_to_instruction (f : float) : Instruction := .data (f.bits % WORD)

/-- `int_to_instruction`: the two's complement word of the int. -/
def int_to_instruction (i : Int) : Instruction := .data (i % (WORD : Int)).toNat

/-- `pointer_to_instruction_hi`: the high half of a 64 bit pointer. -/
def pointer_to_instruction_hi (p : Nat) : Instruction := .data ((p / WORD) % WORD)

/-- `pointer_to_instruction_lo`: the low half of a 64 bit pointer. -/
def pointer_to_instruction_lo (p : Nat) : Instruction := .data (p % WORD)

/-! ## The compiler and its configuration -/

/-- The constants and tables of the headers that `bvm_codegen.cc` includes. -/
structure Config where
  /-- `BVM_STACK_SIZE`, the capacity of the register file. -/
  BVM_STACK_SIZE : Nat
  /-- `BVM_STACK_INVALID`, the sentinel of a failed allocation. -/
  BVM_STACK_INVALID : Nat
  /-- `TypeDesc::stack_size`, the footprint of a type in slots. -/
  stack_size : TypeDesc → Int
  /-- `get_opcode_from_node_type`, the registry of node type names. -/
  get_opcode_from_node_type : String → OpCode

/-- The sentinel is a word that is no offset of the register file. -/
def Config.sentinel_ok (cfg : Config) : Prop :=
  cfg.BVM_STACK_SIZE ≤ cfg.BVM_STACK_INVALID ∧ cfg.BVM_STACK_INVALID < WORD

instance (cfg : Config) : Decidable cfg.sentinel_ok := by
  unfold Config.sentinel_ok; infer_instance

/-- Key of a socket (`struct ConstSocketPair`): node (may be `NULL`) and socket name. -/
structure ConstSocketPair where
  node : Option Nat
  socket : String
  deriving DecidableEq, Repr

/-- Entry of the Function Info map (`struct FunctionInfo`). -/
structure FunctionInfo where
  entry_point : Nat
  return_index : Nat
  deriving DecidableEq, Repr

/-- A return binding of a `Function`. -/
structure ReturnValue where
  typedesc : TypeDesc
  name : String
  stack_offset : Nat
  deriving DecidableEq, Repr

/-- The compiled function (`struct Function`). -/
structure Function where
  instructions : List Instruction
  entry_point : Nat
  return_values : List ReturnValue
  deriving DecidableEq, Repr

/-- What `new Function()` gives. -/
def Function.new : Function := ⟨[], 0, []⟩

def Function.add_instruction (fn : Function) (v : Instruction) : Function :=
  { fn with instructions := fn.instructions ++ [v] }

def Function.get_instruction_count (fn : Function) : Nat := fn.instructions.length

def Function.set_entry_point (fn : Function) (e : Nat) : Function :=
  { fn with entry_point := e }

def Function.add_return_value (fn : Function) (td : TypeDesc) (name : String)
    (stack_offset : Nat) : Function :=
  { fn with return_values := fn.return_values ++ [⟨td, name, stack_offset⟩] }

/-- Lookup in a `std::map`, kept as an association list. -/
def Map.find {K V : Type} [DecidableEq K] : List (K × V) → K → Option V
  | [], _ => none
  | (k', v) :: m, k => if k' = k then some v else Map.find m k

/-- Assignment `m[k] = v` of a `std::map`. -/
def Map.set {K V : Type} [DecidableEq K] : List (K × V) → K → V → List (K × V)
  | [], k, v => [(k, v)]
  | (k', v') :: m, k, v => if k' = k then (k, v) :: m else (k', v') :: Map.set m k v

abbrev FunctionEntryMap := List (ConstSocketPair × FunctionInfo)
abbrev SocketUserMap := List (ConstSocketPair × Nat)
abbrev SocketIndexMap := List (ConstSocketPair × Nat)

/-- The state of a `BVMCompiler`.  `stack_overrun` is not a member of the
class: it records that `stack_users` has been written outside its bounds. -/
structure BVMCompiler where
  stack_users : List Nat
  fn : Function
  func_entry_map : FunctionEntryMap
  stack_overrun : Bool

/-- The constructor `BVMCompiler::BVMCompiler`. -/
def BVMCompiler.new (cfg : Config) : BVMCompiler :=
  { stack_users := List.replicate cfg.BVM_STACK_SIZE 0
    fn := Function.new
    func_entry_map := []
    stack_overrun := false }

/-! ## Stack allocator -/

/-- The loop of `find_stack_index`: `n` iterations are left, `i` is the loop
counter, `unused` the length of the free run that ends before `i`. -/
def find_stack_index.loop (cfg : Config) (stack_users : List Nat) (size : Int) :
    Nat → Nat → Int → Nat
  | 0, _, _ => cfg.BVM_STACK_INVALID
  | n + 1, i, unused =>
    if stack_users.getD i 0 = 0 then
      if unused + 1 = size then ((i : Int) + 1 - size).toNat
      else find_stack_index.loop cfg stack_users size n (i + 1) (unused + 1)
    else find_stack_index.loop cfg stack_users size n (i + 1) 0

/-- `BVMCompiler::find_stack_index`. -/
def find_stack_index (cfg : Config) (c : BVMCompiler) (size : Int) : Nat :=
  find_stack_index.loop cfg c.stack_users size cfg.BVM_STACK_SIZE 0 0

/-- The statement `stack_users[k] += 1`. -/
def stack_users_incr (c : BVMCompiler) (k : Nat) : BVMCompiler :=
  if k < c.stack_users.length then
    { c with stack_users := c.stack_users.modify (· + 1) k }
  else
    { c with stack_overrun := true }

/-- The loop of `assign_stack_index`: `n` iterations are left, `i` is the
loop counter.  The index `stack_offset + i` is computed in 32 bit words. -/
def assign_stack_index.loop (stack_offset : Nat) : Nat → Nat → BVMCompiler → BVMCompiler
  | 0, _, c => c
  | n + 1, i, c =>
    assign_stack_index.loop stack_offset n (i + 1) (stack_users_incr c ((stack_offset + i) % WORD))

/-- `BVMCompiler::assign_stack_index`. -/
def assign_stack_index (cfg : Config) (c : BVMCompiler) (typedesc : TypeDesc) :
    Nat × BVMCompiler :=
  let size := cfg.stack_size typedesc
  let stack_offset := find_stack_index cfg c size
  (stack_offset, assign_stack_index.loop stack_offset size.toNat 0 c)

/-! ## Instruction emitter -/

def BVMCompiler.emit (c : BVMCompiler) (v : Instruction) : BVMCompiler :=
  { c with fn := c.fn.add_instruction v }

def push_opcode (c : BVMCompiler) (op : OpCode) : BVMCompiler := c.emit (.opcode op)

def push_stack_index (cfg : Config) (c : BVMCompiler) (arg : Nat) : BVMCompiler :=
  if arg ≠ cfg.BVM_STACK_INVALID then c.emit (.data arg) else c

def push_jump_address (c : BVMCompiler) (address : Int) : BVMCompiler :=
  c.emit (int_to_instruction address)

def push_float (c : BVMCompiler) (f : float) : BVMCompiler := c.emit (float_to_instruction f)

def push_float3 (c : BVMCompiler) (f : float3) : BVMCompiler :=
  ((c.emit (float_to_instruction f.x)).emit (float_to_instruction f.y)).emit
    (float_to_instruction f.z)

def push_float4 (c : BVMCompiler) (f : float4) : BVMCompiler :=
  (((c.emit (float_to_instruction f.x)).emit (float_to_instruction f.y)).emit
    (float_to_instruction f.z)).emit (float_to_instruction f.w)

def push_int (c : BVMCompiler) (i : Int) : BVMCompiler := c.emit (int_to_instruction i)

def push_matrix44 (c : BVMCompiler) (m : matrix44) : BVMCompiler :=
  let c := c.emit (float_to_instruction (m.data 0 0))
  let c := c.emit (float_to_instruction (m.data 0 1))
  let c := c.emit (float_to_instruction (m.data 0 2))
  let c := c.emit (float_to_instruction (m.data 0 3))
  let c := c.emit (float_to_instruction (m.data 1 0))
  let c := c.emit (float_to_instruction (m.data 1 1))
  let c := c.emit (float_to_instruction (m.data 1 2))
  let c := c.emit (float_to_instruction (m.data 1 3))
  let c := c.emit (float_to_instruction (m.data 2 0))
  let c := c.emit (float_to_instruction (m.data 2 1))
  let c := c.emit (float_to_instruction (m.data 2 2))
  let c := c.emit (float_to_instruction (m.data 2 3))
  let c := c.emit (float_to_instruction (m.data 3 0))
  let c := c.emit (float_to_instruction (m.data 3 1))
  let c := c.emit (float_to_instruction (m.data 3 2))
  c.emit (float_to_instruction (m.data 3 3))

def push_pointer (c : BVMCompiler) (p : PointerRNA) : BVMCompiler :=
  let c := c.emit (pointer_to_instruction_hi p.id_data)
  let c := c.emit (pointer_to_instruction_lo p.id_data)
  let c := c.emit (pointer_to_instruction_hi p.type)
  let c := c.emit (pointer_to_instruction_lo p.type)
  let c := c.emit (pointer_to_instruction_hi p.data)
  c.emit (pointer_to_instruction_lo p.data)

/-- `BVMCompiler::codegen_value`. -/
def codegen_value (cfg : Config) (c : BVMCompiler) (value : Value) : Nat × BVMCompiler :=
  let (offset, c) := assign_stack_index cfg c value.typedesc
  match value with
  | .float f =>
    (offset, push_stack_index cfg (push_float (push_opcode c .OP_VALUE_FLOAT) f) offset)
  | .float3 f =>
    (offset, push_stack_index cfg (push_float3 (push_opcode c .OP_VALUE_FLOAT3) f) offset)
  | .float4 f =>
    (offset, push_stack_index cfg (push_float4 (push_opcode c .OP_VALUE_FLOAT4) f) offset)
  | .int i =>
    (offset, push_stack_index cfg (push_int (push_opcode c .OP_VALUE_INT) i) offset)
  | .matrix44 m =>
    (offset, push_stack_index cfg (push_matrix44 (push_opcode c .OP_VALUE_MATRIX44) m) offset)
  | .pointer p =>
    (offset, push_stack_index cfg (push_pointer (push_opcode c .OP_VALUE_POINTER) p) offset)
  | .mesh =>
    (offset, push_stack_index cfg (push_opcode c .OP_VALUE_MESH) offset)

/-- `BVMCompiler::codegen_constant`. -/
def codegen_constant (c : BVMCompiler) (value : Value) : BVMCompiler :=
  match value with
  | .float f => push_float c f
  | .float3 f => push_float3 c f
  | .float4 f => push_float4 c f
  | .int i => push_int c i
  | .matrix44 m => push_matrix44 c m
  | .pointer p => push_pointer c p
  | .mesh => c

/-- `ptr_init_opcode`. -/
def ptr_init_opcode (typedesc : TypeDesc) : OpCode :=
  match typedesc.base_type with
  | .BVM_FLOAT | .BVM_FLOAT3 | .BVM_FLOAT4 | .BVM_INT | .BVM_MATRIX44 | .BVM_POINTER => .OP_NOOP
  | .BVM_MESH => .OP_INIT_MESH_PTR

/-- `ptr_release_opcode`. -/
def ptr_release_opcode (typedesc : TypeDesc) : OpCode :=
  match typedesc.base_type with
  | .BVM_FLOAT | .BVM_FLOAT3 | .BVM_FLOAT4 | .BVM_INT | .BVM_MATRIX44 | .BVM_POINTER => .OP_NOOP
  | .BVM_MESH => .OP_RELEASE_MESH_PTR

/-! ## Node graphs -/

/-- How an input socket takes its value (`enum eNodeSocketValueType`). -/
inductive ValueType
  | VALUE_CONSTANT | VALUE_VARIABLE | VALUE_FUNCTION
  deriving DecidableEq, Repr

/-- Socket descriptor of a node type (`struct NodeSocket`). -/
structure NodeSocket where
  name : String
  typedesc : TypeDesc
  default_value : Option Value
  value_type : ValueType

/-- Node type descriptor (`struct NodeType`). -/
structure NodeType where
  name : String
  inputs : List NodeSocket
  outputs : List NodeSocket
  is_kernel_node : Bool
  is_pass_node : Bool

/-- What a node instance holds for one input (`struct NodeInstance::InputInstance`):
the link (source node and name of its output socket) and the value. -/
structure InputInstance where
  link : Option (Nat × String)
  value : Option Value

/-- Node instance (`struct NodeInstance`); `inputs` is indexed like `type.inputs`. -/
structure NodeInstance where
  type : NodeType
  inputs : List InputInstance

/-- The input sockets of a node type, each with what the instance holds for it. -/
def zip_inputs : List NodeSocket → List InputInstance → List (NodeSocket × InputInstance)
  | [], _ => []
  | s :: ss, [] => (s, ⟨none, none⟩) :: zip_inputs ss []
  | s :: ss, x :: xs => (s, x) :: zip_inputs ss xs

/-- The inputs `0 .. num_inputs() - 1` of a node: `type->find_input(i)` with the
instance data that `find_input_link_node(i)`, `find_input_link_socket(i)` and
`find_input_value(i)` read. -/
def NodeInstance.input_sockets (node : NodeInstance) : List (NodeSocket × InputInstance) :=
  zip_inputs node.type.inputs node.inputs

/-- A declared graph input (`struct NodeGraph::Input`). -/
structure GraphInput where
  name : String
  key : ConstSocketPair

/-- A declared graph output (`struct NodeGraph::Output`). -/
structure GraphOutput where
  name : String
  key : ConstSocketPair

/-- The node graph (`struct NodeGraph`). -/
structure NodeGraph where
  nodes : List NodeInstance
  inputs : List GraphInput
  outputs : List GraphOutput

/-- Dereference of a node pointer. -/
def NodeGraph.node (g : NodeGraph) (id : Nat) : Option NodeInstance := g.nodes[id]?

/-- The node pointers in the iteration order of `graph.nodes`. -/
def NodeGraph.node_ids (g : NodeGraph) : List Nat := List.range g.nodes.length

/-- The input of a node with a given socket name (`type->find_input(name)`), with
the instance data. -/
def NodeInstance.find_input (node : NodeInstance) (name : String) :
    Option (NodeSocket × InputInstance) :=
  node.input_sockets.find? (fun inp => inp.1.name = name)

/-- The output socket with a given name (`type->find_output(name)`). -/
def NodeType.find_output (type : NodeType) (name : String) : Option NodeSocket :=
  type.outputs.find? (fun out => out.name = name)

/-- `NodeInstance::link(name)`: the key of the linked output socket, the null
key when there is no link. -/
def NodeInstance.link (node : NodeInstance) (name : String) : ConstSocketPair :=
  match node.find_input name with
  | some (_, ⟨some (link_node, link_socket), _⟩) => ⟨some link_node, link_socket⟩
  | _ => ⟨none, ""⟩

/-- Ways in which the code stops: a failed `assert`, a null dereference, and a
recursion that does not end. -/
inductive Fault
  | assert_failed | null_dereference | no_termination
  deriving DecidableEq, Repr

/-! ## Dependency sorter -/

abbrev NodeList := List Nat
abbrev NodeSet := List Nat

/-- The state of a traversal: the list built so far, the visited set and the
Function Info map. -/
structure SortState where
  sorted_nodes : NodeList
  visited : NodeSet
  func_entry_map : FunctionEntryMap

/-- Modelled from the spec: the value `FunctionInfo()`, whose constructor is in
`bvm_codegen.h`: an entry that is "registered empty". -/
def FunctionInfo.empty (cfg : Config) : FunctionInfo := ⟨0, cfg.BVM_STACK_INVALID⟩

/-- The loop over the inputs in `graph_node_append`; `visit` is the recursive call. -/
def graph_node_append.inputs (cfg : Config) (visit : Nat → SortState → Option SortState)
    (node : Nat) : List (NodeSocket × InputInstance) → SortState → Option SortState
  | [], st => some st
  | (socket, inst) :: rest, st =>
    if socket.value_type = .VALUE_FUNCTION then
      graph_node_append.inputs cfg visit node rest
        { st with func_entry_map :=
            Map.set st.func_entry_map ⟨some node, socket.name⟩ (FunctionInfo.empty cfg) }
    else
      match inst.link with
      | some (link_node, _) =>
        match visit link_node st with
        | none => none
        | some st => graph_node_append.inputs cfg visit node rest st
      | none => graph_node_append.inputs cfg visit node rest st

/-- `BVMCompiler::graph_node_append`.  The first argument bounds the depth of the
recursion; `none` when the bound is reached (or a node pointer is not a node of
the graph). -/
def graph_node_append (cfg : Config) (g : NodeGraph) : Nat → Nat → SortState → Option SortState
  | 0, _, _ => none
  | fuel + 1, node, st =>
    if node ∈ st.visited then some st
    else
      match g.node node with
      | none => none
      | some inst =>
        match graph_node_append.inputs cfg (graph_node_append cfg g fuel) node inst.input_sockets
            { st with visited := node :: st.visited } with
        | none => none
        | some st => some { st with sorted_nodes := st.sorted_nodes ++ [node] }

/-- The loop of `sort_graph_nodes` over `graph.nodes`. -/
def sort_graph_nodes.loop (cfg : Config) (g : NodeGraph) : List Nat → SortState → Option SortState
  | [], st => some st
  | node :: rest, st =>
    match graph_node_append cfg g (g.nodes.length + 1) node st with
    | none => none
    | some st => sort_graph_nodes.loop cfg g rest st

/-- `BVMCompiler::sort_graph_nodes`: the sorted list and the compiler, whose
Function Info map has the function-typed inputs registered. -/
def sort_graph_nodes (cfg : Config) (g : NodeGraph) (c : BVMCompiler) :
    Option (NodeList × BVMCompiler) :=
  match sort_graph_nodes.loop cfg g g.node_ids ⟨[], [], c.func_entry_map⟩ with
  | none => none
  | some st => some (st.sorted_nodes, { c with func_entry_map := st.func_entry_map })

/-- The loop over the inputs in `expression_node_append`. -/
def expression_node_append.inputs (visit : Nat → NodeList × NodeSet → Option (NodeList × NodeSet)) :
    List (NodeSocket × InputInstance) → NodeList × NodeSet → Option (NodeList × NodeSet)
  | [], st => some st
  | (_, inst) :: rest, st =>
    match inst.link with
    | some (link_node, _) =>
      match visit link_node st with
      | none => none
      | some st => expression_node_append.inputs visit rest st
    | none => expression_node_append.inputs visit rest st

/-- `expression_node_append`, with a bound on the depth of the recursion. -/
def expression_node_append (g : NodeGraph) :
    Nat → Nat → NodeList × NodeSet → Option (NodeList × NodeSet)
  | 0, _, _ => none
  | fuel + 1, node, (sorted_nodes, visited) =>
    match g.node node with
    | none => none
    | some inst =>
      if inst.type.is_kernel_node then some (sorted_nodes, visited)
      else if node ∈ visited then some (sorted_nodes, visited)
      else
        match expression_node_append.inputs (expression_node_append g fuel) inst.input_sockets
            (sorted_nodes, node :: visited) with
        | none => none
        | some (sorted_nodes, visited) => some (sorted_nodes ++ [node], visited)

/-- `sort_expression_nodes`. -/
def sort_expression_nodes (g : NodeGraph) (key : ConstSocketPair) : Except Fault NodeList :=
  match key.node with
  | none => .error .null_dereference
  | some id =>
    match g.node id with
    | none => .error .null_dereference
    | some inst =>
      match inst.find_input key.socket with
      | some (_, ⟨some (link_node, _), _⟩) =>
        match expression_node_append g (g.nodes.length + 1) link_node ([], []) with
        | none => .error .no_termination
        | some (sorted_nodes, _) => .ok sorted_nodes
      | _ => .ok []

/-! ## Use counts -/

/-- The statement `users[key] += 1` on a `std::map<..., int>`. -/
def Map.incr {K : Type} [DecidableEq K] (users : List (K × Nat)) (key : K) : List (K × Nat) :=
  Map.set users key ((Map.find users key).getD 0 + 1)

/-- `count_output_users`: the first loop, over the outputs of one node. -/
def count_output_users.init_node (node : Nat) (users : SocketUserMap)
    (outputs : List NodeSocket) : SocketUserMap :=
  outputs.foldl (fun users output => Map.set users ⟨some node, output.name⟩ 0) users

/-- `count_output_users`: the second loop, over the inputs of one node. -/
def count_output_users.count_node (users : SocketUserMap)
    (inputs : List (NodeSocket × InputInstance)) : SocketUserMap :=
  inputs.foldl
    (fun users inp =>
      match inp.2.link with
      | some (link_node, link_socket) => Map.incr users ⟨some link_node, link_socket⟩
      | none => users)
    users

/-- `count_output_users`; the result is the map `users`. -/
def count_output_users (g : NodeGraph) : SocketUserMap :=
  let users : SocketUserMap := []
  let users := g.node_ids.foldl
    (fun users id =>
      match g.node id with
      | none => users
      | some node => count_output_users.init_node id users node.type.outputs)
    users
  let users := g.node_ids.foldl
    (fun users id =>
      match g.node id with
      | none => users
      | some node =>
        if node.type.is_pass_node then users
        else count_output_users.count_node users node.input_sockets)
    users
  let users := g.inputs.foldl (fun users input => Map.incr users input.key) users
  g.outputs.foldl (fun users output => Map.incr users output.key) users

/-! ## Subgraph code generator -/

/-- A requested output of a subgraph (`struct SubgraphOutput`). -/
structure SubgraphOutput where
  key : ConstSocketPair
  value : Option Value
  stack_index : Nat

abbrev SubgraphOutputList := List SubgraphOutput

/-- `codegen_subgraph`, "prepare input stack entries": the loop over the inputs
of the node. -/
def codegen_subgraph.prepare_inputs (cfg : Config) (node : Nat) (output_index : SocketIndexMap) :
    List (NodeSocket × InputInstance) → BVMCompiler → SocketIndexMap →
    Except Fault (BVMCompiler × SocketIndexMap)
  | [], c, input_index => .ok (c, input_index)
  | (input, inst) :: rest, c, input_index =>
    let key : ConstSocketPair := ⟨some node, input.name⟩
    if (Map.find input_index key).isSome then .error .assert_failed
    else if input.value_type = .VALUE_CONSTANT ∨ input.value_type = .VALUE_FUNCTION then
      codegen_subgraph.prepare_inputs cfg node output_index rest c input_index
    else
      match inst.link with
      | some (link_node, link_socket) =>
        match Map.find output_index ⟨some link_node, link_socket⟩ with
        | none => .error .assert_failed
        | some index =>
          codegen_subgraph.prepare_inputs cfg node output_index rest c
            (Map.set input_index key index)
      | none =>
        match inst.value with
        | some value =>
          let (index, c) := codegen_value cfg c value
          codegen_subgraph.prepare_inputs cfg node output_index rest c
            (Map.set input_index key index)
        | none =>
          match input.default_value with
          | none => .error .null_dereference
          | some value =>
            let (index, c) := codegen_value cfg c value
            codegen_subgraph.prepare_inputs cfg node output_index rest c
              (Map.set input_index key index)

/-- `codegen_subgraph`, "initialize output data stack entries": the loop over
the outputs of the node. -/
def codegen_subgraph.init_outputs (cfg : Config) (node : Nat) (socket_users : SocketUserMap) :
    List NodeSocket → BVMCompiler → SocketIndexMap → Except Fault (BVMCompiler × SocketIndexMap)
  | [], c, output_index => .ok (c, output_index)
  | output :: rest, c, output_index =>
    let key : ConstSocketPair := ⟨some node, output.name⟩
    let (index, c) := assign_stack_index cfg c output.typedesc
    let output_index := Map.set output_index key index
    let init_op := ptr_init_opcode output.typedesc
    if init_op ≠ .OP_NOOP then
      match Map.find socket_users key with
      | none => .error .assert_failed
      | some users =>
        if users > 0 then
          codegen_subgraph.init_outputs cfg node socket_users rest
            (push_int (push_stack_index cfg (push_opcode c init_op) index) users) output_index
        else codegen_subgraph.init_outputs cfg node socket_users rest c output_index
    else codegen_subgraph.init_outputs cfg node socket_users rest c output_index

/-- `codegen_subgraph`, "write input stack offsets and constants". -/
def codegen_subgraph.write_inputs (cfg : Config) (node : Nat) (input_index : SocketIndexMap) :
    List (NodeSocket × InputInstance) → BVMCompiler → Except Fault BVMCompiler
  | [], c => .ok c
  | (input, inst) :: rest, c =>
    let key : ConstSocketPair := ⟨some node, input.name⟩
    if input.value_type = .VALUE_CONSTANT then
      match inst.value with
      | none => .error .null_dereference
      | some value =>
        codegen_subgraph.write_inputs cfg node input_index rest (codegen_constant c value)
    else if input.value_type = .VALUE_FUNCTION then
      match Map.find c.func_entry_map key with
      | none => .error .assert_failed
      | some func =>
        codegen_subgraph.write_inputs cfg node input_index rest
          (push_stack_index cfg (push_jump_address c func.entry_point) func.return_index)
    else
      match Map.find input_index key with
      | none => .error .assert_failed
      | some index =>
        codegen_subgraph.write_inputs cfg node input_index rest (push_stack_index cfg c index)

/-- `codegen_subgraph`, "write output stack offsets". -/
def codegen_subgraph.write_outputs (cfg : Config) (node : Nat) (output_index : SocketIndexMap) :
    List NodeSocket → BVMCompiler → Except Fault BVMCompiler
  | [], c => .ok c
  | output :: rest, c =>
    match Map.find output_index ⟨some node, output.name⟩ with
    | none => .error .assert_failed
    | some index =>
      codegen_subgraph.write_outputs cfg node output_index rest (push_stack_index cfg c index)

/-- `codegen_subgraph`, "release input data stack entries". -/
def codegen_subgraph.release_inputs (cfg : Config) (output_index : SocketIndexMap) :
    List (NodeSocket × InputInstance) → BVMCompiler → Except Fault BVMCompiler
  | [], c => .ok c
  | (input, inst) :: rest, c =>
    if input.value_type = .VALUE_CONSTANT ∨ input.value_type = .VALUE_FUNCTION then
      codegen_subgraph.release_inputs cfg output_index rest c
    else
      match inst.link with
      | some (link_node, link_socket) =>
        match Map.find output_index ⟨some link_node, link_socket⟩ with
        | none => .error .assert_failed
        | some index =>
          let release_op := ptr_release_opcode input.typedesc
          if release_op ≠ .OP_NOOP then
            codegen_subgraph.release_inputs cfg output_index rest
              (push_stack_index cfg (push_opcode c release_op) index)
          else codegen_subgraph.release_inputs cfg output_index rest c
      | none => codegen_subgraph.release_inputs cfg output_index rest c

/-- The body of the loop over the nodes in `codegen_subgraph`. -/
def codegen_subgraph.node (cfg : Config) (g : NodeGraph) (socket_users : SocketUserMap)
    (id : Nat) (c : BVMCompiler) (output_index : SocketIndexMap) :
    Except Fault (BVMCompiler × SocketIndexMap) :=
  match g.node id with
  | none => .error .null_dereference
  | some node =>
    let op := cfg.get_opcode_from_node_type node.type.name
    if op = .OP_NOOP then .ok (c, output_index)
    else
      match codegen_subgraph.prepare_inputs cfg id output_index node.input_sockets c [] with
      | .error e => .error e
      | .ok (c, input_index) =>
        match codegen_subgraph.init_outputs cfg id socket_users node.type.outputs c output_index with
        | .error e => .error e
        | .ok (c, output_index) =>
          match codegen_subgraph.write_inputs cfg id input_index node.input_sockets
              (push_opcode c op) with
          | .error e => .error e
          | .ok c =>
            match codegen_subgraph.write_outputs cfg id output_index node.type.outputs c with
            | .error e => .error e
            | .ok c =>
              match codegen_subgraph.release_inputs cfg output_index node.input_sockets c with
              | .error e => .error e
              | .ok c => .ok (c, output_index)

/-- The loop over the nodes in `codegen_subgraph`. -/
def codegen_subgraph.nodes (cfg : Config) (g : NodeGraph) (socket_users : SocketUserMap) :
    NodeList → BVMCompiler → SocketIndexMap → Except Fault (BVMCompiler × SocketIndexMap)
  | [], c, output_index => .ok (c, output_index)
  | id :: rest, c, output_index =>
    match codegen_subgraph.node cfg g socket_users id c output_index with
    | .error e => .error e
    | .ok (c, output_index) => codegen_subgraph.nodes cfg g socket_users rest c output_index

/-- The loop over the requested outputs in `codegen_subgraph`. -/
def codegen_subgraph.resolve_outputs (cfg : Config) (output_index : SocketIndexMap) :
    SubgraphOutputList → BVMCompiler → Except Fault (SubgraphOutputList × BVMCompiler)
  | [], c => .ok ([], c)
  | output :: rest, c =>
    if output.key.node.isSome then
      match Map.find output_index output.key with
      | none => .error .assert_failed
      | some index =>
        match codegen_subgraph.resolve_outputs cfg output_index rest c with
        | .error e => .error e
        | .ok (outputs, c) => .ok ({ output with stack_index := index } :: outputs, c)
    else
      match output.value with
      | none => .error .null_dereference
      | some value =>
        let (index, c) := codegen_value cfg c value
        match codegen_subgraph.resolve_outputs cfg output_index rest c with
        | .error e => .error e
        | .ok (outputs, c) => .ok ({ output with stack_index := index } :: outputs, c)

/-- `BVMCompiler::codegen_subgraph`: the entry point, the requested outputs with
their stack slots, and the compiler afterwards. -/
def codegen_subgraph (cfg : Config) (g : NodeGraph) (nodes : NodeList)
    (socket_users : SocketUserMap) (outputs : SubgraphOutputList) (c : BVMCompiler) :
    Except Fault (Nat × SubgraphOutputList × BVMCompiler) :=
  let entry_point := c.fn.get_instruction_count
  match codegen_subgraph.nodes cfg g socket_users nodes c [] with
  | .error e => .error e
  | .ok (c, output_index) =>
    match codegen_subgraph.resolve_outputs cfg output_index outputs (push_opcode c .OP_END) with
    | .error e => .error e
    | .ok (outputs, c) => .ok (entry_point, outputs, c)

/-! ## Function assembler -/

/-- The order of the keys of a `std::map<ConstSocketPair, ...>`: by the address
of the node (the null pointer first), then by the socket name.  `addr` gives
the address at which a node instance lies in memory. -/
def ConstSocketPair.before (addr : Nat → Nat) (a b : ConstSocketPair) : Bool :=
  let pa := match a.node with | none => 0 | some n => addr n
  let pb := match b.node with | none => 0 | some n => addr n
  if pa < pb then true
  else if pb < pa then false
  else decide (a.socket < b.socket)

/-- Insertion of a key into a list of keys in map order. -/
def insert_key (addr : Nat → Nat) (k : ConstSocketPair) : List ConstSocketPair → List ConstSocketPair
  | [] => [k]
  | k' :: ks => if ConstSocketPair.before addr k' k then k' :: insert_key addr k ks else k :: k' :: ks

/-- The keys of the Function Info map in the order in which an iterator visits them. -/
def FunctionEntryMap.iteration (addr : Nat → Nat) (m : FunctionEntryMap) : List ConstSocketPair :=
  m.foldr (fun entry keys => insert_key addr entry.1 keys) []

/-- `codegen_function`, "first generate separate kernel functions": the loop
over the Function Info map. -/
def codegen_function.kernels (cfg : Config) (g : NodeGraph) (output_users : SocketUserMap) :
    List ConstSocketPair → BVMCompiler → Except Fault BVMCompiler
  | [], c => .ok c
  | key :: rest, c =>
    match sort_expression_nodes g key with
    | .error e => .error e
    | .ok expr_nodes =>
      match key.node.bind g.node with
      | none => .error .null_dereference
      | some inst =>
        let link_key := inst.link key.socket
        match inst.find_input key.socket with
        | none => .error .null_dereference
        | some (socket, _) =>
          match codegen_subgraph cfg g expr_nodes output_users
              [⟨link_key, socket.default_value, cfg.BVM_STACK_INVALID⟩] c with
          | .error e => .error e
          | .ok (entry_point, outputs, c) =>
            match outputs with
            | [] => .error .assert_failed
            | output :: _ =>
              codegen_function.kernels cfg g output_users rest
                { c with func_entry_map :=
                    Map.set c.func_entry_map key ⟨entry_point, output.stack_index⟩ }

/-- `codegen_function`: the list of requested outputs of the main function. -/
def codegen_function.main_outputs (cfg : Config) (g : NodeGraph) :
    List GraphOutput → Except Fault SubgraphOutputList
  | [] => .ok []
  | output :: rest =>
    match output.key.node.bind g.node with
    | none => .error .null_dereference
    | some inst =>
      match inst.type.find_output output.key.socket with
      | none => .error .null_dereference
      | some socket =>
        match codegen_function.main_outputs cfg g rest with
        | .error e => .error e
        | .ok outputs => .ok (⟨output.key, socket.default_value, cfg.BVM_STACK_INVALID⟩ :: outputs)

/-- `codegen_function`, "store final stack indices for outputs". -/
def codegen_function.return_values (g : NodeGraph) :
    List GraphOutput → SubgraphOutputList → Function → Except Fault Function
  | output :: rest, o :: outputs, fn =>
    match output.key.node.bind g.node with
    | none => .error .null_dereference
    | some inst =>
      match inst.type.find_output output.key.socket with
      | none => .error .null_dereference
      | some socket =>
        codegen_function.return_values g rest outputs
          (fn.add_return_value socket.typedesc output.name o.stack_index)
  | _, _, fn => .ok fn

/-- `BVMCompiler::codegen_function`: the compiled function and the compiler
afterwards.  `addr` is the memory layout of the node instances. -/
def codegen_function (cfg : Config) (addr : Nat → Nat) (g : NodeGraph) (c : BVMCompiler) :
    Except Fault (Function × BVMCompiler) :=
  let output_users := count_output_users g
  match sort_graph_nodes cfg g c with
  | none => .error .no_termination
  | some (main_nodes, c) =>
    let c := { c with fn := Function.new }
    match codegen_function.kernels cfg g output_users (c.func_entry_map.iteration addr) c with
    | .error e => .error e
    | .ok c =>
      match codegen_function.main_outputs cfg g g.outputs with
      | .error e => .error e
      | .ok outputs =>
        match codegen_subgraph cfg g main_nodes output_users outputs c with
        | .error e => .error e
        | .ok (entry_point, outputs, c) =>
          match codegen_function.return_values g g.outputs outputs
              (c.fn.set_entry_point entry_point) with
          | .error e => .error e
          | .ok fn => .ok (fn, { c with fn := Function.new })

/-! ## Notions used in the statements -/

/-- The slots `i .. i + size - 1` of the table exist and have usage counter 0. -/
def free_run (stack_users : List Nat) (i size : Nat) : Prop :=
  ∀ k, i ≤ k → k < i + size → stack_users[k]? = some 0


/-- The table of a compiler on which the calls so far have claimed the first `t`
of `N` slots, once each. -/
def filled (N t : Nat) : List Nat := List.replicate t 1 ++ List.replicate (N - t) 0

/-- A sequence of `assign_stack_index` calls: the offsets returned, in order, and
the compiler afterwards. -/
def assign_all (cfg : Config) : List TypeDesc → BVMCompiler → List Nat × BVMCompiler
  | [], c => ([], c)
  | td :: tds, c =>
    let r := assign_stack_index cfg c td
    let rs := assign_all cfg tds r.2
    (r.1 :: rs.1, rs.2)

/-- A footprint table: one slot per 32 bit component of the value. -/
def example_stack_size (td : TypeDesc) : Int :=
  match td.base_type with
  | .BVM_FLOAT => 1
  | .BVM_FLOAT3 => 3
  | .BVM_FLOAT4 => 4
  | .BVM_INT => 1
  | .BVM_MATRIX44 => 16
  | .BVM_POINTER => 6
  | .BVM_MESH => 2

/-- A registry of node type names. -/
def example_opcodes (name : String) : OpCode :=
  if name = "VALUE_FLOAT" then .OP_VALUE_FLOAT
  else if name = "PASS_FLOAT" then .OP_OTHER 0
  else if name = "MESH_LOAD" then .OP_OTHER 1
  else if name = "MESH_COMBINE" then .OP_OTHER 2
  else if name = "MESH_ARRAY" then .OP_OTHER 3
  else .OP_NOOP

/-- A small configuration: eight slots, the all-ones word as sentinel. -/
def small_config : Config :=
  { BVM_STACK_SIZE := 8
    BVM_STACK_INVALID := 0xFFFFFFFF
    stack_size := example_stack_size
    get_opcode_from_node_type := example_opcodes }

/-- A compiler with a given slot-usage table. -/
def compiler_with (stack_users : List Nat) : BVMCompiler :=
  { stack_users := stack_users, fn := Function.new, func_entry_map := [], stack_overrun := false }

/-- A node type of a float constant: one constant input, one output. -/
def float_constant_type : NodeType :=
  { name := "VALUE_FLOAT"
    inputs := [⟨"value", ⟨.BVM_FLOAT⟩, some (.float ⟨0⟩), .VALUE_CONSTANT⟩]
    outputs := [⟨"value", ⟨.BVM_FLOAT⟩, some (.float ⟨0⟩), .VALUE_VARIABLE⟩]
    is_kernel_node := false
    is_pass_node := false }

/-- A node type that hands a float on: one variable input, one output. -/
def float_identity_type : NodeType :=
  { name := "PASS_FLOAT"
    inputs := [⟨"value", ⟨.BVM_FLOAT⟩, some (.float ⟨0⟩), .VALUE_VARIABLE⟩]
    outputs := [⟨"value", ⟨.BVM_FLOAT⟩, some (.float ⟨0⟩), .VALUE_VARIABLE⟩]
    is_kernel_node := false
    is_pass_node := false }

/-- The graph of the first scenario: the constant 3.5 as the graph output "result". -/
def scenario_constant : NodeGraph :=
  { nodes := [⟨float_constant_type, [⟨none, some (.float ⟨0x40600000⟩)⟩]⟩]
    inputs := []
    outputs := [⟨"result", ⟨some 0, "value"⟩⟩] }

/-- The graph of the second scenario: the constant 1.0 (node 1) feeds an identity
node (node 0) whose output is the graph output. -/
def scenario_chain : NodeGraph :=
  { nodes := [⟨float_identity_type, [⟨some (1, "value"), none⟩]⟩,
              ⟨float_constant_type, [⟨none, some (.float ⟨0x3f800000⟩)⟩]⟩]
    inputs := []
    outputs := [⟨"result", ⟨some 0, "value"⟩⟩] }

/-- Node `n` has an input that is linked to an output of node `m`. -/
def NodeGraph.linked (g : NodeGraph) (n m : Nat) : Prop :=
  ∃ inst, g.node n = some inst ∧
    ∃ inp ∈ inst.input_sockets, ∃ s, inp.2.link = some (m, s)

/-- Node `n` has an input that is not function-typed and is linked to an output
of node `m`: the links that `graph_node_append` follows. -/
def NodeGraph.follows (g : NodeGraph) (n m : Nat) : Prop :=
  ∃ inst, g.node n = some inst ∧
    ∃ inp ∈ inst.input_sockets, inp.1.value_type ≠ .VALUE_FUNCTION ∧
      ∃ s, inp.2.link = some (m, s)

/-- The graph is acyclic: no node is linked, over one or more links, to itself. -/
def NodeGraph.acyclic (g : NodeGraph) : Prop :=
  ∀ n, ¬ Relation.TransGen g.linked n n

/-- Every link of the graph comes from a node of the graph. -/
def NodeGraph.closed (g : NodeGraph) : Prop :=
  ∀ n m, g.linked n m → m < g.nodes.length

/-- Every followed link of a listed node comes from a node at a strictly
earlier position of the list. -/
def sources_first (g : NodeGraph) (l : List Nat) : Prop :=
  ∀ (j : Nat) (N M : Nat), l[j]? = some N → g.follows N M → ∃ i, i < j ∧ l[i]? = some M

/-- The nodes that are visited and not yet appended (on the recursion stack). -/
def SortState.open_node (st : SortState) (x : Nat) : Prop :=
  x ∈ st.visited ∧ x ∉ st.sorted_nodes

/-- How a traversal step changes the state: the visited set grows, the list is
extended at its end, and the nodes on the recursion stack are the same. -/
def SortState.step (st st' : SortState) : Prop :=
  (∀ x, x ∈ st.visited → x ∈ st'.visited) ∧
  (∃ l, st'.sorted_nodes = st.sorted_nodes ++ l) ∧
  (∀ x, st'.open_node x ↔ st.open_node x)

/-- The list holds visited nodes only, and none twice. -/
def SortState.good (st : SortState) : Prop :=
  (∀ x, x ∈ st.sorted_nodes → x ∈ st.visited) ∧ st.sorted_nodes.Nodup

/-- The number of nodes of the graph that are not in the visited set. -/
def unvisited (g : NodeGraph) (visited : NodeSet) : Nat :=
  ((List.range g.nodes.length).filter (fun x => x ∉ visited)).length

/-- No node of the graph has a function-typed input socket. -/
def NodeGraph.no_function_inputs (g : NodeGraph) : Prop :=
  ∀ n inst, g.node n = some inst → ∀ socket ∈ inst.type.inputs,
    socket.value_type ≠ .VALUE_FUNCTION

/-! ### Reading the stream as instructions -/

/-- An instruction of the stream: an opcode with its operand words. -/
abbrev Instr := OpCode × List Nat

/-- The words of a list of instructions. -/
def encode : List Instr → List Instruction
  | [] => []
  | (op, words) :: rest => .opcode op :: (words.map .data ++ encode rest)

/-- The scan that splits a stream at its opcode words: the data words before the
first opcode, and the instructions from there on. -/
def decode_from : List Instruction → List Nat × List Instr
  | [] => ([], [])
  | .data w :: rest => (w :: (decode_from rest).1, (decode_from rest).2)
  | .opcode op :: rest => ([], (op, (decode_from rest).1) :: (decode_from rest).2)

/-- The instructions of a stream: every opcode word with the data words that
follow it. -/
def decode (stream : List Instruction) : List Instr := (decode_from stream).2

/-- An `OP_INIT_MESH_PTR` instruction whose first operand is `slot`. -/
def is_init (slot : Nat) (ins : Instr) : Bool :=
  decide (ins.1 = .OP_INIT_MESH_PTR ∧ ins.2.head? = some slot)

/-- An `OP_RELEASE_MESH_PTR` instruction whose operand is `slot`. -/
def is_release (slot : Nat) (ins : Instr) : Bool :=
  decide (ins.1 = .OP_RELEASE_MESH_PTR ∧ ins.2 = [slot])

/-- The `OP_INIT_MESH_PTR` instructions of a stream whose first operand is `slot`. -/
def init_instructions (slot : Nat) (stream : List Instruction) : List Instr :=
  (decode stream).filter (is_init slot)

/-- The `OP_RELEASE_MESH_PTR` instructions of a stream whose operand is `slot`. -/
def release_instructions (slot : Nat) (stream : List Instruction) : List Instr :=
  (decode stream).filter (is_release slot)

/-- An input that `codegen_subgraph` releases after the main instruction of its
node, and whose link comes from the socket `key`: a linked input that is neither
constant nor function-typed and has a type with a release opcode (mesh). -/
def consumes (key : ConstSocketPair) (inp : NodeSocket × InputInstance) : Bool :=
  decide (inp.1.value_type ≠ .VALUE_CONSTANT ∧ inp.1.value_type ≠ .VALUE_FUNCTION ∧
    ptr_release_opcode inp.1.typedesc ≠ .OP_NOOP) &&
  (match inp.2.link with
   | some (link_node, link_socket) => decide (key = ⟨some link_node, link_socket⟩)
   | none => false)

/-- The number of inputs of a node whose release refers to the socket `key`; none
when the node is skipped (its type maps to `OP_NOOP`). -/
def released_by (cfg : Config) (key : ConstSocketPair) (node : NodeInstance) : Nat :=
  if cfg.get_opcode_from_node_type node.type.name = .OP_NOOP then 0
  else (node.input_sockets.filter (consumes key)).length

/-- The number of links of the graph whose release refers to the socket `key`. -/
def release_links (cfg : Config) (g : NodeGraph) (key : ConstSocketPair) : Nat :=
  (g.nodes.map (released_by cfg key)).sum

/-- The compiler with some words added at the end of its instruction stream. -/
def BVMCompiler.append (c : BVMCompiler) (words : List Instruction) : BVMCompiler :=
  { c with fn := { c.fn with instructions := c.fn.instructions ++ words } }

/-- The payload words of a value, in the order in which they are pushed. -/
def Value.words : Value → List Instruction
  | .float f => [float_to_instruction f]
  | .float3 f => [float_to_instruction f.x, float_to_instruction f.y, float_to_instruction f.z]
  | .float4 f =>
    [float_to_instruction f.x, float_to_instruction f.y, float_to_instruction f.z,
     float_to_instruction f.w]
  | .int i => [int_to_instruction i]
  | .matrix44 m =>
    [float_to_instruction (m.data 0 0), float_to_instruction (m.data 0 1),
     float_to_instruction (m.data 0 2), float_to_instruction (m.data 0 3),
     float_to_instruction (m.data 1 0), float_to_instruction (m.data 1 1),
     float_to_instruction (m.data 1 2), float_to_instruction (m.data 1 3),
     float_to_instruction (m.data 2 0), float_to_instruction (m.data 2 1),
     float_to_instruction (m.data 2 2), float_to_instruction (m.data 2 3),
     float_to_instruction (m.data 3 0), float_to_instruction (m.data 3 1),
     float_to_instruction (m.data 3 2), float_to_instruction (m.data 3 3)]
  | .pointer p =>
    [pointer_to_instruction_hi p.id_data, pointer_to_instruction_lo p.id_data,
     pointer_to_instruction_hi p.type, pointer_to_instruction_lo p.type,
     pointer_to_instruction_hi p.data, pointer_to_instruction_lo p.data]
  | .mesh => []

/-- The opcode that loads a value of a given type into a slot. -/
def Value.opcode : Value → OpCode
  | .float _ => .OP_VALUE_FLOAT
  | .float3 _ => .OP_VALUE_FLOAT3
  | .float4 _ => .OP_VALUE_FLOAT4
  | .int _ => .OP_VALUE_INT
  | .matrix44 _ => .OP_VALUE_MATRIX44
  | .pointer _ => .OP_VALUE_POINTER
  | .mesh => .OP_VALUE_MESH

/-- A word is a data word. -/
def Instruction.is_data : Instruction → Prop
  | .data _ => True
  | .opcode _ => False

/-- The table has its first `t` slots claimed once, and no write went outside it. -/
def alloc_ok (cfg : Config) (c : BVMCompiler) (t : Nat) : Prop :=
  c.stack_users = filled cfg.BVM_STACK_SIZE t ∧ t ≤ cfg.BVM_STACK_SIZE ∧ c.stack_overrun = false

/-- The initialize instruction that `codegen_subgraph` emits for an output socket
`key` of type `td` in slot `slot`: none unless the type has an init opcode (mesh)
and the use-count of the socket is positive. -/
def expected_init (users : SocketUserMap) (key : ConstSocketPair) (td : TypeDesc) (slot : Nat) :
    List Instr :=
  if ptr_init_opcode td ≠ .OP_NOOP then
    match Map.find users key with
    | some u => if u > 0 then [(ptr_init_opcode td, [slot, u % WORD])] else []
    | none => []
  else []

/-- The slots of the output-index map lie below the fill level `t` of the table,
and no two sockets share a slot. -/
def index_ok (oi : SocketIndexMap) (t : Nat) : Prop :=
  (∀ k v, Map.find oi k = some v → v < t) ∧
  (∀ k k' v, Map.find oi k = some v → Map.find oi k' = some v → k = k')

/-- The number of inputs of the node `id` whose release refers to the socket `key`. -/
def released_at (cfg : Config) (g : NodeGraph) (key : ConstSocketPair) (id : Nat) : Nat :=
  match g.node id with
  | some inst => released_by cfg key inst
  | none => 0

/-- The output-index map of the main subgraph of `codegen_function`, after the
loop over its nodes. -/
def codegen_function.output_index (cfg : Config) (addr : Nat → Nat) (g : NodeGraph)
    (c : BVMCompiler) : Option SocketIndexMap :=
  match sort_graph_nodes cfg g c with
  | none => none
  | some (main_nodes, c) =>
    match codegen_function.kernels cfg g (count_output_users g)
        (c.func_entry_map.iteration addr) { c with fn := Function.new } with
    | .error _ => none
    | .ok c =>
      match codegen_subgraph.nodes cfg g (count_output_users g) main_nodes c [] with
      | .error _ => none
      | .ok (_, output_index) => some output_index

/-- The slot that the main subgraph of `codegen_function` assigns to a socket. -/
def codegen_function.output_slot (cfg : Config) (addr : Nat → Nat) (g : NodeGraph)
    (c : BVMCompiler) (key : ConstSocketPair) : Option Nat :=
  match codegen_function.output_index cfg addr g c with
  | none => none
  | some output_index => Map.find output_index key

/-- A node type that produces a mesh: no input, one mesh output. -/
def mesh_source_type : NodeType :=
  { name := "MESH_LOAD"
    inputs := []
    outputs := [⟨"mesh", ⟨.BVM_MESH⟩, some .mesh, .VALUE_VARIABLE⟩]
    is_kernel_node := false
    is_pass_node := false }

/-- A node type that consumes a mesh and produces one. -/
def mesh_modifier_type : NodeType :=
  { name := "MESH_ARRAY"
    inputs := [⟨"mesh_in", ⟨.BVM_MESH⟩, some .mesh, .VALUE_VARIABLE⟩]
    outputs := [⟨"mesh_out", ⟨.BVM_MESH⟩, some .mesh, .VALUE_VARIABLE⟩]
    is_kernel_node := false
    is_pass_node := false }

/-- A node type that the registry does not know (it maps to `OP_NOOP`), with a
mesh input. -/
def mesh_unknown_type : NodeType :=
  { name := "MESH_UNKNOWN"
    inputs := [⟨"mesh_in", ⟨.BVM_MESH⟩, some .mesh, .VALUE_VARIABLE⟩]
    outputs := [⟨"mesh_out", ⟨.BVM_MESH⟩, some .mesh, .VALUE_VARIABLE⟩]
    is_kernel_node := false
    is_pass_node := false }

/-- A graph with one node, a mesh source, whose output is the graph output. -/
def mesh_output_graph : NodeGraph :=
  { nodes := [⟨mesh_source_type, []⟩]
    inputs := []
    outputs := [⟨"result", ⟨some 0, "mesh"⟩⟩] }

/-- A graph in which the output of a mesh source (node 2) is consumed by two
modifier nodes (nodes 0 and 1), whose outputs are the graph outputs. -/
def mesh_fork_graph : NodeGraph :=
  { nodes := [⟨mesh_modifier_type, [⟨some (2, "mesh"), none⟩]⟩,
              ⟨mesh_modifier_type, [⟨some (2, "mesh"), none⟩]⟩,
              ⟨mesh_source_type, []⟩]
    inputs := []
    outputs := [⟨"first", ⟨some 0, "mesh_out"⟩⟩, ⟨"second", ⟨some 1, "mesh_out"⟩⟩] }

/-- A graph in which the output of a mesh source (node 2) is consumed by two
nodes of a type that the registry does not know. -/
def mesh_unknown_graph : NodeGraph :=
  { nodes := [⟨mesh_unknown_type, [⟨some (2, "mesh"), none⟩]⟩,
              ⟨mesh_unknown_type, [⟨some (2, "mesh"), none⟩]⟩,
              ⟨mesh_source_type, []⟩]
    inputs := []
    outputs := [] }

/-- The function that `mesh_fork_graph` compiles to. -/
def mesh_fork_function : Function :=
  { instructions :=
      [.opcode .OP_INIT_MESH_PTR, .data 0, .data 2, .opcode (.OP_OTHER 1), .data 0,
       .opcode .OP_INIT_MESH_PTR, .data 2, .data 1, .opcode (.OP_OTHER 3), .data 0, .data 2,
       .opcode .OP_RELEASE_MESH_PTR, .data 0,
       .opcode .OP_INIT_MESH_PTR, .data 4, .data 1, .opcode (.OP_OTHER 3), .data 0, .data 4,
       .opcode .OP_RELEASE_MESH_PTR, .data 0,
       .opcode .OP_END]
    entry_point := 0
    return_values := [⟨⟨.BVM_MESH⟩, "first", 2⟩, ⟨⟨.BVM_MESH⟩, "second", 4⟩] }

/-- The input is linked to the socket `key`. -/
def links_to (key : ConstSocketPair) (inp : NodeSocket × InputInstance) : Bool :=
  match inp.2.link with
  | some (link_node, link_socket) => decide (key = ⟨some link_node, link_socket⟩)
  | none => false

/-- The number of inputs of a node that are linked to the socket `key`. -/
def links_in (key : ConstSocketPair) (node : NodeInstance) : Nat :=
  (node.input_sockets.filter (links_to key)).length

/-- The number of links of the graph that come from the socket `key`. -/
def all_links (g : NodeGraph) (key : ConstSocketPair) : Nat :=
  (g.nodes.map (links_in key)).sum

/-- The number of links that come from the socket `key` and go to a node that is
no pass-through node. -/
def counted_links (g : NodeGraph) (key : ConstSocketPair) : Nat :=
  (g.nodes.map (fun node => if node.type.is_pass_node then 0 else links_in key node)).sum

/-! ### Sequences of allocations -/

/-- The footprint of a type in slots. -/
def footprint (cfg : Config) (td : TypeDesc) : Nat := (cfg.stack_size td).toNat

/-- The cumulative footprint of a sequence of types. -/
def total_footprint (cfg : Config) (tds : List TypeDesc) : Nat := (tds.map (footprint cfg)).sum

/-! ### Layout of a value instruction -/

/-- The opcode that the specification gives for a constant of a base type. -/
def spec_value_opcode : BVMType → OpCode
  | .BVM_FLOAT => .OP_VALUE_FLOAT
  | .BVM_FLOAT3 => .OP_VALUE_FLOAT3
  | .BVM_FLOAT4 => .OP_VALUE_FLOAT4
  | .BVM_INT => .OP_VALUE_INT
  | .BVM_MATRIX44 => .OP_VALUE_MATRIX44
  | .BVM_POINTER => .OP_VALUE_POINTER
  | .BVM_MESH => .OP_VALUE_MESH

/-- The number of payload words that the specification gives for a constant of a
base type. -/
def spec_payload_count : BVMType → Nat
  | .BVM_FLOAT => 1
  | .BVM_FLOAT3 => 3
  | .BVM_FLOAT4 => 4
  | .BVM_INT => 1
  | .BVM_MATRIX44 => 16
  | .BVM_POINTER => 6
  | .BVM_MESH => 0

/-- The components of a matrix, row by row. -/
def matrix44.rows (m : matrix44) : List float :=
  (List.finRange 4).flatMap (fun i => (List.finRange 4).map (fun j => m.data i j))

/-- The compiler after eight float allocations on a fresh compiler of
`small_config`: every slot is taken. -/
def exhausted_compiler : BVMCompiler :=
  (assign_all small_config (List.replicate 8 ⟨.BVM_FLOAT⟩) (BVMCompiler.new small_config)).2

/-- A graph whose links form a cycle: two nodes, each reading the output of the
other. -/
def cycle_graph : NodeGraph :=
  { nodes := [⟨float_identity_type, [⟨some (1, "value"), none⟩]⟩,
              ⟨float_identity_type, [⟨some (0, "value"), none⟩]⟩]
    inputs := []
    outputs := [⟨"result", ⟨some 0, "value"⟩⟩] }

/-- A pass-through node type for floats (`is_pass_node`). -/
def float_pass_type : NodeType :=
  { name := "PASS_FLOAT"
    inputs := [⟨"value", ⟨.BVM_FLOAT⟩, some (.float ⟨0⟩), .VALUE_VARIABLE⟩]
    outputs := [⟨"value", ⟨.BVM_FLOAT⟩, some (.float ⟨0⟩), .VALUE_VARIABLE⟩]
    is_kernel_node := false
    is_pass_node := true }

/-- A graph in which the output of a float constant (node 1) is linked to the
input of a pass-through node (node 0), whose output is the graph output. -/
def pass_graph : NodeGraph :=
  { nodes := [⟨float_pass_type, [⟨some (1, "value"), none⟩]⟩,
              ⟨float_constant_type, [⟨none, some (.float ⟨0x3f800000⟩)⟩]⟩]
    inputs := []
    outputs := [⟨"result", ⟨some 0, "value"⟩⟩] }

/-- The number of declared graph inputs whose key is the socket `key`. -/
def declared_inputs (g : NodeGraph) (key : ConstSocketPair) : Nat :=
  (g.inputs.filter (fun i => decide (i.key = key))).length

/-- The number of declared graph outputs whose key is the socket `key`. -/
def declared_outputs (g : NodeGraph) (key : ConstSocketPair) : Nat :=
  (g.outputs.filter (fun o => decide (o.key = key))).length

/-! ### Growth of the stream -/

/-- The compiler `c'` comes from `c` by appending words to the instruction
stream: the Function Info map, the entry point and the return bindings are the
same. -/
def BVMCompiler.grows (c c' : BVMCompiler) : Prop :=
  c'.func_entry_map = c.func_entry_map ∧ c'.fn.entry_point = c.fn.entry_point ∧
  c'.fn.return_values = c.fn.return_values ∧
  ∃ ws, c'.fn.instructions = c.fn.instructions ++ ws

/-- The compiler after the loop of `codegen_function` that generates the kernel
function bodies. -/
def codegen_function.after_kernels (cfg : Config) (addr : Nat → Nat) (g : NodeGraph)
    (c : BVMCompiler) : Option BVMCompiler :=
  match sort_graph_nodes cfg g c with
  | none => none
  | some (_, c) =>
    match codegen_function.kernels cfg g (count_output_users g)
        (c.func_entry_map.iteration addr) { c with fn := Function.new } with
    | .error _ => none
    | .ok c => some c

/-- A kernel node type: one function-typed float input, one float output. -/
def float_kernel_type : NodeType :=
  { name := "MESH_COMBINE"
    inputs := [⟨"factor", ⟨.BVM_FLOAT⟩, some (.float ⟨0⟩), .VALUE_FUNCTION⟩]
    outputs := [⟨"value", ⟨.BVM_FLOAT⟩, some (.float ⟨0⟩), .VALUE_VARIABLE⟩]
    is_kernel_node := true
    is_pass_node := false }

/-- A graph with a function-typed input: the kernel node 0 takes as its function
the output of the identity node 1, which reads the float constant 1.0 (node 2);
the output of the kernel node is the graph output. -/
def kernel_graph : NodeGraph :=
  { nodes := [⟨float_kernel_type, [⟨some (1, "value"), none⟩]⟩,
              ⟨float_identity_type, [⟨some (2, "value"), none⟩]⟩,
              ⟨float_constant_type, [⟨none, some (.float ⟨0x3f800000⟩)⟩]⟩]
    inputs := []
    outputs := [⟨"result", ⟨some 0, "value"⟩⟩] }

/-- The function that `kernel_graph` compiles to: the body of the kernel function
(7 words), then the main function. -/
def kernel_function : Function :=
  { instructions :=
      [.opcode .OP_VALUE_FLOAT, .data 0x3f800000, .data 0,
       .opcode (.OP_OTHER 0), .data 0, .data 1,
       .opcode .OP_END,
       .opcode (.OP_OTHER 2), .data 0, .data 1, .data 2,
       .opcode .OP_VALUE_FLOAT, .data 0x3f800000, .data 3,
       .opcode (.OP_OTHER 0), .data 3, .data 4,
       .opcode .OP_END]
    entry_point := 7
    return_values := [⟨⟨.BVM_FLOAT⟩, "result", 2⟩] }

/-- The compiler after `kernel_graph` is compiled on a fresh compiler. -/
def kernel_compiler : BVMCompiler :=
  { stack_users := [1, 1, 1, 1, 1, 0, 0, 0]
    fn := Function.new
    func_entry_map := [(⟨some 0, "factor"⟩, ⟨0, 1⟩)]
    stack_overrun := false }

/-! ### The expression traversal -/

/-- The node is flagged as a kernel node. -/
def NodeGraph.is_kernel (g : NodeGraph) (n : Nat) : Prop :=
  ∃ inst, g.node n = some inst ∧ inst.type.is_kernel_node = true

/-- The nodes reachable from `src` by following input links backwards along a
path on which no node, `src` included, is a kernel node. -/
inductive NodeGraph.expr_reach (g : NodeGraph) (src : Nat) : Nat → Prop
  | source : ¬ g.is_kernel src → g.expr_reach src src
  | link {n m : Nat} : g.expr_reach src n → g.linked n m → ¬ g.is_kernel m → g.expr_reach src m

/-- What holds of a state `(sorted_nodes, visited)` of the expression traversal:
the list holds visited nodes only and none twice; no visited node is a kernel
node, and all of them satisfy `P`; the sources of the links of a listed node
are visited, unless they are kernel nodes. -/
def expr_inv (g : NodeGraph) (P : Nat → Prop) (st : NodeList × NodeSet) : Prop :=
  (∀ x, x ∈ st.1 → x ∈ st.2) ∧ st.1.Nodup ∧
  (∀ x, x ∈ st.2 → ¬ g.is_kernel x ∧ P x) ∧
  (∀ x, x ∈ st.1 → ∀ m, g.linked x m → ¬ g.is_kernel m → m ∈ st.2)

/-- How a step of the expression traversal changes the state: the visited set
grows, the list is extended at its end, and the nodes that are visited and not
listed are the same. -/
def expr_step (st st' : NodeList × NodeSet) : Prop :=
  (∀ x, x ∈ st.2 → x ∈ st'.2) ∧ (∃ l, st'.1 = st.1 ++ l) ∧
  (∀ x, (x ∈ st'.2 ∧ x ∉ st'.1) ↔ (x ∈ st.2 ∧ x ∉ st.1))

/-- Every source of a link of a listed node that is no kernel node stands at a
strictly earlier position of the list. -/
def expr_sources_first (g : NodeGraph) (l : List Nat) : Prop :=
  ∀ (j N M : Nat), l[j]? = some N → g.linked N M → ¬ g.is_kernel M →
    ∃ i, i < j ∧ l[i]? = some M

/-- A node type with two float inputs and one float output. -/
def float_binary_type : NodeType :=
  { name := "ADD_FLOAT"
    inputs := [⟨"value_a", ⟨.BVM_FLOAT⟩, some (.float ⟨0⟩), .VALUE_VARIABLE⟩,
               ⟨"value_b", ⟨.BVM_FLOAT⟩, some (.float ⟨0⟩), .VALUE_VARIABLE⟩]
    outputs := [⟨"value", ⟨.BVM_FLOAT⟩, some (.float ⟨0⟩), .VALUE_VARIABLE⟩]
    is_kernel_node := false
    is_pass_node := false }

/-- A graph with a kernel node inside an expression: the function input of the
kernel node 0 is linked to node 1, which reads the kernel node 2 and the float
constant 3; the kernel node 2 reads the constant as well. -/
def expression_graph : NodeGraph :=
  { nodes := [⟨float_kernel_type, [⟨some (1, "value"), none⟩]⟩,
              ⟨float_binary_type, [⟨some (2, "value"), none⟩, ⟨some (3, "value"), none⟩]⟩,
              ⟨float_kernel_type, [⟨some (3, "value"), none⟩]⟩,
              ⟨float_constant_type, [⟨none, some (.float ⟨0x3f800000⟩)⟩]⟩]
    inputs := []
    outputs := [⟨"result", ⟨some 0, "value"⟩⟩] }

/-! ### The words of the instructions of a node -/

/-- The word that `push_stack_index` adds for a slot: none for the sentinel. -/
def slot_word (cfg : Config) (slot : Nat) : List Instruction :=
  if slot ≠ cfg.BVM_STACK_INVALID then [.data slot] else []

/-- The words of the instruction that loads a value into a slot: the value
opcode of the base type, the payload words, the destination slot. -/
def load_words (cfg : Config) (value : Value) (slot : Nat) : List Instruction :=
  .opcode (spec_value_opcode value.typedesc.base_type) :: (value.words ++ slot_word cfg slot)

/-- The words that a call appends to a stream: what stands in `after` behind the
words of `before`. -/
def appended (before after : List Instruction) : List Instruction :=
  after.drop before.length

/-- A compiler whose stream holds one word already. -/
def subgraph_start : BVMCompiler := push_opcode (BVMCompiler.new small_config) .OP_END

/-- Two requested outputs: the output socket of node 0, and a raw default value
without a source node. -/
def subgraph_outputs : SubgraphOutputList :=
  [⟨⟨some 0, "value"⟩, some (.float ⟨0⟩), 0xFFFFFFFF⟩,
   ⟨⟨none, ""⟩, some (.float ⟨0x3f800000⟩), 0xFFFFFFFF⟩]

/-- The requested outputs `subgraph_outputs` with their slots. -/
def subgraph_outputs_resolved : SubgraphOutputList :=
  [⟨⟨some 0, "value"⟩, some (.float ⟨0⟩), 0⟩,
   ⟨⟨none, ""⟩, some (.float ⟨0x3f800000⟩), 1⟩]

/-- The compiler after the node of `scenario_constant` is compiled from
`subgraph_start` with the requested outputs `subgraph_outputs`. -/
def subgraph_end : BVMCompiler :=
  { stack_users := [1, 1, 0, 0, 0, 0, 0, 0]
    fn := ⟨[.opcode .OP_END,
            .opcode .OP_VALUE_FLOAT, .data 0x40600000, .data 0,
            .opcode .OP_END,
            .opcode .OP_VALUE_FLOAT, .data 0x3f800000, .data 1], 0, []⟩
    func_entry_map := []
    stack_overrun := false }

/-- The value that an input carries: the value of the node instance for the
socket when there is one, the default value of the socket type otherwise. -/
def input_value (inp : NodeSocket × InputInstance) : Option Value :=
  match inp.2.value with
  | some v => some v
  | none => inp.1.default_value

/-- An input that is neither constant nor function-typed nor linked. -/
def needs_load (inp : NodeSocket × InputInstance) : Bool :=
  decide (inp.1.value_type ≠ .VALUE_CONSTANT ∧ inp.1.value_type ≠ .VALUE_FUNCTION) &&
    inp.2.link.isNone

/-- The words that the specification asks for when the inputs of a node are
prepared: for an input that is neither constant nor function-typed nor linked,
the instruction that loads its value into the slot of the input. -/
def spec_load_words (cfg : Config) (node : Nat) (ii : SocketIndexMap)
    (inp : NodeSocket × InputInstance) : List Instruction :=
  if needs_load inp then
    match input_value inp, Map.find ii ⟨some node, inp.1.name⟩ with
    | some v, some slot => load_words cfg v slot
    | _, _ => []
  else []

/-- The words that the specification asks for when an output of a node gets its
slot: for a mesh output with a positive use-count, `OP_INIT_MESH_PTR`, the slot
and the use-count. -/
def spec_init_words (cfg : Config) (users : SocketUserMap) (node : Nat) (oi : SocketIndexMap)
    (out : NodeSocket) : List Instruction :=
  if out.typedesc.base_type = .BVM_MESH then
    match Map.find users ⟨some node, out.name⟩, Map.find oi ⟨some node, out.name⟩ with
    | some u, some slot =>
      if 0 < u then .opcode .OP_INIT_MESH_PTR :: (slot_word cfg slot ++ [int_to_instruction u])
      else []
    | _, _ => []
  else []

/-- The operand words that the specification asks for an input in the main
instruction of a node: the payload of a constant input, the entry point and the
return slot of a function-typed input, the slot of any other input. -/
def spec_input_operand (cfg : Config) (fem : FunctionEntryMap) (ii : SocketIndexMap) (node : Nat)
    (inp : NodeSocket × InputInstance) : List Instruction :=
  if inp.1.value_type = .VALUE_CONSTANT then
    match inp.2.value with
    | some v => v.words
    | none => []
  else if inp.1.value_type = .VALUE_FUNCTION then
    match Map.find fem ⟨some node, inp.1.name⟩ with
    | some f => int_to_instruction f.entry_point :: slot_word cfg f.return_index
    | none => []
  else
    match Map.find ii ⟨some node, inp.1.name⟩ with
    | some slot => slot_word cfg slot
    | none => []

/-- The operand word that the specification asks for an output in the main
instruction of a node: its slot. -/
def spec_output_operand (cfg : Config) (oi : SocketIndexMap) (node : Nat) (out : NodeSocket) :
    List Instruction :=
  match Map.find oi ⟨some node, out.name⟩ with
  | some slot => slot_word cfg slot
  | none => []

/-- The words that the specification asks for after the main instruction of a
node: for an input that is linked, neither constant nor function-typed, and of
mesh type, `OP_RELEASE_MESH_PTR` and the slot of the source output. -/
def spec_release_words (cfg : Config) (oi : SocketIndexMap) (inp : NodeSocket × InputInstance) :
    List Instruction :=
  if inp.1.value_type ≠ .VALUE_CONSTANT ∧ inp.1.value_type ≠ .VALUE_FUNCTION ∧
      inp.1.typedesc.base_type = .BVM_MESH then
    match inp.2.link with
    | some (n, s) =>
      match Map.find oi ⟨some n, s⟩ with
      | some slot => .opcode .OP_RELEASE_MESH_PTR :: slot_word cfg slot
      | none => []
    | none => []
  else []

/-- The words that the specification asks for a requested output of a subgraph
after `OP_END`: for an output without a source node, the instruction that loads
its value into its slot. -/
def spec_output_load (cfg : Config) (o : SubgraphOutput) : List Instruction :=
  match o.key.node, o.value with
  | none, some v => load_words cfg v o.stack_index
  | _, _ => []

/-- A node type with two variable float inputs and one float output, with a
mapped opcode. -/
def float_pair_type : NodeType :=
  { name := "MESH_COMBINE"
    inputs := [⟨"value_a", ⟨.BVM_FLOAT⟩, some (.float ⟨0⟩), .VALUE_VARIABLE⟩,
               ⟨"value_b", ⟨.BVM_FLOAT⟩, some (.float ⟨0x3f800000⟩), .VALUE_VARIABLE⟩]
    outputs := [⟨"value", ⟨.BVM_FLOAT⟩, some (.float ⟨0⟩), .VALUE_VARIABLE⟩]
    is_kernel_node := false
    is_pass_node := false }

/-- A graph of one node with two unlinked inputs: the first carries the value
3.5, the second carries no value (the default of its socket is 1.0). -/
def load_graph : NodeGraph :=
  { nodes := [⟨float_pair_type, [⟨none, some (.float ⟨0x40600000⟩)⟩, ⟨none, none⟩]⟩]
    inputs := []
    outputs := [⟨"result", ⟨some 0, "value"⟩⟩] }

/-- The compiler after the node of `load_graph` is compiled on a fresh compiler. -/
def load_graph_compiler : BVMCompiler :=
  { stack_users := [1, 1, 1, 0, 0, 0, 0, 0]
    fn := ⟨[.opcode .OP_VALUE_FLOAT, .data 0x40600000, .data 0,
            .opcode .OP_VALUE_FLOAT, .data 0x3f800000, .data 1,
            .opcode (.OP_OTHER 2), .data 0, .data 1, .data 2], 0, []⟩
    func_entry_map := []
    stack_overrun := false }

/-- The compiler after the mesh source (node 2) of `mesh_fork_graph` is compiled
on a fresh compiler. -/
def mesh_fork_compiler_source : BVMCompiler :=
  { stack_users := [1, 1, 0, 0, 0, 0, 0, 0]
    fn := ⟨[.opcode .OP_INIT_MESH_PTR, .data 0, .data 2, .opcode (.OP_OTHER 1), .data 0], 0, []⟩
    func_entry_map := []
    stack_overrun := false }

/-- The compiler after the first modifier (node 0) of `mesh_fork_graph` is
compiled from `mesh_fork_compiler_source`. -/
def mesh_fork_compiler_modifier : BVMCompiler :=
  { stack_users := [1, 1, 1, 1, 0, 0, 0, 0]
    fn := ⟨[.opcode .OP_INIT_MESH_PTR, .data 0, .data 2, .opcode (.OP_OTHER 1), .data 0,
            .opcode .OP_INIT_MESH_PTR, .data 2, .data 1, .opcode (.OP_OTHER 3), .data 0, .data 2,
            .opcode .OP_RELEASE_MESH_PTR, .data 0], 0, []⟩
    func_entry_map := []
    stack_overrun := false }

/-- A compiler in which the kernel function of `kernel_graph` is registered with
entry point 0 and return slot 1. -/
def kernel_compiler_before : BVMCompiler :=
  { stack_users := [1, 1, 0, 0, 0, 0, 0, 0]
    fn := ⟨[.opcode .OP_END], 0, []⟩
    func_entry_map := [(⟨some 0, "factor"⟩, ⟨0, 1⟩)]
    stack_overrun := false }

/-- The compiler after the kernel node (node 0) of `kernel_graph` is compiled
from `kernel_compiler_before`. -/
def kernel_compiler_after : BVMCompiler :=
  { stack_users := [1, 1, 1, 0, 0, 0, 0, 0]
    fn := ⟨[.opcode .OP_END, .opcode (.OP_OTHER 2), .data 0, .data 1, .data 2], 0, []⟩
    func_entry_map := [(⟨some 0, "factor"⟩, ⟨0, 1⟩)]
    stack_overrun := false }

/-- The compiler `c'` comes from `c` by appending words to the stream, none of
which is the word `w`. -/
def BVMCompiler.grows_without (c c' : BVMCompiler) (w : Instruction) : Prop :=
  ∃ ws, c'.fn.instructions = c.fn.instructions ++ ws ∧ w ∉ ws

/-- A node type that the registry does not know (it maps to `OP_NOOP`): no input,
one float output. -/
def float_unknown_type : NodeType :=
  { name := "UNKNOWN_FLOAT"
    inputs := []
    outputs := [⟨"value", ⟨.BVM_FLOAT⟩, some (.float ⟨0⟩), .VALUE_VARIABLE⟩]
    is_kernel_node := false
    is_pass_node := false }

/-- A graph in which a node with a mapped opcode (node 0) reads the output of a
node whose type the registry does not know (node 1). -/
def unmapped_source_graph : NodeGraph :=
  { nodes := [⟨float_identity_type, [⟨some (1, "value"), none⟩]⟩,
              ⟨float_unknown_type, []⟩]
    inputs := []
    outputs := [⟨"result", ⟨some 0, "value"⟩⟩] }

/-- Every link of the graph names an output socket of a node with a mapped
opcode. -/
def NodeGraph.sources_mapped (cfg : Config) (g : NodeGraph) : Prop :=
  ∀ N inst, g.node N = some inst → ∀ inp ∈ inst.input_sockets, ∀ M s,
    inp.2.link = some (M, s) →
    ∃ source, g.node M = some source ∧
      cfg.get_opcode_from_node_type source.type.name ≠ .OP_NOOP ∧
      ∃ out ∈ source.type.outputs, out.name = s

/-- The key names a function-typed input socket of a node of the graph. -/
def NodeGraph.function_input (g : NodeGraph) (key : ConstSocketPair) : Prop :=
  ∃ (n : Nat) (inst : NodeInstance) (socket : NodeSocket), g.node n = some inst ∧
    socket ∈ inst.type.inputs ∧ socket.value_type = .VALUE_FUNCTION ∧
    key = ⟨some n, socket.name⟩

/-- During the main traversal: every key of the Function Info map names a
function-typed input socket, and the function-typed input sockets of the nodes
that are in the list are keys of the map. -/
def SortState.registered (g : NodeGraph) (st : SortState) : Prop :=
  (∀ key, (Map.find st.func_entry_map key).isSome → g.function_input key) ∧
  ∀ n ∈ st.sorted_nodes, ∀ inst, g.node n = some inst → ∀ socket ∈ inst.type.inputs,
    socket.value_type = .VALUE_FUNCTION →
    (Map.find st.func_entry_map ⟨some n, socket.name⟩).isSome

/-- The keys of the Function Info map of `st` are keys of the map of `st1`. -/
def SortState.keys_kept (st st1 : SortState) : Prop :=
  ∀ key, (Map.find st.func_entry_map key).isSome → (Map.find st1.func_entry_map key).isSome

/-- A kernel node type whose function-typed float input has the default 0.5. -/
def float_default_kernel_type : NodeType :=
  { name := "MESH_COMBINE"
    inputs := [⟨"factor", ⟨.BVM_FLOAT⟩, some (.float ⟨0x3f000000⟩), .VALUE_FUNCTION⟩]
    outputs := [⟨"value", ⟨.BVM_FLOAT⟩, some (.float ⟨0⟩), .VALUE_VARIABLE⟩]
    is_kernel_node := true
    is_pass_node := false }

/-- A graph whose function-typed input is not linked: the kernel node 0 has only
the default value of its socket "factor"; its output is the graph output. -/
def default_kernel_graph : NodeGraph :=
  { nodes := [⟨float_default_kernel_type, [⟨none, none⟩]⟩]
    inputs := []
    outputs := [⟨"result", ⟨some 0, "value"⟩⟩] }

/-- The function that `default_kernel_graph` compiles to: the body of the kernel
function (the end marker and the load of the default value), then the main
function. -/
def default_kernel_function : Function :=
  { instructions :=
      [.opcode .OP_END,
       .opcode .OP_VALUE_FLOAT, .data 0x3f000000, .data 0,
       .opcode (.OP_OTHER 2), .data 0, .data 0, .data 1,
       .opcode .OP_END]
    entry_point := 4
    return_values := [⟨⟨.BVM_FLOAT⟩, "result", 1⟩] }

/-- The compiler after `default_kernel_graph` is compiled on a fresh compiler. -/
def default_kernel_compiler : BVMCompiler :=
  { stack_users := [1, 1, 0, 0, 0, 0, 0, 0]
    fn := Function.new
    func_entry_map := [(⟨some 0, "factor"⟩, ⟨0, 0⟩)]
    stack_overrun := false }

/-! ### Skipped nodes, and the use-count map of the caller -/

/-- The node is one that `codegen_subgraph` skips: a node of the graph whose type
name maps to `OP_NOOP`. -/
def NodeGraph.maps_to_noop (cfg : Config) (g : NodeGraph) (id : Nat) : Bool :=
  match g.node id with
  | some node => decide (cfg.get_opcode_from_node_type node.type.name = .OP_NOOP)
  | none => false

/-- The node list without the nodes whose type name maps to `OP_NOOP`. -/
def remove_noop_nodes (cfg : Config) (g : NodeGraph) (nodes : NodeList) : NodeList :=
  nodes.filter (fun id => !(g.maps_to_noop cfg id))

/-- What a node adds to the use-count of the socket `key`: nothing when it is a
pass-through node, the number of its inputs that are linked to the socket
otherwise. -/
def counted_at (key : ConstSocketPair) (node : NodeInstance) : Nat :=
  if node.type.is_pass_node then 0 else links_in key node

/-- The statement `users.clear()` of a `std::map`. -/
def Map.clear {K V : Type} (_ : List (K × V)) : List (K × V) := []

/-- The loops of `count_output_users`, which follow the statement `users.clear()`,
on the map `users`. -/
def count_output_users.loops (g : NodeGraph) (users : SocketUserMap) : SocketUserMap :=
  let users := g.node_ids.foldl
    (fun users id =>
      match g.node id with
      | none => users
      | some node => count_output_users.init_node id users node.type.outputs)
    users
  let users := g.node_ids.foldl
    (fun users id =>
      match g.node id with
      | none => users
      | some node =>
        if node.type.is_pass_node then users
        else count_output_users.count_node users node.input_sockets)
    users
  let users := g.inputs.foldl (fun users input => Map.incr users input.key) users
  g.outputs.foldl (fun users output => Map.incr users output.key) users

/-- A call of `count_output_users` with the map `users` of the caller: the map
is cleared, then the loops run. -/
def count_output_users.call (g : NodeGraph) (users : SocketUserMap) : SocketUserMap :=
  count_output_users.loops g (Map.clear users)

/-- A graph in which expressions read kernel nodes: the function input of the
kernel node 0 is linked to the identity node 1, which reads the kernel node 2;
the function input of the kernel node 2 is linked to the kernel node 3. -/
def kernel_reader_graph : NodeGraph :=
  { nodes := [⟨float_kernel_type, [⟨some (1, "value"), none⟩]⟩,
              ⟨float_identity_type, [⟨some (2, "value"), none⟩]⟩,
              ⟨float_kernel_type, [⟨some (3, "value"), none⟩]⟩,
              ⟨float_kernel_type, [⟨none, none⟩]⟩]
    inputs := []
    outputs := [⟨"result", ⟨some 0, "value"⟩⟩] }

/-- The function that `default_kernel_graph` compiles to on the compiler that
has compiled it once before: the slots start at 2. -/
def default_kernel_function_second : Function :=
  { instructions :=
      [.opcode .OP_END,
       .opcode .OP_VALUE_FLOAT, .data 0x3f000000, .data 2,
       .opcode (.OP_OTHER 2), .data 0, .data 2, .data 3,
       .opcode .OP_END]
    entry_point := 4
    return_values := [⟨⟨.BVM_FLOAT⟩, "result", 3⟩] }

/-- The compiler after `default_kernel_graph` is compiled a second time. -/
def default_kernel_compiler_second : BVMCompiler :=
  { stack_users := [1, 1, 1, 1, 0, 0, 0, 0]
    fn := Function.new
    func_entry_map := [(⟨some 0, "factor"⟩, ⟨0, 2⟩)]
    stack_overrun := false }

/-- The main instruction of a node: its opcode, the operands of its inputs in
declared order, and the slots of its outputs in declared order. -/
def spec_main_instruction (cfg : Config) (fem : FunctionEntryMap) (ii oi : SocketIndexMap)
    (node : Nat) (inst : NodeInstance) : List Instruction :=
  .opcode (cfg.get_opcode_from_node_type inst.type.name) ::
    (inst.input_sockets.flatMap (spec_input_operand cfg fem ii node) ++
      inst.type.outputs.flatMap (spec_output_operand cfg oi node))

/-- A kernel node type whose function-typed input is a matrix: its default value
takes 16 slots. -/
def matrix_kernel_type : NodeType :=
  { name := "MESH_COMBINE"
    inputs := [⟨"factor", ⟨.BVM_MATRIX44⟩, some (.matrix44 ⟨fun _ _ => ⟨0⟩⟩), .VALUE_FUNCTION⟩]
    outputs := [⟨"value", ⟨.BVM_FLOAT⟩, some (.float ⟨0⟩), .VALUE_VARIABLE⟩]
    is_kernel_node := true
    is_pass_node := false }

/-- A graph whose function-typed input is not linked and has a default value
that does not fit the stack of `small_config`. -/
def matrix_default_graph : NodeGraph :=
  { nodes := [⟨matrix_kernel_type, [⟨none, none⟩]⟩]
    inputs := []
    outputs := [⟨"result", ⟨some 0, "value"⟩⟩] }

/-- A node type with a mapped opcode, no input and a matrix output. -/
def matrix_source_type : NodeType :=
  { name := "MESH_LOAD"
    inputs := []
    outputs := [⟨"value", ⟨.BVM_MATRIX44⟩, some (.matrix44 ⟨fun _ _ => ⟨0⟩⟩), .VALUE_VARIABLE⟩]
    is_kernel_node := false
    is_pass_node := false }

/-- A graph in which the function input of the kernel node 0 is linked to the
matrix source 1, whose output does not fit the stack of `small_config`. -/
def matrix_expression_graph : NodeGraph :=
  { nodes := [⟨matrix_kernel_type, [⟨some (1, "value"), none⟩]⟩, ⟨matrix_source_type, []⟩]
    inputs := []
    outputs := [⟨"result", ⟨some 0, "value"⟩⟩] }

/-- The slot-usage table of `c'` has the length of the table of `c`, and no
counter is smaller than in `c`. -/
def BVMCompiler.users_le (c c' : BVMCompiler) : Prop :=
  c'.stack_users.length = c.stack_users.length ∧
  ∀ k, c.stack_users.getD k 0 ≤ c'.stack_users.getD k 0

/-- The slot `v` was handed out between the states `c` and `c'`: it is the
sentinel, or a slot of the stack that was free in `c` and is claimed in `c'`. -/
def fresh_slot (cfg : Config) (c c' : BVMCompiler) (v : Nat) : Prop :=
  v = cfg.BVM_STACK_INVALID ∨
  (v < cfg.BVM_STACK_SIZE ∧ c.stack_users.getD v 0 = 0 ∧ c'.stack_users.getD v 0 ≠ 0)

/-- The function that `matrix_default_graph` compiles to, on a fresh compiler of
`small_config` and again on the compiler that the first compile leaves. -/
def matrix_default_function : Function :=
  { instructions :=
      [.opcode .OP_END, .opcode .OP_VALUE_MATRIX44] ++ List.replicate 16 (.data 0) ++
        [.opcode (.OP_OTHER 2), .data 0, .opcode .OP_END]
    entry_point := 18
    return_values := [⟨⟨.BVM_FLOAT⟩, "result", 4294967295⟩] }

/-- The compiler after `matrix_default_graph` is compiled on a fresh compiler. -/
def matrix_default_compiler : BVMCompiler :=
  { stack_users := [1, 1, 1, 1, 1, 1, 1, 1]
    fn := Function.new
    func_entry_map := [(⟨some 0, "factor"⟩, ⟨0, 4294967295⟩)]
    stack_overrun := true }

/-- The compiler after `matrix_default_graph` is compiled a second time. -/
def matrix_default_compiler_second : BVMCompiler :=
  { stack_users := [2, 2, 2, 2, 2, 2, 2, 2]
    fn := Function.new
    func_entry_map := [(⟨some 0, "factor"⟩, ⟨0, 4294967295⟩)]
    stack_overrun := true }

/-! ## Properties of the stack allocator -/

theorem free_run_bound {stack_users : List Nat} {i size : Nat} (hs : 1 ≤ size)
    (h : free_run stack_users i size) : i + size ≤ stack_users.length := by
  have h1 := h (i + size - 1) (by omega) (by omega)
  have h2 : i + size - 1 < stack_users.length := by
    by_contra hlt
    rw [List.getElem?_eq_none (by omega)] at h1
    exact absurd h1 (by simp)
  omega

theorem getD_eq_zero_iff {stack_users : List Nat} {i : Nat} (hi : i < stack_users.length) :
    stack_users.getD i 0 = 0 ↔ stack_users[i]? = some 0 := by
  simp [List.getD, List.getElem?_eq_getElem hi]

/-- What the scan of `find_stack_index` computes, from any point of the loop on:
either the least start of a free run of `s` slots, or the sentinel when the
table has no such run. -/
theorem find_stack_index_loop_spec (cfg : Config) (stack_users : List Nat) (s : Nat)
    (hs : 1 ≤ s) :
    ∀ (n i u : Nat), n + i = stack_users.length → u < s → u ≤ i →
      (∀ k, i - u ≤ k → k < i → stack_users[k]? = some 0) →
      (u < i → stack_users[i - u - 1]? ≠ some 0) →
      (∀ j, j + s ≤ i → ¬ free_run stack_users j s) →
      (find_stack_index.loop cfg stack_users (s : Int) n i (u : Int) + s ≤ stack_users.length ∧
        free_run stack_users (find_stack_index.loop cfg stack_users (s : Int) n i (u : Int)) s ∧
        ∀ j, j < find_stack_index.loop cfg stack_users (s : Int) n i (u : Int) →
          ¬ free_run stack_users j s) ∨
      (find_stack_index.loop cfg stack_users (s : Int) n i (u : Int) = cfg.BVM_STACK_INVALID ∧
        ∀ j, ¬ free_run stack_users j s) := by
  intro n
  induction n with
  | zero =>
    intro i u hn _ _ _ _ hP
    right
    refine ⟨rfl, fun j hj => hP j ?_ hj⟩
    have := free_run_bound hs hj
    omega
  | succ n ih =>
    intro i u hn hus hui hzero hmax hP
    have hi : i < stack_users.length := by omega
    unfold find_stack_index.loop
    by_cases hv : stack_users.getD i 0 = 0
    · have hvi : stack_users[i]? = some 0 := (getD_eq_zero_iff hi).1 hv
      rw [if_pos hv]
      by_cases hfull : (u : Int) + 1 = (s : Int)
      · rw [if_pos hfull]
        have hfull2 : u + 1 = s := by exact_mod_cast hfull
        have hr : ((i : Int) + 1 - (s : Int)).toNat = i - u := by omega
        rw [hr]
        left
        refine ⟨by omega, ?_, ?_⟩
        · intro k hk1 hk2
          by_cases hki : k = i
          · rw [hki]; exact hvi
          · exact hzero k hk1 (by omega)
        · intro j hj
          exact hP j (by omega)
      · rw [if_neg hfull]
        have hlt : u + 1 < s := by
          have : u + 1 ≠ s := fun h => hfull (by exact_mod_cast h)
          omega
        have hcast : (u : Int) + 1 = ((u + 1 : Nat) : Int) := by push_cast; rfl
        rw [hcast]
        apply ih (i + 1) (u + 1) (by omega) hlt (by omega)
        · intro k hk1 hk2
          by_cases hki : k = i
          · rw [hki]; exact hvi
          · exact hzero k (by omega) (by omega)
        · intro hlt2
          have : i + 1 - (u + 1) - 1 = i - u - 1 := by omega
          rw [this]
          exact hmax (by omega)
        · intro j hj hfree
          by_cases hji : j + s ≤ i
          · exact hP j hji hfree
          · have hui2 : u < i := by omega
            exact hmax hui2 (hfree (i - u - 1) (by omega) (by omega))
    · rw [if_neg hv]
      have hvi : stack_users[i]? ≠ some 0 := fun h => hv ((getD_eq_zero_iff hi).2 h)
      have hcast : (0 : Int) = ((0 : Nat) : Int) := rfl
      rw [hcast]
      apply ih (i + 1) 0 (by omega) (by omega) (by omega)
      · intro k hk1 hk2
        omega
      · intro _
        have : i + 1 - 0 - 1 = i := by omega
        rw [this]
        exact hvi
      · intro j hj hfree
        by_cases hji : j + s ≤ i
        · exact hP j hji hfree
        · exact hvi (hfree i (by omega) (by omega))

/-- What `find_stack_index` computes for a footprint `s ≥ 1`. -/
theorem find_stack_index_spec (cfg : Config) (c : BVMCompiler) (s : Nat) (hs : 1 ≤ s)
    (hlen : c.stack_users.length = cfg.BVM_STACK_SIZE) :
    (find_stack_index cfg c (s : Int) + s ≤ cfg.BVM_STACK_SIZE ∧
      free_run c.stack_users (find_stack_index cfg c (s : Int)) s ∧
      ∀ j, j < find_stack_index cfg c (s : Int) → ¬ free_run c.stack_users j s) ∨
    (find_stack_index cfg c (s : Int) = cfg.BVM_STACK_INVALID ∧
      ∀ j, ¬ free_run c.stack_users j s) := by
  have h := find_stack_index_loop_spec cfg c.stack_users s hs cfg.BVM_STACK_SIZE 0 0
    (by omega) (by omega) (by omega) (by intro k _ hk; omega) (by intro h; omega)
    (by
      intro j hj hfree
      have := hfree j (by omega) (by omega)
      omega)
  rw [hlen] at h
  exact h

theorem stack_users_incr_fn (c : BVMCompiler) (k : Nat) : (stack_users_incr c k).fn = c.fn := by
  unfold stack_users_incr; split <;> rfl

theorem stack_users_incr_func_entry_map (c : BVMCompiler) (k : Nat) :
    (stack_users_incr c k).func_entry_map = c.func_entry_map := by
  unfold stack_users_incr; split <;> rfl

theorem stack_users_incr_length (c : BVMCompiler) (k : Nat) :
    (stack_users_incr c k).stack_users.length = c.stack_users.length := by
  unfold stack_users_incr; split <;> simp

theorem stack_users_incr_getElem? (c : BVMCompiler) (k : Nat) (hk : k < c.stack_users.length)
    (j : Nat) :
    (stack_users_incr c k).stack_users[j]? =
      if j = k then c.stack_users[j]?.map (· + 1) else c.stack_users[j]? := by
  unfold stack_users_incr
  rw [if_pos hk]
  by_cases hj : j = k
  · subst hj; simp
  · rw [if_neg hj]
    exact List.getElem?_modify_ne _ _ (fun h => hj h.symm)

theorem stack_users_incr_overrun_of_lt (c : BVMCompiler) (k : Nat)
    (hk : k < c.stack_users.length) :
    (stack_users_incr c k).stack_overrun = c.stack_overrun := by
  unfold stack_users_incr; rw [if_pos hk]

theorem stack_users_incr_overrun_of_ge (c : BVMCompiler) (k : Nat)
    (hk : c.stack_users.length ≤ k) :
    (stack_users_incr c k).stack_overrun = true := by
  unfold stack_users_incr; rw [if_neg (by omega)]

theorem stack_users_incr_overrun_mono (c : BVMCompiler) (k : Nat) (h : c.stack_overrun = true) :
    (stack_users_incr c k).stack_overrun = true := by
  unfold stack_users_incr; split
  · exact h
  · rfl

/-- The increment loop touches neither the function under construction nor the
Function Info map, and keeps the size of the table. -/
theorem assign_stack_index_loop_frame (off : Nat) :
    ∀ (n i : Nat) (c : BVMCompiler),
      (assign_stack_index.loop off n i c).fn = c.fn ∧
      (assign_stack_index.loop off n i c).func_entry_map = c.func_entry_map ∧
      (assign_stack_index.loop off n i c).stack_users.length = c.stack_users.length := by
  intro n
  induction n with
  | zero => intro i c; exact ⟨rfl, rfl, rfl⟩
  | succ n ih =>
    intro i c
    unfold assign_stack_index.loop
    obtain ⟨h1, h2, h3⟩ := ih (i + 1) (stack_users_incr c ((off + i) % WORD))
    exact ⟨h1.trans (stack_users_incr_fn _ _), h2.trans (stack_users_incr_func_entry_map _ _),
      h3.trans (stack_users_incr_length _ _)⟩

theorem assign_stack_index_loop_overrun_mono (off : Nat) :
    ∀ (n i : Nat) (c : BVMCompiler), c.stack_overrun = true →
      (assign_stack_index.loop off n i c).stack_overrun = true := by
  intro n
  induction n with
  | zero => intro i c h; exact h
  | succ n ih =>
    intro i c h
    unfold assign_stack_index.loop
    exact ih _ _ (stack_users_incr_overrun_mono _ _ h)

/-- The increment loop, when its `n` indices are the slots `b .. b + n - 1` of the
table: exactly these counters go up by one. -/
theorem assign_stack_index_loop_spec (off : Nat) :
    ∀ (n i b : Nat) (c : BVMCompiler),
      (∀ t, t < n → (off + (i + t)) % WORD = b + t) → b + n ≤ c.stack_users.length →
      (assign_stack_index.loop off n i c).stack_overrun = c.stack_overrun ∧
      ∀ k, (assign_stack_index.loop off n i c).stack_users[k]? =
        if b ≤ k ∧ k < b + n then c.stack_users[k]?.map (· + 1) else c.stack_users[k]? := by
  intro n
  induction n with
  | zero =>
    intro i b c _ _
    refine ⟨rfl, fun k => ?_⟩
    rw [if_neg (by omega)]
    rfl
  | succ n ih =>
    intro i b c hidx hlen
    unfold assign_stack_index.loop
    have h0 : (off + i) % WORD = b := by simpa using hidx 0 (by omega)
    rw [h0]
    have hb : b < c.stack_users.length := by omega
    obtain ⟨h1, h2⟩ := ih (i + 1) (b + 1) (stack_users_incr c b)
      (by
        intro t ht
        have := hidx (t + 1) (by omega)
        rw [show i + 1 + t = i + (t + 1) by omega, this]
        omega)
      (by rw [stack_users_incr_length]; omega)
    refine ⟨h1.trans (stack_users_incr_overrun_of_lt c b hb), fun k => ?_⟩
    rw [h2 k, stack_users_incr_getElem? c b hb k]
    by_cases hk1 : k = b
    · subst hk1
      rw [if_neg (by omega), if_pos rfl, if_pos (by omega)]
    · rw [if_neg hk1]
      by_cases hk2 : b + 1 ≤ k ∧ k < b + 1 + n
      · rw [if_pos hk2, if_pos (by omega)]
      · rw [if_neg hk2, if_neg (by omega)]

theorem assign_stack_index_fn (cfg : Config) (c : BVMCompiler) (td : TypeDesc) :
    (assign_stack_index cfg c td).2.fn = c.fn :=
  (assign_stack_index_loop_frame _ _ _ _).1

theorem assign_stack_index_func_entry_map (cfg : Config) (c : BVMCompiler) (td : TypeDesc) :
    (assign_stack_index cfg c td).2.func_entry_map = c.func_entry_map :=
  (assign_stack_index_loop_frame _ _ _ _).2.1

theorem assign_stack_index_length (cfg : Config) (c : BVMCompiler) (td : TypeDesc) :
    (assign_stack_index cfg c td).2.stack_users.length = c.stack_users.length :=
  (assign_stack_index_loop_frame _ _ _ _).2.2

theorem assign_stack_index_fst (cfg : Config) (c : BVMCompiler) (td : TypeDesc) :
    (assign_stack_index cfg c td).1 = find_stack_index cfg c (cfg.stack_size td) := rfl

/-- A successful `assign_stack_index`: the counters of the run go up by one, all
other counters stay. -/
theorem assign_stack_index_ok (cfg : Config) (c : BVMCompiler) (td : TypeDesc) (s : Nat)
    (hsize : cfg.stack_size td = (s : Int))
    (hlen : c.stack_users.length = cfg.BVM_STACK_SIZE) (hword : cfg.BVM_STACK_SIZE ≤ WORD)
    (hfit : find_stack_index cfg c (s : Int) + s ≤ cfg.BVM_STACK_SIZE) :
    (assign_stack_index cfg c td).2.stack_overrun = c.stack_overrun ∧
    ∀ k, (assign_stack_index cfg c td).2.stack_users[k]? =
      if find_stack_index cfg c (s : Int) ≤ k ∧ k < find_stack_index cfg c (s : Int) + s
      then c.stack_users[k]?.map (· + 1) else c.stack_users[k]? := by
  unfold assign_stack_index
  simp only [hsize, Int.toNat_ofNat]
  apply assign_stack_index_loop_spec
  · intro t ht
    rw [Nat.zero_add]
    exact Nat.mod_eq_of_lt (by omega)
  · omega

theorem filled_length (N t : Nat) (ht : t ≤ N) : (filled N t).length = N := by
  simp [filled]; omega

theorem filled_getElem? (N t k : Nat) (ht : t ≤ N) :
    (filled N t)[k]? = if k < t then some 1 else if k < N then some 0 else none := by
  unfold filled
  by_cases h1 : k < t
  · rw [if_pos h1, List.getElem?_append_left (by simpa using h1)]
    simp [h1]
  · rw [if_neg h1, List.getElem?_append_right (by simpa using h1)]
    by_cases h2 : k < N
    · rw [if_pos h2, List.length_replicate,
        List.getElem?_eq_getElem (by rw [List.length_replicate]; omega)]
      simp
    · rw [if_neg h2, List.length_replicate,
        List.getElem?_eq_none (by rw [List.length_replicate]; omega)]

theorem new_stack_users (cfg : Config) :
    (BVMCompiler.new cfg).stack_users = filled cfg.BVM_STACK_SIZE 0 := by
  simp [BVMCompiler.new, filled]

/-- On a table whose first `t` slots are claimed, the scan finds offset `t` when
the footprint still fits, and nothing otherwise. -/
theorem find_stack_index_filled (cfg : Config) (c : BVMCompiler) (t s : Nat) (hs : 1 ≤ s)
    (ht : t ≤ cfg.BVM_STACK_SIZE) (hc : c.stack_users = filled cfg.BVM_STACK_SIZE t) :
    (t + s ≤ cfg.BVM_STACK_SIZE → find_stack_index cfg c (s : Int) = t) ∧
    (cfg.BVM_STACK_SIZE < t + s → find_stack_index cfg c (s : Int) = cfg.BVM_STACK_INVALID) := by
  have hlen : c.stack_users.length = cfg.BVM_STACK_SIZE := by rw [hc, filled_length _ _ ht]
  have hfree : t + s ≤ cfg.BVM_STACK_SIZE → free_run c.stack_users t s := by
    intro h k hk1 hk2
    rw [hc, filled_getElem? _ _ _ ht, if_neg (by omega), if_pos (by omega)]
  rcases find_stack_index_spec cfg c s hs hlen with ⟨h1, h2, h3⟩ | ⟨h1, h2⟩
  · have hge : t ≤ find_stack_index cfg c (s : Int) := by
      by_contra hlt
      have := h2 (find_stack_index cfg c (s : Int)) (by omega) (by omega)
      rw [hc, filled_getElem? _ _ _ ht, if_pos (by omega)] at this
      simp at this
    have hle : find_stack_index cfg c (s : Int) ≤ t := by
      by_contra hlt
      exact h3 t (by omega) (hfree (by omega))
    exact ⟨fun _ => by omega, fun h => by omega⟩
  · exact ⟨fun h => absurd (hfree h) (h2 t), fun _ => h1⟩

/-- A successful `assign_stack_index` on a table whose first `t` slots are
claimed: it returns `t` and claims the next `s` slots. -/
theorem assign_stack_index_filled (cfg : Config) (c : BVMCompiler) (td : TypeDesc) (t s : Nat)
    (hsize : cfg.stack_size td = (s : Int)) (hs : 1 ≤ s) (hword : cfg.BVM_STACK_SIZE ≤ WORD)
    (hc : c.stack_users = filled cfg.BVM_STACK_SIZE t) (hfit : t + s ≤ cfg.BVM_STACK_SIZE) :
    (assign_stack_index cfg c td).1 = t ∧
    (assign_stack_index cfg c td).2.stack_users = filled cfg.BVM_STACK_SIZE (t + s) ∧
    (assign_stack_index cfg c td).2.stack_overrun = c.stack_overrun := by
  have ht : t ≤ cfg.BVM_STACK_SIZE := by omega
  have hlen : c.stack_users.length = cfg.BVM_STACK_SIZE := by rw [hc, filled_length _ _ ht]
  have hfind := (find_stack_index_filled cfg c t s hs ht hc).1 hfit
  obtain ⟨h1, h2⟩ := assign_stack_index_ok cfg c td s hsize hlen hword (by omega)
  refine ⟨by rw [assign_stack_index_fst, hsize, hfind], ?_, h1⟩
  apply List.ext_getElem?
  intro k
  rw [h2 k, hfind, hc, filled_getElem? _ _ _ ht, filled_getElem? _ _ _ hfit]
  by_cases hk1 : k < t
  · rw [if_neg (by omega), if_pos hk1, if_pos (by omega)]
  · by_cases hk2 : k < t + s
    · rw [if_pos ⟨by omega, hk2⟩, if_neg hk1, if_pos (by omega), if_pos hk2]
      rfl
    · rw [if_neg (by omega), if_neg hk1, if_neg hk2]

/-- An `assign_stack_index` that finds no run, with the all-ones word as
sentinel: the loop still runs, writes once outside the table and raises the
counters of the slots `0 .. s - 2`. -/
theorem assign_stack_index_exhausted (cfg : Config) (c : BVMCompiler) (td : TypeDesc) (s : Nat)
    (hsize : cfg.stack_size td = (s : Int)) (hs : 1 ≤ s)
    (hinv : cfg.BVM_STACK_INVALID = WORD - 1)
    (hlen : c.stack_users.length = cfg.BVM_STACK_SIZE) (hword : cfg.BVM_STACK_SIZE < WORD)
    (hcap : s ≤ cfg.BVM_STACK_SIZE + 1)
    (hfail : find_stack_index cfg c (s : Int) = cfg.BVM_STACK_INVALID) :
    (assign_stack_index cfg c td).1 = cfg.BVM_STACK_INVALID ∧
    (assign_stack_index cfg c td).2.stack_overrun = true ∧
    ∀ k, (assign_stack_index cfg c td).2.stack_users[k]? =
      if k < s - 1 then c.stack_users[k]?.map (· + 1) else c.stack_users[k]? := by
  refine ⟨by rw [assign_stack_index_fst, hsize, hfail], ?_⟩
  unfold assign_stack_index
  simp only [hsize, Int.toNat_ofNat, hfail, hinv]
  obtain ⟨n, rfl⟩ : ∃ n, s = n + 1 := ⟨s - 1, by omega⟩
  unfold assign_stack_index.loop
  have hW : 0 < WORD := by unfold WORD; norm_num
  have h0 : (WORD - 1 + 0) % WORD = WORD - 1 := Nat.mod_eq_of_lt (by omega)
  rw [h0]
  have hoob : c.stack_users.length ≤ WORD - 1 := by omega
  have hinc : (stack_users_incr c (WORD - 1)).stack_users = c.stack_users := by
    unfold stack_users_incr; rw [if_neg (by omega)]
  obtain ⟨h1, h2⟩ := assign_stack_index_loop_spec (WORD - 1) n 1 0
    (stack_users_incr c (WORD - 1))
    (by
      intro t ht
      rw [show WORD - 1 + (1 + t) = t + WORD by omega, Nat.add_mod_right]
      rw [Nat.mod_eq_of_lt (by omega)]; omega)
    (by rw [hinc]; omega)
  refine ⟨h1.trans (stack_users_incr_overrun_of_ge c _ hoob), fun k => ?_⟩
  rw [h2 k, hinc]
  by_cases hk : k < n
  · rw [if_pos ⟨by omega, by omega⟩, if_pos (by omega)]
  · rw [if_neg (by omega), if_neg (by omega)]

theorem assign_stack_index_overrun_mono (cfg : Config) (c : BVMCompiler) (td : TypeDesc)
    (h : c.stack_overrun = true) : (assign_stack_index cfg c td).2.stack_overrun = true :=
  assign_stack_index_loop_overrun_mono _ _ _ _ h

/-- A failed allocation of a positive footprint writes outside the table. -/
theorem assign_stack_index_overrun_of_invalid (cfg : Config) (c : BVMCompiler) (td : TypeDesc)
    (hsentinel : cfg.sentinel_ok) (hlen : c.stack_users.length = cfg.BVM_STACK_SIZE)
    (hsize : 1 ≤ cfg.stack_size td)
    (hfail : find_stack_index cfg c (cfg.stack_size td) = cfg.BVM_STACK_INVALID) :
    (assign_stack_index cfg c td).2.stack_overrun = true := by
  obtain ⟨n, hn⟩ : ∃ n : Nat, (cfg.stack_size td).toNat = n + 1 :=
    ⟨(cfg.stack_size td).toNat - 1, by omega⟩
  unfold assign_stack_index
  simp only [hfail, hn]
  unfold assign_stack_index.loop
  apply assign_stack_index_loop_overrun_mono
  apply stack_users_incr_overrun_of_ge
  rw [Nat.add_zero, Nat.mod_eq_of_lt hsentinel.2, hlen]
  exact hsentinel.1

/-- An allocation on a table whose first `t` slots are claimed, when no write
has gone outside the table afterwards: it returns `t` and claims further slots. -/
theorem assign_stack_index_alloc_ok (cfg : Config) (c : BVMCompiler) (td : TypeDesc) (t : Nat)
    (hsentinel : cfg.sentinel_ok) (hsize : 1 ≤ cfg.stack_size td) (h : alloc_ok cfg c t)
    (hfinal : (assign_stack_index cfg c td).2.stack_overrun = false) :
    (assign_stack_index cfg c td).1 = t ∧
    ∃ t', t < t' ∧ alloc_ok cfg (assign_stack_index cfg c td).2 t' := by
  obtain ⟨hc, ht, _⟩ := h
  obtain ⟨s, hs⟩ : ∃ s : Nat, cfg.stack_size td = (s : Int) :=
    ⟨(cfg.stack_size td).toNat, by omega⟩
  have hs1 : 1 ≤ s := by rw [hs] at hsize; exact_mod_cast hsize
  have hword : cfg.BVM_STACK_SIZE ≤ WORD := by
    have := hsentinel.1; have := hsentinel.2; omega
  have hlen : c.stack_users.length = cfg.BVM_STACK_SIZE := by rw [hc, filled_length _ _ ht]
  by_cases hfit : t + s ≤ cfg.BVM_STACK_SIZE
  · obtain ⟨h1, h2, _⟩ := assign_stack_index_filled cfg c td t s hs hs1 hword hc hfit
    exact ⟨h1, t + s, by omega, h2, hfit, hfinal⟩
  · have hfail := (find_stack_index_filled cfg c t s hs1 ht hc).2 (by omega)
    rw [← hs] at hfail
    have := assign_stack_index_overrun_of_invalid cfg c td hsentinel hlen hsize hfail
    rw [this] at hfinal
    exact absurd hfinal (by simp)

theorem new_alloc_ok (cfg : Config) (fn : Function) (fem : FunctionEntryMap) :
    alloc_ok cfg { BVMCompiler.new cfg with fn := fn, func_entry_map := fem } 0 :=
  ⟨new_stack_users cfg, Nat.zero_le _, rfl⟩

/-! ## The stack allocator: first fit, exhaustion, assignment -/

/-- C7: for a table of `BVM_STACK_SIZE` slots and a size `≥ 1`, an index other than
`BVM_STACK_INVALID` that `find_stack_index` returns starts a run of `size` free
slots that ends within the capacity, and no smaller offset starts such a run. -/
theorem find_stack_index_first_fit (cfg : Config) (c : BVMCompiler) (size : Int)
    (hlen : c.stack_users.length = cfg.BVM_STACK_SIZE) (hsize : 1 ≤ size)
    (hfound : find_stack_index cfg c size ≠ cfg.BVM_STACK_INVALID) :
    (find_stack_index cfg c size : Int) + size ≤ cfg.BVM_STACK_SIZE ∧
    (∀ k : Nat, find_stack_index cfg c size ≤ k → (k : Int) < find_stack_index cfg c size + size →
      c.stack_users[k]? = some 0) ∧
    ∀ j : Nat, j < find_stack_index cfg c size →
      ¬ (∀ k : Nat, j ≤ k → (k : Int) < j + size → c.stack_users[k]? = some 0) := by
  obtain ⟨s, rfl⟩ : ∃ s : Nat, size = (s : Int) := ⟨size.toNat, by omega⟩
  have hs : 1 ≤ s := by exact_mod_cast hsize
  rcases find_stack_index_spec cfg c s hs hlen with ⟨h1, h2, h3⟩ | ⟨h1, _⟩
  · refine ⟨by exact_mod_cast h1, ?_, ?_⟩
    · intro k hk1 hk2
      exact h2 k hk1 (by exact_mod_cast hk2)
    · intro j hj hfree
      exact h3 j hj (fun k hk1 hk2 => hfree k hk1 (by exact_mod_cast hk2))
  · exact absurd h1 hfound

theorem find_stack_index_first_fit_witness :
    (find_stack_index small_config (compiler_with [1, 0, 1, 0, 0, 1, 0, 0]) 2 = 3) ∧
    ((find_stack_index small_config (compiler_with [1, 0, 1, 0, 0, 1, 0, 0]) 2 : Int) + 2 ≤
        small_config.BVM_STACK_SIZE ∧
      (∀ k : Nat, find_stack_index small_config (compiler_with [1, 0, 1, 0, 0, 1, 0, 0]) 2 ≤ k →
        (k : Int) < find_stack_index small_config (compiler_with [1, 0, 1, 0, 0, 1, 0, 0]) 2 + 2 →
        (compiler_with [1, 0, 1, 0, 0, 1, 0, 0]).stack_users[k]? = some 0) ∧
      ∀ j : Nat, j < find_stack_index small_config (compiler_with [1, 0, 1, 0, 0, 1, 0, 0]) 2 →
        ¬ (∀ k : Nat, j ≤ k → (k : Int) < j + 2 →
          (compiler_with [1, 0, 1, 0, 0, 1, 0, 0]).stack_users[k]? = some 0)) :=
  ⟨by decide,
   find_stack_index_first_fit small_config (compiler_with [1, 0, 1, 0, 0, 1, 0, 0]) 2
     (by decide) (by decide) (by decide)⟩

/-- C8: for a table of `BVM_STACK_SIZE` slots and a size `≥ 1`, `find_stack_index`
returns `BVM_STACK_INVALID` exactly when no offset within the capacity starts a
run of `size` free slots.  The function is total: the failure is the returned
sentinel.  (The sentinel is no offset of the table.) -/
theorem find_stack_index_invalid_iff (cfg : Config) (c : BVMCompiler) (size : Int)
    (hsentinel : cfg.BVM_STACK_SIZE ≤ cfg.BVM_STACK_INVALID)
    (hlen : c.stack_users.length = cfg.BVM_STACK_SIZE) (hsize : 1 ≤ size) :
    find_stack_index cfg c size = cfg.BVM_STACK_INVALID ↔
      ¬ ∃ i : Nat, (i : Int) + size ≤ cfg.BVM_STACK_SIZE ∧
        ∀ k : Nat, i ≤ k → (k : Int) < i + size → c.stack_users[k]? = some 0 := by
  obtain ⟨s, rfl⟩ : ∃ s : Nat, size = (s : Int) := ⟨size.toNat, by omega⟩
  have hs : 1 ≤ s := by exact_mod_cast hsize
  rcases find_stack_index_spec cfg c s hs hlen with ⟨h1, h2, _⟩ | ⟨h1, h2⟩
  · constructor
    · intro h
      omega
    · intro h
      exact absurd ⟨find_stack_index cfg c (s : Int), by exact_mod_cast h1,
        fun k hk1 hk2 => h2 k hk1 (by exact_mod_cast hk2)⟩ h
  · constructor
    · rintro _ ⟨i, _, hfree⟩
      exact h2 i (fun k hk1 hk2 => hfree k hk1 (by exact_mod_cast hk2))
    · intro _
      exact h1

theorem find_stack_index_invalid_iff_witness :
    (small_config.BVM_STACK_SIZE ≤ small_config.BVM_STACK_INVALID) ∧
    (find_stack_index small_config (compiler_with [1, 0, 1, 0, 0, 1, 0, 0]) 3 =
        small_config.BVM_STACK_INVALID ↔
      ¬ ∃ i : Nat, (i : Int) + 3 ≤ small_config.BVM_STACK_SIZE ∧
        ∀ k : Nat, i ≤ k → (k : Int) < i + 3 →
          (compiler_with [1, 0, 1, 0, 0, 1, 0, 0]).stack_users[k]? = some 0) :=
  ⟨by decide,
   find_stack_index_invalid_iff small_config (compiler_with [1, 0, 1, 0, 0, 1, 0, 0]) 3
     (by decide) (by decide) (by decide)⟩

/-- C9: for a table of `BVM_STACK_SIZE` slots and a type of footprint `s ≥ 1` for
which a free run exists, `assign_stack_index` returns the offset `i` that
`find_stack_index s` returns, the counter of every slot in `[i, i+s)` goes up by
exactly one, and the counter of every other slot is unchanged. -/
theorem assign_stack_index_increments (cfg : Config) (c : BVMCompiler) (td : TypeDesc)
    (hsentinel : cfg.sentinel_ok)
    (hlen : c.stack_users.length = cfg.BVM_STACK_SIZE) (hsize : 1 ≤ cfg.stack_size td)
    (hrun : ∃ i : Nat, free_run c.stack_users i (cfg.stack_size td).toNat) :
    (assign_stack_index cfg c td).1 = find_stack_index cfg c (cfg.stack_size td) ∧
    (assign_stack_index cfg c td).1 ≠ cfg.BVM_STACK_INVALID ∧
    (∀ k : Nat, (assign_stack_index cfg c td).1 ≤ k →
      (k : Int) < (assign_stack_index cfg c td).1 + cfg.stack_size td →
      ∃ v, c.stack_users[k]? = some v ∧
        (assign_stack_index cfg c td).2.stack_users[k]? = some (v + 1)) ∧
    (∀ k : Nat, ¬ ((assign_stack_index cfg c td).1 ≤ k ∧
        (k : Int) < (assign_stack_index cfg c td).1 + cfg.stack_size td) →
      (assign_stack_index cfg c td).2.stack_users[k]? = c.stack_users[k]?) := by
  obtain ⟨s, hs⟩ : ∃ s : Nat, cfg.stack_size td = (s : Int) :=
    ⟨(cfg.stack_size td).toNat, by omega⟩
  have hs1 : 1 ≤ s := by rw [hs] at hsize; exact_mod_cast hsize
  obtain ⟨i0, hi0⟩ := hrun
  rw [hs, Int.toNat_ofNat] at hi0
  have hword : cfg.BVM_STACK_SIZE ≤ WORD := by
    have := hsentinel.1; have := hsentinel.2; omega
  rw [assign_stack_index_fst, hs]
  rcases find_stack_index_spec cfg c s hs1 hlen with ⟨h1, h2, _⟩ | ⟨_, h2⟩
  · obtain ⟨_, hk⟩ := assign_stack_index_ok cfg c td s hs hlen hword h1
    refine ⟨rfl, ?_, ?_, ?_⟩
    · have := hsentinel.1
      omega
    · intro k hk1 hk2
      have hk2' : k < find_stack_index cfg c (s : Int) + s := by exact_mod_cast hk2
      refine ⟨0, h2 k hk1 hk2', ?_⟩
      rw [hk k, if_pos ⟨hk1, hk2'⟩, h2 k hk1 hk2']
      rfl
    · intro k hk1
      rw [hk k, if_neg]
      intro h
      exact hk1 ⟨h.1, by exact_mod_cast h.2⟩
  · exact absurd hi0 (h2 i0)

theorem assign_stack_index_increments_witness :
    (small_config.sentinel_ok ∧
      ∃ i : Nat, free_run (compiler_with [1, 0, 1, 0, 0, 0, 1, 0]).stack_users i
        (small_config.stack_size ⟨.BVM_FLOAT3⟩).toNat) ∧
    ((assign_stack_index small_config (compiler_with [1, 0, 1, 0, 0, 0, 1, 0]) ⟨.BVM_FLOAT3⟩).1 = 3 ∧
      (assign_stack_index small_config (compiler_with [1, 0, 1, 0, 0, 0, 1, 0])
        ⟨.BVM_FLOAT3⟩).2.stack_users = [1, 0, 1, 1, 1, 1, 1, 0]) ∧
    ((assign_stack_index small_config (compiler_with [1, 0, 1, 0, 0, 0, 1, 0]) ⟨.BVM_FLOAT3⟩).1 =
        find_stack_index small_config (compiler_with [1, 0, 1, 0, 0, 0, 1, 0])
          (small_config.stack_size ⟨.BVM_FLOAT3⟩) ∧
      (assign_stack_index small_config (compiler_with [1, 0, 1, 0, 0, 0, 1, 0]) ⟨.BVM_FLOAT3⟩).1 ≠
        small_config.BVM_STACK_INVALID ∧
      (∀ k : Nat,
        (assign_stack_index small_config (compiler_with [1, 0, 1, 0, 0, 0, 1, 0]) ⟨.BVM_FLOAT3⟩).1 ≤ k →
        (k : Int) <
          (assign_stack_index small_config (compiler_with [1, 0, 1, 0, 0, 0, 1, 0]) ⟨.BVM_FLOAT3⟩).1 +
            small_config.stack_size ⟨.BVM_FLOAT3⟩ →
        ∃ v, (compiler_with [1, 0, 1, 0, 0, 0, 1, 0]).stack_users[k]? = some v ∧
          (assign_stack_index small_config (compiler_with [1, 0, 1, 0, 0, 0, 1, 0])
            ⟨.BVM_FLOAT3⟩).2.stack_users[k]? = some (v + 1)) ∧
      (∀ k : Nat,
        ¬ ((assign_stack_index small_config (compiler_with [1, 0, 1, 0, 0, 0, 1, 0]) ⟨.BVM_FLOAT3⟩).1 ≤ k ∧
          (k : Int) <
            (assign_stack_index small_config (compiler_with [1, 0, 1, 0, 0, 0, 1, 0]) ⟨.BVM_FLOAT3⟩).1 +
              small_config.stack_size ⟨.BVM_FLOAT3⟩) →
        (assign_stack_index small_config (compiler_with [1, 0, 1, 0, 0, 0, 1, 0])
            ⟨.BVM_FLOAT3⟩).2.stack_users[k]? =
          (compiler_with [1, 0, 1, 0, 0, 0, 1, 0]).stack_users[k]?)) :=
  ⟨⟨by decide, 3, by
      intro k hk1 hk2
      have hk : k = 3 ∨ k = 4 ∨ k = 5 := by
        have : (small_config.stack_size ⟨.BVM_FLOAT3⟩).toNat = 3 := by decide
        omega
      rcases hk with rfl | rfl | rfl <;> rfl⟩,
   ⟨by decide, by decide⟩,
   assign_stack_index_increments small_config (compiler_with [1, 0, 1, 0, 0, 0, 1, 0])
     ⟨.BVM_FLOAT3⟩ (by decide) (by decide) (by decide)
     ⟨3, by
      intro k hk1 hk2
      have hk : k = 3 ∨ k = 4 ∨ k = 5 := by
        have : (small_config.stack_size ⟨.BVM_FLOAT3⟩).toNat = 3 := by decide
        omega
      rcases hk with rfl | rfl | rfl <;> rfl⟩⟩

/-- C10 (the code at the failing input): on a fresh compiler with eight slots and
the all-ones sentinel, two allocations of a three-slot type succeed at offsets 0
and 3; the third one is the first whose cumulative footprint (9) exceeds the
capacity and returns `BVM_STACK_INVALID`, but its loop still runs: it writes
outside the table and raises the counters of the live slots 0 and 1 from 1 to 2. -/
theorem assign_stack_index_exhausted_overwrites :
    (assign_all small_config [⟨.BVM_FLOAT3⟩, ⟨.BVM_FLOAT3⟩] (BVMCompiler.new small_config)).1 =
      [0, 3] ∧
    (assign_all small_config [⟨.BVM_FLOAT3⟩, ⟨.BVM_FLOAT3⟩]
      (BVMCompiler.new small_config)).2.stack_users = [1, 1, 1, 1, 1, 1, 0, 0] ∧
    (assign_stack_index small_config
      (assign_all small_config [⟨.BVM_FLOAT3⟩, ⟨.BVM_FLOAT3⟩] (BVMCompiler.new small_config)).2
      ⟨.BVM_FLOAT3⟩).1 = small_config.BVM_STACK_INVALID ∧
    (assign_stack_index small_config
      (assign_all small_config [⟨.BVM_FLOAT3⟩, ⟨.BVM_FLOAT3⟩] (BVMCompiler.new small_config)).2
      ⟨.BVM_FLOAT3⟩).2.stack_users = [2, 2, 1, 1, 1, 1, 0, 0] ∧
    (assign_stack_index small_config
      (assign_all small_config [⟨.BVM_FLOAT3⟩, ⟨.BVM_FLOAT3⟩] (BVMCompiler.new small_config)).2
      ⟨.BVM_FLOAT3⟩).2.stack_overrun = true := by
  decide

/-! ## Basic facts about the emitter -/

@[simp] theorem emit_fn (c : BVMCompiler) (v : Instruction) :
    (c.emit v).fn = c.fn.add_instruction v := rfl

@[simp] theorem emit_stack_users (c : BVMCompiler) (v : Instruction) :
    (c.emit v).stack_users = c.stack_users := rfl

@[simp] theorem emit_func_entry_map (c : BVMCompiler) (v : Instruction) :
    (c.emit v).func_entry_map = c.func_entry_map := rfl

@[simp] theorem emit_stack_overrun (c : BVMCompiler) (v : Instruction) :
    (c.emit v).stack_overrun = c.stack_overrun := rfl

@[simp] theorem add_instruction_instructions (fn : Function) (v : Instruction) :
    (fn.add_instruction v).instructions = fn.instructions ++ [v] := rfl

@[simp] theorem add_instruction_entry_point (fn : Function) (v : Instruction) :
    (fn.add_instruction v).entry_point = fn.entry_point := rfl

@[simp] theorem add_instruction_return_values (fn : Function) (v : Instruction) :
    (fn.add_instruction v).return_values = fn.return_values := rfl

theorem push_stack_index_of_ne (cfg : Config) (c : BVMCompiler) (arg : Nat)
    (h : arg ≠ cfg.BVM_STACK_INVALID) : push_stack_index cfg c arg = c.emit (.data arg) := by
  unfold push_stack_index; rw [if_pos h]

theorem push_stack_index_invalid (cfg : Config) (c : BVMCompiler) :
    push_stack_index cfg c cfg.BVM_STACK_INVALID = c := by
  unfold push_stack_index; simp

theorem map_find_set {K V : Type} [DecidableEq K] (m : List (K × V)) (k k' : K) (v : V) :
    Map.find (Map.set m k v) k' = if k = k' then some v else Map.find m k' := by
  induction m with
  | nil => simp [Map.set, Map.find]
  | cons e m ih =>
    obtain ⟨k0, v0⟩ := e
    unfold Map.set
    by_cases h : k0 = k
    · subst h
      rw [if_pos rfl]
      unfold Map.find
      by_cases h' : k0 = k'
      · rw [if_pos h', if_pos h']
      · rw [if_neg h', if_neg h', if_neg h']
    · rw [if_neg h]
      unfold Map.find
      by_cases h' : k0 = k'
      · subst h'
        rw [if_pos rfl, if_pos rfl, if_neg (fun e => h e.symm)]
      · rw [if_neg h', if_neg h', ih]

/-! ## Bit patterns of the two float constants of the scenarios -/

/-- The only 32-bit pattern that decodes to 3.5 is `0x40600000`. -/
theorem float_three_and_a_half (f : float) (hb : f.bits < 2 ^ 32) (h : f.toRat = some (7 / 2)) :
    f.bits = 0x40600000 := by
  unfold float.toRat at h
  simp only at h
  have hm : f.bits % 2 ^ 23 < 2 ^ 23 := Nat.mod_lt _ (by norm_num)
  have he : f.bits / 2 ^ 23 % 2 ^ 8 < 2 ^ 8 := Nat.mod_lt _ (by norm_num)
  have hmq : ((f.bits % 2 ^ 23 : Nat) : ℚ) < 2 ^ 23 := by exact_mod_cast hm
  have hmq0 : (0 : ℚ) ≤ ((f.bits % 2 ^ 23 : Nat) : ℚ) := by positivity
  generalize hmdef : f.bits % 2 ^ 23 = m at h hm hmq hmq0
  generalize hedef : f.bits / 2 ^ 23 % 2 ^ 8 = e at h he
  split_ifs at h with h1 h2 h3 h4 h5 h6
  all_goals simp only [Option.some.injEq] at h
  · -- e = 0, negative
    exfalso
    have : (-1 : ℚ) * (m : ℚ) / 2 ^ 149 ≤ 0 := by
      apply div_nonpos_of_nonpos_of_nonneg <;> [nlinarith; positivity]
    linarith
  · exfalso
    have : (1 : ℚ) * (m : ℚ) / 2 ^ 149 < 7 / 2 := by
      rw [div_lt_iff₀ (by positivity)]
      have : (2:ℚ)^23 ≤ 7 / 2 * 2 ^ 149 := by norm_num
      linarith
    linarith
  · exfalso
    have : (-1 : ℚ) * (2 ^ 23 + (m : ℚ)) * 2 ^ (e - 127) / 2 ^ 23 ≤ 0 := by
      apply div_nonpos_of_nonpos_of_nonneg
      · have : (0:ℚ) ≤ (2 ^ 23 + (m : ℚ)) * 2 ^ (e - 127) := by positivity
        linarith
      · positivity
    linarith
  · -- positive, 127 ≤ e
    have hs : f.bits / 2 ^ 31 = 0 := by omega
    rw [div_eq_iff (by positivity)] at h
    obtain ⟨k, hk⟩ : ∃ k, e = 127 + k := ⟨e - 127, by omega⟩
    subst hk
    simp only [Nat.add_sub_cancel_left] at h
    rcases k with _ | _ | k
    · exfalso; norm_num at h; linarith
    · have hmv : (m : ℚ) = 6291456 := by norm_num at h; linarith
      have hmn : m = 6291456 := by exact_mod_cast hmv
      omega
    · exfalso
      have h4 : (4 : ℚ) ≤ 2 ^ (k + 1 + 1) := by
        have : (2 : ℚ) ^ 2 ≤ 2 ^ (k + 1 + 1) := pow_le_pow_right₀ (by norm_num) (by omega)
        linarith
      have : (2 : ℚ) ^ 23 * 4 ≤ (2 ^ 23 + (m : ℚ)) * 2 ^ (k + 1 + 1) := by
        apply mul_le_mul <;> [linarith; exact h4; norm_num; positivity]
      norm_num at h this
      linarith
  · exfalso
    have : (-1 : ℚ) * (2 ^ 23 + (m : ℚ)) / 2 ^ (127 - e) / 2 ^ 23 ≤ 0 := by
      apply div_nonpos_of_nonpos_of_nonneg
      · apply div_nonpos_of_nonpos_of_nonneg <;> [linarith; positivity]
      · positivity
    linarith
  · exfalso
    have h1e : (1 : ℚ) ≤ 2 ^ (127 - e) := one_le_pow₀ (by norm_num)
    have : (1 : ℚ) * (2 ^ 23 + (m : ℚ)) / 2 ^ (127 - e) / 2 ^ 23 < 7 / 2 := by
      rw [div_lt_iff₀ (by positivity), div_lt_iff₀ (by positivity)]
      have : (2 : ℚ) ^ 23 * 2 * 1 ≤ 7 / 2 * 2 ^ 23 * 2 ^ (127 - e) := by
        have : (7 / 2 * 2 ^ 23 : ℚ) * 1 ≤ 7 / 2 * 2 ^ 23 * 2 ^ (127 - e) :=
          mul_le_mul_of_nonneg_left h1e (by positivity)
        linarith
      linarith
    linarith

/-- C1: on a fresh compiler, a graph with one node whose type maps to
`OP_VALUE_FLOAT`, with one constant float input whose 32-bit word decodes to 3.5
and one float output that is the graph output named "result", compiles to the
stream `[OP_VALUE_FLOAT, 0x40600000, 0, OP_END]` with entry point 0 and the
single return binding (float, "result", slot 0). -/
theorem codegen_scenario_float_constant (cfg : Config) (addr : Nat → Nat) (g : NodeGraph)
    (node : NodeInstance) (input output : NodeSocket) (value : float)
    (hbits : value.bits < WORD) (hdecode : value.toRat = some (7 / 2))
    (hnodes : g.nodes = [node])
    (hinputs : node.type.inputs = [input]) (houtputs : node.type.outputs = [output])
    (hconst : input.value_type = .VALUE_CONSTANT)
    (hvalue : node.inputs = [⟨none, some (.float value)⟩])
    (hfloat : output.typedesc = ⟨.BVM_FLOAT⟩)
    (hop : cfg.get_opcode_from_node_type node.type.name = .OP_VALUE_FLOAT)
    (hresult : g.outputs = [⟨"result", ⟨some 0, output.name⟩⟩])
    (hsentinel : cfg.sentinel_ok)
    (hsize : 1 ≤ cfg.stack_size ⟨.BVM_FLOAT⟩)
    (hcap : cfg.stack_size ⟨.BVM_FLOAT⟩ ≤ cfg.BVM_STACK_SIZE) :
    ∃ c, codegen_function cfg addr g (BVMCompiler.new cfg) =
      .ok (⟨[.opcode .OP_VALUE_FLOAT, .data 0x40600000, .data 0, .opcode .OP_END], 0,
            [⟨⟨.BVM_FLOAT⟩, "result", 0⟩]⟩, c) := by
  have hpattern : value = ⟨0x40600000⟩ := by
    have h := float_three_and_a_half value hbits hdecode
    cases value
    simpa using h
  subst hpattern
  obtain ⟨s, hs⟩ : ∃ s : Nat, cfg.stack_size ⟨.BVM_FLOAT⟩ = (s : Int) :=
    ⟨(cfg.stack_size ⟨.BVM_FLOAT⟩).toNat, by omega⟩
  have hs1 : 1 ≤ s := by rw [hs] at hsize; exact_mod_cast hsize
  have hs2 : s ≤ cfg.BVM_STACK_SIZE := by rw [hs] at hcap; exact_mod_cast hcap
  have hword : cfg.BVM_STACK_SIZE ≤ WORD := by
    have := hsentinel.1; have := hsentinel.2; omega
  have hinv : (0 : Nat) ≠ cfg.BVM_STACK_INVALID := by
    have := hsentinel.1; omega
  have hnode : g.node 0 = some node := by simp [NodeGraph.node, hnodes]
  have hids : g.node_ids = [0] := by simp [NodeGraph.node_ids, hnodes, List.range_succ]
  have his : node.input_sockets = [(input, ⟨none, some (.float ⟨0x40600000⟩)⟩)] := by
    simp [NodeInstance.input_sockets, hinputs, hvalue, zip_inputs]
  have hsort : sort_graph_nodes cfg g (BVMCompiler.new cfg) = some ([0], BVMCompiler.new cfg) := by
    simp [sort_graph_nodes, sort_graph_nodes.loop, hids, graph_node_append, hnode, his,
      graph_node_append.inputs, hconst, BVMCompiler.new]
  have hmain : codegen_function.main_outputs cfg g [⟨"result", ⟨some 0, output.name⟩⟩] =
      .ok [⟨⟨some 0, output.name⟩, output.default_value, cfg.BVM_STACK_INVALID⟩] := by
    simp [codegen_function.main_outputs, hnode, NodeType.find_output, houtputs]
  have ha1 : ∀ c : BVMCompiler, c.stack_users = filled cfg.BVM_STACK_SIZE 0 →
      (assign_stack_index cfg c ⟨.BVM_FLOAT⟩).1 = 0 := fun c hc =>
    (assign_stack_index_filled cfg c ⟨.BVM_FLOAT⟩ 0 s hs hs1 hword hc (by omega)).1
  have hfem : (BVMCompiler.new cfg).func_entry_map = [] := rfl
  simp [codegen_function, hsort, hfem, FunctionEntryMap.iteration, codegen_function.kernels, hmain,
    codegen_subgraph, codegen_subgraph.nodes, codegen_subgraph.node, hnode, hop, his,
    codegen_subgraph.prepare_inputs, Map.find, hconst, houtputs, codegen_subgraph.init_outputs,
    hfloat, ptr_init_opcode, codegen_subgraph.write_inputs, codegen_subgraph.write_outputs,
    codegen_subgraph.release_inputs, Map.set, ha1, push_stack_index_of_ne _ _ _ hinv,
    codegen_subgraph.resolve_outputs, hresult, codegen_function.return_values,
    NodeType.find_output, codegen_constant, push_float, push_opcode, Function.set_entry_point,
    Function.add_return_value, Function.get_instruction_count, assign_stack_index_fn,
    new_stack_users, Function.new,
    float_to_instruction, WORD, Function.add_instruction]

theorem codegen_scenario_float_constant_witness :
    (small_config.sentinel_ok ∧
      small_config.get_opcode_from_node_type float_constant_type.name = .OP_VALUE_FLOAT ∧
      float.toRat ⟨0x40600000⟩ = some (7 / 2)) ∧
    (∃ c, codegen_function small_config id scenario_constant (BVMCompiler.new small_config) =
        .ok (⟨[.opcode .OP_VALUE_FLOAT, .data 0x40600000, .data 0, .opcode .OP_END], 0,
              [⟨⟨.BVM_FLOAT⟩, "result", 0⟩]⟩, c)) :=
  ⟨⟨by decide, by decide, by norm_num [float.toRat]⟩,
   codegen_scenario_float_constant small_config id scenario_constant
     ⟨float_constant_type, [⟨none, some (.float ⟨0x40600000⟩)⟩]⟩
     ⟨"value", ⟨.BVM_FLOAT⟩, some (.float ⟨0⟩), .VALUE_CONSTANT⟩
     ⟨"value", ⟨.BVM_FLOAT⟩, some (.float ⟨0⟩), .VALUE_VARIABLE⟩ ⟨0x40600000⟩
     (by decide) (by norm_num [float.toRat])
     rfl rfl rfl rfl rfl rfl (by decide) rfl (by decide) (by decide) (by decide)⟩

theorem sort_step_refl (st : SortState) : st.step st :=
  ⟨fun _ h => h, ⟨[], by simp⟩, fun _ => Iff.rfl⟩

theorem sort_step_trans {a b c : SortState} (h1 : a.step b) (h2 : b.step c) : a.step c := by
  obtain ⟨v1, ⟨l1, e1⟩, g1⟩ := h1
  obtain ⟨v2, ⟨l2, e2⟩, g2⟩ := h2
  refine ⟨fun x h => v2 x (v1 x h), ⟨l1 ++ l2, by rw [e2, e1, List.append_assoc]⟩, fun x => ?_⟩
  rw [g2 x, g1 x]

/-- The loop over the inputs keeps what every recursive call keeps. -/
theorem graph_node_append_inputs_step (cfg : Config)
    (visit : Nat → SortState → Option SortState) (node : Nat)
    (hvisit : ∀ m st st', visit m st = some st' → st.good → st'.good ∧ st.step st') :
    ∀ (inputs : List (NodeSocket × InputInstance)) (st st' : SortState),
      graph_node_append.inputs cfg visit node inputs st = some st' → st.good →
      st'.good ∧ st.step st' := by
  intro inputs
  induction inputs with
  | nil =>
    intro st st' h hg
    simp only [graph_node_append.inputs, Option.some.injEq] at h
    subst h
    exact ⟨hg, sort_step_refl _⟩
  | cons inp rest ih =>
    intro st st' h hg
    obtain ⟨socket, inst⟩ := inp
    unfold graph_node_append.inputs at h
    split at h
    · obtain ⟨h1, h2⟩ := ih _ _ h hg
      exact ⟨h1, h2⟩
    · split at h
      · rename_i link_node _ hl
        split at h
        · exact absurd h (by simp)
        · rename_i st1 hv
          obtain ⟨g1, s1⟩ := hvisit _ _ _ hv hg
          obtain ⟨g2, s2⟩ := ih _ _ h g1
          exact ⟨g2, sort_step_trans s1 s2⟩
      · exact ih _ _ h hg

/-- What a call of `graph_node_append` that returns does to the state. -/
theorem graph_node_append_step (cfg : Config) (g : NodeGraph) :
    ∀ (fuel node : Nat) (st st' : SortState),
      graph_node_append cfg g fuel node st = some st' → st.good →
      st'.good ∧ st.step st' := by
  intro fuel
  induction fuel with
  | zero => intro node st st' h; simp [graph_node_append] at h
  | succ fuel ih =>
    intro node st st' h hg
    unfold graph_node_append at h
    split at h
    · simp only [Option.some.injEq] at h
      subst h
      exact ⟨hg, sort_step_refl _⟩
    · rename_i hnv
      split at h
      · exact absurd h (by simp)
      · rename_i inst hnode
        split at h
        · exact absurd h (by simp)
        · rename_i st1 hloop
          simp only [Option.some.injEq] at h
          subst h
          have hns : node ∉ st.sorted_nodes := fun hm => hnv (hg.1 _ hm)
          have hg0 : SortState.good { st with visited := node :: st.visited } :=
            ⟨fun x hx => List.mem_cons_of_mem _ (hg.1 x hx), hg.2⟩
          obtain ⟨⟨g1, g2⟩, v1, ⟨l, e1⟩, o1⟩ :=
            graph_node_append_inputs_step cfg (graph_node_append cfg g fuel) node
              (fun m a b hab ha => ih m a b hab ha) _ _ _ hloop hg0
          have hopen : st1.open_node node := (o1 node).2 ⟨List.mem_cons_self _ _, hns⟩
          refine ⟨⟨?_, ?_⟩, ?_, ?_, ?_⟩
          · intro x hx
            rcases List.mem_append.1 hx with hx | hx
            · exact g1 x hx
            · rw [List.mem_singleton] at hx
              subst hx
              exact hopen.1
          · exact List.nodup_append.2 ⟨g2, List.nodup_singleton _, by
              intro a ha hb
              rw [List.mem_singleton] at hb
              subst hb
              exact hopen.2 ha⟩
          · intro x hx
            exact v1 x (List.mem_cons_of_mem _ hx)
          · exact ⟨l ++ [node], by simp [e1]⟩
          · intro x
            simp only [SortState.open_node, List.mem_append, List.mem_singleton, not_or]
            have := o1 x
            simp only [SortState.open_node, List.mem_cons] at this
            constructor
            · rintro ⟨hx1, hx2, hx3⟩
              have := this.1 ⟨hx1, hx2⟩
              rcases this.1 with h | h
              · exact absurd h hx3
              · exact ⟨h, this.2⟩
            · rintro ⟨hx1, hx2⟩
              have hne : x ≠ node := fun e => hnv (e ▸ hx1)
              have := this.2 ⟨Or.inr hx1, hx2⟩
              exact ⟨this.1, this.2, hne⟩

theorem unvisited_le (g : NodeGraph) (v : NodeSet) : unvisited g v ≤ g.nodes.length := by
  unfold unvisited
  exact (List.length_filter_le _ _).trans (by simp)

theorem unvisited_mono (g : NodeGraph) (v v' : NodeSet) (h : ∀ x, x ∈ v → x ∈ v') :
    unvisited g v' ≤ unvisited g v := by
  unfold unvisited
  apply List.Sublist.length_le
  apply List.monotone_filter_right
  intro x hx
  simp only [decide_eq_true_eq] at hx ⊢
  exact fun hm => hx (h x hm)

theorem unvisited_cons_lt (g : NodeGraph) (v : NodeSet) (n : Nat) (hn : n < g.nodes.length)
    (hv : n ∉ v) : unvisited g (n :: v) < unvisited g v := by
  unfold unvisited
  have hsub : ∀ l : List Nat, n ∈ l →
      (l.filter (fun x => x ∉ n :: v)).length < (l.filter (fun x => x ∉ v)).length := by
    intro l
    induction l with
    | nil => intro h; simp at h
    | cons a l ih =>
      intro h
      by_cases ha : a = n
      · subst ha
        have h1 : (List.filter (fun x => decide (x ∉ a :: v)) (a :: l)) =
            List.filter (fun x => decide (x ∉ a :: v)) l := by
          rw [List.filter_cons_of_neg]; simp
        have h2 : (List.filter (fun x => decide (x ∉ v)) (a :: l)) =
            a :: List.filter (fun x => decide (x ∉ v)) l := by
          rw [List.filter_cons_of_pos]; simpa using hv
        rw [h1, h2, List.length_cons]
        have : (List.filter (fun x => decide (x ∉ a :: v)) l).length ≤
            (List.filter (fun x => decide (x ∉ v)) l).length := by
          apply List.Sublist.length_le
          apply List.monotone_filter_right
          intro x hx
          simp only [decide_eq_true_eq, List.mem_cons, not_or] at hx ⊢
          exact hx.2
        omega
      · have hl : n ∈ l := by
          rcases List.mem_cons.1 h with h | h
          · exact absurd h.symm ha
          · exact h
        have := ih hl
        by_cases hav : a ∈ v
        · rw [List.filter_cons_of_neg (by simp [hav]),
            List.filter_cons_of_neg (by simpa using hav)]
          exact this
        · rw [List.filter_cons_of_pos (by simp [ha, hav]),
            List.filter_cons_of_pos (by simpa using hav), List.length_cons, List.length_cons]
          omega
  exact hsub _ (List.mem_range.2 hn)

/-- The loop over the inputs returns when every recursive call does. -/
theorem graph_node_append_inputs_returns (cfg : Config) (g : NodeGraph)
    (visit : Nat → SortState → Option SortState) (node bound : Nat)
    (hvisit : ∀ m st, m < g.nodes.length → (∀ x, x ∈ st.visited → x < g.nodes.length) →
      unvisited g st.visited < bound →
      ∃ st', visit m st = some st' ∧ (∀ x, x ∈ st.visited → x ∈ st'.visited) ∧
        ∀ x, x ∈ st'.visited → x < g.nodes.length) :
    ∀ (inputs : List (NodeSocket × InputInstance)) (st : SortState),
      (∀ inp ∈ inputs, ∀ m s, inp.2.link = some (m, s) → m < g.nodes.length) →
      (∀ x, x ∈ st.visited → x < g.nodes.length) → unvisited g st.visited < bound →
      ∃ st', graph_node_append.inputs cfg visit node inputs st = some st' ∧
        (∀ x, x ∈ st.visited → x ∈ st'.visited) ∧
        ∀ x, x ∈ st'.visited → x < g.nodes.length := by
  intro inputs
  induction inputs with
  | nil =>
    intro st _ hr _
    exact ⟨st, rfl, fun _ h => h, hr⟩
  | cons inp rest ih =>
    intro st hl hr hb
    obtain ⟨socket, inst⟩ := inp
    have hl' : ∀ inp ∈ rest, ∀ m s, inp.2.link = some (m, s) → m < g.nodes.length :=
      fun inp hi => hl inp (List.mem_cons_of_mem _ hi)
    unfold graph_node_append.inputs
    split
    · exact ih _ hl' hr hb
    · split
      · rename_i link_node s hlink
        have hm : link_node < g.nodes.length := hl _ (List.mem_cons_self _ _) _ _ hlink
        obtain ⟨st1, e1, v1, r1⟩ := hvisit link_node st hm hr hb
        rw [e1]
        obtain ⟨st2, e2, v2, r2⟩ := ih st1 hl' r1
          (lt_of_le_of_lt (unvisited_mono g _ _ v1) hb)
        exact ⟨st2, e2, fun x hx => v2 x (v1 x hx), r2⟩
      · exact ih _ hl' hr hb

/-- `graph_node_append` returns when its bound exceeds the number of nodes that
are not visited yet. -/
theorem graph_node_append_returns (cfg : Config) (g : NodeGraph) (hclosed : g.closed) :
    ∀ (fuel node : Nat) (st : SortState), node < g.nodes.length →
      (∀ x, x ∈ st.visited → x < g.nodes.length) → unvisited g st.visited < fuel →
      ∃ st', graph_node_append cfg g fuel node st = some st' ∧
        (∀ x, x ∈ st.visited → x ∈ st'.visited) ∧
        ∀ x, x ∈ st'.visited → x < g.nodes.length := by
  intro fuel
  induction fuel with
  | zero => intro node st _ _ h; omega
  | succ fuel ih =>
    intro node st hn hr hb
    unfold graph_node_append
    split
    · exact ⟨st, rfl, fun _ h => h, hr⟩
    · rename_i hnv
      obtain ⟨inst, hinst⟩ : ∃ inst, g.node node = some inst :=
        ⟨g.nodes[node], by simp [NodeGraph.node, List.getElem?_eq_getElem hn]⟩
      rw [hinst]
      simp only
      have hlt := unvisited_cons_lt g st.visited node hn hnv
      obtain ⟨st1, e1, v1, r1⟩ := graph_node_append_inputs_returns cfg g
        (graph_node_append cfg g fuel) node fuel ih inst.input_sockets
        { st with visited := node :: st.visited }
        (fun inp hi m s hl => hclosed node m ⟨inst, hinst, inp, hi, s, hl⟩)
        (by
          intro x hx
          rcases List.mem_cons.1 hx with h | h
          · exact h ▸ hn
          · exact hr x h)
        (by simp only; omega)
      rw [e1]
      exact ⟨_, rfl, fun x hx => v1 x (List.mem_cons_of_mem _ hx), r1⟩

theorem follows_linked (g : NodeGraph) (n m : Nat) (h : g.follows n m) : g.linked n m := by
  obtain ⟨inst, h1, inp, h2, _, s, h3⟩ := h
  exact ⟨inst, h1, inp, h2, s, h3⟩

theorem acyclic_follows (g : NodeGraph) (h : g.acyclic) (n : Nat) :
    ¬ Relation.TransGen g.follows n n :=
  fun ht => h n (Relation.TransGen.mono (follows_linked g) ht)

/-- The loop over the inputs of `node`, in an acyclic graph: afterwards the list
is still in source-first order and holds the sources of all followed links. -/
theorem graph_node_append_inputs_sources (cfg : Config) (g : NodeGraph)
    (visit : Nat → SortState → Option SortState) (node : Nat)
    (hstep : ∀ m st st', visit m st = some st' → st.good → st'.good ∧ st.step st')
    (hvisit : ∀ m st st', visit m st = some st' → st.good → sources_first g st.sorted_nodes →
      (∀ x, st.open_node x → Relation.TransGen g.follows x m) →
      sources_first g st'.sorted_nodes ∧ m ∈ st'.sorted_nodes) :
    ∀ (inputs : List (NodeSocket × InputInstance)) (st st' : SortState),
      graph_node_append.inputs cfg visit node inputs st = some st' → st.good →
      sources_first g st.sorted_nodes →
      (∀ x, st.open_node x → x = node ∨ Relation.TransGen g.follows x node) →
      (∀ inp ∈ inputs, inp.1.value_type ≠ .VALUE_FUNCTION → ∀ m s,
        inp.2.link = some (m, s) → g.follows node m) →
      sources_first g st'.sorted_nodes ∧
      ∀ inp ∈ inputs, inp.1.value_type ≠ .VALUE_FUNCTION → ∀ m s,
        inp.2.link = some (m, s) → m ∈ st'.sorted_nodes := by
  intro inputs
  induction inputs with
  | nil =>
    intro st st' h _ hs _ _
    simp only [graph_node_append.inputs, Option.some.injEq] at h
    subst h
    exact ⟨hs, fun inp hi => absurd hi (List.not_mem_nil _)⟩
  | cons inp rest ih =>
    intro st st' h hg hs hopen hfol
    obtain ⟨socket, inst⟩ := inp
    have hfol' : ∀ inp ∈ rest, inp.1.value_type ≠ .VALUE_FUNCTION → ∀ m s,
        inp.2.link = some (m, s) → g.follows node m :=
      fun inp hi => hfol inp (List.mem_cons_of_mem _ hi)
    unfold graph_node_append.inputs at h
    split at h
    · rename_i hfun
      obtain ⟨h1, h2⟩ := ih _ _ h hg hs hopen hfol'
      refine ⟨h1, fun inp hi hne m s hl => ?_⟩
      rcases List.mem_cons.1 hi with e | hi
      · subst e
        exact absurd hfun hne
      · exact h2 inp hi hne m s hl
    · rename_i hfun
      split at h
      · rename_i link_node s0 hlink
        split at h
        · exact absurd h (by simp)
        · rename_i st1 hv
          have hf : g.follows node link_node :=
            hfol _ (List.mem_cons_self _ _) hfun _ _ hlink
          obtain ⟨g1, s1⟩ := hstep _ _ _ hv hg
          obtain ⟨o1, m1⟩ := hvisit _ _ _ hv hg hs (by
            intro x hx
            rcases hopen x hx with e | ht
            · subst e
              exact Relation.TransGen.single hf
            · exact Relation.TransGen.tail ht hf)
          obtain ⟨h1, h2⟩ := ih _ _ h g1 o1
            (fun x hx => hopen x ((s1.2.2 x).1 hx)) hfol'
          obtain ⟨_, ⟨_, ⟨l, el⟩, _⟩⟩ := graph_node_append_inputs_step cfg visit node hstep _ _ _ h g1
          refine ⟨h1, fun inp hi hne m s hl => ?_⟩
          rcases List.mem_cons.1 hi with e | hi
          · subst e
            simp only at hl
            rw [hlink] at hl
            simp only [Option.some.injEq, Prod.mk.injEq] at hl
            rw [← hl.1, el]
            exact List.mem_append_left _ m1
          · exact h2 inp hi hne m s hl
      · rename_i hlink
        obtain ⟨h1, h2⟩ := ih _ _ h hg hs hopen hfol'
        refine ⟨h1, fun inp hi hne m s hl => ?_⟩
        rcases List.mem_cons.1 hi with e | hi
        · subst e
          simp only at hl
          rw [hlink] at hl
          exact absurd hl (by simp)
        · exact h2 inp hi hne m s hl

theorem sources_first_append (g : NodeGraph) (l : List Nat) (node : Nat)
    (hl : sources_first g l) (hnode : ∀ M, g.follows node M → M ∈ l) :
    sources_first g (l ++ [node]) := by
  intro j N M hj hf
  by_cases hlt : j < l.length
  · rw [List.getElem?_append_left hlt] at hj
    obtain ⟨i, hi, he⟩ := hl j N M hj hf
    exact ⟨i, hi, by rw [List.getElem?_append_left (by omega)]; exact he⟩
  · rw [List.getElem?_append_right (by omega)] at hj
    have hj0 : j - l.length = 0 := by
      by_contra hne
      rw [List.getElem?_eq_none (by simp; omega)] at hj
      exact absurd hj (by simp)
    rw [hj0] at hj
    simp only [List.getElem?_cons_zero, Option.some.injEq] at hj
    subst hj
    obtain ⟨i, hi, he⟩ := List.getElem_of_mem (hnode M hf)
    exact ⟨i, by omega, by rw [List.getElem?_append_left hi, List.getElem?_eq_getElem hi, he]⟩

/-- In an acyclic graph a call of `graph_node_append` keeps the list in
source-first order and leaves the node in the list. -/
theorem graph_node_append_sources (cfg : Config) (g : NodeGraph) (hacyclic : g.acyclic) :
    ∀ (fuel node : Nat) (st st' : SortState),
      graph_node_append cfg g fuel node st = some st' → st.good →
      sources_first g st.sorted_nodes →
      (∀ x, st.open_node x → Relation.TransGen g.follows x node) →
      sources_first g st'.sorted_nodes ∧ node ∈ st'.sorted_nodes := by
  intro fuel
  induction fuel with
  | zero => intro node st st' h; simp [graph_node_append] at h
  | succ fuel ih =>
    intro node st st' h hg hs hopen
    unfold graph_node_append at h
    split at h
    · rename_i hv
      simp only [Option.some.injEq] at h
      subst h
      refine ⟨hs, ?_⟩
      by_contra hns
      exact acyclic_follows g hacyclic node (hopen node ⟨hv, hns⟩)
    · rename_i hnv
      split at h
      · exact absurd h (by simp)
      · rename_i inst hnode
        split at h
        · exact absurd h (by simp)
        · rename_i st1 hloop
          simp only [Option.some.injEq] at h
          subst h
          have hg0 : SortState.good { st with visited := node :: st.visited } :=
            ⟨fun x hx => List.mem_cons_of_mem _ (hg.1 x hx), hg.2⟩
          obtain ⟨h1, h2⟩ := graph_node_append_inputs_sources cfg g
            (graph_node_append cfg g fuel) node
            (fun m a b hab ha => graph_node_append_step cfg g fuel m a b hab ha)
            (fun m a b hab ha hb hc => ih m a b hab ha hb hc)
            inst.input_sockets _ _ hloop hg0 hs
            (by
              intro x hx
              simp only [SortState.open_node, List.mem_cons] at hx
              rcases hx.1 with e | hv
              · exact Or.inl e
              · exact Or.inr (hopen x ⟨hv, hx.2⟩))
            (fun inp hi hne m s hl => ⟨inst, hnode, inp, hi, hne, s, hl⟩)
          refine ⟨sources_first_append g _ node h1 ?_, by simp⟩
          rintro M ⟨inst', hn', inp, hi, hne, s, hl⟩
          rw [hnode] at hn'
          simp only [Option.some.injEq] at hn'
          subst hn'
          exact h2 inp hi hne M s hl

/-- The loop of `sort_graph_nodes` on an acyclic graph. -/
theorem sort_graph_nodes_loop_sources (cfg : Config) (g : NodeGraph) (hclosed : g.closed)
    (hacyclic : g.acyclic) :
    ∀ (ids : List Nat) (st : SortState), (∀ n ∈ ids, n < g.nodes.length) → st.good →
      (∀ x, ¬ st.open_node x) → sources_first g st.sorted_nodes →
      (∀ x, x ∈ st.visited → x < g.nodes.length) →
      ∃ st', sort_graph_nodes.loop cfg g ids st = some st' ∧ st'.good ∧
        (∀ x, ¬ st'.open_node x) ∧ sources_first g st'.sorted_nodes ∧
        (∀ n ∈ ids, n ∈ st'.sorted_nodes) ∧
        (∀ x, x ∈ st.sorted_nodes → x ∈ st'.sorted_nodes) := by
  intro ids
  induction ids with
  | nil =>
    intro st _ hg ho hs _
    exact ⟨st, rfl, hg, ho, hs, fun n hn => absurd hn (List.not_mem_nil _), fun _ h => h⟩
  | cons n rest ih =>
    intro st hids hg ho hs hr
    have hn : n < g.nodes.length := hids n (List.mem_cons_self _ _)
    obtain ⟨st1, e1, _, r1⟩ := graph_node_append_returns cfg g hclosed (g.nodes.length + 1) n st hn hr
      (Nat.lt_succ_of_le (unvisited_le g _))
    obtain ⟨g1, s1⟩ := graph_node_append_step cfg g _ _ _ _ e1 hg
    obtain ⟨o1, m1⟩ := graph_node_append_sources cfg g hacyclic _ _ _ _ e1 hg hs
      (fun x hx => absurd hx (ho x))
    obtain ⟨st2, e2, g2, o2, s2, m2, p2⟩ := ih st1
      (fun k hk => hids k (List.mem_cons_of_mem _ hk)) g1
      (fun x hx => ho x ((s1.2.2 x).1 hx)) o1 r1
    refine ⟨st2, ?_, g2, o2, s2, ?_, ?_⟩
    · unfold sort_graph_nodes.loop
      rw [e1]
      exact e2
    · intro k hk
      rcases List.mem_cons.1 hk with e | hk
      · subst e
        exact p2 _ m1
      · exact m2 k hk
    · intro x hx
      obtain ⟨l, el⟩ := s1.2.1
      exact p2 x (by rw [el]; exact List.mem_append_left _ hx)

/-- A graph whose links all go from a node to a node of higher rank is acyclic. -/
theorem acyclic_of_rank (g : NodeGraph) (rank : Nat → Nat)
    (h : ∀ n m, g.linked n m → rank n < rank m) : g.acyclic := by
  have key : ∀ n m, Relation.TransGen g.linked n m → rank n < rank m := by
    intro n m ht
    induction ht with
    | single hl => exact h _ _ hl
    | tail _ hl ih => exact lt_trans ih (h _ _ hl)
  intro n ht
  exact lt_irrefl _ (key n n ht)

/-- The loop over the inputs keeps the visited set inside the graph. -/
theorem graph_node_append_inputs_range (cfg : Config) (g : NodeGraph)
    (visit : Nat → SortState → Option SortState) (node : Nat)
    (hvisit : ∀ m st st', visit m st = some st' →
      (∀ x, x ∈ st.visited → x < g.nodes.length) → ∀ x, x ∈ st'.visited → x < g.nodes.length) :
    ∀ (inputs : List (NodeSocket × InputInstance)) (st st' : SortState),
      graph_node_append.inputs cfg visit node inputs st = some st' →
      (∀ x, x ∈ st.visited → x < g.nodes.length) → ∀ x, x ∈ st'.visited → x < g.nodes.length := by
  intro inputs
  induction inputs with
  | nil =>
    intro st st' h hr
    simp only [graph_node_append.inputs, Option.some.injEq] at h
    rw [← h]
    exact hr
  | cons inp rest ih =>
    intro st st' h hr
    obtain ⟨socket, inst⟩ := inp
    unfold graph_node_append.inputs at h
    split at h
    · exact ih _ _ h hr
    · split at h
      · split at h
        · exact absurd h (by simp)
        · rename_i st1 hv
          exact ih _ _ h (hvisit _ _ _ hv hr)
      · exact ih _ _ h hr

/-- A call of `graph_node_append` that returns keeps the visited set inside the
graph. -/
theorem graph_node_append_range (cfg : Config) (g : NodeGraph) :
    ∀ (fuel node : Nat) (st st' : SortState),
      graph_node_append cfg g fuel node st = some st' →
      (∀ x, x ∈ st.visited → x < g.nodes.length) →
      ∀ x, x ∈ st'.visited → x < g.nodes.length := by
  intro fuel
  induction fuel with
  | zero => intro node st st' h; simp [graph_node_append] at h
  | succ fuel ih =>
    intro node st st' h hr
    unfold graph_node_append at h
    split at h
    · simp only [Option.some.injEq] at h
      subst h
      exact hr
    · split at h
      · exact absurd h (by simp)
      · rename_i inst hnode
        split at h
        · exact absurd h (by simp)
        · rename_i st1 hloop
          simp only [Option.some.injEq] at h
          subst h
          have hn : node < g.nodes.length := by
            unfold NodeGraph.node at hnode
            by_contra hge
            rw [List.getElem?_eq_none (by omega)] at hnode
            exact absurd hnode (by simp)
          have hr0 : ∀ x, x ∈ node :: st.visited → x < g.nodes.length := by
            intro x hx
            rcases List.mem_cons.1 hx with e | hx
            · exact e ▸ hn
            · exact hr x hx
          exact graph_node_append_inputs_range cfg g (graph_node_append cfg g fuel) node
            (fun m a b hab ha => ih m a b hab ha) _
            { st with visited := node :: st.visited } st1 hloop hr0

/-- A call of `graph_node_append` that returns leaves the node in the visited set. -/
theorem graph_node_append_visited (cfg : Config) (g : NodeGraph) (fuel node : Nat)
    (st st' : SortState) (h : graph_node_append cfg g fuel node st = some st') (hg : st.good) :
    node ∈ st'.visited := by
  cases fuel with
  | zero => simp [graph_node_append] at h
  | succ fuel =>
    unfold graph_node_append at h
    split at h
    · rename_i hv
      simp only [Option.some.injEq] at h
      subst h
      exact hv
    · rename_i hnv
      split at h
      · exact absurd h (by simp)
      · split at h
        · exact absurd h (by simp)
        · rename_i st1 hloop
          simp only [Option.some.injEq] at h
          subst h
          have hg0 : SortState.good { st with visited := node :: st.visited } :=
            ⟨fun x hx => List.mem_cons_of_mem _ (hg.1 x hx), hg.2⟩
          obtain ⟨_, hs⟩ := graph_node_append_inputs_step cfg (graph_node_append cfg g fuel) node
            (fun m a b hab ha => graph_node_append_step cfg g fuel m a b hab ha) _ _ _ hloop hg0
          exact hs.1 node (List.mem_cons_self _ _)

/-- The loop of `sort_graph_nodes`, when it returns: the list has no repetitions
and holds exactly the visited nodes, which are nodes of the graph and include the
nodes of the loop. -/
theorem sort_graph_nodes_loop_nodes (cfg : Config) (g : NodeGraph) :
    ∀ (ids : List Nat) (st st' : SortState), sort_graph_nodes.loop cfg g ids st = some st' →
      st.good → (∀ x, ¬ st.open_node x) → (∀ x, x ∈ st.visited → x < g.nodes.length) →
      st'.good ∧ (∀ x, ¬ st'.open_node x) ∧ (∀ x, x ∈ st'.visited → x < g.nodes.length) ∧
      ∀ n ∈ ids, n ∈ st'.visited := by
  intro ids
  induction ids with
  | nil =>
    intro st st' h hg ho hr
    simp only [sort_graph_nodes.loop, Option.some.injEq] at h
    subst h
    exact ⟨hg, ho, hr, fun n hn => absurd hn (List.not_mem_nil _)⟩
  | cons n rest ih =>
    intro st st' h hg ho hr
    unfold sort_graph_nodes.loop at h
    split at h
    · exact absurd h (by simp)
    · rename_i st1 h1
      obtain ⟨g1, s1⟩ := graph_node_append_step cfg g _ _ _ _ h1 hg
      have r1 := graph_node_append_range cfg g _ _ _ _ h1 hr
      have v1 := graph_node_append_visited cfg g _ _ _ _ h1 hg
      obtain ⟨g2, o2, r2, m2⟩ := ih st1 st' h g1 (fun x hx => ho x ((s1.2.2 x).1 hx)) r1
      refine ⟨g2, o2, r2, fun k hk => ?_⟩
      rcases List.mem_cons.1 hk with e | hk
      · subst e
        have hstep : ∀ (ids : List Nat) (a b : SortState),
            sort_graph_nodes.loop cfg g ids a = some b → a.good →
            ∀ x, x ∈ a.visited → x ∈ b.visited := by
          intro ids
          induction ids with
          | nil =>
            intro a b hab _ x hx
            simp only [sort_graph_nodes.loop, Option.some.injEq] at hab
            rw [← hab]
            exact hx
          | cons m more ihm =>
            intro a b hab ha x hx
            unfold sort_graph_nodes.loop at hab
            split at hab
            · exact absurd hab (by simp)
            · rename_i a1 ha1
              obtain ⟨ga1, sa1⟩ := graph_node_append_step cfg g _ _ _ _ ha1 ha
              exact ihm _ _ hab ga1 x (sa1.1 x hx)
        exact hstep rest st1 st' h g1 k v1
      · exact m2 k hk

/-- The list that `sort_graph_nodes` returns is a permutation of the nodes of the
graph. -/
theorem sort_graph_nodes_perm (cfg : Config) (g : NodeGraph) (c c' : BVMCompiler)
    (l : NodeList) (h : sort_graph_nodes cfg g c = some (l, c')) :
    l.Perm (List.range g.nodes.length) := by
  unfold sort_graph_nodes at h
  split at h
  · exact absurd h (by simp)
  · rename_i st hst
    simp only [Option.some.injEq, Prod.mk.injEq] at h
    obtain ⟨rfl, _⟩ := h
    obtain ⟨hg, ho, hr, hm⟩ := sort_graph_nodes_loop_nodes cfg g _ _ _ hst
      ⟨fun x hx => absurd hx (List.not_mem_nil _), List.nodup_nil⟩
      (fun x hx => absurd hx.1 (List.not_mem_nil _))
      (fun x hx => absurd hx (List.not_mem_nil _))
    rw [List.perm_ext_iff_of_nodup hg.2 (List.nodup_range _)]
    intro a
    constructor
    · intro ha
      exact List.mem_range.2 (hr a (hg.1 a ha))
    · intro ha
      by_contra hna
      exact ho a ⟨hm a ha, hna⟩

/-- C6: for every acyclic graph (whose links come from nodes of the graph),
`sort_graph_nodes` returns a list without repetitions in which, for every node
`N` of the graph and every input of `N` that is linked and not function-typed,
the source node of the link stands at a strictly earlier position than `N`. -/
theorem sort_graph_nodes_sources_first (cfg : Config) (g : NodeGraph) (c : BVMCompiler)
    (hclosed : g.closed) (hacyclic : g.acyclic) :
    ∃ sorted_nodes c', sort_graph_nodes cfg g c = some (sorted_nodes, c') ∧
      sorted_nodes.Nodup ∧
      ∀ N inst, g.node N = some inst → ∀ inp ∈ inst.input_sockets,
        inp.1.value_type ≠ .VALUE_FUNCTION → ∀ M s, inp.2.link = some (M, s) →
        ∃ i j : Nat, i < j ∧ sorted_nodes[i]? = some M ∧ sorted_nodes[j]? = some N := by
  obtain ⟨st, e, hg, _, hs, hm, _⟩ := sort_graph_nodes_loop_sources cfg g hclosed hacyclic
    g.node_ids ⟨[], [], c.func_entry_map⟩
    (fun n hn => List.mem_range.1 hn)
    ⟨fun x hx => absurd hx (List.not_mem_nil _), List.nodup_nil⟩
    (fun x hx => absurd hx.1 (List.not_mem_nil _))
    (fun j N M hj => by simp at hj)
    (fun x hx => absurd hx (List.not_mem_nil _))
  refine ⟨st.sorted_nodes, { c with func_entry_map := st.func_entry_map }, ?_, hg.2, ?_⟩
  · unfold sort_graph_nodes
    rw [e]
  · intro N inst hN inp hi hne M s hl
    have hlt : N < g.nodes.length := by
      unfold NodeGraph.node at hN
      by_contra hge
      rw [List.getElem?_eq_none (by omega)] at hN
      exact absurd hN (by simp)
    obtain ⟨j, hj, he⟩ := List.getElem_of_mem (hm N (List.mem_range.2 hlt))
    have hj' : st.sorted_nodes[j]? = some N := by rw [List.getElem?_eq_getElem hj, he]
    obtain ⟨i, hi', hie⟩ := hs j N M hj' ⟨inst, hN, inp, hi, hne, s, hl⟩
    exact ⟨i, j, hi', hie, hj'⟩

theorem scenario_chain_linked (n m : Nat) (h : scenario_chain.linked n m) : n = 0 ∧ m = 1 := by
  obtain ⟨inst, h1, inp, h2, s, h3⟩ := h
  unfold NodeGraph.node scenario_chain at h1
  match n, h1 with
  | 0, h1 =>
    simp only [List.getElem?_cons_zero, Option.some.injEq] at h1
    subst h1
    simp only [NodeInstance.input_sockets, float_identity_type, zip_inputs, List.mem_singleton] at h2
    subst h2
    simp only [Option.some.injEq, Prod.mk.injEq] at h3
    exact ⟨rfl, h3.1.symm⟩
  | 1, h1 =>
    simp only [List.getElem?_cons_succ, List.getElem?_cons_zero, Option.some.injEq] at h1
    subst h1
    simp only [NodeInstance.input_sockets, float_constant_type, zip_inputs, List.mem_singleton] at h2
    subst h2
    simp at h3
  | k + 2, h1 => simp at h1

theorem sort_graph_nodes_sources_first_witness :
    (scenario_chain.closed ∧ scenario_chain.acyclic) ∧
    (sort_graph_nodes small_config scenario_chain (BVMCompiler.new small_config)).map Prod.fst =
      some [1, 0] ∧
    ∃ sorted_nodes c',
      sort_graph_nodes small_config scenario_chain (BVMCompiler.new small_config) =
        some (sorted_nodes, c') ∧
      sorted_nodes.Nodup ∧
      ∀ N inst, scenario_chain.node N = some inst → ∀ inp ∈ inst.input_sockets,
        inp.1.value_type ≠ .VALUE_FUNCTION → ∀ M s, inp.2.link = some (M, s) →
        ∃ i j : Nat, i < j ∧ sorted_nodes[i]? = some M ∧ sorted_nodes[j]? = some N :=
  ⟨⟨fun n m h => by
      obtain ⟨_, rfl⟩ := scenario_chain_linked n m h
      decide,
    acyclic_of_rank scenario_chain id (fun n m h => by
      obtain ⟨rfl, rfl⟩ := scenario_chain_linked n m h
      decide)⟩,
   by decide,
   sort_graph_nodes_sources_first small_config scenario_chain (BVMCompiler.new small_config)
     (fun n m h => by
      obtain ⟨_, rfl⟩ := scenario_chain_linked n m h
      decide)
     (acyclic_of_rank scenario_chain id (fun n m h => by
      obtain ⟨rfl, rfl⟩ := scenario_chain_linked n m h
      decide))⟩

/-! ## Determinism -/

theorem zip_inputs_fst_mem :
    ∀ (sockets : List NodeSocket) (insts : List InputInstance) (inp : NodeSocket × InputInstance),
      inp ∈ zip_inputs sockets insts → inp.1 ∈ sockets := by
  intro sockets
  induction sockets with
  | nil => intro insts inp h; simp [zip_inputs] at h
  | cons s ss ih =>
    intro insts inp h
    cases insts with
    | nil =>
      simp only [zip_inputs, List.mem_cons] at h
      rcases h with h | h
      · subst h; exact List.mem_cons_self _ _
      · exact List.mem_cons_of_mem _ (ih _ _ h)
    | cons x xs =>
      simp only [zip_inputs, List.mem_cons] at h
      rcases h with h | h
      · subst h; exact List.mem_cons_self _ _
      · exact List.mem_cons_of_mem _ (ih _ _ h)

/-- Without function-typed sockets the loop over the inputs registers nothing. -/
theorem graph_node_append_inputs_func_entry_map (cfg : Config)
    (visit : Nat → SortState → Option SortState) (node : Nat)
    (hvisit : ∀ m st st', visit m st = some st' → st'.func_entry_map = st.func_entry_map) :
    ∀ (inputs : List (NodeSocket × InputInstance)) (st st' : SortState),
      (∀ inp ∈ inputs, inp.1.value_type ≠ .VALUE_FUNCTION) →
      graph_node_append.inputs cfg visit node inputs st = some st' →
      st'.func_entry_map = st.func_entry_map := by
  intro inputs
  induction inputs with
  | nil =>
    intro st st' _ h
    simp only [graph_node_append.inputs, Option.some.injEq] at h
    rw [← h]
  | cons inp rest ih =>
    intro st st' hno h
    obtain ⟨socket, inst⟩ := inp
    have hno' : ∀ inp ∈ rest, inp.1.value_type ≠ .VALUE_FUNCTION :=
      fun inp hi => hno inp (List.mem_cons_of_mem _ hi)
    unfold graph_node_append.inputs at h
    split at h
    · rename_i hfun
      exact absurd hfun (hno _ (List.mem_cons_self _ _))
    · split at h
      · split at h
        · exact absurd h (by simp)
        · rename_i st1 hv
          rw [ih _ _ hno' h, hvisit _ _ _ hv]
      · exact ih _ _ hno' h

/-- Without function-typed sockets `graph_node_append` registers nothing. -/
theorem graph_node_append_func_entry_map (cfg : Config) (g : NodeGraph)
    (hno : g.no_function_inputs) :
    ∀ (fuel node : Nat) (st st' : SortState),
      graph_node_append cfg g fuel node st = some st' →
      st'.func_entry_map = st.func_entry_map := by
  intro fuel
  induction fuel with
  | zero => intro node st st' h; simp [graph_node_append] at h
  | succ fuel ih =>
    intro node st st' h
    unfold graph_node_append at h
    split at h
    · simp only [Option.some.injEq] at h
      rw [← h]
    · split at h
      · exact absurd h (by simp)
      · rename_i inst hnode
        split at h
        · exact absurd h (by simp)
        · rename_i st1 hloop
          simp only [Option.some.injEq] at h
          rw [← h]
          exact graph_node_append_inputs_func_entry_map cfg (graph_node_append cfg g fuel) node ih
            inst.input_sockets { st with visited := node :: st.visited } st1
            (fun inp hi => hno node inst hnode _ (zip_inputs_fst_mem _ _ _ hi)) hloop

theorem sort_graph_nodes_loop_func_entry_map (cfg : Config) (g : NodeGraph)
    (hno : g.no_function_inputs) :
    ∀ (ids : List Nat) (st st' : SortState), sort_graph_nodes.loop cfg g ids st = some st' →
      st'.func_entry_map = st.func_entry_map := by
  intro ids
  induction ids with
  | nil =>
    intro st st' h
    simp only [sort_graph_nodes.loop, Option.some.injEq] at h
    rw [← h]
  | cons n rest ih =>
    intro st st' h
    unfold sort_graph_nodes.loop at h
    split at h
    · exact absurd h (by simp)
    · rename_i st1 h1
      rw [ih _ _ h, graph_node_append_func_entry_map cfg g hno _ _ _ _ h1]

/-- Without function-typed sockets `sort_graph_nodes` leaves the Function Info map
of the compiler as it is. -/
theorem sort_graph_nodes_func_entry_map (cfg : Config) (g : NodeGraph) (c c' : BVMCompiler)
    (l : NodeList) (hno : g.no_function_inputs)
    (h : sort_graph_nodes cfg g c = some (l, c')) : c'.func_entry_map = c.func_entry_map := by
  unfold sort_graph_nodes at h
  split at h
  · exact absurd h (by simp)
  · rename_i st hst
    simp only [Option.some.injEq, Prod.mk.injEq] at h
    rw [← h.2]
    exact sort_graph_nodes_loop_func_entry_map cfg g hno _ _ _ hst

/-- C5: for every graph with no function-typed inputs, two runs of
`codegen_function`, each on a fresh compiler, give the same result (the same
instruction stream, entry point and return bindings, or the same fault),
wherever the node instances lie in memory in the two runs. -/
theorem codegen_function_deterministic (cfg : Config) (g : NodeGraph) (addr1 addr2 : Nat → Nat)
    (hno : g.no_function_inputs) :
    codegen_function cfg addr1 g (BVMCompiler.new cfg) =
      codegen_function cfg addr2 g (BVMCompiler.new cfg) := by
  unfold codegen_function
  cases hsort : sort_graph_nodes cfg g (BVMCompiler.new cfg) with
  | none => rfl
  | some r =>
    obtain ⟨main_nodes, c⟩ := r
    have hfem : c.func_entry_map = [] :=
      sort_graph_nodes_func_entry_map cfg g _ _ _ hno hsort
    simp only [hfem, FunctionEntryMap.iteration, List.foldr_nil]

theorem scenario_chain_no_function_inputs : scenario_chain.no_function_inputs := by
  intro n inst h1 socket h2
  unfold NodeGraph.node scenario_chain at h1
  match n, h1 with
  | 0, h1 =>
    simp only [List.getElem?_cons_zero, Option.some.injEq] at h1
    subst h1
    simp only [float_identity_type, List.mem_singleton] at h2
    subst h2
    decide
  | 1, h1 =>
    simp only [List.getElem?_cons_succ, List.getElem?_cons_zero, Option.some.injEq] at h1
    subst h1
    simp only [float_constant_type, List.mem_singleton] at h2
    subst h2
    decide
  | k + 2, h1 => simp at h1

theorem codegen_function_deterministic_witness :
    scenario_chain.no_function_inputs ∧
    codegen_function small_config id scenario_chain (BVMCompiler.new small_config) =
      codegen_function small_config (fun n => 100 - n) scenario_chain
        (BVMCompiler.new small_config) :=
  ⟨scenario_chain_no_function_inputs,
   codegen_function_deterministic small_config scenario_chain id (fun n => 100 - n)
     scenario_chain_no_function_inputs⟩

/-! ## Instruction streams -/

theorem decode_from_data (words : List Nat) (rest : List Instruction) :
    decode_from (words.map .data ++ rest) =
      (words ++ (decode_from rest).1, (decode_from rest).2) := by
  induction words with
  | nil => simp
  | cons w ws ih => simp [decode_from, ih]

theorem decode_from_encode (instrs : List Instr) : decode_from (encode instrs) = ([], instrs) := by
  induction instrs with
  | nil => rfl
  | cons ins rest ih =>
    obtain ⟨op, words⟩ := ins
    simp [encode, decode_from, decode_from_data, ih]

/-- Reading back the words of a list of instructions gives the list. -/
theorem decode_encode (instrs : List Instr) : decode (encode instrs) = instrs := by
  simp [decode, decode_from_encode]

theorem encode_append (a b : List Instr) : encode (a ++ b) = encode a ++ encode b := by
  induction a with
  | nil => rfl
  | cons ins rest ih =>
    obtain ⟨op, words⟩ := ins
    simp [encode, ih]

theorem encode_single (op : OpCode) (words : List Nat) :
    encode [(op, words)] = .opcode op :: words.map .data := by
  simp [encode]

@[simp] theorem append_instructions (c : BVMCompiler) (ws : List Instruction) :
    (c.append ws).fn.instructions = c.fn.instructions ++ ws := rfl

@[simp] theorem append_stack_users (c : BVMCompiler) (ws : List Instruction) :
    (c.append ws).stack_users = c.stack_users := rfl

@[simp] theorem append_stack_overrun (c : BVMCompiler) (ws : List Instruction) :
    (c.append ws).stack_overrun = c.stack_overrun := rfl

@[simp] theorem append_func_entry_map (c : BVMCompiler) (ws : List Instruction) :
    (c.append ws).func_entry_map = c.func_entry_map := rfl

@[simp] theorem append_entry_point (c : BVMCompiler) (ws : List Instruction) :
    (c.append ws).fn.entry_point = c.fn.entry_point := rfl

@[simp] theorem append_return_values (c : BVMCompiler) (ws : List Instruction) :
    (c.append ws).fn.return_values = c.fn.return_values := rfl

theorem append_nil (c : BVMCompiler) : c.append [] = c := by
  simp [BVMCompiler.append]

theorem append_append (c : BVMCompiler) (a b : List Instruction) :
    (c.append a).append b = c.append (a ++ b) := by
  simp [BVMCompiler.append, List.append_assoc]

theorem emit_eq_append (c : BVMCompiler) (v : Instruction) : c.emit v = c.append [v] := rfl

theorem push_opcode_eq (c : BVMCompiler) (op : OpCode) :
    push_opcode c op = c.append [.opcode op] := rfl

theorem push_stack_index_eq (cfg : Config) (c : BVMCompiler) (arg : Nat) :
    push_stack_index cfg c arg =
      c.append (if arg ≠ cfg.BVM_STACK_INVALID then [.data arg] else []) := by
  unfold push_stack_index
  split
  · rfl
  · exact (append_nil c).symm

theorem push_int_eq (c : BVMCompiler) (i : Int) : push_int c i = c.append [int_to_instruction i] :=
  rfl

theorem push_jump_address_eq (c : BVMCompiler) (i : Int) :
    push_jump_address c i = c.append [int_to_instruction i] := rfl

/-- `codegen_constant` appends the payload words of the value. -/
theorem codegen_constant_eq (c : BVMCompiler) (value : Value) :
    codegen_constant c value = c.append value.words := by
  cases value <;>
    simp [codegen_constant, Value.words, push_float, push_float3, push_float4, push_int,
      push_matrix44, push_pointer, emit_eq_append, append_append, append_nil]

/-- `codegen_value` allocates a slot, then appends the value opcode, the payload
words of the value and the slot. -/
theorem codegen_value_eq (cfg : Config) (c : BVMCompiler) (value : Value) :
    codegen_value cfg c value =
      ((assign_stack_index cfg c value.typedesc).1,
       (assign_stack_index cfg c value.typedesc).2.append
         (.opcode value.opcode :: (value.words ++
           if (assign_stack_index cfg c value.typedesc).1 ≠ cfg.BVM_STACK_INVALID
           then [.data (assign_stack_index cfg c value.typedesc).1] else []))) := by
  cases value <;>
    simp [codegen_value, Value.words, Value.opcode, push_float, push_float3, push_float4,
      push_int, push_matrix44, push_pointer, emit_eq_append, append_append, push_opcode_eq,
      push_stack_index_eq]

theorem value_words_data (value : Value) : ∀ w ∈ value.words, w.is_data := by
  cases value <;>
    simp [Value.words, float_to_instruction, int_to_instruction, pointer_to_instruction_hi,
      pointer_to_instruction_lo, Instruction.is_data]

/-- A list of data words is the image of a list of numbers. -/
theorem data_words_eq_map (ws : List Instruction) (h : ∀ w ∈ ws, w.is_data) :
    ∃ ns : List Nat, ws = ns.map .data := by
  induction ws with
  | nil => exact ⟨[], rfl⟩
  | cons w ws ih =>
    obtain ⟨ns, hns⟩ := ih (fun w hw => h w (List.mem_cons_of_mem _ hw))
    cases w with
    | opcode op => exact absurd (h _ (List.mem_cons_self _ _)) (by simp [Instruction.is_data])
    | data d => exact ⟨d :: ns, by simp [hns]⟩

/-! ## What the code generator appends to the stream -/

theorem value_opcode_ne (value : Value) :
    value.opcode ≠ .OP_INIT_MESH_PTR ∧ value.opcode ≠ .OP_RELEASE_MESH_PTR := by
  cases value <;> simp [Value.opcode]

theorem codegen_value_overrun_mono (cfg : Config) (c : BVMCompiler) (value : Value)
    (h : c.stack_overrun = true) : (codegen_value cfg c value).2.stack_overrun = true := by
  rw [codegen_value_eq]
  exact assign_stack_index_overrun_mono cfg c _ h

/-- `codegen_value` on a table whose first `t` slots are claimed: the value goes
to slot `t`, and one value-load instruction is appended. -/
theorem codegen_value_spec (cfg : Config) (c : BVMCompiler) (value : Value) (t : Nat)
    (hsentinel : cfg.sentinel_ok) (hsizes : ∀ td, 1 ≤ cfg.stack_size td) (h : alloc_ok cfg c t)
    (hfinal : (codegen_value cfg c value).2.stack_overrun = false) :
    (codegen_value cfg c value).1 = t ∧
    ∃ t' ws, t < t' ∧ alloc_ok cfg (codegen_value cfg c value).2 t' ∧
      (codegen_value cfg c value).2.fn.instructions =
        c.fn.instructions ++ encode [(value.opcode, ws)] := by
  rw [codegen_value_eq] at hfinal ⊢
  simp only [append_stack_overrun] at hfinal
  obtain ⟨h1, t', ht', h2⟩ := assign_stack_index_alloc_ok cfg c value.typedesc t hsentinel
    (hsizes _) h hfinal
  obtain ⟨ns, hns⟩ := data_words_eq_map
    (value.words ++ if (assign_stack_index cfg c value.typedesc).1 ≠ cfg.BVM_STACK_INVALID
      then [.data (assign_stack_index cfg c value.typedesc).1] else [])
    (by
      intro w hw
      rcases List.mem_append.1 hw with hw | hw
      · exact value_words_data value w hw
      · split at hw
        · rw [List.mem_singleton] at hw
          rw [hw]
          trivial
        · exact absurd hw (List.not_mem_nil _))
  refine ⟨h1, t', ns, ht', ?_, ?_⟩
  · exact ⟨h2.1, h2.2.1, h2.2.2⟩
  · simp only [append_instructions, assign_stack_index_fn, encode_single, hns]

theorem prepare_inputs_overrun_mono (cfg : Config) (node : Nat) (output_index : SocketIndexMap) :
    ∀ (inputs : List (NodeSocket × InputInstance)) (c : BVMCompiler)
      (input_index : SocketIndexMap) (c' : BVMCompiler) (input_index' : SocketIndexMap),
      codegen_subgraph.prepare_inputs cfg node output_index inputs c input_index =
        .ok (c', input_index') →
      c.stack_overrun = true → c'.stack_overrun = true := by
  intro inputs
  induction inputs with
  | nil =>
    intro c ii c' ii' h ho
    simp only [codegen_subgraph.prepare_inputs, Except.ok.injEq, Prod.mk.injEq] at h
    rw [← h.1]
    exact ho
  | cons inp rest ih =>
    intro c ii c' ii' h ho
    obtain ⟨input, inst⟩ := inp
    unfold codegen_subgraph.prepare_inputs at h
    simp only at h
    split at h
    · exact absurd h (by simp)
    · split at h
      · exact ih _ _ _ _ h ho
      · split at h
        · split at h
          · exact absurd h (by simp)
          · exact ih _ _ _ _ h ho
        · split at h
          · exact ih _ _ _ _ h (codegen_value_overrun_mono cfg c _ ho)
          · split at h
            · exact absurd h (by simp)
            · exact ih _ _ _ _ h (codegen_value_overrun_mono cfg c _ ho)

/-- The input preparation of a node: it appends value-load instructions only,
claims further slots, and finds every linked input in the output-index map. -/
theorem prepare_inputs_spec (cfg : Config) (node : Nat) (output_index : SocketIndexMap)
    (hsentinel : cfg.sentinel_ok) (hsizes : ∀ td, 1 ≤ cfg.stack_size td) :
    ∀ (inputs : List (NodeSocket × InputInstance)) (c : BVMCompiler)
      (input_index : SocketIndexMap) (c' : BVMCompiler) (input_index' : SocketIndexMap) (t : Nat),
      codegen_subgraph.prepare_inputs cfg node output_index inputs c input_index =
        .ok (c', input_index') →
      alloc_ok cfg c t → c'.stack_overrun = false →
      ∃ t' instrs, t ≤ t' ∧ alloc_ok cfg c' t' ∧
        c'.fn.instructions = c.fn.instructions ++ encode instrs ∧
        (∀ ins ∈ instrs, ins.1 ≠ .OP_INIT_MESH_PTR ∧ ins.1 ≠ .OP_RELEASE_MESH_PTR) ∧
        (∀ inp ∈ inputs, inp.1.value_type ≠ .VALUE_CONSTANT →
          inp.1.value_type ≠ .VALUE_FUNCTION → ∀ n s, inp.2.link = some (n, s) →
          Map.find output_index ⟨some n, s⟩ ≠ none) := by
  intro inputs
  induction inputs with
  | nil =>
    intro c ii c' ii' t h ha _
    simp only [codegen_subgraph.prepare_inputs, Except.ok.injEq, Prod.mk.injEq] at h
    rw [← h.1]
    exact ⟨t, [], le_refl _, ha, by simp [encode], fun _ hi => absurd hi (List.not_mem_nil _),
      fun _ hi => absurd hi (List.not_mem_nil _)⟩
  | cons inp rest ih =>
    intro c ii c' ii' t h ha hfinal
    obtain ⟨input, inst⟩ := inp
    unfold codegen_subgraph.prepare_inputs at h
    simp only at h
    split at h
    · exact absurd h (by simp)
    · split at h
      · rename_i hcf
        obtain ⟨t', instrs, h1, h2, h3, h4, h5⟩ := ih _ _ _ _ t h ha hfinal
        refine ⟨t', instrs, h1, h2, h3, h4, fun inp hi hc hf n s hl => ?_⟩
        rcases List.mem_cons.1 hi with e | hi
        · subst e
          rcases hcf with hcf | hcf
          · exact absurd hcf hc
          · exact absurd hcf hf
        · exact h5 inp hi hc hf n s hl
      · split at h
        · rename_i link_node link_socket hlink
          split at h
          · exact absurd h (by simp)
          · rename_i index hfind
            obtain ⟨t', instrs, h1, h2, h3, h4, h5⟩ := ih _ _ _ _ t h ha hfinal
            refine ⟨t', instrs, h1, h2, h3, h4, fun inp hi hc hf n s hl => ?_⟩
            rcases List.mem_cons.1 hi with e | hi
            · subst e
              simp only at hl
              rw [hlink] at hl
              simp only [Option.some.injEq, Prod.mk.injEq] at hl
              rw [← hl.1, ← hl.2, hfind]
              simp
            · exact h5 inp hi hc hf n s hl
        · rename_i hlink
          have hrest : ∀ (value : Value),
              codegen_subgraph.prepare_inputs cfg node output_index rest
                (codegen_value cfg c value).2
                (Map.set ii ⟨some node, input.name⟩ (codegen_value cfg c value).1) =
                .ok (c', ii') →
              ∃ t' instrs, t ≤ t' ∧ alloc_ok cfg c' t' ∧
                c'.fn.instructions = c.fn.instructions ++ encode instrs ∧
                (∀ ins ∈ instrs, ins.1 ≠ .OP_INIT_MESH_PTR ∧ ins.1 ≠ .OP_RELEASE_MESH_PTR) ∧
                (∀ inp ∈ (input, inst) :: rest, inp.1.value_type ≠ .VALUE_CONSTANT →
                  inp.1.value_type ≠ .VALUE_FUNCTION → ∀ n s, inp.2.link = some (n, s) →
                  Map.find output_index ⟨some n, s⟩ ≠ none) := by
            intro value hv
            have hmid : (codegen_value cfg c value).2.stack_overrun = false := by
              by_contra hne
              have := prepare_inputs_overrun_mono cfg node output_index rest _ _ _ _ hv
                (by simpa using hne)
              rw [this] at hfinal
              exact absurd hfinal (by simp)
            obtain ⟨_, t1, ws, ht1, ha1, hs1⟩ :=
              codegen_value_spec cfg c value t hsentinel hsizes ha hmid
            obtain ⟨t', instrs, h1, h2, h3, h4, h5⟩ := ih _ _ _ _ t1 hv ha1 hfinal
            refine ⟨t', (value.opcode, ws) :: instrs, by omega, h2, ?_, ?_, ?_⟩
            · rw [h3, hs1, List.append_assoc, ← encode_append]
              rfl
            · intro ins hi
              rcases List.mem_cons.1 hi with e | hi
              · subst e
                exact value_opcode_ne value
              · exact h4 ins hi
            · intro inp hi hc hf n s hl
              rcases List.mem_cons.1 hi with e | hi
              · subst e
                simp only at hl
                rw [hlink] at hl
                exact absurd hl (by simp)
              · exact h5 inp hi hc hf n s hl
          split at h
          · rename_i value _
            exact hrest value h
          · split at h
            · exact absurd h (by simp)
            · rename_i value _
              exact hrest value h

theorem init_outputs_overrun_mono (cfg : Config) (node : Nat) (users : SocketUserMap) :
    ∀ (outs : List NodeSocket) (c : BVMCompiler) (oi : SocketIndexMap) (c' : BVMCompiler)
      (oi' : SocketIndexMap),
      codegen_subgraph.init_outputs cfg node users outs c oi = .ok (c', oi') →
      c.stack_overrun = true → c'.stack_overrun = true := by
  intro outs
  induction outs with
  | nil =>
    intro c oi c' oi' h ho
    simp only [codegen_subgraph.init_outputs, Except.ok.injEq, Prod.mk.injEq] at h
    rw [← h.1]
    exact ho
  | cons out rest ih =>
    intro c oi c' oi' h ho
    unfold codegen_subgraph.init_outputs at h
    simp only at h
    have ho1 := assign_stack_index_overrun_mono cfg c out.typedesc ho
    split at h
    · split at h
      · exact absurd h (by simp)
      · split at h
        · exact ih _ _ _ _ h (by
            simpa [push_int_eq, push_stack_index_eq, push_opcode_eq] using ho1)
        · exact ih _ _ _ _ h ho1
    · exact ih _ _ _ _ h ho1

theorem int_to_instruction_nat (u : Nat) : int_to_instruction (u : Int) = .data (u % WORD) := by
  unfold int_to_instruction
  have : ((u : Int) % ((WORD : Nat) : Int)) = ((u % WORD : Nat) : Int) := by
    push_cast; rfl
  rw [this, Int.toNat_ofNat]

theorem alloc_ok_append (cfg : Config) (c : BVMCompiler) (t : Nat) (ws : List Instruction)
    (h : alloc_ok cfg c t) : alloc_ok cfg (c.append ws) t := h

theorem ptr_init_opcode_eq (td : TypeDesc) (h : ptr_init_opcode td ≠ .OP_NOOP) :
    ptr_init_opcode td = .OP_INIT_MESH_PTR := by
  unfold ptr_init_opcode at h ⊢
  cases hb : td.base_type <;> simp [hb] at h ⊢

theorem ptr_release_opcode_eq (td : TypeDesc) (h : ptr_release_opcode td ≠ .OP_NOOP) :
    ptr_release_opcode td = .OP_RELEASE_MESH_PTR := by
  unfold ptr_release_opcode at h ⊢
  cases hb : td.base_type <;> simp [hb] at h ⊢

theorem filter_is_init_eq_nil (v : Nat) (instrs : List Instr)
    (h : ∀ ins ∈ instrs, ins.1 = OpCode.OP_INIT_MESH_PTR → ins.2.head? ≠ some v) :
    instrs.filter (is_init v) = [] := by
  rw [List.filter_eq_nil_iff]
  intro ins hi
  simp only [is_init, decide_eq_true_eq, not_and]
  exact h ins hi

/-- The output allocation of a node: every output gets a fresh slot, and the
instructions appended are the initialize instructions of the outputs. -/
theorem init_outputs_spec (cfg : Config) (node : Nat) (users : SocketUserMap)
    (hsentinel : cfg.sentinel_ok) (hsizes : ∀ td, 1 ≤ cfg.stack_size td) :
    ∀ (outs : List NodeSocket) (c : BVMCompiler) (oi : SocketIndexMap) (c' : BVMCompiler)
      (oi' : SocketIndexMap) (t : Nat),
      codegen_subgraph.init_outputs cfg node users outs c oi = .ok (c', oi') →
      alloc_ok cfg c t → c'.stack_overrun = false → (outs.map (·.name)).Nodup →
      ∃ t' instrs, t ≤ t' ∧ alloc_ok cfg c' t' ∧
        c'.fn.instructions = c.fn.instructions ++ encode instrs ∧
        (∀ ins ∈ instrs, ins.1 = .OP_INIT_MESH_PTR ∧
          ∃ v, ins.2.head? = some v ∧ t ≤ v ∧ v < t') ∧
        (∀ k, (∀ out ∈ outs, k ≠ ⟨some node, out.name⟩) → Map.find oi' k = Map.find oi k) ∧
        (∀ out ∈ outs, ∃ v, Map.find oi' ⟨some node, out.name⟩ = some v ∧ t ≤ v ∧ v < t' ∧
          instrs.filter (is_init v) = expected_init users ⟨some node, out.name⟩ out.typedesc v) ∧
        (∀ o1 ∈ outs, ∀ o2 ∈ outs, Map.find oi' ⟨some node, o1.name⟩ =
          Map.find oi' ⟨some node, o2.name⟩ → o1.name = o2.name) := by
  intro outs
  induction outs with
  | nil =>
    intro c oi c' oi' t h ha _ _
    simp only [codegen_subgraph.init_outputs, Except.ok.injEq, Prod.mk.injEq] at h
    rw [← h.1, ← h.2]
    exact ⟨t, [], le_refl _, ha, by simp [encode], fun _ hi => absurd hi (List.not_mem_nil _),
      fun _ _ => rfl, fun _ hi => absurd hi (List.not_mem_nil _),
      fun _ hi => absurd hi (List.not_mem_nil _)⟩
  | cons out rest ih =>
    intro c oi c' oi' t h ha hfinal hnames
    have hnames' : (rest.map (·.name)).Nodup := (List.nodup_cons.1 hnames).2
    have hfresh : ∀ o ∈ rest, (⟨some node, out.name⟩ : ConstSocketPair) ≠ ⟨some node, o.name⟩ := by
      intro o ho he
      simp only [ConstSocketPair.mk.injEq, true_and] at he
      exact (List.nodup_cons.1 hnames).1 (List.mem_map.2 ⟨o, ho, he.symm⟩)
    -- the tail of the loop, from whatever the head appends
    have htail : ∀ (c_mid : BVMCompiler) (chunk : List Instr),
        codegen_subgraph.init_outputs cfg node users rest c_mid
          (Map.set oi ⟨some node, out.name⟩ (assign_stack_index cfg c out.typedesc).1) =
          .ok (c', oi') →
        c_mid.stack_users = (assign_stack_index cfg c out.typedesc).2.stack_users →
        c_mid.stack_overrun = (assign_stack_index cfg c out.typedesc).2.stack_overrun →
        ((assign_stack_index cfg c out.typedesc).1 = t → t < cfg.BVM_STACK_SIZE →
          c_mid.fn.instructions = c.fn.instructions ++ encode chunk ∧
          chunk = expected_init users ⟨some node, out.name⟩ out.typedesc t) →
        ∃ t' instrs, t ≤ t' ∧ alloc_ok cfg c' t' ∧
          c'.fn.instructions = c.fn.instructions ++ encode instrs ∧
          (∀ ins ∈ instrs, ins.1 = .OP_INIT_MESH_PTR ∧
            ∃ v, ins.2.head? = some v ∧ t ≤ v ∧ v < t') ∧
          (∀ k, (∀ o ∈ out :: rest, k ≠ ⟨some node, o.name⟩) →
            Map.find oi' k = Map.find oi k) ∧
          (∀ o ∈ out :: rest, ∃ v, Map.find oi' ⟨some node, o.name⟩ = some v ∧ t ≤ v ∧ v < t' ∧
            instrs.filter (is_init v) = expected_init users ⟨some node, o.name⟩ o.typedesc v) ∧
          (∀ o1 ∈ out :: rest, ∀ o2 ∈ out :: rest, Map.find oi' ⟨some node, o1.name⟩ =
            Map.find oi' ⟨some node, o2.name⟩ → o1.name = o2.name) := by
      intro c_mid chunk hrest hsu hso hchunk
      have hmid : (assign_stack_index cfg c out.typedesc).2.stack_overrun = false := by
        by_contra hne
        have := init_outputs_overrun_mono cfg node users rest _ _ _ _ hrest
          (by rw [hso]; simpa using hne)
        rw [this] at hfinal
        exact absurd hfinal (by simp)
      obtain ⟨hidx, t1, ht1, ha1⟩ :=
        assign_stack_index_alloc_ok cfg c out.typedesc t hsentinel (hsizes _) ha hmid
      obtain ⟨hstream, hchunk⟩ := hchunk hidx (by have := ha1.2.1; omega)
      have hamid : alloc_ok cfg c_mid t1 := ⟨hsu.trans ha1.1, ha1.2.1, hso.trans ha1.2.2⟩
      obtain ⟨t', instrs, h1, h2, h3, h4, h5, h6, h7⟩ :=
        ih _ _ _ _ t1 hrest hamid hfinal hnames'
      have hchunk_init : ∀ ins ∈ chunk, ins.1 = .OP_INIT_MESH_PTR ∧ ins.2.head? = some t := by
        intro ins hi
        rw [hchunk] at hi
        unfold expected_init at hi
        split at hi
        · rename_i hop
          split at hi
          · split at hi
            · rw [List.mem_singleton] at hi
              rw [hi]
              exact ⟨ptr_init_opcode_eq _ hop, rfl⟩
            · exact absurd hi (List.not_mem_nil _)
          · exact absurd hi (List.not_mem_nil _)
        · exact absurd hi (List.not_mem_nil _)
      have hhead : Map.find oi' ⟨some node, out.name⟩ = some t := by
        rw [h5 _ hfresh, map_find_set, if_pos rfl, hidx]
      refine ⟨t', chunk ++ instrs, by omega, h2, ?_, ?_, ?_, ?_, ?_⟩
      · rw [h3, hstream, List.append_assoc, encode_append]
      · intro ins hi
        rcases List.mem_append.1 hi with hi | hi
        · exact ⟨(hchunk_init ins hi).1, t, (hchunk_init ins hi).2, le_refl _, by omega⟩
        · obtain ⟨e, v, hv1, hv2, hv3⟩ := h4 ins hi
          exact ⟨e, v, hv1, by omega, hv3⟩
      · intro k hk
        rw [h5 k (fun o ho => hk o (List.mem_cons_of_mem _ ho)), map_find_set,
          if_neg (fun e => hk out (List.mem_cons_self _ _) e.symm)]
      · intro o ho
        rcases List.mem_cons.1 ho with e | ho
        · subst e
          refine ⟨t, hhead, le_refl _, by omega, ?_⟩
          rw [List.filter_append, filter_is_init_eq_nil t instrs, List.append_nil, ← hchunk]
          · rw [List.filter_eq_self]
            intro ins hi
            simp only [is_init, decide_eq_true_eq]
            exact hchunk_init ins hi
          · intro ins hi _ hh
            obtain ⟨_, v, hv1, hv2, _⟩ := h4 ins hi
            rw [hv1] at hh
            simp only [Option.some.injEq] at hh
            omega
        · obtain ⟨v, hv1, hv2, hv3, hv4⟩ := h6 o ho
          refine ⟨v, hv1, by omega, hv3, ?_⟩
          rw [List.filter_append, filter_is_init_eq_nil v chunk, List.nil_append, hv4]
          intro ins hi _ hh
          rw [(hchunk_init ins hi).2] at hh
          simp only [Option.some.injEq] at hh
          omega
      · intro o1 ho1 o2 ho2 he
        rcases List.mem_cons.1 ho1 with e1 | hr1 <;> rcases List.mem_cons.1 ho2 with e2 | hr2
        · rw [e1, e2]
        · obtain ⟨v, hv1, hv2, _⟩ := h6 o2 hr2
          rw [e1, hhead, hv1] at he
          simp only [Option.some.injEq] at he
          omega
        · obtain ⟨v, hv1, hv2, _⟩ := h6 o1 hr1
          rw [e2, hhead, hv1] at he
          simp only [Option.some.injEq] at he
          omega
        · exact h7 o1 hr1 o2 hr2 he
    unfold codegen_subgraph.init_outputs at h
    simp only at h
    split at h
    · rename_i hop
      split at h
      · exact absurd h (by simp)
      · rename_i u hu
        split at h
        · rename_i hpos
          apply htail _ [(ptr_init_opcode out.typedesc, [t, u % WORD])] h
          · simp [push_int_eq, push_stack_index_eq, push_opcode_eq]
          · simp [push_int_eq, push_stack_index_eq, push_opcode_eq]
          · intro hidx hlt
            have hne : t ≠ cfg.BVM_STACK_INVALID := by
              have := hsentinel.1; omega
            constructor
            · simp [push_int_eq, push_stack_index_eq, push_opcode_eq, hidx, hne,
                assign_stack_index_fn, encode, int_to_instruction_nat]
            · simp [expected_init, hop, hu, hpos]
        · rename_i hpos
          apply htail _ [] h rfl rfl
          intro _ _
          constructor
          · simp [encode, assign_stack_index_fn]
          · simp [expected_init, hop, hu, hpos]
    · rename_i hop
      apply htail _ [] h rfl rfl
      intro _ _
      constructor
      · simp [encode, assign_stack_index_fn]
      · simp [expected_init, hop]

/-- The operands of the inputs in the main instruction are data words. -/
theorem write_inputs_spec (cfg : Config) (node : Nat) (ii : SocketIndexMap) :
    ∀ (inputs : List (NodeSocket × InputInstance)) (c c' : BVMCompiler),
      codegen_subgraph.write_inputs cfg node ii inputs c = .ok c' →
      ∃ ws : List Nat, c' = c.append (ws.map .data) := by
  intro inputs
  induction inputs with
  | nil =>
    intro c c' h
    simp only [codegen_subgraph.write_inputs, Except.ok.injEq] at h
    exact ⟨[], by rw [← h]; exact (append_nil c).symm⟩
  | cons inp rest ih =>
    intro c c' h
    obtain ⟨input, inst⟩ := inp
    unfold codegen_subgraph.write_inputs at h
    simp only at h
    split at h
    · split at h
      · exact absurd h (by simp)
      · rename_i value _
        obtain ⟨ws, hws⟩ := ih _ _ h
        obtain ⟨ns, hns⟩ := data_words_eq_map value.words (value_words_data value)
        refine ⟨ns ++ ws, ?_⟩
        rw [hws, codegen_constant_eq, append_append, hns, List.map_append]
    · split at h
      · split at h
        · exact absurd h (by simp)
        · rename_i func _
          obtain ⟨ws, hws⟩ := ih _ _ h
          by_cases hne : func.return_index ≠ cfg.BVM_STACK_INVALID
          · refine ⟨[func.entry_point % WORD, func.return_index] ++ ws, ?_⟩
            rw [hws, push_stack_index_eq, push_jump_address_eq, if_pos hne, append_append,
              append_append, int_to_instruction_nat]
            simp
          · refine ⟨[func.entry_point % WORD] ++ ws, ?_⟩
            rw [hws, push_stack_index_eq, push_jump_address_eq, if_neg hne, append_append,
              append_append, int_to_instruction_nat]
            simp
      · split at h
        · exact absurd h (by simp)
        · rename_i index _
          obtain ⟨ws, hws⟩ := ih _ _ h
          by_cases hne : index ≠ cfg.BVM_STACK_INVALID
          · refine ⟨[index] ++ ws, ?_⟩
            rw [hws, push_stack_index_eq, if_pos hne, append_append]
            simp
          · refine ⟨ws, ?_⟩
            rw [hws, push_stack_index_eq, if_neg hne, append_append]
            simp

/-- The operands of the outputs in the main instruction are data words. -/
theorem write_outputs_spec (cfg : Config) (node : Nat) (oi : SocketIndexMap) :
    ∀ (outs : List NodeSocket) (c c' : BVMCompiler),
      codegen_subgraph.write_outputs cfg node oi outs c = .ok c' →
      ∃ ws : List Nat, c' = c.append (ws.map .data) := by
  intro outs
  induction outs with
  | nil =>
    intro c c' h
    simp only [codegen_subgraph.write_outputs, Except.ok.injEq] at h
    exact ⟨[], by rw [← h]; exact (append_nil c).symm⟩
  | cons out rest ih =>
    intro c c' h
    unfold codegen_subgraph.write_outputs at h
    split at h
    · exact absurd h (by simp)
    · rename_i index _
      obtain ⟨ws, hws⟩ := ih _ _ h
      by_cases hne : index ≠ cfg.BVM_STACK_INVALID
      · refine ⟨[index] ++ ws, ?_⟩
        rw [hws, push_stack_index_eq, if_pos hne, append_append]
        simp
      · refine ⟨ws, ?_⟩
        rw [hws, push_stack_index_eq, if_neg hne, append_append]
        simp

/-- The release phase of a node: one release instruction per consuming input,
with the slot of the source socket as operand. -/
theorem release_inputs_spec (cfg : Config) (oi : SocketIndexMap)
    (hvalid : ∀ k v, Map.find oi k = some v → v ≠ cfg.BVM_STACK_INVALID) :
    ∀ (inputs : List (NodeSocket × InputInstance)) (c c' : BVMCompiler),
      codegen_subgraph.release_inputs cfg oi inputs c = .ok c' →
      ∃ instrs, c' = c.append (encode instrs) ∧
        (∀ ins ∈ instrs, ins.1 = .OP_RELEASE_MESH_PTR ∧
          ∃ k v, Map.find oi k = some v ∧ ins.2 = [v]) ∧
        (∀ key v, Map.find oi key = some v → (∀ k, Map.find oi k = some v → k = key) →
          (instrs.filter (is_release v)).length = (inputs.filter (consumes key)).length) := by
  intro inputs
  induction inputs with
  | nil =>
    intro c c' h
    simp only [codegen_subgraph.release_inputs, Except.ok.injEq] at h
    exact ⟨[], by rw [← h]; exact (append_nil c).symm,
      fun _ hi => absurd hi (List.not_mem_nil _), fun _ _ _ _ => rfl⟩
  | cons inp rest ih =>
    intro c c' h
    obtain ⟨input, inst⟩ := inp
    unfold codegen_subgraph.release_inputs at h
    simp only at h
    split at h
    · rename_i hcf
      obtain ⟨instrs, h1, h2, h3⟩ := ih _ _ h
      refine ⟨instrs, h1, h2, fun key v hk hinj => ?_⟩
      rw [h3 key v hk hinj, List.filter_cons_of_neg]
      simp only [consumes, Bool.and_eq_true, decide_eq_true_eq, not_and]
      intro hh
      rcases hcf with hcf | hcf
      · exact absurd hcf hh.1
      · exact absurd hcf hh.2.1
    · rename_i hcf
      split at h
      · rename_i link_node link_socket hlink
        split at h
        · exact absurd h (by simp)
        · rename_i index hfind
          split at h
          · rename_i hop
            obtain ⟨instrs, h1, h2, h3⟩ := ih _ _ h
            have hne := hvalid _ _ hfind
            refine ⟨(.OP_RELEASE_MESH_PTR, [index]) :: instrs, ?_, ?_, ?_⟩
            · rw [h1, push_stack_index_eq, push_opcode_eq, if_pos hne, append_append,
                append_append, ptr_release_opcode_eq _ hop]
              simp [encode]
            · intro ins hi
              rcases List.mem_cons.1 hi with e | hi
              · subst e
                exact ⟨rfl, _, index, hfind, rfl⟩
              · exact h2 ins hi
            · intro key v hk hinj
              have hcons : consumes key (input, inst) =
                  decide (key = ⟨some link_node, link_socket⟩) := by
                simp only [consumes, hlink]
                have : decide (input.value_type ≠ .VALUE_CONSTANT ∧
                    input.value_type ≠ .VALUE_FUNCTION ∧
                    ptr_release_opcode input.typedesc ≠ .OP_NOOP) = true := by
                  simp only [decide_eq_true_eq]
                  exact ⟨fun e => hcf (Or.inl e), fun e => hcf (Or.inr e), hop⟩
                rw [this, Bool.true_and]
              by_cases hkey : key = ⟨some link_node, link_socket⟩
              · have hv : index = v := by
                  rw [hkey, hfind] at hk
                  exact Option.some.inj hk
                rw [List.filter_cons_of_pos (by simp [is_release, hv]),
                  List.filter_cons_of_pos (by rw [hcons]; simp [hkey]),
                  List.length_cons, List.length_cons, h3 key v hk hinj]
              · have hv : index ≠ v := by
                  intro e
                  rw [e] at hfind
                  exact hkey (hinj _ hfind).symm
                rw [List.filter_cons_of_neg (by simp [is_release, hv]),
                  List.filter_cons_of_neg (by rw [hcons]; simp [hkey]), h3 key v hk hinj]
          · rename_i hop
            obtain ⟨instrs, h1, h2, h3⟩ := ih _ _ h
            refine ⟨instrs, h1, h2, fun key v hk hinj => ?_⟩
            rw [h3 key v hk hinj, List.filter_cons_of_neg]
            simp only [consumes, Bool.and_eq_true, decide_eq_true_eq, not_and]
            intro hh
            exact absurd hh.2.2 hop
      · rename_i hlink
        obtain ⟨instrs, h1, h2, h3⟩ := ih _ _ h
        refine ⟨instrs, h1, h2, fun key v hk hinj => ?_⟩
        rw [h3 key v hk hinj, List.filter_cons_of_neg]
        simp [consumes, hlink]

theorem filter_is_init_of_ne (v : Nat) (instrs : List Instr)
    (h : ∀ ins ∈ instrs, ins.1 ≠ OpCode.OP_INIT_MESH_PTR) : instrs.filter (is_init v) = [] :=
  filter_is_init_eq_nil v instrs (fun ins hi e => absurd e (h ins hi))

theorem filter_is_release_of_ne (v : Nat) (instrs : List Instr)
    (h : ∀ ins ∈ instrs, ins.1 ≠ OpCode.OP_RELEASE_MESH_PTR) :
    instrs.filter (is_release v) = [] := by
  rw [List.filter_eq_nil_iff]
  intro ins hi
  simp only [is_release, decide_eq_true_eq, not_and]
  intro e
  exact absurd e (h ins hi)

theorem consumes_link (key : ConstSocketPair) (inp : NodeSocket × InputInstance)
    (h : consumes key inp = true) :
    inp.1.value_type ≠ .VALUE_CONSTANT ∧ inp.1.value_type ≠ .VALUE_FUNCTION ∧
    ∃ n s, inp.2.link = some (n, s) ∧ key = ⟨some n, s⟩ := by
  simp only [consumes, Bool.and_eq_true, decide_eq_true_eq] at h
  obtain ⟨⟨h1, h2, _⟩, h3⟩ := h
  refine ⟨h1, h2, ?_⟩
  split at h3
  · rename_i n s hl
    exact ⟨n, s, hl, by simpa using h3⟩
  · exact absurd h3 (by simp)

theorem release_inputs_overrun (cfg : Config) (oi : SocketIndexMap) :
    ∀ (inputs : List (NodeSocket × InputInstance)) (c c' : BVMCompiler),
      codegen_subgraph.release_inputs cfg oi inputs c = .ok c' →
      c'.stack_overrun = c.stack_overrun := by
  intro inputs
  induction inputs with
  | nil =>
    intro c c' h
    simp only [codegen_subgraph.release_inputs, Except.ok.injEq] at h
    rw [h]
  | cons inp rest ih =>
    intro c c' h
    obtain ⟨input, ins⟩ := inp
    unfold codegen_subgraph.release_inputs at h
    simp only at h
    split at h
    · exact ih _ _ h
    · split at h
      · split at h
        · exact absurd h (by simp)
        · split at h
          · rw [ih _ _ h, push_stack_index_eq, push_opcode_eq]
            rfl
          · exact ih _ _ h
      · exact ih _ _ h

theorem codegen_node_overrun_mono (cfg : Config) (g : NodeGraph) (users : SocketUserMap)
    (id : Nat) (c : BVMCompiler) (oi : SocketIndexMap) (c' : BVMCompiler) (oi' : SocketIndexMap)
    (h : codegen_subgraph.node cfg g users id c oi = .ok (c', oi'))
    (ho : c.stack_overrun = true) : c'.stack_overrun = true := by
  unfold codegen_subgraph.node at h
  split at h
  · exact absurd h (by simp)
  · simp only at h
    split at h
    · simp only [Except.ok.injEq, Prod.mk.injEq] at h
      rw [← h.1]
      exact ho
    · split at h
      · exact absurd h (by simp)
      · rename_i c1 ii hprep
        split at h
        · exact absurd h (by simp)
        · rename_i c2 oi2 hinit
          split at h
          · exact absurd h (by simp)
          · rename_i c3 hwi
            split at h
            · exact absurd h (by simp)
            · rename_i c4 hwo
              split at h
              · exact absurd h (by simp)
              · rename_i c5 hrel
                simp only [Except.ok.injEq, Prod.mk.injEq] at h
                obtain ⟨rfl, rfl⟩ := h
                obtain ⟨ws1, hws1⟩ := write_inputs_spec cfg id ii _ _ _ hwi
                obtain ⟨ws2, hws2⟩ := write_outputs_spec cfg id oi2 _ _ _ hwo
                rw [release_inputs_overrun cfg oi2 _ _ _ hrel, hws2, hws1, push_opcode_eq]
                simp only [append_stack_overrun]
                exact init_outputs_overrun_mono cfg id users _ _ _ _ _ hinit
                  (prepare_inputs_overrun_mono cfg id oi _ _ _ _ _ hprep ho)

theorem codegen_nodes_overrun_mono (cfg : Config) (g : NodeGraph) (users : SocketUserMap) :
    ∀ (nodes : NodeList) (c : BVMCompiler) (oi : SocketIndexMap) (c' : BVMCompiler)
      (oi' : SocketIndexMap),
      codegen_subgraph.nodes cfg g users nodes c oi = .ok (c', oi') →
      c.stack_overrun = true → c'.stack_overrun = true := by
  intro nodes
  induction nodes with
  | nil =>
    intro c oi c' oi' h ho
    simp only [codegen_subgraph.nodes, Except.ok.injEq, Prod.mk.injEq] at h
    rw [← h.1]
    exact ho
  | cons id rest ih =>
    intro c oi c' oi' h ho
    unfold codegen_subgraph.nodes at h
    split at h
    · exact absurd h (by simp)
    · rename_i c1 oi1 h1
      exact ih _ _ _ _ h (codegen_node_overrun_mono cfg g users id _ _ _ _ h1 ho)

/-- What the code generator does for one node of the list. -/
theorem codegen_node_spec (cfg : Config) (g : NodeGraph) (users : SocketUserMap)
    (hsentinel : cfg.sentinel_ok) (hsizes : ∀ td, 1 ≤ cfg.stack_size td)
    (hops : ∀ name, cfg.get_opcode_from_node_type name ≠ .OP_INIT_MESH_PTR ∧
      cfg.get_opcode_from_node_type name ≠ .OP_RELEASE_MESH_PTR)
    (id : Nat) (inst : NodeInstance) (hnode : g.node id = some inst)
    (hnames : (inst.type.outputs.map (·.name)).Nodup)
    (c : BVMCompiler) (oi : SocketIndexMap) (c' : BVMCompiler) (oi' : SocketIndexMap) (t : Nat)
    (h : codegen_subgraph.node cfg g users id c oi = .ok (c', oi'))
    (ha : alloc_ok cfg c t) (hi : index_ok oi t)
    (hnew : ∀ k : ConstSocketPair, k.node = some id → Map.find oi k = none)
    (hfinal : c'.stack_overrun = false) :
    ∃ t' instrs, t ≤ t' ∧ alloc_ok cfg c' t' ∧ index_ok oi' t' ∧
      c'.fn.instructions = c.fn.instructions ++ encode instrs ∧
      (∀ k : ConstSocketPair, k.node ≠ some id → Map.find oi' k = Map.find oi k) ∧
      (∀ key v, Map.find oi key = some v →
        Map.find oi' key = some v ∧ instrs.filter (is_init v) = [] ∧
        (instrs.filter (is_release v)).length = released_by cfg key inst) ∧
      (∀ key v, Map.find oi' key = some v → key.node = some id →
        t ≤ v ∧ released_by cfg key inst = 0 ∧ instrs.filter (is_release v) = [] ∧
        ∃ out ∈ inst.type.outputs, key.socket = out.name ∧
          instrs.filter (is_init v) = expected_init users key out.typedesc v) ∧
      (∀ v, t' ≤ v → instrs.filter (is_init v) = [] ∧ instrs.filter (is_release v) = []) ∧
      (∀ key, Map.find oi' key = none → released_by cfg key inst = 0) := by
  unfold codegen_subgraph.node at h
  rw [hnode] at h
  simp only at h
  split at h
  · rename_i hop
    simp only [Except.ok.injEq, Prod.mk.injEq] at h
    obtain ⟨rfl, rfl⟩ := h
    have hrel : ∀ key, released_by cfg key inst = 0 := fun key => by
      unfold released_by; rw [if_pos hop]
    refine ⟨t, [], le_refl _, ha, hi, by simp [encode], fun _ _ => rfl, ?_, ?_, ?_, ?_⟩
    · intro key v hk
      exact ⟨hk, rfl, by rw [hrel]; rfl⟩
    · intro key v hk hn
      rw [hnew key hn] at hk
      exact absurd hk (by simp)
    · intro v _
      exact ⟨rfl, rfl⟩
    · intro key _
      exact hrel key
  · rename_i hop
    split at h
    · exact absurd h (by simp)
    · rename_i c1 ii hprep
      split at h
      · exact absurd h (by simp)
      · rename_i c2 oi2 hinit
        split at h
        · exact absurd h (by simp)
        · rename_i c3 hwi
          split at h
          · exact absurd h (by simp)
          · rename_i c4 hwo
            split at h
            · exact absurd h (by simp)
            · rename_i c5 hrel
              simp only [Except.ok.injEq, Prod.mk.injEq] at h
              obtain ⟨rfl, rfl⟩ := h
              set op := cfg.get_opcode_from_node_type inst.type.name with hopdef
              obtain ⟨ws1, hws1⟩ := write_inputs_spec cfg id ii _ _ _ hwi
              obtain ⟨ws2, hws2⟩ := write_outputs_spec cfg id oi2 _ _ _ hwo
              have hc4 : c4 = c2.append (encode [(op, ws1 ++ ws2)]) := by
                rw [hws2, hws1, push_opcode_eq, append_append, append_append, encode_single]
                simp
              -- the release phase only appends
              have hover4 : c4.stack_overrun = false := by
                by_contra hne
                rw [release_inputs_overrun cfg oi2 _ _ _ hrel] at hfinal
                exact hne hfinal
              have hover2 : c2.stack_overrun = false := by
                rw [hc4] at hover4
                exact hover4
              have hover1 : c1.stack_overrun = false := by
                by_contra hne
                have := init_outputs_overrun_mono cfg id users _ _ _ _ _ hinit (by simpa using hne)
                rw [this] at hover2
                exact absurd hover2 (by simp)
              obtain ⟨t1, P1, ht1, ha1, hs1, hP1, hfound⟩ :=
                prepare_inputs_spec cfg id oi hsentinel hsizes _ _ _ _ _ t hprep ha hover1
              obtain ⟨t2, P2, ht2, ha2, hs2, hP2, hframe, hout, hinj⟩ :=
                init_outputs_spec cfg id users hsentinel hsizes _ _ _ _ _ t1 hinit ha1 hover2 hnames
              -- every key of the new map is an old one or one of the outputs
              have hclass : ∀ k v, Map.find oi2 k = some v →
                  (Map.find oi k = some v ∧ k.node ≠ some id) ∨
                  (∃ out ∈ inst.type.outputs, k = ⟨some id, out.name⟩ ∧ t1 ≤ v ∧ v < t2 ∧
                    P2.filter (is_init v) = expected_init users k out.typedesc v) := by
                intro k v hk
                by_cases hex : ∃ out ∈ inst.type.outputs, k = ⟨some id, out.name⟩
                · obtain ⟨out, ho, rfl⟩ := hex
                  obtain ⟨v', hv1, hv2, hv3, hv4⟩ := hout out ho
                  rw [hv1] at hk
                  simp only [Option.some.injEq] at hk
                  subst hk
                  exact Or.inr ⟨out, ho, rfl, hv2, hv3, hv4⟩
                · have hk' : Map.find oi k = some v := by
                    rw [← hframe k (fun out ho e => hex ⟨out, ho, e⟩)]
                    exact hk
                  refine Or.inl ⟨hk', fun hn => ?_⟩
                  rw [hnew k hn] at hk'
                  exact absurd hk' (by simp)
              have hold : ∀ k v, Map.find oi k = some v → Map.find oi2 k = some v := by
                intro k v hk
                rw [hframe k]
                · exact hk
                · intro out _ e
                  rw [hnew k (by rw [e])] at hk
                  exact absurd hk (by simp)
              have hi2 : index_ok oi2 t2 := by
                constructor
                · intro k v hk
                  rcases hclass k v hk with ⟨h1, _⟩ | ⟨_, _, _, _, h2, _⟩
                  · have := hi.1 k v h1
                    omega
                  · exact h2
                · intro k k' v hk hk'
                  rcases hclass k v hk with ⟨h1, _⟩ | ⟨o1, ho1, e1, h1, _⟩ <;>
                    rcases hclass k' v hk' with ⟨h2, _⟩ | ⟨o2, ho2, e2, h2, _⟩
                  · exact hi.2 k k' v h1 h2
                  · have := hi.1 k v h1
                    omega
                  · have := hi.1 k' v h2
                    omega
                  · have hn := hinj o1 ho1 o2 ho2 (by rw [← e1, ← e2, hk, hk'])
                    rw [e1, e2, hn]
              have hvalid : ∀ k v, Map.find oi2 k = some v → v ≠ cfg.BVM_STACK_INVALID := by
                intro k v hk
                have h1 := hi2.1 k v hk
                have h2 := ha2.2.1
                have h3 := hsentinel.1
                omega
              obtain ⟨P4, hc5, hP4, hcount⟩ := release_inputs_spec cfg oi2 hvalid _ _ _ hrel
              have hmain1 : op ≠ .OP_INIT_MESH_PTR := (hops _).1
              have hmain2 : op ≠ .OP_RELEASE_MESH_PTR := (hops _).2
              have hInit : ∀ v, (P1 ++ P2 ++ [(op, ws1 ++ ws2)] ++ P4).filter (is_init v) =
                  P2.filter (is_init v) := by
                intro v
                rw [List.filter_append, List.filter_append, List.filter_append,
                  filter_is_init_of_ne v P1 (fun ins hi => (hP1 ins hi).1),
                  filter_is_init_of_ne v [(op, ws1 ++ ws2)] (by
                    intro ins hi
                    rw [List.mem_singleton] at hi
                    rw [hi]
                    exact hmain1),
                  filter_is_init_of_ne v P4 (by
                    intro ins hi
                    rw [(hP4 ins hi).1]
                    simp)]
                simp
              have hRel : ∀ v, (P1 ++ P2 ++ [(op, ws1 ++ ws2)] ++ P4).filter (is_release v) =
                  P4.filter (is_release v) := by
                intro v
                rw [List.filter_append, List.filter_append, List.filter_append,
                  filter_is_release_of_ne v P1 (fun ins hi => (hP1 ins hi).2),
                  filter_is_release_of_ne v [(op, ws1 ++ ws2)] (by
                    intro ins hi
                    rw [List.mem_singleton] at hi
                    rw [hi]
                    exact hmain2),
                  filter_is_release_of_ne v P2 (by
                    intro ins hi
                    rw [(hP2 ins hi).1]
                    simp)]
                simp
              have hP2nil : ∀ v, (v < t1 ∨ t2 ≤ v) → P2.filter (is_init v) = [] := by
                intro v hv
                apply filter_is_init_eq_nil
                intro ins hi _ hh
                obtain ⟨_, v', hv1, hv2, hv3⟩ := hP2 ins hi
                rw [hv1] at hh
                simp only [Option.some.injEq] at hh
                omega
              have hrb : ∀ key, released_by cfg key inst =
                  (inst.input_sockets.filter (consumes key)).length := by
                intro key
                unfold released_by
                rw [if_neg hop]
              -- a socket that the old map does not hold has no consumer in this node
              have hnocons : ∀ key, Map.find oi key = none →
                  inst.input_sockets.filter (consumes key) = [] := by
                intro key hk
                rw [List.filter_eq_nil_iff]
                intro inp hinp hc
                obtain ⟨hc1, hc2, n, s, hl, rfl⟩ := consumes_link key inp hc
                exact hfound inp hinp hc1 hc2 n s hl hk
              refine ⟨t2, P1 ++ P2 ++ [(op, ws1 ++ ws2)] ++ P4, by omega, ?_, hi2, ?_, ?_, ?_, ?_,
                ?_, ?_⟩
              · rw [hc5, hc4]
                exact ha2
              · rw [hc5, hc4, append_instructions, append_instructions, hs2, hs1]
                simp only [encode_append, List.append_assoc]
              · intro k hk
                apply hframe
                intro out _ e
                exact hk (by rw [e])
              · intro key v hk
                have hk2 := hold key v hk
                refine ⟨hk2, ?_, ?_⟩
                · rw [hInit]
                  exact hP2nil v (Or.inl (by have := hi.1 key v hk; omega))
                · rw [hRel, hcount key v hk2 (fun k hk' => hi2.2 k key v hk' hk2), hrb]
              · intro key v hk hn
                rcases hclass key v hk with ⟨h1, h2⟩ | ⟨out, ho, e, h1, h2, h3⟩
                · exact absurd hn h2
                · have hnone := hnew key hn
                  have hz : (inst.input_sockets.filter (consumes key)).length = 0 := by
                    rw [hnocons key hnone]
                    rfl
                  refine ⟨by omega, by rw [hrb, hz], ?_, out, ho, by rw [e], ?_⟩
                  · rw [hRel]
                    apply List.eq_nil_of_length_eq_zero
                    rw [hcount key v hk (fun k hk' => hi2.2 k key v hk' hk), hz]
                  · rw [hInit]
                    exact h3
              · intro v hv
                refine ⟨by rw [hInit]; exact hP2nil v (Or.inr hv), ?_⟩
                rw [hRel, List.filter_eq_nil_iff]
                intro ins hi
                simp only [is_release, decide_eq_true_eq, not_and]
                intro _ hh
                obtain ⟨_, k, v', hk, hv'⟩ := hP4 ins hi
                rw [hv'] at hh
                simp only [List.cons.injEq, and_true] at hh
                have := hi2.1 k v' hk
                omega
              · intro key hk
                rw [hrb, hnocons key, List.length_nil]
                cases hko : Map.find oi key with
                | none => rfl
                | some v =>
                  rw [hold key v hko] at hk
                  exact absurd hk (by simp)

theorem codegen_node_defined (cfg : Config) (g : NodeGraph) (users : SocketUserMap) (id : Nat)
    (c : BVMCompiler) (oi : SocketIndexMap) (r : BVMCompiler × SocketIndexMap)
    (h : codegen_subgraph.node cfg g users id c oi = .ok r) : ∃ inst, g.node id = some inst := by
  unfold codegen_subgraph.node at h
  split at h
  · exact absurd h (by simp)
  · rename_i inst hn
    exact ⟨inst, hn⟩

/-- The loop over the nodes, for a socket that has its slot already: the slot
stays, no initialize instruction for it is appended, and the release
instructions appended for it are those of the consuming inputs of the nodes. -/
theorem codegen_nodes_assigned (cfg : Config) (g : NodeGraph) (users : SocketUserMap)
    (hsentinel : cfg.sentinel_ok) (hsizes : ∀ td, 1 ≤ cfg.stack_size td)
    (hops : ∀ name, cfg.get_opcode_from_node_type name ≠ .OP_INIT_MESH_PTR ∧
      cfg.get_opcode_from_node_type name ≠ .OP_RELEASE_MESH_PTR)
    (hnames : ∀ id inst, g.node id = some inst → (inst.type.outputs.map (·.name)).Nodup)
    (key : ConstSocketPair) (v : Nat) :
    ∀ (nodes : NodeList) (c : BVMCompiler) (oi : SocketIndexMap) (c' : BVMCompiler)
      (oi' : SocketIndexMap) (t : Nat),
      codegen_subgraph.nodes cfg g users nodes c oi = .ok (c', oi') →
      alloc_ok cfg c t → index_ok oi t → nodes.Nodup →
      (∀ id ∈ nodes, ∀ k : ConstSocketPair, k.node = some id → Map.find oi k = none) →
      c'.stack_overrun = false → Map.find oi key = some v →
      ∃ t' instrs, t ≤ t' ∧ alloc_ok cfg c' t' ∧ index_ok oi' t' ∧
        c'.fn.instructions = c.fn.instructions ++ encode instrs ∧
        Map.find oi' key = some v ∧ instrs.filter (is_init v) = [] ∧
        (instrs.filter (is_release v)).length = (nodes.map (released_at cfg g key)).sum ∧
        (∀ w, t' ≤ w → instrs.filter (is_init w) = [] ∧ instrs.filter (is_release w) = []) := by
  intro nodes
  induction nodes with
  | nil =>
    intro c oi c' oi' t h ha hi _ _ _ hk
    simp only [codegen_subgraph.nodes, Except.ok.injEq, Prod.mk.injEq] at h
    obtain ⟨rfl, rfl⟩ := h
    exact ⟨t, [], le_refl _, ha, hi, by simp [encode], hk, rfl, rfl, fun _ _ => ⟨rfl, rfl⟩⟩
  | cons id rest ih =>
    intro c oi c' oi' t h ha hi hnd hnew hfinal hk
    unfold codegen_subgraph.nodes at h
    split at h
    · exact absurd h (by simp)
    · rename_i c1 oi1 h1
      obtain ⟨inst, hinst⟩ := codegen_node_defined cfg g users id c oi _ h1
      have hover1 : c1.stack_overrun = false := by
        by_contra hne
        have := codegen_nodes_overrun_mono cfg g users rest _ _ _ _ h (by simpa using hne)
        rw [this] at hfinal
        exact absurd hfinal (by simp)
      obtain ⟨t1, P1, ht1, ha1, hi1, hs1, hframe, hold, _, hfresh1, _⟩ :=
        codegen_node_spec cfg g users hsentinel hsizes hops id inst hinst (hnames id inst hinst)
          c oi c1 oi1 t h1 ha hi (hnew id (List.mem_cons_self _ _)) hover1
      obtain ⟨hk1, hinit1, hrel1⟩ := hold key v hk
      obtain ⟨t', P, ht', ha', hi', hs', hk', hinit', hrel', hfresh⟩ :=
        ih c1 oi1 c' oi' t1 h ha1 hi1 (List.nodup_cons.1 hnd).2
          (by
            intro id' hid' k hkn
            rw [hframe k (by
              rw [hkn]
              intro e
              simp only [Option.some.injEq] at e
              exact (List.nodup_cons.1 hnd).1 (e ▸ hid'))]
            exact hnew id' (List.mem_cons_of_mem _ hid') k hkn)
          hfinal hk1
      refine ⟨t', P1 ++ P, by omega, ha', hi', ?_, hk', ?_, ?_, ?_⟩
      · rw [hs', hs1, List.append_assoc, encode_append]
      · rw [List.filter_append, hinit1, hinit', List.append_nil]
      · rw [List.filter_append, List.length_append, hrel1, hrel', List.map_cons, List.sum_cons]
        simp only [released_at, hinst]
      · intro w hw
        obtain ⟨f1, f2⟩ := hfresh1 w (by omega)
        obtain ⟨f3, f4⟩ := hfresh w hw
        exact ⟨by rw [List.filter_append, f1, f3]; rfl, by rw [List.filter_append, f2, f4]; rfl⟩

/-- The loop over the nodes, for a socket that has no slot yet. -/
theorem codegen_nodes_unassigned (cfg : Config) (g : NodeGraph) (users : SocketUserMap)
    (hsentinel : cfg.sentinel_ok) (hsizes : ∀ td, 1 ≤ cfg.stack_size td)
    (hops : ∀ name, cfg.get_opcode_from_node_type name ≠ .OP_INIT_MESH_PTR ∧
      cfg.get_opcode_from_node_type name ≠ .OP_RELEASE_MESH_PTR)
    (hnames : ∀ id inst, g.node id = some inst → (inst.type.outputs.map (·.name)).Nodup)
    (key : ConstSocketPair) :
    ∀ (nodes : NodeList) (c : BVMCompiler) (oi : SocketIndexMap) (c' : BVMCompiler)
      (oi' : SocketIndexMap) (t : Nat),
      codegen_subgraph.nodes cfg g users nodes c oi = .ok (c', oi') →
      alloc_ok cfg c t → index_ok oi t → nodes.Nodup →
      (∀ id ∈ nodes, ∀ k : ConstSocketPair, k.node = some id → Map.find oi k = none) →
      c'.stack_overrun = false → Map.find oi key = none →
      ∃ t' instrs, t ≤ t' ∧ alloc_ok cfg c' t' ∧ index_ok oi' t' ∧
        c'.fn.instructions = c.fn.instructions ++ encode instrs ∧
        (∀ v, Map.find oi' key = some v → t ≤ v ∧
          (∃ id inst out, key.node = some id ∧ id ∈ nodes ∧ g.node id = some inst ∧
            out ∈ inst.type.outputs ∧ key.socket = out.name ∧
            instrs.filter (is_init v) = expected_init users key out.typedesc v) ∧
          (instrs.filter (is_release v)).length = (nodes.map (released_at cfg g key)).sum) ∧
        (Map.find oi' key = none → (nodes.map (released_at cfg g key)).sum = 0) ∧
        (∀ v, t' ≤ v → instrs.filter (is_init v) = [] ∧ instrs.filter (is_release v) = []) := by
  intro nodes
  induction nodes with
  | nil =>
    intro c oi c' oi' t h ha hi _ _ _ hk
    simp only [codegen_subgraph.nodes, Except.ok.injEq, Prod.mk.injEq] at h
    obtain ⟨rfl, rfl⟩ := h
    refine ⟨t, [], le_refl _, ha, hi, by simp [encode], ?_, fun _ => rfl, fun _ _ => ⟨rfl, rfl⟩⟩
    intro v hv
    rw [hk] at hv
    exact absurd hv (by simp)
  | cons id rest ih =>
    intro c oi c' oi' t h ha hi hnd hnew hfinal hk
    unfold codegen_subgraph.nodes at h
    split at h
    · exact absurd h (by simp)
    · rename_i c1 oi1 h1
      obtain ⟨inst, hinst⟩ := codegen_node_defined cfg g users id c oi _ h1
      have hover1 : c1.stack_overrun = false := by
        by_contra hne
        have := codegen_nodes_overrun_mono cfg g users rest _ _ _ _ h (by simpa using hne)
        rw [this] at hfinal
        exact absurd hfinal (by simp)
      obtain ⟨t1, P1, ht1, ha1, hi1, hs1, hframe, _, hnewkey, hfresh1, hnone1⟩ :=
        codegen_node_spec cfg g users hsentinel hsizes hops id inst hinst (hnames id inst hinst)
          c oi c1 oi1 t h1 ha hi (hnew id (List.mem_cons_self _ _)) hover1
      have hnd' := (List.nodup_cons.1 hnd).2
      have hnew' : ∀ id' ∈ rest, ∀ k : ConstSocketPair, k.node = some id' →
          Map.find oi1 k = none := by
        intro id' hid' k hkn
        rw [hframe k (by
          rw [hkn]
          intro e
          simp only [Option.some.injEq] at e
          exact (List.nodup_cons.1 hnd).1 (e ▸ hid'))]
        exact hnew id' (List.mem_cons_of_mem _ hid') k hkn
      have hsum : (List.map (released_at cfg g key) (id :: rest)).sum =
          released_by cfg key inst + (rest.map (released_at cfg g key)).sum := by
        rw [List.map_cons, List.sum_cons]
        simp only [released_at, hinst]
      cases hk1 : Map.find oi1 key with
      | some v1 =>
        have hkn : key.node = some id := by
          by_contra hne
          rw [hframe key hne, hk] at hk1
          exact absurd hk1 (by simp)
        obtain ⟨hv1, hz1, hrel1, out, hout, hname, hinit1⟩ := hnewkey key v1 hk1 hkn
        obtain ⟨t', P, ht', ha', hi', hs', hk', hinit', hrel', hfresh⟩ :=
          codegen_nodes_assigned cfg g users hsentinel hsizes hops hnames key v1 rest c1 oi1 c' oi'
            t1 h ha1 hi1 hnd' hnew' hfinal hk1
        refine ⟨t', P1 ++ P, by omega, ha', hi', ?_, ?_, ?_, ?_⟩
        · rw [hs', hs1, List.append_assoc, encode_append]
        · intro v hv
          rw [hk'] at hv
          simp only [Option.some.injEq] at hv
          subst hv
          refine ⟨hv1, ⟨id, inst, out, hkn, List.mem_cons_self _ _, hinst, hout, hname, ?_⟩, ?_⟩
          · rw [List.filter_append, hinit1, hinit', List.append_nil]
          · rw [List.filter_append, List.length_append, hrel1, hrel', hsum, hz1]
            simp
        · intro hn
          rw [hk'] at hn
          exact absurd hn (by simp)
        · intro w hw
          obtain ⟨f1, f2⟩ := hfresh1 w (by omega)
          obtain ⟨f3, f4⟩ := hfresh w hw
          exact ⟨by rw [List.filter_append, f1, f3]; rfl, by rw [List.filter_append, f2, f4]; rfl⟩
      | none =>
        obtain ⟨t', P, ht', ha', hi', hs', hsome, hnone, hfresh⟩ :=
          ih c1 oi1 c' oi' t1 h ha1 hi1 hnd' hnew' hfinal hk1
        have hz1 := hnone1 key hk1
        refine ⟨t', P1 ++ P, by omega, ha', hi', ?_, ?_, ?_, ?_⟩
        · rw [hs', hs1, List.append_assoc, encode_append]
        · intro v hv
          obtain ⟨hge, ⟨id', inst', out, e1, e2, e3, e4, e5, e6⟩, hr⟩ := hsome v hv
          obtain ⟨f1, f2⟩ := hfresh1 v hge
          refine ⟨by omega, ⟨id', inst', out, e1, List.mem_cons_of_mem _ e2, e3, e4, e5, ?_⟩, ?_⟩
          · rw [List.filter_append, f1, List.nil_append, e6]
          · rw [List.filter_append, f2, List.nil_append, hr, hsum, hz1, Nat.zero_add]
        · intro hn
          rw [hsum, hz1, hnone hn]
        · intro v hv
          obtain ⟨f1, f2⟩ := hfresh1 v (by omega)
          obtain ⟨f3, f4⟩ := hfresh v hv
          exact ⟨by rw [List.filter_append, f1, f3]; rfl, by rw [List.filter_append, f2, f4]; rfl⟩

/-- The output allocation defines the slot of every output, and keeps the
sockets that have a slot. -/
theorem init_outputs_defined (cfg : Config) (node : Nat) (users : SocketUserMap) :
    ∀ (outs : List NodeSocket) (c : BVMCompiler) (oi : SocketIndexMap) (c' : BVMCompiler)
      (oi' : SocketIndexMap),
      codegen_subgraph.init_outputs cfg node users outs c oi = .ok (c', oi') →
      (∀ k, Map.find oi k ≠ none → Map.find oi' k ≠ none) ∧
      ∀ out ∈ outs, Map.find oi' ⟨some node, out.name⟩ ≠ none := by
  intro outs
  induction outs with
  | nil =>
    intro c oi c' oi' h
    simp only [codegen_subgraph.init_outputs, Except.ok.injEq, Prod.mk.injEq] at h
    rw [← h.2]
    exact ⟨fun _ hk => hk, fun _ ho => absurd ho (List.not_mem_nil _)⟩
  | cons out rest ih =>
    intro c oi c' oi' h
    have hset : ∀ k, Map.find oi k ≠ none ∨ k = ⟨some node, out.name⟩ →
        Map.find (Map.set oi ⟨some node, out.name⟩ (assign_stack_index cfg c out.typedesc).1) k ≠
          none := by
      intro k hk
      rw [map_find_set]
      split
      · simp
      · rename_i hne
        rcases hk with hk | hk
        · exact hk
        · exact absurd hk.symm hne
    have hfin : ∀ c_mid, codegen_subgraph.init_outputs cfg node users rest c_mid
        (Map.set oi ⟨some node, out.name⟩ (assign_stack_index cfg c out.typedesc).1) =
          .ok (c', oi') →
        (∀ k, Map.find oi k ≠ none → Map.find oi' k ≠ none) ∧
        ∀ o ∈ out :: rest, Map.find oi' ⟨some node, o.name⟩ ≠ none := by
      intro c_mid hr
      obtain ⟨h1, h2⟩ := ih _ _ _ _ hr
      refine ⟨fun k hk => h1 k (hset k (Or.inl hk)), fun o ho => ?_⟩
      rcases List.mem_cons.1 ho with e | ho
      · rw [e]
        exact h1 _ (hset _ (Or.inr rfl))
      · exact h2 o ho
    unfold codegen_subgraph.init_outputs at h
    simp only at h
    split at h
    · split at h
      · exact absurd h (by simp)
      · split at h
        · exact hfin _ h
        · exact hfin _ h
    · exact hfin _ h

theorem codegen_node_defined_outputs (cfg : Config) (g : NodeGraph) (users : SocketUserMap)
    (id : Nat) (c : BVMCompiler) (oi : SocketIndexMap) (c' : BVMCompiler) (oi' : SocketIndexMap)
    (h : codegen_subgraph.node cfg g users id c oi = .ok (c', oi')) :
    (∀ k, Map.find oi k ≠ none → Map.find oi' k ≠ none) ∧
    ∀ inst, g.node id = some inst →
      cfg.get_opcode_from_node_type inst.type.name ≠ .OP_NOOP →
      ∀ out ∈ inst.type.outputs, Map.find oi' ⟨some id, out.name⟩ ≠ none := by
  unfold codegen_subgraph.node at h
  split at h
  · exact absurd h (by simp)
  · rename_i inst0 hn
    simp only at h
    split at h
    · rename_i hop
      simp only [Except.ok.injEq, Prod.mk.injEq] at h
      rw [← h.2]
      refine ⟨fun _ hk => hk, fun inst hi hne => ?_⟩
      rw [hn] at hi
      simp only [Option.some.injEq] at hi
      subst hi
      exact absurd hop hne
    · split at h
      · exact absurd h (by simp)
      · split at h
        · exact absurd h (by simp)
        · rename_i c2 oi2 hinit
          split at h
          · exact absurd h (by simp)
          · split at h
            · exact absurd h (by simp)
            · split at h
              · exact absurd h (by simp)
              · simp only [Except.ok.injEq, Prod.mk.injEq] at h
                rw [← h.2]
                obtain ⟨h1, h2⟩ := init_outputs_defined cfg id users _ _ _ _ _ hinit
                refine ⟨h1, fun inst hi _ => ?_⟩
                rw [hn] at hi
                simp only [Option.some.injEq] at hi
                subst hi
                exact h2

/-- After the loop over the nodes every output of every mapped node of the list
has a slot. -/
theorem codegen_nodes_defined_outputs (cfg : Config) (g : NodeGraph) (users : SocketUserMap) :
    ∀ (nodes : NodeList) (c : BVMCompiler) (oi : SocketIndexMap) (c' : BVMCompiler)
      (oi' : SocketIndexMap),
      codegen_subgraph.nodes cfg g users nodes c oi = .ok (c', oi') →
      (∀ k, Map.find oi k ≠ none → Map.find oi' k ≠ none) ∧
      ∀ id ∈ nodes, ∀ inst, g.node id = some inst →
        cfg.get_opcode_from_node_type inst.type.name ≠ .OP_NOOP →
        ∀ out ∈ inst.type.outputs, Map.find oi' ⟨some id, out.name⟩ ≠ none := by
  intro nodes
  induction nodes with
  | nil =>
    intro c oi c' oi' h
    simp only [codegen_subgraph.nodes, Except.ok.injEq, Prod.mk.injEq] at h
    rw [← h.2]
    exact ⟨fun _ hk => hk, fun _ hi => absurd hi (List.not_mem_nil _)⟩
  | cons id rest ih =>
    intro c oi c' oi' h
    unfold codegen_subgraph.nodes at h
    split at h
    · exact absurd h (by simp)
    · rename_i c1 oi1 h1
      obtain ⟨p1, d1⟩ := codegen_node_defined_outputs cfg g users id _ _ _ _ h1
      obtain ⟨p2, d2⟩ := ih _ _ _ _ h
      refine ⟨fun k hk => p2 k (p1 k hk), fun id' hid' inst hi hop out ho => ?_⟩
      rcases List.mem_cons.1 hid' with e | hid'
      · subst e
        exact p2 _ (d1 inst hi hop out ho)
      · exact d2 id' hid' inst hi hop out ho

theorem resolve_outputs_overrun_mono (cfg : Config) (oi : SocketIndexMap) :
    ∀ (outs : SubgraphOutputList) (c : BVMCompiler) (outs' : SubgraphOutputList)
      (c' : BVMCompiler),
      codegen_subgraph.resolve_outputs cfg oi outs c = .ok (outs', c') →
      c.stack_overrun = true → c'.stack_overrun = true := by
  intro outs
  induction outs with
  | nil =>
    intro c outs' c' h ho
    simp only [codegen_subgraph.resolve_outputs, Except.ok.injEq, Prod.mk.injEq] at h
    rw [← h.2]
    exact ho
  | cons out rest ih =>
    intro c outs' c' h ho
    unfold codegen_subgraph.resolve_outputs at h
    split at h
    · split at h
      · exact absurd h (by simp)
      · split at h
        · exact absurd h (by simp)
        · rename_i r hr
          simp only [Except.ok.injEq, Prod.mk.injEq] at h
          rw [← h.2]
          exact ih _ _ _ hr ho
    · split at h
      · exact absurd h (by simp)
      · rename_i value _
        simp only at h
        split at h
        · exact absurd h (by simp)
        · rename_i r hr
          simp only [Except.ok.injEq, Prod.mk.injEq] at h
          rw [← h.2]
          exact ih _ _ _ hr (codegen_value_overrun_mono cfg c value ho)

/-- The resolution of the requested outputs appends value-load instructions only. -/
theorem resolve_outputs_spec (cfg : Config) (oi : SocketIndexMap)
    (hsentinel : cfg.sentinel_ok) (hsizes : ∀ td, 1 ≤ cfg.stack_size td) :
    ∀ (outs : SubgraphOutputList) (c : BVMCompiler) (outs' : SubgraphOutputList)
      (c' : BVMCompiler) (t : Nat),
      codegen_subgraph.resolve_outputs cfg oi outs c = .ok (outs', c') →
      alloc_ok cfg c t → c'.stack_overrun = false →
      ∃ instrs, c'.fn.instructions = c.fn.instructions ++ encode instrs ∧
        ∀ ins ∈ instrs, ins.1 ≠ .OP_INIT_MESH_PTR ∧ ins.1 ≠ .OP_RELEASE_MESH_PTR := by
  intro outs
  induction outs with
  | nil =>
    intro c outs' c' t h _ _
    simp only [codegen_subgraph.resolve_outputs, Except.ok.injEq, Prod.mk.injEq] at h
    rw [← h.2]
    exact ⟨[], by simp [encode], fun _ hi => absurd hi (List.not_mem_nil _)⟩
  | cons out rest ih =>
    intro c outs' c' t h ha hfinal
    unfold codegen_subgraph.resolve_outputs at h
    split at h
    · split at h
      · exact absurd h (by simp)
      · split at h
        · exact absurd h (by simp)
        · rename_i r hr
          simp only [Except.ok.injEq, Prod.mk.injEq] at h
          rw [← h.2]
          rw [← h.2] at hfinal
          exact ih _ _ _ t hr ha hfinal
    · split at h
      · exact absurd h (by simp)
      · rename_i value _
        simp only at h
        split at h
        · exact absurd h (by simp)
        · rename_i r hr
          simp only [Except.ok.injEq, Prod.mk.injEq] at h
          rw [← h.2] at hfinal ⊢
          have hmid : (codegen_value cfg c value).2.stack_overrun = false := by
            by_contra hne
            have := resolve_outputs_overrun_mono cfg oi rest _ _ _ hr (by simpa using hne)
            rw [this] at hfinal
            exact absurd hfinal (by simp)
          obtain ⟨_, t1, ws, _, ha1, hs1⟩ :=
            codegen_value_spec cfg c value t hsentinel hsizes ha hmid
          obtain ⟨instrs, h1, h2⟩ := ih _ _ _ t1 hr ha1 hfinal
          refine ⟨(value.opcode, ws) :: instrs, ?_, ?_⟩
          · rw [h1, hs1, List.append_assoc, ← encode_append]
            rfl
          · intro ins hi
            rcases List.mem_cons.1 hi with e | hi
            · subst e
              exact value_opcode_ne value
            · exact h2 ins hi

/-! ## Initialize and release instructions of a compiled function -/

theorem return_values_instructions (g : NodeGraph) :
    ∀ (gouts : List GraphOutput) (outs : SubgraphOutputList) (fn0 fn : Function),
      codegen_function.return_values g gouts outs fn0 = .ok fn →
      fn.instructions = fn0.instructions := by
  intro gouts
  induction gouts with
  | nil =>
    intro outs fn0 fn h
    simp only [codegen_function.return_values, Except.ok.injEq] at h
    rw [h]
  | cons o rest ih =>
    intro outs fn0 fn h
    cases outs with
    | nil =>
      simp only [codegen_function.return_values, Except.ok.injEq] at h
      rw [h]
    | cons x xs =>
      unfold codegen_function.return_values at h
      split at h
      · exact absurd h (by simp)
      · split at h
        · exact absurd h (by simp)
        · rw [ih _ _ _ h]
          rfl

theorem released_at_sum_range (cfg : Config) (g : NodeGraph) (key : ConstSocketPair) :
    ((List.range g.nodes.length).map (released_at cfg g key)).sum = release_links cfg g key := by
  unfold release_links
  congr 1
  apply List.ext_getElem
  · simp
  · intro i h1 h2
    simp only [List.length_map, List.length_range] at h1
    simp [released_at, NodeGraph.node, List.getElem?_eq_getElem h1]

theorem nodup_name_eq (outs : List NodeSocket) (h : (outs.map (·.name)).Nodup)
    (o1 o2 : NodeSocket) (h1 : o1 ∈ outs) (h2 : o2 ∈ outs) (he : o1.name = o2.name) : o1 = o2 :=
  List.inj_on_of_nodup_map h h1 h2 he

/-- The initialize and release instructions of the stream of a compiled function,
for an output of a mapped node: in a graph without function-typed inputs that
compiles without running out of stack, the stream has for the slot of the output
exactly the initialize instruction that its type and use-count ask for, and one
release instruction per consuming input. -/
theorem codegen_function_lifetime (cfg : Config) (addr : Nat → Nat) (g : NodeGraph)
    (hsentinel : cfg.sentinel_ok) (hsizes : ∀ td, 1 ≤ cfg.stack_size td)
    (hops : ∀ name, cfg.get_opcode_from_node_type name ≠ .OP_INIT_MESH_PTR ∧
      cfg.get_opcode_from_node_type name ≠ .OP_RELEASE_MESH_PTR)
    (hno : g.no_function_inputs)
    (hnames : ∀ id inst, g.node id = some inst → (inst.type.outputs.map (·.name)).Nodup)
    (fn : Function) (c' : BVMCompiler)
    (hok : codegen_function cfg addr g (BVMCompiler.new cfg) = .ok (fn, c'))
    (hover : c'.stack_overrun = false)
    (id : Nat) (inst : NodeInstance) (out : NodeSocket) (hnode : g.node id = some inst)
    (hmapped : cfg.get_opcode_from_node_type inst.type.name ≠ .OP_NOOP)
    (hout : out ∈ inst.type.outputs) :
    ∃ slot, codegen_function.output_slot cfg addr g (BVMCompiler.new cfg) ⟨some id, out.name⟩ =
        some slot ∧
      init_instructions slot fn.instructions =
        expected_init (count_output_users g) ⟨some id, out.name⟩ out.typedesc slot ∧
      (release_instructions slot fn.instructions).length =
        release_links cfg g ⟨some id, out.name⟩ := by
  unfold codegen_function at hok
  cases hsort : sort_graph_nodes cfg g (BVMCompiler.new cfg) with
  | none => rw [hsort] at hok; exact absurd hok (by simp)
  | some r =>
    obtain ⟨main_nodes, c1⟩ := r
    have hfem : c1.func_entry_map = [] :=
      sort_graph_nodes_func_entry_map cfg g _ _ _ hno hsort
    have hperm := sort_graph_nodes_perm cfg g _ _ _ hsort
    have hc1 : c1.stack_users = (BVMCompiler.new cfg).stack_users ∧
        c1.stack_overrun = false := by
      unfold sort_graph_nodes at hsort
      split at hsort
      · exact absurd hsort (by simp)
      · simp only [Option.some.injEq, Prod.mk.injEq] at hsort
        rw [← hsort.2]
        exact ⟨rfl, rfl⟩
    rw [hsort] at hok
    simp only [hfem, FunctionEntryMap.iteration, List.foldr_nil, codegen_function.kernels] at hok
    split at hok
    · exact absurd hok (by simp)
    · rename_i outs hmain
      split at hok
      · exact absurd hok (by simp)
      · rename_i entry outs' c2 hsub
        split at hok
        · exact absurd hok (by simp)
        · rename_i fn' hret
          simp only [Except.ok.injEq, Prod.mk.injEq] at hok
          obtain ⟨rfl, rfl⟩ := hok
          have hfn : fn'.instructions = c2.fn.instructions := by
            rw [return_values_instructions g _ _ _ _ hret]
            rfl
          unfold codegen_subgraph at hsub
          simp only at hsub
          split at hsub
          · exact absurd hsub (by simp)
          · rename_i c3 oi hnodes
            split at hsub
            · exact absurd hsub (by simp)
            · rename_i outs2 c4 hres
              simp only [Except.ok.injEq, Prod.mk.injEq] at hsub
              obtain ⟨_, _, rfl⟩ := hsub
              have hover4 : c4.stack_overrun = false := hover
              have hover3 : c3.stack_overrun = false := by
                by_contra hne
                have := resolve_outputs_overrun_mono cfg oi _ _ _ _ hres
                  (by rw [push_opcode_eq]; simpa using hne)
                rw [this] at hover4
                exact absurd hover4 (by simp)
              have ha0 : alloc_ok cfg
                  { stack_users := c1.stack_users, fn := Function.new, func_entry_map := [],
                    stack_overrun := c1.stack_overrun } 0 :=
                ⟨by rw [hc1.1]; exact new_stack_users cfg, Nat.zero_le _, hc1.2⟩
              have hnd : main_nodes.Nodup := hperm.nodup_iff.2 (List.nodup_range _)
              have hi0 : index_ok ([] : SocketIndexMap) 0 :=
                ⟨fun k v hk => by simp [Map.find] at hk, fun k k' v hk => by simp [Map.find] at hk⟩
              obtain ⟨t', P, _, ha3, _, hs3, hsome, _, _⟩ :=
                codegen_nodes_unassigned cfg g (count_output_users g) hsentinel hsizes hops hnames
                  ⟨some id, out.name⟩ main_nodes _ [] c3 oi 0 hnodes ha0 hi0 hnd
                  (fun _ _ _ _ => rfl) hover3 rfl
              have hdef := (codegen_nodes_defined_outputs cfg g (count_output_users g)
                main_nodes _ _ _ _ hnodes).2 id
                (hperm.mem_iff.2 (List.mem_range.2 (by
                  unfold NodeGraph.node at hnode
                  by_contra hge
                  rw [List.getElem?_eq_none (by omega)] at hnode
                  exact absurd hnode (by simp)))) inst hnode hmapped out hout
              obtain ⟨slot, hslot⟩ := Option.ne_none_iff_exists'.1 hdef
              obtain ⟨_, ⟨id', inst', out', e1, _, e3, e4, e5, e6⟩, hrel⟩ := hsome slot hslot
              simp only [Option.some.injEq] at e1
              subst e1
              rw [hnode] at e3
              simp only [Option.some.injEq] at e3
              subst e3
              have eo : out' = out :=
                nodup_name_eq _ (hnames id inst hnode) out' out e4 hout e5.symm
              subst eo
              obtain ⟨Pv, hs4, hPv⟩ := resolve_outputs_spec cfg oi hsentinel hsizes _ _ _ _ t' hres
                (alloc_ok_append cfg _ t' _ ha3) hover4
              have hstream : fn'.instructions = encode (P ++ [(OpCode.OP_END, [])] ++ Pv) := by
                rw [hfn, hs4, push_opcode_eq, append_instructions, hs3, encode_append,
                  encode_append]
                simp [Function.new, encode]
              refine ⟨slot, ?_, ?_, ?_⟩
              · unfold codegen_function.output_slot codegen_function.output_index
                rw [hsort]
                simp only [hfem, FunctionEntryMap.iteration, List.foldr_nil,
                  codegen_function.kernels, hnodes]
                exact hslot
              · unfold init_instructions
                rw [hstream, decode_encode, List.filter_append, List.filter_append, e6,
                  filter_is_init_of_ne slot Pv (fun ins hi => (hPv ins hi).1),
                  filter_is_init_of_ne slot [(OpCode.OP_END, [])] (by
                    intro ins hi
                    rw [List.mem_singleton] at hi
                    rw [hi]
                    simp)]
                simp
              · unfold release_instructions
                rw [hstream, decode_encode, List.filter_append, List.filter_append,
                  filter_is_release_of_ne slot Pv (fun ins hi => (hPv ins hi).2),
                  filter_is_release_of_ne slot [(OpCode.OP_END, [])] (by
                    intro ins hi
                    rw [List.mem_singleton] at hi
                    rw [hi]
                    simp)]
                simp only [List.append_nil]
                rw [hrel, (hperm.map _).sum_eq, released_at_sum_range]

/-! ## Claims on the initialize and release instructions -/

theorem example_stack_size_pos (td : TypeDesc) : 1 ≤ small_config.stack_size td := by
  obtain ⟨b⟩ := td
  cases b <;> decide

theorem example_opcodes_ne (name : String) :
    small_config.get_opcode_from_node_type name ≠ .OP_INIT_MESH_PTR ∧
    small_config.get_opcode_from_node_type name ≠ .OP_RELEASE_MESH_PTR := by
  simp only [small_config, example_opcodes]
  split_ifs <;> simp

theorem mesh_fork_graph_node (n : Nat) (inst : NodeInstance)
    (h : mesh_fork_graph.node n = some inst) :
    inst = ⟨mesh_modifier_type, [⟨some (2, "mesh"), none⟩]⟩ ∨ inst = ⟨mesh_source_type, []⟩ := by
  unfold NodeGraph.node mesh_fork_graph at h
  match n, h with
  | 0, h => simp only [List.getElem?_cons_zero, Option.some.injEq] at h; exact Or.inl h.symm
  | 1, h =>
    simp only [List.getElem?_cons_succ, List.getElem?_cons_zero, Option.some.injEq] at h
    exact Or.inl h.symm
  | 2, h =>
    simp only [List.getElem?_cons_succ, List.getElem?_cons_zero, Option.some.injEq] at h
    exact Or.inr h.symm
  | k + 3, h => simp at h

theorem mesh_fork_graph_no_function_inputs : mesh_fork_graph.no_function_inputs := by
  intro n inst h socket hs
  rcases mesh_fork_graph_node n inst h with rfl | rfl
  · simp only [mesh_modifier_type, List.mem_singleton] at hs
    subst hs
    decide
  · simp [mesh_source_type] at hs

theorem mesh_fork_graph_names (n : Nat) (inst : NodeInstance)
    (h : mesh_fork_graph.node n = some inst) : (inst.type.outputs.map (·.name)).Nodup := by
  rcases mesh_fork_graph_node n inst h with rfl | rfl <;> decide

/-- C4 (counterexample): a mesh source whose output is the graph output has the
use-count 1; the compiled stream initializes its slot 0 with one
`OP_INIT_MESH_PTR` carrying 1, but holds no `OP_RELEASE_MESH_PTR` at all, so not
one release for that slot. -/
theorem codegen_function_release_count_counterexample :
    Map.find (count_output_users mesh_output_graph) ⟨some 0, "mesh"⟩ = some 1 ∧
    (codegen_function small_config id mesh_output_graph
        (BVMCompiler.new small_config)).toOption.map (fun r => r.1.instructions) =
      some [.opcode .OP_INIT_MESH_PTR, .data 0, .data 1, .opcode (.OP_OTHER 1), .data 0,
            .opcode .OP_END] ∧
    codegen_function.output_slot small_config id mesh_output_graph (BVMCompiler.new small_config)
      ⟨some 0, "mesh"⟩ = some 0 ∧
    init_instructions 0
      [.opcode .OP_INIT_MESH_PTR, .data 0, .data 1, .opcode (.OP_OTHER 1), .data 0,
       .opcode .OP_END] = [(.OP_INIT_MESH_PTR, [0, 1])] ∧
    (release_instructions 0
      [.opcode .OP_INIT_MESH_PTR, .data 0, .data 1, .opcode (.OP_OTHER 1), .data 0,
       .opcode .OP_END]).length ≠ 1 := by
  refine ⟨by decide, by decide, by decide, by decide, by decide⟩

/-- C4 (amended): in a graph without function-typed inputs that compiles on a
fresh compiler without fault and without running out of stack, for every
mesh-typed output of a mapped node whose use-count `U` is positive, the stream
has exactly one `OP_INIT_MESH_PTR` instruction for the slot of that output, and it
carries `U`; and the stream has exactly one `OP_RELEASE_MESH_PTR` instruction for
that slot per link that consumes the output at a mesh-typed input, neither
constant nor function-typed, of a mapped node. -/
theorem codegen_function_init_release (cfg : Config) (addr : Nat → Nat) (g : NodeGraph)
    (hsentinel : cfg.sentinel_ok) (hsizes : ∀ td, 1 ≤ cfg.stack_size td)
    (hops : ∀ name, cfg.get_opcode_from_node_type name ≠ .OP_INIT_MESH_PTR ∧
      cfg.get_opcode_from_node_type name ≠ .OP_RELEASE_MESH_PTR)
    (hno : g.no_function_inputs)
    (hnames : ∀ id inst, g.node id = some inst → (inst.type.outputs.map (·.name)).Nodup)
    (fn : Function) (c' : BVMCompiler)
    (hok : codegen_function cfg addr g (BVMCompiler.new cfg) = .ok (fn, c'))
    (hover : c'.stack_overrun = false)
    (id : Nat) (inst : NodeInstance) (out : NodeSocket) (hnode : g.node id = some inst)
    (hmapped : cfg.get_opcode_from_node_type inst.type.name ≠ .OP_NOOP)
    (hout : out ∈ inst.type.outputs) (hmesh : out.typedesc.base_type = .BVM_MESH)
    (U : Nat) (hU : Map.find (count_output_users g) ⟨some id, out.name⟩ = some U)
    (hpos : 0 < U) (hword : U < WORD) :
    ∃ slot, codegen_function.output_slot cfg addr g (BVMCompiler.new cfg) ⟨some id, out.name⟩ =
        some slot ∧
      init_instructions slot fn.instructions = [(.OP_INIT_MESH_PTR, [slot, U])] ∧
      (release_instructions slot fn.instructions).length =
        release_links cfg g ⟨some id, out.name⟩ := by
  obtain ⟨slot, h1, h2, h3⟩ := codegen_function_lifetime cfg addr g hsentinel hsizes hops hno
    hnames fn c' hok hover id inst out hnode hmapped hout
  refine ⟨slot, h1, ?_, h3⟩
  rw [h2]
  have hop : ptr_init_opcode out.typedesc = .OP_INIT_MESH_PTR := by
    unfold ptr_init_opcode
    rw [hmesh]
  simp [expected_init, hop, hU, hpos, Nat.mod_eq_of_lt hword]

theorem codegen_function_init_release_witness :
    (Map.find (count_output_users mesh_fork_graph) ⟨some 2, "mesh"⟩ = some 2 ∧
      release_links small_config mesh_fork_graph ⟨some 2, "mesh"⟩ = 2) ∧
    ∃ slot, codegen_function.output_slot small_config id mesh_fork_graph
        (BVMCompiler.new small_config) ⟨some 2, "mesh"⟩ = some slot ∧
      init_instructions slot mesh_fork_function.instructions =
        [(.OP_INIT_MESH_PTR, [slot, 2])] ∧
      (release_instructions slot mesh_fork_function.instructions).length =
        release_links small_config mesh_fork_graph ⟨some 2, "mesh"⟩ :=
  ⟨⟨by decide, by decide⟩,
   codegen_function_init_release small_config id mesh_fork_graph (by decide)
     example_stack_size_pos example_opcodes_ne mesh_fork_graph_no_function_inputs
     mesh_fork_graph_names mesh_fork_function (compiler_with [1, 1, 1, 1, 1, 1, 0, 0])
     (by rfl) (by rfl) 2 ⟨mesh_source_type, []⟩ ⟨"mesh", ⟨.BVM_MESH⟩, some .mesh, .VALUE_VARIABLE⟩
     (by rfl) (by decide) (by simp [mesh_source_type]) (by rfl) 2 (by decide) (by decide)
     (by decide)⟩

/-! ## Use counts -/

theorem map_incr_getD {K : Type} [DecidableEq K] (users : List (K × Nat)) (k key : K) :
    (Map.find (Map.incr users k) key).getD 0 =
      (Map.find users key).getD 0 + if k = key then 1 else 0 := by
  unfold Map.incr
  rw [map_find_set]
  by_cases h : k = key
  · subst h
    simp
  · simp [h]

theorem foldl_incr_getD {K A : Type} [DecidableEq K] (f : A → K) (key : K) :
    ∀ (l : List A) (users : List (K × Nat)),
      (Map.find (l.foldl (fun users x => Map.incr users (f x)) users) key).getD 0 =
        (Map.find users key).getD 0 + (l.filter (fun x => decide (f x = key))).length := by
  intro l
  induction l with
  | nil => intro users; simp
  | cons x l ih =>
    intro users
    rw [List.foldl_cons, ih, map_incr_getD]
    by_cases h : f x = key
    · rw [if_pos h, List.filter_cons_of_pos (by simpa using h), List.length_cons]
      omega
    · rw [if_neg h, List.filter_cons_of_neg (by simpa using h)]
      omega

theorem count_node_getD (key : ConstSocketPair) :
    ∀ (inputs : List (NodeSocket × InputInstance)) (users : SocketUserMap),
      (Map.find (count_output_users.count_node users inputs) key).getD 0 =
        (Map.find users key).getD 0 + (inputs.filter (links_to key)).length := by
  intro inputs
  induction inputs with
  | nil => intro users; simp [count_output_users.count_node]
  | cons inp rest ih =>
    intro users
    have ih' := fun u => ih u
    unfold count_output_users.count_node at ih' ⊢
    rw [List.foldl_cons, ih']
    obtain ⟨socket, inst⟩ := inp
    cases hl : inst.link with
    | none =>
      rw [List.filter_cons_of_neg (by simp [links_to, hl])]
    | some l =>
      obtain ⟨n, s⟩ := l
      simp only [hl]
      rw [map_incr_getD]
      by_cases hk : (⟨some n, s⟩ : ConstSocketPair) = key
      · rw [if_pos hk, List.filter_cons_of_pos (by simp [links_to, hl, hk.symm]),
          List.length_cons]
        omega
      · rw [if_neg hk, List.filter_cons_of_neg (by
          simp only [links_to, hl, decide_eq_true_eq]
          exact fun e => hk e.symm)]
        omega

theorem init_node_getD (node : Nat) (key : ConstSocketPair) :
    ∀ (outputs : List NodeSocket) (users : SocketUserMap),
      (Map.find users key).getD 0 = 0 →
      (Map.find (count_output_users.init_node node users outputs) key).getD 0 = 0 := by
  intro outputs
  induction outputs with
  | nil => intro users h; exact h
  | cons out rest ih =>
    intro users h
    unfold count_output_users.init_node
    rw [List.foldl_cons]
    apply ih
    rw [map_find_set]
    split
    · rfl
    · exact h

/-- The use-count of a socket: the links that come from it and go to a node that
is no pass-through node, the declared graph inputs and the declared graph
outputs with that socket as key. -/
theorem count_output_users_getD (g : NodeGraph) (key : ConstSocketPair) :
    (Map.find (count_output_users g) key).getD 0 =
      counted_links g key + (g.inputs.filter (fun i => decide (i.key = key))).length +
        (g.outputs.filter (fun o => decide (o.key = key))).length := by
  unfold count_output_users
  simp only
  rw [foldl_incr_getD (fun o : GraphOutput => o.key), foldl_incr_getD (fun i : GraphInput => i.key)]
  congr 2
  -- the loop over the links
  have hcount : ∀ (ids : List Nat) (users : SocketUserMap),
      (Map.find (ids.foldl (fun users id =>
          match g.node id with
          | none => users
          | some node =>
            if node.type.is_pass_node then users
            else count_output_users.count_node users node.input_sockets) users) key).getD 0 =
        (Map.find users key).getD 0 +
          (ids.map (fun id => match g.node id with
            | none => 0
            | some node => if node.type.is_pass_node then 0 else links_in key node)).sum := by
    intro ids
    induction ids with
    | nil => intro users; simp
    | cons id rest ih =>
      intro users
      rw [List.foldl_cons, ih, List.map_cons, List.sum_cons]
      cases hn : g.node id with
      | none => simp
      | some node =>
        simp only
        by_cases hp : node.type.is_pass_node = true
        · simp [hp]
        · simp only [hp, Bool.false_eq_true, if_false]
          rw [count_node_getD]
          unfold links_in
          omega
  -- the loop that enters the outputs
  have hinit : ∀ (ids : List Nat) (users : SocketUserMap), (Map.find users key).getD 0 = 0 →
      (Map.find (ids.foldl (fun users id =>
          match g.node id with
          | none => users
          | some node => count_output_users.init_node id users node.type.outputs) users)
        key).getD 0 = 0 := by
    intro ids
    induction ids with
    | nil => intro users h; exact h
    | cons id rest ih =>
      intro users h
      rw [List.foldl_cons]
      apply ih
      cases hn : g.node id with
      | none => exact h
      | some node => exact init_node_getD id key _ _ h
  rw [hcount, hinit _ _ (by simp [Map.find]), Nat.zero_add]
  unfold counted_links NodeGraph.node_ids
  congr 1
  apply List.ext_getElem
  · simp
  · intro i h1 h2
    simp only [List.length_map, List.length_range] at h1
    simp [NodeGraph.node, List.getElem?_eq_getElem h1]

/-- C3 (counterexample): the output of a mesh source is consumed by exactly two
links, into two nodes of a type that the registry does not know, and is no
declared graph input or output.  Its use-count is 2 and its slot 0 is
initialized with one `OP_INIT_MESH_PTR` carrying 2, but the two consumers are
skipped and the stream holds no `OP_RELEASE_MESH_PTR`, so not two for slot 0. -/
theorem codegen_function_two_consumers_counterexample :
    all_links mesh_unknown_graph ⟨some 2, "mesh"⟩ = 2 ∧
    Map.find (count_output_users mesh_unknown_graph) ⟨some 2, "mesh"⟩ = some 2 ∧
    (codegen_function small_config id mesh_unknown_graph
        (BVMCompiler.new small_config)).toOption.map (fun r => r.1.instructions) =
      some [.opcode .OP_INIT_MESH_PTR, .data 0, .data 2, .opcode (.OP_OTHER 1), .data 0,
            .opcode .OP_END] ∧
    codegen_function.output_slot small_config id mesh_unknown_graph
      (BVMCompiler.new small_config) ⟨some 2, "mesh"⟩ = some 0 ∧
    (release_instructions 0
      [.opcode .OP_INIT_MESH_PTR, .data 0, .data 2, .opcode (.OP_OTHER 1), .data 0,
       .opcode .OP_END]).length ≠ 2 := by
  refine ⟨by decide, by decide, by decide, by decide, by decide⟩

theorem consumes_eq (key : ConstSocketPair) (inp : NodeSocket × InputInstance) :
    consumes key inp =
      (decide (inp.1.value_type ≠ .VALUE_CONSTANT ∧ inp.1.value_type ≠ .VALUE_FUNCTION ∧
        ptr_release_opcode inp.1.typedesc ≠ .OP_NOOP) && links_to key inp) := rfl

/-- C3 (amended): in a graph without function-typed inputs that compiles on a
fresh compiler without fault and without running out of stack, let a mesh-typed
output of a mapped node be consumed by exactly two links, each at a mesh-typed
variable input of a mapped node that is no pass-through node, and be no declared
graph input or output.  Then its use-count is 2, the stream has exactly one
`OP_INIT_MESH_PTR` instruction for its slot, carrying 2, and exactly two
`OP_RELEASE_MESH_PTR` instructions for its slot, in whatever order the nodes of
the graph are listed. -/
theorem codegen_function_two_consumers (cfg : Config) (addr : Nat → Nat) (g : NodeGraph)
    (hsentinel : cfg.sentinel_ok) (hsizes : ∀ td, 1 ≤ cfg.stack_size td)
    (hops : ∀ name, cfg.get_opcode_from_node_type name ≠ .OP_INIT_MESH_PTR ∧
      cfg.get_opcode_from_node_type name ≠ .OP_RELEASE_MESH_PTR)
    (hno : g.no_function_inputs)
    (hnames : ∀ id inst, g.node id = some inst → (inst.type.outputs.map (·.name)).Nodup)
    (fn : Function) (c' : BVMCompiler)
    (hok : codegen_function cfg addr g (BVMCompiler.new cfg) = .ok (fn, c'))
    (hover : c'.stack_overrun = false)
    (id : Nat) (inst : NodeInstance) (out : NodeSocket) (hnode : g.node id = some inst)
    (hmapped : cfg.get_opcode_from_node_type inst.type.name ≠ .OP_NOOP)
    (hout : out ∈ inst.type.outputs) (hmesh : out.typedesc.base_type = .BVM_MESH)
    (htwo : all_links g ⟨some id, out.name⟩ = 2)
    (hcons : ∀ node ∈ g.nodes, ∀ inp ∈ node.input_sockets,
      links_to ⟨some id, out.name⟩ inp = true →
      cfg.get_opcode_from_node_type node.type.name ≠ .OP_NOOP ∧
      node.type.is_pass_node = false ∧ inp.1.value_type = .VALUE_VARIABLE ∧
      inp.1.typedesc.base_type = .BVM_MESH)
    (hgin : ∀ i ∈ g.inputs, i.key ≠ ⟨some id, out.name⟩)
    (hgout : ∀ o ∈ g.outputs, o.key ≠ ⟨some id, out.name⟩) :
    Map.find (count_output_users g) ⟨some id, out.name⟩ = some 2 ∧
    ∃ slot, codegen_function.output_slot cfg addr g (BVMCompiler.new cfg) ⟨some id, out.name⟩ =
        some slot ∧
      init_instructions slot fn.instructions = [(.OP_INIT_MESH_PTR, [slot, 2])] ∧
      (release_instructions slot fn.instructions).length = 2 := by
  have hzero : ∀ node ∈ g.nodes,
      (cfg.get_opcode_from_node_type node.type.name = .OP_NOOP ∨
        node.type.is_pass_node = true) → links_in ⟨some id, out.name⟩ node = 0 := by
    intro node hn hbad
    unfold links_in
    rw [List.length_eq_zero, List.filter_eq_nil_iff]
    intro inp hi hl
    obtain ⟨h1, h2, _⟩ := hcons node hn inp hi hl
    rcases hbad with hbad | hbad
    · exact h1 hbad
    · rw [h2] at hbad
      exact absurd hbad (by simp)
  have hcounted : counted_links g ⟨some id, out.name⟩ = 2 := by
    rw [← htwo]
    unfold counted_links all_links
    congr 1
    apply List.map_congr_left
    intro node hn
    by_cases hp : node.type.is_pass_node = true
    · rw [if_pos hp, hzero node hn (Or.inr hp)]
    · rw [if_neg hp]
  have hreleased : release_links cfg g ⟨some id, out.name⟩ = 2 := by
    rw [← htwo]
    unfold release_links all_links
    congr 1
    apply List.map_congr_left
    intro node hn
    unfold released_by
    by_cases hop : cfg.get_opcode_from_node_type node.type.name = .OP_NOOP
    · rw [if_pos hop, hzero node hn (Or.inl hop)]
    · rw [if_neg hop]
      unfold links_in
      congr 1
      apply List.filter_congr
      intro inp hi
      rw [consumes_eq]
      cases hl : links_to ⟨some id, out.name⟩ inp with
      | false => simp
      | true =>
        obtain ⟨_, _, h3, h4⟩ := hcons node hn inp hi hl
        simp [h3, ptr_release_opcode, h4]
  have hU : Map.find (count_output_users g) ⟨some id, out.name⟩ = some 2 := by
    have h := count_output_users_getD g ⟨some id, out.name⟩
    rw [hcounted, List.filter_eq_nil_iff.2 (by simpa using hgin),
      List.filter_eq_nil_iff.2 (by simpa using hgout)] at h
    cases hf : Map.find (count_output_users g) ⟨some id, out.name⟩ with
    | none => rw [hf] at h; simp at h
    | some u =>
      rw [hf] at h
      simp only [Option.getD_some, List.length_nil, Nat.add_zero] at h
      rw [h]
  obtain ⟨slot, h1, h2, h3⟩ := codegen_function_lifetime cfg addr g hsentinel hsizes hops hno
    hnames fn c' hok hover id inst out hnode hmapped hout
  refine ⟨hU, slot, h1, ?_, by rw [h3, hreleased]⟩
  rw [h2]
  have hop : ptr_init_opcode out.typedesc = .OP_INIT_MESH_PTR := by
    unfold ptr_init_opcode
    rw [hmesh]
  have hw : 2 % WORD = 2 := by decide
  simp [expected_init, hop, hU, hw]

theorem codegen_function_two_consumers_witness :
    (all_links mesh_fork_graph ⟨some 2, "mesh"⟩ = 2 ∧
      (codegen_function small_config id mesh_fork_graph
        (BVMCompiler.new small_config)).toOption.map (fun r => r.1) =
        some mesh_fork_function) ∧
    (Map.find (count_output_users mesh_fork_graph) ⟨some 2, "mesh"⟩ = some 2 ∧
      ∃ slot, codegen_function.output_slot small_config id mesh_fork_graph
          (BVMCompiler.new small_config) ⟨some 2, "mesh"⟩ = some slot ∧
        init_instructions slot mesh_fork_function.instructions =
          [(.OP_INIT_MESH_PTR, [slot, 2])] ∧
        (release_instructions slot mesh_fork_function.instructions).length = 2) :=
  ⟨⟨by decide, by decide⟩,
   codegen_function_two_consumers small_config id mesh_fork_graph (by decide)
     example_stack_size_pos example_opcodes_ne mesh_fork_graph_no_function_inputs
     mesh_fork_graph_names mesh_fork_function (compiler_with [1, 1, 1, 1, 1, 1, 0, 0])
     (by rfl) (by rfl) 2 ⟨mesh_source_type, []⟩ ⟨"mesh", ⟨.BVM_MESH⟩, some .mesh, .VALUE_VARIABLE⟩
     (by rfl) (by decide) (by simp [mesh_source_type]) (by rfl) (by decide)
     (by
      intro node hn inp hi hl
      simp only [mesh_fork_graph, List.mem_cons, List.mem_singleton, List.not_mem_nil,
        or_false] at hn
      rcases hn with rfl | rfl | rfl
      · simp only [NodeInstance.input_sockets, mesh_modifier_type, zip_inputs,
          List.mem_singleton] at hi
        subst hi
        exact ⟨by decide, rfl, rfl, rfl⟩
      · simp only [NodeInstance.input_sockets, mesh_modifier_type, zip_inputs,
          List.mem_singleton] at hi
        subst hi
        exact ⟨by decide, rfl, rfl, rfl⟩
      · simp [NodeInstance.input_sockets, mesh_source_type, zip_inputs] at hi)
     (by simp [mesh_fork_graph])
     (by
      intro o ho
      simp only [mesh_fork_graph, List.mem_cons, List.mem_singleton, List.not_mem_nil,
        or_false] at ho
      rcases ho with rfl | rfl <;> decide)⟩

/-! ## Sequences of allocations on a fresh compiler -/

theorem total_footprint_cons (cfg : Config) (td : TypeDesc) (tds : List TypeDesc) :
    total_footprint cfg (td :: tds) = footprint cfg td + total_footprint cfg tds := by
  simp [total_footprint]

theorem assign_all_filled (cfg : Config) (hword : cfg.BVM_STACK_SIZE ≤ WORD) :
    ∀ (tds : List TypeDesc) (c : BVMCompiler) (t : Nat),
      c.stack_users = filled cfg.BVM_STACK_SIZE t →
      (∀ td ∈ tds, 0 < cfg.stack_size td) →
      t + total_footprint cfg tds ≤ cfg.BVM_STACK_SIZE →
      (assign_all cfg tds c).1.length = tds.length ∧
      (∀ k, k < tds.length →
        (assign_all cfg tds c).1[k]? = some (t + total_footprint cfg (tds.take k))) ∧
      (assign_all cfg tds c).2.stack_users =
        filled cfg.BVM_STACK_SIZE (t + total_footprint cfg tds) ∧
      (assign_all cfg tds c).2.stack_overrun = c.stack_overrun := by
  intro tds
  induction tds with
  | nil =>
    intro c t hc _ _
    simp [assign_all, total_footprint, hc]
  | cons td tds ih =>
    intro c t hc hpos hfit
    rw [total_footprint_cons] at hfit
    have hp : 0 < cfg.stack_size td := hpos td (List.mem_cons_self _ _)
    have hsz : cfg.stack_size td = ((footprint cfg td : Nat) : Int) := by
      unfold footprint; omega
    have hs1 : 1 ≤ footprint cfg td := by unfold footprint; omega
    obtain ⟨h1, h2, h3⟩ :=
      assign_stack_index_filled cfg c td t (footprint cfg td) hsz hs1 hword hc (by omega)
    obtain ⟨i1, i2, i3, i4⟩ := ih (assign_stack_index cfg c td).2 (t + footprint cfg td) h2
      (fun x hx => hpos x (List.mem_cons_of_mem _ hx)) (by omega)
    refine ⟨by simp [assign_all, i1], ?_, ?_, ?_⟩
    · intro k hk
      cases k with
      | zero => simp [assign_all, h1, total_footprint]
      | succ k =>
        have hk' : k < tds.length := by simpa using hk
        simp only [assign_all, List.getElem?_cons_succ, List.take_succ_cons, total_footprint_cons]
        rw [i2 k hk']
        congr 1
        omega
    · simp only [assign_all, total_footprint_cons]
      rw [i3]
      congr 1
      omega
    · simp only [assign_all]
      rw [i4, h3]

/-- C11: on a fresh compiler, for a sequence of types with positive footprints
whose total does not exceed `BVM_STACK_SIZE`, the `k`-th `assign_stack_index`
call returns the sum of the footprints of the types before it; afterwards the
slots below the total have usage counter 1 and all other slots of the table have
counter 0, nothing was written outside the table, and the run of an earlier call
ends before the run of a later call begins. -/
theorem assign_stack_index_monotone_fill (cfg : Config) (tds : List TypeDesc)
    (hword : cfg.BVM_STACK_SIZE ≤ WORD)
    (hpos : ∀ td ∈ tds, 0 < cfg.stack_size td)
    (hfit : total_footprint cfg tds ≤ cfg.BVM_STACK_SIZE) :
    (assign_all cfg tds (BVMCompiler.new cfg)).1.length = tds.length ∧
    (∀ k : Nat, k < tds.length →
      (assign_all cfg tds (BVMCompiler.new cfg)).1[k]? = some (total_footprint cfg (tds.take k))) ∧
    (∀ slot : Nat, (assign_all cfg tds (BVMCompiler.new cfg)).2.stack_users[slot]? =
      if slot < total_footprint cfg tds then some 1
      else if slot < cfg.BVM_STACK_SIZE then some 0 else none) ∧
    (assign_all cfg tds (BVMCompiler.new cfg)).2.stack_overrun = false ∧
    (∀ (i j a b : Nat) (td : TypeDesc), i < j →
      (assign_all cfg tds (BVMCompiler.new cfg)).1[i]? = some a →
      (assign_all cfg tds (BVMCompiler.new cfg)).1[j]? = some b →
      tds[i]? = some td → a + footprint cfg td ≤ b) := by
  obtain ⟨h1, h2, h3, h4⟩ := assign_all_filled cfg hword tds (BVMCompiler.new cfg) 0
    (new_stack_users cfg) hpos (by omega)
  simp only [Nat.zero_add] at h2 h3
  refine ⟨h1, h2, ?_, by rw [h4]; rfl, ?_⟩
  · intro slot
    rw [h3, filled_getElem? _ _ _ hfit]
  · intro i j a b td hij ha hb htd
    have hj : j < tds.length := by
      rw [← h1]
      exact (List.getElem?_eq_some_iff.mp hb).1
    have hi : i < tds.length := by omega
    rw [h2 i hi] at ha
    rw [h2 j hj] at hb
    injection ha with ha
    injection hb with hb
    subst ha hb
    have htake : tds.take (i + 1) = (tds.take j).take (i + 1) := by
      rw [List.take_take, Nat.min_eq_left (show i + 1 ≤ j by omega)]
    have hsplit : tds.take j = tds.take (i + 1) ++ (tds.take j).drop (i + 1) := by
      rw [htake]
      exact (List.take_append_drop _ _).symm
    have hstep : tds.take (i + 1) = tds.take i ++ [td] := by
      rw [List.take_succ, htd]; rfl
    rw [hsplit, hstep]
    simp only [total_footprint, List.map_append, List.sum_append, List.map_cons, List.map_nil,
      List.sum_cons, List.sum_nil]
    omega

theorem assign_stack_index_monotone_fill_witness :
    (small_config.BVM_STACK_SIZE ≤ WORD ∧
      total_footprint small_config [⟨.BVM_FLOAT3⟩, ⟨.BVM_FLOAT⟩, ⟨.BVM_FLOAT4⟩] ≤
        small_config.BVM_STACK_SIZE) ∧
    (assign_all small_config [⟨.BVM_FLOAT3⟩, ⟨.BVM_FLOAT⟩, ⟨.BVM_FLOAT4⟩]
      (BVMCompiler.new small_config)).1 = [0, 3, 4] ∧
    (assign_all small_config [⟨.BVM_FLOAT3⟩, ⟨.BVM_FLOAT⟩, ⟨.BVM_FLOAT4⟩]
      (BVMCompiler.new small_config)).2.stack_users = [1, 1, 1, 1, 1, 1, 1, 1] ∧
    (∀ slot : Nat, (assign_all small_config [⟨.BVM_FLOAT3⟩, ⟨.BVM_FLOAT⟩, ⟨.BVM_FLOAT4⟩]
        (BVMCompiler.new small_config)).2.stack_users[slot]? =
      if slot < total_footprint small_config [⟨.BVM_FLOAT3⟩, ⟨.BVM_FLOAT⟩, ⟨.BVM_FLOAT4⟩]
      then some 1 else if slot < small_config.BVM_STACK_SIZE then some 0 else none) :=
  ⟨⟨by decide, by decide⟩, by decide, by decide,
   (assign_stack_index_monotone_fill small_config [⟨.BVM_FLOAT3⟩, ⟨.BVM_FLOAT⟩, ⟨.BVM_FLOAT4⟩]
     (by decide) (by decide) (by decide)).2.2.1⟩

/-! ## Operand encodings -/

/-- C12: `push_stack_index(arg)` leaves the instruction stream as it is when
`arg` is `BVM_STACK_INVALID`, and otherwise appends the one word `arg` after the
words that are there; nothing else of the function or the compiler changes. -/
theorem push_stack_index_omits_sentinel (cfg : Config) (c : BVMCompiler) (arg : Nat) :
    (push_stack_index cfg c arg).fn.instructions =
      (if arg = cfg.BVM_STACK_INVALID then c.fn.instructions
       else c.fn.instructions ++ [.data arg]) ∧
    (push_stack_index cfg c arg).fn.entry_point = c.fn.entry_point ∧
    (push_stack_index cfg c arg).fn.return_values = c.fn.return_values ∧
    (push_stack_index cfg c arg).stack_users = c.stack_users ∧
    (push_stack_index cfg c arg).func_entry_map = c.func_entry_map := by
  unfold push_stack_index
  by_cases h : arg = cfg.BVM_STACK_INVALID
  · simp [h]
  · simp [h, BVMCompiler.emit, Function.add_instruction]

/-- C13, the claim as stated does not hold: on a compiler whose eight slots are
taken, the allocation for a float constant fails, and `codegen_value` still
appends two words, the opcode and the payload word. -/
theorem codegen_value_exhausted_counterexample :
    (assign_stack_index small_config exhausted_compiler
        (Value.float ⟨0x40600000⟩).typedesc).1 = small_config.BVM_STACK_INVALID ∧
    exhausted_compiler.fn.instructions = [] ∧
    (codegen_value small_config exhausted_compiler (.float ⟨0x40600000⟩)).2.fn.instructions =
      [.opcode .OP_VALUE_FLOAT, .data 0x40600000] := by
  decide

/-- C13, amended: when `assign_stack_index` returns `BVM_STACK_INVALID` for the
type of a value, `codegen_value` returns the sentinel and appends the value
opcode and the payload words of the value; only the destination slot word is
left out of the stream. -/
theorem codegen_value_exhausted (cfg : Config) (c : BVMCompiler) (value : Value)
    (hfail : (assign_stack_index cfg c value.typedesc).1 = cfg.BVM_STACK_INVALID) :
    (codegen_value cfg c value).1 = cfg.BVM_STACK_INVALID ∧
    (codegen_value cfg c value).2.fn.instructions =
      c.fn.instructions ++ .opcode value.opcode :: value.words := by
  rw [codegen_value_eq]
  simp [hfail, assign_stack_index_fn]

theorem codegen_value_exhausted_witness :
    (assign_stack_index small_config exhausted_compiler
        (Value.float3 ⟨⟨0x3f800000⟩, ⟨0⟩, ⟨0x40600000⟩⟩).typedesc).1 =
      small_config.BVM_STACK_INVALID ∧
    (codegen_value small_config exhausted_compiler
        (.float3 ⟨⟨0x3f800000⟩, ⟨0⟩, ⟨0x40600000⟩⟩)).1 = small_config.BVM_STACK_INVALID ∧
    (codegen_value small_config exhausted_compiler
        (.float3 ⟨⟨0x3f800000⟩, ⟨0⟩, ⟨0x40600000⟩⟩)).2.fn.instructions =
      exhausted_compiler.fn.instructions ++
        .opcode (Value.float3 ⟨⟨0x3f800000⟩, ⟨0⟩, ⟨0x40600000⟩⟩).opcode ::
          (Value.float3 ⟨⟨0x3f800000⟩, ⟨0⟩, ⟨0x40600000⟩⟩).words :=
  ⟨by decide,
   codegen_value_exhausted small_config exhausted_compiler
     (.float3 ⟨⟨0x3f800000⟩, ⟨0⟩, ⟨0x40600000⟩⟩) (by decide)⟩

/-- C14: `push_pointer` appends six words: the high and the low half of the
identifier pointer, of the type pointer and of the data pointer, in this order;
`push_float3`, `push_float4` and `push_matrix44` append the 3, 4 and 16 float
words of the components in the order x, y, z (, w) and row by row; `push_int`
and `push_float` append one word. -/
theorem push_operand_words (c : BVMCompiler) (p : PointerRNA) (f3 : float3) (f4 : float4)
    (m : matrix44) (i : Int) (f : float) :
    (push_pointer c p).fn.instructions = c.fn.instructions ++
      [pointer_to_instruction_hi p.id_data, pointer_to_instruction_lo p.id_data,
       pointer_to_instruction_hi p.type, pointer_to_instruction_lo p.type,
       pointer_to_instruction_hi p.data, pointer_to_instruction_lo p.data] ∧
    (push_float3 c f3).fn.instructions = c.fn.instructions ++
      [float_to_instruction f3.x, float_to_instruction f3.y, float_to_instruction f3.z] ∧
    (push_float4 c f4).fn.instructions = c.fn.instructions ++
      [float_to_instruction f4.x, float_to_instruction f4.y, float_to_instruction f4.z,
       float_to_instruction f4.w] ∧
    (push_matrix44 c m).fn.instructions =
      c.fn.instructions ++ m.rows.map float_to_instruction ∧
    m.rows.length = 16 ∧
    (push_int c i).fn.instructions = c.fn.instructions ++ [int_to_instruction i] ∧
    (push_float c f).fn.instructions = c.fn.instructions ++ [float_to_instruction f] := by
  have hrange : List.finRange 4 = [0, 1, 2, 3] := by decide
  refine ⟨?_, ?_, ?_, ?_, ?_, ?_, ?_⟩ <;>
    simp [push_pointer, push_float3, push_float4, push_matrix44, push_int, push_float,
      BVMCompiler.emit, Function.add_instruction, matrix44.rows, hrange]

/-- C15: when the allocation for a value succeeds, `codegen_value` appends the
value opcode of the base type of the value, then the payload words of the value
(1, 3, 4, 1, 16, 6 and 0 words for float, float3, float4, int, matrix44, pointer
and mesh), then the destination slot as the last word; it returns that slot, which
is the offset that `assign_stack_index` gives for the type of the value. -/
theorem codegen_value_layout (cfg : Config) (c : BVMCompiler) (value : Value)
    (hok : (assign_stack_index cfg c value.typedesc).1 ≠ cfg.BVM_STACK_INVALID) :
    (codegen_value cfg c value).1 = (assign_stack_index cfg c value.typedesc).1 ∧
    (codegen_value cfg c value).2.fn.instructions =
      c.fn.instructions ++
        (.opcode (spec_value_opcode value.typedesc.base_type) :: value.words ++
          [.data (assign_stack_index cfg c value.typedesc).1]) ∧
    value.words.length = spec_payload_count value.typedesc.base_type ∧
    (∀ w ∈ value.words, w.is_data) ∧
    (codegen_value cfg c value).2.stack_users =
      (assign_stack_index cfg c value.typedesc).2.stack_users := by
  have hop : value.opcode = spec_value_opcode value.typedesc.base_type := by
    cases value <;> rfl
  have hlen : value.words.length = spec_payload_count value.typedesc.base_type := by
    cases value <;> rfl
  rw [codegen_value_eq]
  refine ⟨rfl, ?_, hlen, value_words_data value, ?_⟩
  · simp [hok, assign_stack_index_fn, hop]
  · simp

theorem codegen_value_layout_witness :
    (assign_stack_index small_config (BVMCompiler.new small_config)
        (Value.float ⟨0x40600000⟩).typedesc).1 ≠ small_config.BVM_STACK_INVALID ∧
    (codegen_value small_config (BVMCompiler.new small_config) (.float ⟨0x40600000⟩)).1 = 0 ∧
    (codegen_value small_config (BVMCompiler.new small_config)
        (.float ⟨0x40600000⟩)).2.fn.instructions =
      [.opcode .OP_VALUE_FLOAT, .data 0x40600000, .data 0] ∧
    (codegen_value small_config (BVMCompiler.new small_config) (.float ⟨0x40600000⟩)).1 =
      (assign_stack_index small_config (BVMCompiler.new small_config)
        (Value.float ⟨0x40600000⟩).typedesc).1 :=
  ⟨by decide, by decide, by decide,
   (codegen_value_layout small_config (BVMCompiler.new small_config) (.float ⟨0x40600000⟩)
     (by decide)).1⟩

/-! ## Termination of the main traversal -/

theorem graph_node_append_inputs_fuel_mono (cfg : Config)
    (visit visit' : Nat → SortState → Option SortState) (node : Nat)
    (hvisit : ∀ m st st', visit m st = some st' → visit' m st = some st') :
    ∀ (inputs : List (NodeSocket × InputInstance)) (st st' : SortState),
      graph_node_append.inputs cfg visit node inputs st = some st' →
      graph_node_append.inputs cfg visit' node inputs st = some st' := by
  intro inputs
  induction inputs with
  | nil => intro st st' h; simpa [graph_node_append.inputs] using h
  | cons inp rest ih =>
    intro st st' h
    obtain ⟨socket, inst⟩ := inp
    unfold graph_node_append.inputs at h ⊢
    split
    · rename_i hf
      rw [if_pos hf] at h
      exact ih _ _ h
    · rename_i hf
      rw [if_neg hf] at h
      cases hl : inst.link with
      | none =>
        rw [hl] at h
        exact ih _ _ h
      | some l =>
        obtain ⟨link_node, s⟩ := l
        rw [hl] at h
        simp only at h ⊢
        cases hv : visit link_node st with
        | none => rw [hv] at h; exact absurd h (by simp)
        | some st1 =>
          rw [hv] at h
          rw [hvisit _ _ _ hv]
          exact ih _ _ h

/-- A larger bound on the depth of the recursion does not change a result. -/
theorem graph_node_append_fuel_mono (cfg : Config) (g : NodeGraph) :
    ∀ (fuel node : Nat) (st st' : SortState),
      graph_node_append cfg g fuel node st = some st' →
      graph_node_append cfg g (fuel + 1) node st = some st' := by
  intro fuel
  induction fuel with
  | zero => intro node st st' h; simp [graph_node_append] at h
  | succ fuel ih =>
    intro node st st' h
    unfold graph_node_append at h ⊢
    split
    · rename_i hv
      rw [if_pos hv] at h
      exact h
    · rename_i hv
      rw [if_neg hv] at h
      cases hn : g.node node with
      | none => rw [hn] at h; exact absurd h (by simp)
      | some inst =>
        rw [hn] at h
        simp only at h ⊢
        cases hi : graph_node_append.inputs cfg (graph_node_append cfg g fuel) node
            inst.input_sockets { st with visited := node :: st.visited } with
        | none => rw [hi] at h; exact absurd h (by simp)
        | some st1 =>
          rw [hi] at h
          rw [graph_node_append_inputs_fuel_mono cfg _ _ node ih _ _ _ hi]
          exact h

theorem graph_node_append_fuel_le (cfg : Config) (g : NodeGraph) (node : Nat)
    (st st' : SortState) (fuel : Nat)
    (h : graph_node_append cfg g fuel node st = some st') :
    ∀ k, graph_node_append cfg g (fuel + k) node st = some st' := by
  intro k
  induction k with
  | zero => exact h
  | succ k ih => exact graph_node_append_fuel_mono cfg g _ node st st' ih

theorem sort_graph_nodes_loop_returns (cfg : Config) (g : NodeGraph) (hclosed : g.closed) :
    ∀ (ids : List Nat) (st : SortState), (∀ n ∈ ids, n < g.nodes.length) →
      (∀ x, x ∈ st.visited → x < g.nodes.length) →
      ∃ st', sort_graph_nodes.loop cfg g ids st = some st' := by
  intro ids
  induction ids with
  | nil => intro st _ _; exact ⟨st, rfl⟩
  | cons n rest ih =>
    intro st hids hv
    obtain ⟨st1, e1, _, r1⟩ := graph_node_append_returns cfg g hclosed (g.nodes.length + 1) n st
      (hids n (List.mem_cons_self _ _)) hv
      (Nat.lt_succ_of_le (unvisited_le g st.visited))
    obtain ⟨st2, e2⟩ := ih st1 (fun m hm => hids m (List.mem_cons_of_mem _ hm)) r1
    exact ⟨st2, by simp [sort_graph_nodes.loop, e1, e2]⟩

theorem cycle_graph_linked (n m : Nat) (h : cycle_graph.linked n m) :
    (n = 0 ∧ m = 1) ∨ (n = 1 ∧ m = 0) := by
  obtain ⟨inst, h1, inp, h2, s, h3⟩ := h
  unfold NodeGraph.node cycle_graph at h1
  match n, h1 with
  | 0, h1 =>
    simp only [List.getElem?_cons_zero, Option.some.injEq] at h1
    subst h1
    simp only [NodeInstance.input_sockets, float_identity_type, zip_inputs, List.mem_singleton] at h2
    subst h2
    simp only [Option.some.injEq, Prod.mk.injEq] at h3
    exact Or.inl ⟨rfl, h3.1.symm⟩
  | 1, h1 =>
    simp only [List.getElem?_cons_succ, List.getElem?_cons_zero, Option.some.injEq] at h1
    subst h1
    simp only [NodeInstance.input_sockets, float_identity_type, zip_inputs, List.mem_singleton] at h2
    subst h2
    simp only [Option.some.injEq, Prod.mk.injEq] at h3
    exact Or.inr ⟨rfl, h3.1.symm⟩
  | k + 2, h1 => simp at h1

theorem cycle_graph_closed : cycle_graph.closed := by
  intro n m h
  rcases cycle_graph_linked n m h with ⟨_, rfl⟩ | ⟨_, rfl⟩ <;> decide

theorem cycle_graph_cyclic : ¬ cycle_graph.acyclic := by
  intro h
  have h01 : cycle_graph.linked 0 1 := ⟨_, rfl, _, List.mem_singleton.2 rfl, "value", rfl⟩
  have h10 : cycle_graph.linked 1 0 := ⟨_, rfl, _, List.mem_singleton.2 rfl, "value", rfl⟩
  exact h 0 (Relation.TransGen.tail (Relation.TransGen.single h01) h10)

/-- C16: on every finite graph (whose links come from nodes of the graph), also
one whose links form a cycle, `graph_node_append` returns from every node and
every traversal state, for every bound on the recursion depth above the number
of nodes, with the same result for all these bounds; `sort_graph_nodes` returns,
and its list holds every node of the graph exactly once. -/
theorem sort_graph_nodes_terminates (cfg : Config) (g : NodeGraph) (c : BVMCompiler)
    (hclosed : g.closed) :
    (∀ (node : Nat) (st : SortState), node < g.nodes.length →
      (∀ x, x ∈ st.visited → x < g.nodes.length) →
      ∃ st', ∀ fuel, g.nodes.length < fuel → graph_node_append cfg g fuel node st = some st') ∧
    ∃ sorted_nodes c', sort_graph_nodes cfg g c = some (sorted_nodes, c') ∧
      sorted_nodes.Nodup ∧ sorted_nodes.length = g.nodes.length ∧
      ∀ n, n ∈ sorted_nodes ↔ n < g.nodes.length := by
  constructor
  · intro node st hn hv
    obtain ⟨st', e, _, _⟩ := graph_node_append_returns cfg g hclosed (g.nodes.length + 1) node st
      hn hv (Nat.lt_succ_of_le (unvisited_le g st.visited))
    refine ⟨st', fun fuel hf => ?_⟩
    have := graph_node_append_fuel_le cfg g node st st' _ e (fuel - (g.nodes.length + 1))
    rwa [show g.nodes.length + 1 + (fuel - (g.nodes.length + 1)) = fuel by omega] at this
  · obtain ⟨st, e⟩ := sort_graph_nodes_loop_returns cfg g hclosed g.node_ids
      ⟨[], [], c.func_entry_map⟩ (fun n hn => List.mem_range.1 hn)
      (fun x hx => absurd hx (List.not_mem_nil _))
    have hs : sort_graph_nodes cfg g c =
        some (st.sorted_nodes, { c with func_entry_map := st.func_entry_map }) := by
      unfold sort_graph_nodes
      rw [e]
    have hp := sort_graph_nodes_perm cfg g c _ _ hs
    refine ⟨_, _, hs, hp.nodup_iff.2 (List.nodup_range _), ?_, fun n => ?_⟩
    · rw [hp.length_eq, List.length_range]
    · rw [hp.mem_iff, List.mem_range]

theorem sort_graph_nodes_terminates_witness :
    (cycle_graph.closed ∧ ¬ cycle_graph.acyclic) ∧
    (sort_graph_nodes small_config cycle_graph (BVMCompiler.new small_config)).map Prod.fst =
      some [1, 0] ∧
    ∃ sorted_nodes c',
      sort_graph_nodes small_config cycle_graph (BVMCompiler.new small_config) =
        some (sorted_nodes, c') ∧
      sorted_nodes.Nodup ∧ sorted_nodes.length = cycle_graph.nodes.length ∧
      ∀ n, n ∈ sorted_nodes ↔ n < cycle_graph.nodes.length :=
  ⟨⟨cycle_graph_closed, cycle_graph_cyclic⟩, by decide,
   (sort_graph_nodes_terminates small_config cycle_graph (BVMCompiler.new small_config)
     cycle_graph_closed).2⟩

/-! ## The use-count map has an entry for every output socket -/

theorem map_set_isSome {K V : Type} [DecidableEq K] (m : List (K × V)) (k key : K) (v : V)
    (h : (Map.find m key).isSome) : (Map.find (Map.set m k v) key).isSome := by
  rw [map_find_set]
  split
  · rfl
  · exact h

theorem foldl_incr_isSome {K A : Type} [DecidableEq K] (f : A → K) (key : K) :
    ∀ (l : List A) (users : List (K × Nat)), (Map.find users key).isSome →
      (Map.find (l.foldl (fun users x => Map.incr users (f x)) users) key).isSome := by
  intro l
  induction l with
  | nil => intro users h; exact h
  | cons x l ih =>
    intro users h
    rw [List.foldl_cons]
    exact ih _ (map_set_isSome _ _ _ _ h)

theorem count_node_isSome (key : ConstSocketPair) :
    ∀ (inputs : List (NodeSocket × InputInstance)) (users : SocketUserMap),
      (Map.find users key).isSome →
      (Map.find (count_output_users.count_node users inputs) key).isSome := by
  intro inputs
  induction inputs with
  | nil => intro users h; exact h
  | cons inp rest ih =>
    intro users h
    have ih' := fun u => ih u
    unfold count_output_users.count_node at ih' ⊢
    rw [List.foldl_cons]
    apply ih'
    cases hl : inp.2.link with
    | none => exact h
    | some l => exact map_set_isSome _ _ _ _ h

theorem init_node_isSome_mono (node : Nat) (key : ConstSocketPair) :
    ∀ (outputs : List NodeSocket) (users : SocketUserMap), (Map.find users key).isSome →
      (Map.find (count_output_users.init_node node users outputs) key).isSome := by
  intro outputs
  induction outputs with
  | nil => intro users h; exact h
  | cons out rest ih =>
    intro users h
    unfold count_output_users.init_node
    rw [List.foldl_cons]
    exact ih _ (map_set_isSome _ _ _ _ h)

theorem init_node_isSome (node : Nat) :
    ∀ (outputs : List NodeSocket) (users : SocketUserMap) (out : NodeSocket), out ∈ outputs →
      (Map.find (count_output_users.init_node node users outputs) ⟨some node, out.name⟩).isSome := by
  intro outputs
  induction outputs with
  | nil => intro users out h; exact absurd h (List.not_mem_nil _)
  | cons o rest ih =>
    intro users out h
    rcases List.mem_cons.1 h with h | h
    · subst h
      have := init_node_isSome_mono node ⟨some node, out.name⟩ rest
        (Map.set users ⟨some node, out.name⟩ 0) (by rw [map_find_set]; simp)
      simpa [count_output_users.init_node] using this
    · have := ih (Map.set users ⟨some node, o.name⟩ 0) out h
      simpa [count_output_users.init_node] using this

/-- After `count_output_users`, the map has an entry for every output socket of
every node of the graph. -/
theorem count_output_users_isSome (g : NodeGraph) (n : Nat) (inst : NodeInstance)
    (out : NodeSocket) (hn : g.node n = some inst) (ho : out ∈ inst.type.outputs) :
    (Map.find (count_output_users g) ⟨some n, out.name⟩).isSome := by
  unfold count_output_users
  simp only
  apply foldl_incr_isSome (fun o : GraphOutput => o.key)
  apply foldl_incr_isSome (fun i : GraphInput => i.key)
  have hcount : ∀ (ids : List Nat) (users : SocketUserMap),
      (Map.find users ⟨some n, out.name⟩).isSome →
      (Map.find (ids.foldl (fun users id =>
          match g.node id with
          | none => users
          | some node =>
            if node.type.is_pass_node then users
            else count_output_users.count_node users node.input_sockets) users)
        ⟨some n, out.name⟩).isSome := by
    intro ids
    induction ids with
    | nil => intro users h; exact h
    | cons id rest ih =>
      intro users h
      rw [List.foldl_cons]
      apply ih
      cases hid : g.node id with
      | none => exact h
      | some node =>
        simp only
        split
        · exact h
        · exact count_node_isSome _ _ _ h
  apply hcount
  have hmono : ∀ (ids : List Nat) (users : SocketUserMap),
      (Map.find users ⟨some n, out.name⟩).isSome →
      (Map.find (ids.foldl (fun users id =>
          match g.node id with
          | none => users
          | some node => count_output_users.init_node id users node.type.outputs) users)
        ⟨some n, out.name⟩).isSome := by
    intro ids
    induction ids with
    | nil => intro users h; exact h
    | cons id rest ih =>
      intro users h
      rw [List.foldl_cons]
      apply ih
      cases hid : g.node id with
      | none => exact h
      | some node => exact init_node_isSome_mono _ _ _ _ h
  have hinit : ∀ (ids : List Nat) (users : SocketUserMap), n ∈ ids →
      (Map.find (ids.foldl (fun users id =>
          match g.node id with
          | none => users
          | some node => count_output_users.init_node id users node.type.outputs) users)
        ⟨some n, out.name⟩).isSome := by
    intro ids
    induction ids with
    | nil => intro users h; exact absurd h (List.not_mem_nil _)
    | cons id rest ih =>
      intro users h
      rw [List.foldl_cons]
      rcases List.mem_cons.1 h with h | h
      · subst h
        apply hmono
        rw [hn]
        exact init_node_isSome n _ _ out ho
      · exact ih _ h
  apply hinit
  unfold NodeGraph.node_ids
  rw [List.mem_range]
  unfold NodeGraph.node at hn
  by_contra hge
  rw [List.getElem?_eq_none (by omega)] at hn
  exact absurd hn (by simp)

/-- C18, the claim as stated does not hold: in `pass_graph` the output of the
float constant is the source of one link, and its use-count is 0, because the
link goes to a pass-through node. -/
theorem count_output_users_pass_node_counterexample :
    pass_graph.node 1 = some ⟨float_constant_type, [⟨none, some (.float ⟨0x3f800000⟩)⟩]⟩ ∧
    all_links pass_graph ⟨some 1, "value"⟩ = 1 ∧
    declared_inputs pass_graph ⟨some 1, "value"⟩ = 0 ∧
    declared_outputs pass_graph ⟨some 1, "value"⟩ = 0 ∧
    Map.find (count_output_users pass_graph) ⟨some 1, "value"⟩ = some 0 :=
  ⟨rfl, by decide, by decide, by decide, by decide⟩

/-- C18, amended: for every output socket of every node of the graph, the
use-count computed by `count_output_users` is the number of input links that
come from that socket and go to a node that is no pass-through node, plus the
number of declared graph inputs and of declared graph outputs whose key is that
socket. -/
theorem count_output_users_counts (g : NodeGraph) (n : Nat) (inst : NodeInstance)
    (out : NodeSocket) (hn : g.node n = some inst) (ho : out ∈ inst.type.outputs) :
    Map.find (count_output_users g) ⟨some n, out.name⟩ =
      some (counted_links g ⟨some n, out.name⟩ + declared_inputs g ⟨some n, out.name⟩ +
        declared_outputs g ⟨some n, out.name⟩) := by
  have h1 := count_output_users_isSome g n inst out hn ho
  have h2 := count_output_users_getD g ⟨some n, out.name⟩
  obtain ⟨v, hv⟩ := Option.isSome_iff_exists.1 h1
  rw [hv] at h2 ⊢
  simp only [Option.getD_some] at h2
  rw [h2]
  rfl

theorem count_output_users_counts_witness :
    mesh_fork_graph.node 2 = some ⟨mesh_source_type, []⟩ ∧
    Map.find (count_output_users mesh_fork_graph) ⟨some 2, "mesh"⟩ = some 2 ∧
    Map.find (count_output_users mesh_fork_graph) ⟨some 2, "mesh"⟩ =
      some (counted_links mesh_fork_graph ⟨some 2, "mesh"⟩ +
        declared_inputs mesh_fork_graph ⟨some 2, "mesh"⟩ +
        declared_outputs mesh_fork_graph ⟨some 2, "mesh"⟩) :=
  ⟨rfl, by decide,
   count_output_users_counts mesh_fork_graph 2 ⟨mesh_source_type, []⟩
     ⟨"mesh", ⟨.BVM_MESH⟩, some .mesh, .VALUE_VARIABLE⟩ rfl (by simp [mesh_source_type])⟩

/-! ## Code generation only appends to the stream -/

theorem grows_refl (c : BVMCompiler) : c.grows c := ⟨rfl, rfl, rfl, [], by simp⟩

theorem grows_trans {a b c : BVMCompiler} (h1 : a.grows b) (h2 : b.grows c) : a.grows c := by
  obtain ⟨a1, a2, a3, ws1, a4⟩ := h1
  obtain ⟨b1, b2, b3, ws2, b4⟩ := h2
  exact ⟨b1.trans a1, b2.trans a2, b3.trans a3, ws1 ++ ws2, by rw [b4, a4, List.append_assoc]⟩

theorem grows_append (c : BVMCompiler) (ws : List Instruction) : c.grows (c.append ws) :=
  ⟨rfl, rfl, rfl, ws, rfl⟩

theorem grows_length {c c' : BVMCompiler} (h : c.grows c') :
    c.fn.instructions.length ≤ c'.fn.instructions.length := by
  obtain ⟨_, _, _, ws, h4⟩ := h
  rw [h4, List.length_append]
  omega

theorem assign_stack_index_grows (cfg : Config) (c : BVMCompiler) (td : TypeDesc) :
    c.grows (assign_stack_index cfg c td).2 := by
  refine ⟨assign_stack_index_func_entry_map cfg c td, ?_, ?_, [], ?_⟩ <;>
    simp [assign_stack_index_fn]

theorem codegen_value_grows (cfg : Config) (c : BVMCompiler) (value : Value) :
    c.grows (codegen_value cfg c value).2 := by
  rw [codegen_value_eq]
  exact grows_trans (assign_stack_index_grows cfg c _) (grows_append _ _)

theorem prepare_inputs_grows (cfg : Config) (node : Nat) (output_index : SocketIndexMap) :
    ∀ (inputs : List (NodeSocket × InputInstance)) (c : BVMCompiler)
      (input_index : SocketIndexMap) (c' : BVMCompiler) (input_index' : SocketIndexMap),
      codegen_subgraph.prepare_inputs cfg node output_index inputs c input_index =
        .ok (c', input_index') →
      c.grows c' := by
  intro inputs
  induction inputs with
  | nil =>
    intro c ii c' ii' h
    simp only [codegen_subgraph.prepare_inputs, Except.ok.injEq, Prod.mk.injEq] at h
    rw [← h.1]
    exact grows_refl c
  | cons inp rest ih =>
    intro c ii c' ii' h
    obtain ⟨input, inst⟩ := inp
    unfold codegen_subgraph.prepare_inputs at h
    simp only at h
    split at h
    · exact absurd h (by simp)
    · split at h
      · exact ih _ _ _ _ h
      · split at h
        · split at h
          · exact absurd h (by simp)
          · exact ih _ _ _ _ h
        · split at h
          · exact grows_trans (codegen_value_grows cfg c _) (ih _ _ _ _ h)
          · split at h
            · exact absurd h (by simp)
            · exact grows_trans (codegen_value_grows cfg c _) (ih _ _ _ _ h)

theorem init_outputs_grows (cfg : Config) (node : Nat) (users : SocketUserMap) :
    ∀ (outs : List NodeSocket) (c : BVMCompiler) (oi : SocketIndexMap) (c' : BVMCompiler)
      (oi' : SocketIndexMap),
      codegen_subgraph.init_outputs cfg node users outs c oi = .ok (c', oi') →
      c.grows c' := by
  intro outs
  induction outs with
  | nil =>
    intro c oi c' oi' h
    simp only [codegen_subgraph.init_outputs, Except.ok.injEq, Prod.mk.injEq] at h
    rw [← h.1]
    exact grows_refl c
  | cons out rest ih =>
    intro c oi c' oi' h
    unfold codegen_subgraph.init_outputs at h
    simp only at h
    have ha := assign_stack_index_grows cfg c out.typedesc
    split at h
    · split at h
      · exact absurd h (by simp)
      · split at h
        · refine grows_trans (grows_trans ha ?_) (ih _ _ _ _ h)
          rw [push_int_eq, push_stack_index_eq, push_opcode_eq, append_append, append_append]
          exact grows_append _ _
        · exact grows_trans ha (ih _ _ _ _ h)
    · exact grows_trans ha (ih _ _ _ _ h)

theorem release_inputs_grows (cfg : Config) (oi : SocketIndexMap) :
    ∀ (inputs : List (NodeSocket × InputInstance)) (c c' : BVMCompiler),
      codegen_subgraph.release_inputs cfg oi inputs c = .ok c' → c.grows c' := by
  intro inputs
  induction inputs with
  | nil =>
    intro c c' h
    simp only [codegen_subgraph.release_inputs, Except.ok.injEq] at h
    rw [← h]
    exact grows_refl c
  | cons inp rest ih =>
    intro c c' h
    obtain ⟨input, inst⟩ := inp
    unfold codegen_subgraph.release_inputs at h
    simp only at h
    split at h
    · exact ih _ _ h
    · split at h
      · split at h
        · exact absurd h (by simp)
        · split at h
          · refine grows_trans ?_ (ih _ _ h)
            rw [push_stack_index_eq, push_opcode_eq, append_append]
            exact grows_append _ _
          · exact ih _ _ h
      · exact ih _ _ h

theorem codegen_node_grows (cfg : Config) (g : NodeGraph) (users : SocketUserMap)
    (id : Nat) (c : BVMCompiler) (oi : SocketIndexMap) (c' : BVMCompiler) (oi' : SocketIndexMap)
    (h : codegen_subgraph.node cfg g users id c oi = .ok (c', oi')) : c.grows c' := by
  unfold codegen_subgraph.node at h
  split at h
  · exact absurd h (by simp)
  · simp only at h
    split at h
    · simp only [Except.ok.injEq, Prod.mk.injEq] at h
      rw [← h.1]
      exact grows_refl c
    · split at h
      · exact absurd h (by simp)
      · rename_i c1 ii hprep
        split at h
        · exact absurd h (by simp)
        · rename_i c2 oi2 hinit
          split at h
          · exact absurd h (by simp)
          · rename_i c3 hwi
            split at h
            · exact absurd h (by simp)
            · rename_i c4 hwo
              split at h
              · exact absurd h (by simp)
              · rename_i c5 hrel
                simp only [Except.ok.injEq, Prod.mk.injEq] at h
                obtain ⟨rfl, rfl⟩ := h
                obtain ⟨ws1, hws1⟩ := write_inputs_spec cfg id ii _ _ _ hwi
                obtain ⟨ws2, hws2⟩ := write_outputs_spec cfg id oi2 _ _ _ hwo
                have h12 := grows_trans (prepare_inputs_grows cfg id oi _ _ _ _ _ hprep)
                  (init_outputs_grows cfg id users _ _ _ _ _ hinit)
                have h34 : c2.grows c4 := by
                  rw [hws2, hws1, push_opcode_eq, append_append, append_append]
                  exact grows_append _ _
                exact grows_trans (grows_trans h12 h34) (release_inputs_grows cfg oi2 _ _ _ hrel)

theorem codegen_nodes_grows (cfg : Config) (g : NodeGraph) (users : SocketUserMap) :
    ∀ (nodes : NodeList) (c : BVMCompiler) (oi : SocketIndexMap) (c' : BVMCompiler)
      (oi' : SocketIndexMap),
      codegen_subgraph.nodes cfg g users nodes c oi = .ok (c', oi') → c.grows c' := by
  intro nodes
  induction nodes with
  | nil =>
    intro c oi c' oi' h
    simp only [codegen_subgraph.nodes, Except.ok.injEq, Prod.mk.injEq] at h
    rw [← h.1]
    exact grows_refl c
  | cons id rest ih =>
    intro c oi c' oi' h
    unfold codegen_subgraph.nodes at h
    split at h
    · exact absurd h (by simp)
    · rename_i c1 oi1 hnode
      exact grows_trans (codegen_node_grows cfg g users id c oi c1 oi1 hnode) (ih _ _ _ _ h)

/-- What the loop over the requested outputs does: it keeps the keys, takes the
slot of a node socket from the output-index map, and only appends to the stream. -/
theorem resolve_outputs_keys (cfg : Config) (oi : SocketIndexMap) :
    ∀ (outs : SubgraphOutputList) (c : BVMCompiler) (outs' : SubgraphOutputList)
      (c' : BVMCompiler),
      codegen_subgraph.resolve_outputs cfg oi outs c = .ok (outs', c') →
      c.grows c' ∧ outs'.length = outs.length ∧
      ∀ (i : Nat) (o : SubgraphOutput), outs[i]? = some o →
        ∃ o', outs'[i]? = some o' ∧ o'.key = o.key ∧
          (o.key.node.isSome → Map.find oi o.key = some o'.stack_index) := by
  intro outs
  induction outs with
  | nil =>
    intro c outs' c' h
    simp only [codegen_subgraph.resolve_outputs, Except.ok.injEq, Prod.mk.injEq] at h
    obtain ⟨rfl, rfl⟩ := h
    exact ⟨grows_refl c, rfl, fun i o hi => by simp at hi⟩
  | cons out rest ih =>
    intro c outs' c' h
    unfold codegen_subgraph.resolve_outputs at h
    split at h
    · rename_i hsome
      split at h
      · exact absurd h (by simp)
      · rename_i index hfind
        split at h
        · exact absurd h (by simp)
        · rename_i outs1 c1 hrest
          simp only [Except.ok.injEq, Prod.mk.injEq] at h
          obtain ⟨rfl, rfl⟩ := h
          obtain ⟨g1, l1, k1⟩ := ih _ _ _ hrest
          refine ⟨g1, by simp [l1], ?_⟩
          intro i o hi
          cases i with
          | zero =>
            simp only [List.getElem?_cons_zero, Option.some.injEq] at hi
            subst hi
            exact ⟨{ out with stack_index := index }, by simp, rfl, fun _ => hfind⟩
          | succ i =>
            simp only [List.getElem?_cons_succ] at hi ⊢
            exact k1 i o hi
    · rename_i hnone
      split at h
      · exact absurd h (by simp)
      · rename_i value hvalue
        simp only at h
        split at h
        · exact absurd h (by simp)
        · rename_i outs1 c1 hrest
          simp only [Except.ok.injEq, Prod.mk.injEq] at h
          obtain ⟨rfl, rfl⟩ := h
          obtain ⟨g1, l1, k1⟩ := ih _ _ _ hrest
          refine ⟨grows_trans (codegen_value_grows cfg c value) g1, by simp [l1], ?_⟩
          intro i o hi
          cases i with
          | zero =>
            simp only [List.getElem?_cons_zero, Option.some.injEq] at hi
            subst hi
            exact ⟨{ out with stack_index := (codegen_value cfg c value).1 }, by simp, rfl,
              fun hs => absurd hs hnone⟩
          | succ i =>
            simp only [List.getElem?_cons_succ] at hi ⊢
            exact k1 i o hi

/-- A subgraph is compiled by appending at least one word (`OP_END`) to the
stream; its entry point is the length of the stream before. -/
theorem codegen_subgraph_grows (cfg : Config) (g : NodeGraph) (nodes : NodeList)
    (users : SocketUserMap) (outs : SubgraphOutputList) (c : BVMCompiler) (entry : Nat)
    (outs' : SubgraphOutputList) (c' : BVMCompiler)
    (h : codegen_subgraph cfg g nodes users outs c = .ok (entry, outs', c')) :
    c.grows c' ∧ entry = c.fn.instructions.length ∧
    c.fn.instructions.length < c'.fn.instructions.length := by
  unfold codegen_subgraph at h
  simp only at h
  split at h
  · exact absurd h (by simp)
  · rename_i c1 oi hnodes
    split at h
    · exact absurd h (by simp)
    · rename_i outs2 c2 hres
      simp only [Except.ok.injEq, Prod.mk.injEq] at h
      obtain ⟨rfl, rfl, rfl⟩ := h
      have g1 := codegen_nodes_grows cfg g users _ _ _ _ _ hnodes
      have g2 : c1.grows (push_opcode c1 .OP_END) := by
        rw [push_opcode_eq]; exact grows_append _ _
      have g3 := (resolve_outputs_keys cfg oi _ _ _ _ hres).1
      refine ⟨grows_trans (grows_trans g1 g2) g3, rfl, ?_⟩
      have l1 := grows_length g1
      have l3 := grows_length g3
      have l2 : (push_opcode c1 .OP_END).fn.instructions.length =
          c1.fn.instructions.length + 1 := by
        rw [push_opcode_eq]; simp
      unfold Function.get_instruction_count at *
      omega

/-! ## The assembly of the function -/

theorem main_outputs_spec (cfg : Config) (g : NodeGraph) :
    ∀ (gouts : List GraphOutput) (outs : SubgraphOutputList),
      codegen_function.main_outputs cfg g gouts = .ok outs →
      outs.length = gouts.length ∧
      ∀ (i : Nat) (output : GraphOutput), gouts[i]? = some output →
        ∃ o, outs[i]? = some o ∧ o.key = output.key ∧ output.key.node.isSome := by
  intro gouts
  induction gouts with
  | nil =>
    intro outs h
    simp only [codegen_function.main_outputs, Except.ok.injEq] at h
    subst h
    exact ⟨rfl, fun i o hi => by simp at hi⟩
  | cons output rest ih =>
    intro outs h
    unfold codegen_function.main_outputs at h
    split at h
    · exact absurd h (by simp)
    · rename_i inst hnode
      split at h
      · exact absurd h (by simp)
      · rename_i socket hsocket
        split at h
        · exact absurd h (by simp)
        · rename_i outs1 hrest
          simp only [Except.ok.injEq] at h
          subst h
          obtain ⟨l1, k1⟩ := ih _ hrest
          refine ⟨by simp [l1], ?_⟩
          intro i o hi
          cases i with
          | zero =>
            simp only [List.getElem?_cons_zero, Option.some.injEq] at hi
            subst hi
            refine ⟨⟨output.key, socket.default_value, cfg.BVM_STACK_INVALID⟩, by simp, rfl, ?_⟩
            cases hk : output.key.node with
            | none => rw [hk] at hnode; simp at hnode
            | some n => rfl
          | succ i =>
            simp only [List.getElem?_cons_succ] at hi ⊢
            exact k1 i o hi

/-- The loop that stores the return bindings: one binding per declared output,
appended in order; the stream and the entry point stay as they are. -/
theorem return_values_spec (g : NodeGraph) :
    ∀ (gouts : List GraphOutput) (outs : SubgraphOutputList) (fn0 fn : Function),
      codegen_function.return_values g gouts outs fn0 = .ok fn →
      gouts.length = outs.length →
      fn.instructions = fn0.instructions ∧ fn.entry_point = fn0.entry_point ∧
      ∃ rvs, fn.return_values = fn0.return_values ++ rvs ∧ rvs.length = gouts.length ∧
        ∀ (i : Nat) (output : GraphOutput) (o : SubgraphOutput),
          gouts[i]? = some output → outs[i]? = some o →
          ∃ n inst socket, output.key.node = some n ∧ g.node n = some inst ∧
            inst.type.find_output output.key.socket = some socket ∧
            rvs[i]? = some ⟨socket.typedesc, output.name, o.stack_index⟩ := by
  intro gouts
  induction gouts with
  | nil =>
    intro outs fn0 fn h hl
    simp only [codegen_function.return_values, Except.ok.injEq] at h
    subst h
    exact ⟨rfl, rfl, [], by simp, rfl, fun i o o' hi => by simp at hi⟩
  | cons output rest ih =>
    intro outs fn0 fn h hl
    cases outs with
    | nil => simp at hl
    | cons x xs =>
      unfold codegen_function.return_values at h
      split at h
      · exact absurd h (by simp)
      · rename_i inst hnode
        split at h
        · exact absurd h (by simp)
        · rename_i socket hsocket
          obtain ⟨i1, e1, rvs, r1, r2, r3⟩ := ih _ _ _ h (by simpa using hl)
          refine ⟨i1, e1, ⟨socket.typedesc, output.name, x.stack_index⟩ :: rvs, ?_, by simp [r2], ?_⟩
          · rw [r1]
            simp [Function.add_return_value]
          · intro i o o' hi ho
            cases i with
            | zero =>
              simp only [List.getElem?_cons_zero, Option.some.injEq] at hi ho
              subst hi ho
              cases hk : output.key.node with
              | none => rw [hk] at hnode; simp at hnode
              | some n =>
                rw [hk] at hnode
                exact ⟨n, inst, socket, rfl, by simpa using hnode, hsocket, by simp⟩
            | succ i =>
              simp only [List.getElem?_cons_succ] at hi ho ⊢
              exact r3 i o o' hi ho

theorem mem_insert_key (addr : Nat → Nat) (k x : ConstSocketPair) :
    ∀ ks : List ConstSocketPair, x ∈ insert_key addr k ks ↔ x = k ∨ x ∈ ks := by
  intro ks
  induction ks with
  | nil => simp [insert_key]
  | cons k' ks ih =>
    unfold insert_key
    split
    · simp only [List.mem_cons, ih]
      tauto
    · simp only [List.mem_cons]

/-- The iteration over the Function Info map visits every key that has an entry. -/
theorem mem_iteration_of_find (addr : Nat → Nat) (key : ConstSocketPair) (info : FunctionInfo) :
    ∀ m : FunctionEntryMap, Map.find m key = some info →
      key ∈ FunctionEntryMap.iteration addr m := by
  intro m
  induction m with
  | nil => intro h; simp [Map.find] at h
  | cons e m ih =>
    intro h
    obtain ⟨k, v⟩ := e
    unfold FunctionEntryMap.iteration
    rw [List.foldr_cons, mem_insert_key]
    unfold Map.find at h
    split at h
    · rename_i hk
      exact Or.inl hk.symm
    · exact Or.inr (ih h)

/-- The loop over the Function Info map: it appends the bodies to the stream,
and the entry that it records for a key is the length of the stream before the
body of that key, hence smaller than the length of the stream afterwards. -/
theorem kernels_spec (cfg : Config) (g : NodeGraph) (users : SocketUserMap) :
    ∀ (keys : List ConstSocketPair) (c c' : BVMCompiler),
      codegen_function.kernels cfg g users keys c = .ok c' →
      c.fn.instructions.length ≤ c'.fn.instructions.length ∧
      c'.fn.entry_point = c.fn.entry_point ∧ c'.fn.return_values = c.fn.return_values ∧
      (∃ ws, c'.fn.instructions = c.fn.instructions ++ ws) ∧
      ∀ key info, Map.find c'.func_entry_map key = some info →
        (key ∈ keys ∧ c.fn.instructions.length ≤ info.entry_point ∧
          info.entry_point < c'.fn.instructions.length) ∨
        (key ∉ keys ∧ Map.find c.func_entry_map key = some info) := by
  intro keys
  induction keys with
  | nil =>
    intro c c' h
    simp only [codegen_function.kernels, Except.ok.injEq] at h
    subst h
    exact ⟨le_refl _, rfl, rfl, ⟨[], by simp⟩, fun key info hf => Or.inr ⟨List.not_mem_nil _, hf⟩⟩
  | cons key rest ih =>
    intro c c' h
    unfold codegen_function.kernels at h
    split at h
    · exact absurd h (by simp)
    · rename_i expr_nodes hexpr
      split at h
      · exact absurd h (by simp)
      · rename_i inst hinst
        simp only at h
        split at h
        · exact absurd h (by simp)
        · rename_i socket ii hfind
          split at h
          · exact absurd h (by simp)
          · rename_i entry outs c1 hsub
            split at h
            · exact absurd h (by simp)
            · rename_i output outs1
              obtain ⟨⟨g1, g2, g3, ws1, g4⟩, he, hlt⟩ :=
                codegen_subgraph_grows cfg g _ _ _ _ _ _ _ hsub
              obtain ⟨l1, e1, r1, ⟨ws2, w2⟩, k1⟩ := ih _ _ h
              simp only at l1 e1 r1 w2 k1
              refine ⟨by omega, e1.trans g2, r1.trans g3,
                ⟨ws1 ++ ws2, by rw [w2, g4, List.append_assoc]⟩, ?_⟩
              intro key' info hf
              rcases k1 key' info hf with ⟨hm, hb1, hb2⟩ | ⟨hm, hf1⟩
              · exact Or.inl ⟨List.mem_cons_of_mem _ hm, by omega, hb2⟩
              · rw [map_find_set] at hf1
                split at hf1
                · rename_i hk
                  simp only [Option.some.injEq] at hf1
                  subst hf1
                  subst hk
                  exact Or.inl ⟨List.mem_cons_self _ _, by simp only; omega, by simp only; omega⟩
                · rename_i hk
                  rw [g1] at hf1
                  refine Or.inr ⟨?_, hf1⟩
                  intro hmem
                  rcases List.mem_cons.1 hmem with h' | h'
                  · exact hk h'.symm
                  · exact hm h'

/-- The stages of a run of `codegen_function` that returns: the sort, the kernel
function bodies, the nodes of the main subgraph, the resolution of its outputs
and the return bindings. -/
theorem codegen_function_parts (cfg : Config) (addr : Nat → Nat) (g : NodeGraph)
    (c : BVMCompiler) (fn : Function) (c' : BVMCompiler)
    (hok : codegen_function cfg addr g c = .ok (fn, c')) :
    ∃ main_nodes c1 c2 c3 oi outs outs' c4,
      sort_graph_nodes cfg g c = some (main_nodes, c1) ∧
      codegen_function.kernels cfg g (count_output_users g) (c1.func_entry_map.iteration addr)
        { c1 with fn := Function.new } = .ok c2 ∧
      codegen_subgraph.nodes cfg g (count_output_users g) main_nodes c2 [] = .ok (c3, oi) ∧
      codegen_function.main_outputs cfg g g.outputs = .ok outs ∧
      codegen_subgraph.resolve_outputs cfg oi outs (push_opcode c3 .OP_END) = .ok (outs', c4) ∧
      codegen_function.return_values g g.outputs outs'
        (c4.fn.set_entry_point c2.fn.instructions.length) = .ok fn ∧
      c' = { c4 with fn := Function.new } := by
  unfold codegen_function at hok
  simp only at hok
  split at hok
  · exact absurd hok (by simp)
  · rename_i main_nodes c1 hsort
    split at hok
    · exact absurd hok (by simp)
    · rename_i c2 hker
      split at hok
      · exact absurd hok (by simp)
      · rename_i outs hmain
        split at hok
        · exact absurd hok (by simp)
        · rename_i entry outs' c4 hsub
          split at hok
          · exact absurd hok (by simp)
          · rename_i fn' hret
            simp only [Except.ok.injEq, Prod.mk.injEq] at hok
            obtain ⟨rfl, rfl⟩ := hok
            unfold codegen_subgraph at hsub
            simp only at hsub
            split at hsub
            · exact absurd hsub (by simp)
            · rename_i c3 oi hnodes
              split at hsub
              · exact absurd hsub (by simp)
              · rename_i outs2 c5 hres
                simp only [Except.ok.injEq, Prod.mk.injEq] at hsub
                obtain ⟨rfl, rfl, rfl⟩ := hsub
                exact ⟨main_nodes, c1, c2, c3, oi, outs, _, _, hsort, hker, hnodes, hmain, hres,
                  hret, rfl⟩

/-! ## The expression traversal -/

theorem expr_step_refl (st : NodeList × NodeSet) : expr_step st st :=
  ⟨fun _ h => h, ⟨[], by simp⟩, fun _ => Iff.rfl⟩

theorem expr_step_trans {a b c : NodeList × NodeSet} (h1 : expr_step a b) (h2 : expr_step b c) :
    expr_step a c := by
  obtain ⟨v1, ⟨l1, e1⟩, g1⟩ := h1
  obtain ⟨v2, ⟨l2, e2⟩, g2⟩ := h2
  refine ⟨fun x h => v2 x (v1 x h), ⟨l1 ++ l2, by rw [e2, e1, List.append_assoc]⟩, fun x => ?_⟩
  rw [g2 x, g1 x]

/-- The loop over the inputs of a node in `expression_node_append`. -/
theorem expression_inputs_inv (g : NodeGraph) (P : Nat → Prop)
    (visit : Nat → NodeList × NodeSet → Option (NodeList × NodeSet))
    (hvisit : ∀ m st st', visit m st = some st' → expr_inv g P st → (g.is_kernel m ∨ P m) →
      expr_inv g P st' ∧ expr_step st st' ∧ (g.is_kernel m ∨ m ∈ st'.2)) :
    ∀ (inputs : List (NodeSocket × InputInstance)) (st st' : NodeList × NodeSet),
      expression_node_append.inputs visit inputs st = some st' → expr_inv g P st →
      (∀ inp ∈ inputs, ∀ m s, inp.2.link = some (m, s) → g.is_kernel m ∨ P m) →
      expr_inv g P st' ∧ expr_step st st' ∧
      ∀ inp ∈ inputs, ∀ m s, inp.2.link = some (m, s) → g.is_kernel m ∨ m ∈ st'.2 := by
  intro inputs
  induction inputs with
  | nil =>
    intro st st' h hi _
    simp only [expression_node_append.inputs, Option.some.injEq] at h
    subst h
    exact ⟨hi, expr_step_refl _, fun inp hm => absurd hm (List.not_mem_nil _)⟩
  | cons inp rest ih =>
    intro st st' h hi hpre
    obtain ⟨socket, inst⟩ := inp
    have hpre' : ∀ inp ∈ rest, ∀ m s, inp.2.link = some (m, s) → g.is_kernel m ∨ P m :=
      fun inp hm => hpre inp (List.mem_cons_of_mem _ hm)
    unfold expression_node_append.inputs at h
    split at h
    · rename_i link_node s0 hlink
      split at h
      · exact absurd h (by simp)
      · rename_i st1 hv
        obtain ⟨i1, s1, m1⟩ := hvisit _ _ _ hv hi (hpre _ (List.mem_cons_self _ _) _ _ hlink)
        obtain ⟨i2, s2, m2⟩ := ih _ _ h i1 hpre'
        refine ⟨i2, expr_step_trans s1 s2, fun inp hm m s hl => ?_⟩
        rcases List.mem_cons.1 hm with e | hm
        · subst e
          simp only at hl
          rw [hlink] at hl
          simp only [Option.some.injEq, Prod.mk.injEq] at hl
          rw [← hl.1]
          rcases m1 with hk | hin
          · exact Or.inl hk
          · exact Or.inr (s2.1 _ hin)
        · exact m2 inp hm m s hl
    · rename_i hlink
      obtain ⟨i2, s2, m2⟩ := ih _ _ h hi hpre'
      refine ⟨i2, s2, fun inp hm m s hl => ?_⟩
      rcases List.mem_cons.1 hm with e | hm
      · subst e
        simp only at hl
        rw [hlink] at hl
        exact absurd hl (by simp)
      · exact m2 inp hm m s hl

/-- What a call of `expression_node_append` that returns does to the state. -/
theorem expression_node_append_inv (g : NodeGraph) (P : Nat → Prop)
    (hP : ∀ n m, P n → g.linked n m → ¬ g.is_kernel m → P m) :
    ∀ (fuel node : Nat) (st st' : NodeList × NodeSet),
      expression_node_append g fuel node st = some st' → expr_inv g P st →
      (g.is_kernel node ∨ P node) →
      expr_inv g P st' ∧ expr_step st st' ∧ (g.is_kernel node ∨ node ∈ st'.2) := by
  intro fuel
  induction fuel with
  | zero => intro node st st' h; simp [expression_node_append] at h
  | succ fuel ih =>
    intro node st st' h hi hpre
    obtain ⟨sorted, visited⟩ := st
    unfold expression_node_append at h
    split at h
    · exact absurd h (by simp)
    · rename_i inst hnode
      split at h
      · rename_i hk
        simp only [Option.some.injEq] at h
        subst h
        exact ⟨hi, expr_step_refl _, Or.inl ⟨inst, hnode, hk⟩⟩
      · rename_i hk
        split at h
        · rename_i hv
          simp only [Option.some.injEq] at h
          subst h
          exact ⟨hi, expr_step_refl _, Or.inr hv⟩
        · rename_i hnv
          split at h
          · exact absurd h (by simp)
          · rename_i sorted1 visited1 hloop
            simp only [Option.some.injEq] at h
            subst h
            obtain ⟨a1, a2, a3, a4⟩ := hi
            simp only at a1 a2 a3 a4
            have hnk : ¬ g.is_kernel node := by
              rintro ⟨inst', hn', hk'⟩
              rw [hnode] at hn'
              simp only [Option.some.injEq] at hn'
              subst hn'
              exact hk hk'
            have hPn : P node := hpre.resolve_left hnk
            have hi0 : expr_inv g P (sorted, node :: visited) := by
              refine ⟨fun x hx => List.mem_cons_of_mem _ (a1 x hx), a2, ?_, ?_⟩
              · intro x hx
                rcases List.mem_cons.1 hx with e | hx
                · subst e
                  exact ⟨hnk, hPn⟩
                · exact a3 x hx
              · intro x hx m hl hm
                exact List.mem_cons_of_mem _ (a4 x hx m hl hm)
            obtain ⟨⟨b1, b2, b3, b4⟩, ⟨v1, ⟨l, e1⟩, o1⟩, m1⟩ :=
              expression_inputs_inv g P (expression_node_append g fuel)
                (fun m a b hab ha hb => ih m a b hab ha hb) inst.input_sockets _ _ hloop hi0
                (by
                  intro inp hm m s hl
                  by_cases hkm : g.is_kernel m
                  · exact Or.inl hkm
                  · exact Or.inr (hP node m hPn ⟨inst, hnode, inp, hm, s, hl⟩ hkm))
            simp only at b1 b2 b3 b4 v1 e1 o1 m1
            have hns : node ∉ sorted := fun hm => hnv (a1 _ hm)
            have hopen : node ∈ visited1 ∧ node ∉ sorted1 :=
              (o1 node).2 ⟨List.mem_cons_self _ _, hns⟩
            refine ⟨⟨?_, ?_, b3, ?_⟩, ⟨?_, ?_, ?_⟩, Or.inr hopen.1⟩
            · intro x hx
              rcases List.mem_append.1 hx with hx | hx
              · exact b1 x hx
              · rw [List.mem_singleton] at hx
                subst hx
                exact hopen.1
            · exact List.nodup_append.2 ⟨b2, List.nodup_singleton _, by
                intro a ha hb
                rw [List.mem_singleton] at hb
                subst hb
                exact hopen.2 ha⟩
            · intro x hx m hl hm
              rcases List.mem_append.1 hx with hx | hx
              · exact b4 x hx m hl hm
              · rw [List.mem_singleton] at hx
                subst hx
                obtain ⟨inst', hn', inp, hin, s, hlk⟩ := hl
                rw [hnode] at hn'
                simp only [Option.some.injEq] at hn'
                subst hn'
                exact (m1 inp hin m s hlk).resolve_left hm
            · intro x hx
              exact v1 x (List.mem_cons_of_mem _ hx)
            · exact ⟨l ++ [node], by simp [e1]⟩
            · intro x
              simp only [List.mem_append, List.mem_singleton, not_or]
              have := o1 x
              simp only [List.mem_cons] at this
              constructor
              · rintro ⟨hx1, hx2, hx3⟩
                rcases (this.1 ⟨hx1, hx2⟩).1 with h | h
                · exact absurd h hx3
                · exact ⟨h, (this.1 ⟨hx1, hx2⟩).2⟩
              · rintro ⟨hx1, hx2⟩
                have hne : x ≠ node := fun e => hnv (e ▸ hx1)
                have := this.2 ⟨Or.inr hx1, hx2⟩
                exact ⟨this.1, this.2, hne⟩

/-- The loop over the inputs of `expression_node_append` returns when every
recursive call does. -/
theorem expression_inputs_returns (g : NodeGraph)
    (visit : Nat → NodeList × NodeSet → Option (NodeList × NodeSet)) (bound : Nat)
    (hvisit : ∀ m st, m < g.nodes.length → (∀ x, x ∈ st.2 → x < g.nodes.length) →
      unvisited g st.2 < bound →
      ∃ st', visit m st = some st' ∧ (∀ x, x ∈ st.2 → x ∈ st'.2) ∧
        ∀ x, x ∈ st'.2 → x < g.nodes.length) :
    ∀ (inputs : List (NodeSocket × InputInstance)) (st : NodeList × NodeSet),
      (∀ inp ∈ inputs, ∀ m s, inp.2.link = some (m, s) → m < g.nodes.length) →
      (∀ x, x ∈ st.2 → x < g.nodes.length) → unvisited g st.2 < bound →
      ∃ st', expression_node_append.inputs visit inputs st = some st' ∧
        (∀ x, x ∈ st.2 → x ∈ st'.2) ∧ ∀ x, x ∈ st'.2 → x < g.nodes.length := by
  intro inputs
  induction inputs with
  | nil =>
    intro st _ hr _
    exact ⟨st, rfl, fun _ h => h, hr⟩
  | cons inp rest ih =>
    intro st hl hr hb
    obtain ⟨socket, inst⟩ := inp
    have hl' : ∀ inp ∈ rest, ∀ m s, inp.2.link = some (m, s) → m < g.nodes.length :=
      fun inp hi => hl inp (List.mem_cons_of_mem _ hi)
    unfold expression_node_append.inputs
    split
    · rename_i link_node s hlink
      have hm : link_node < g.nodes.length := hl _ (List.mem_cons_self _ _) _ _ hlink
      obtain ⟨st1, e1, v1, r1⟩ := hvisit link_node st hm hr hb
      rw [e1]
      obtain ⟨st2, e2, v2, r2⟩ := ih st1 hl' r1
        (lt_of_le_of_lt (unvisited_mono g _ _ v1) hb)
      exact ⟨st2, e2, fun x hx => v2 x (v1 x hx), r2⟩
    · exact ih _ hl' hr hb

/-- `expression_node_append` returns when its bound exceeds the number of nodes
that are not visited yet. -/
theorem expression_node_append_returns (g : NodeGraph) (hclosed : g.closed) :
    ∀ (fuel node : Nat) (st : NodeList × NodeSet), node < g.nodes.length →
      (∀ x, x ∈ st.2 → x < g.nodes.length) → unvisited g st.2 < fuel →
      ∃ st', expression_node_append g fuel node st = some st' ∧
        (∀ x, x ∈ st.2 → x ∈ st'.2) ∧ ∀ x, x ∈ st'.2 → x < g.nodes.length := by
  intro fuel
  induction fuel with
  | zero => intro node st _ _ h; omega
  | succ fuel ih =>
    intro node st hn hr hb
    obtain ⟨sorted, visited⟩ := st
    obtain ⟨inst, hinst⟩ : ∃ inst, g.node node = some inst :=
      ⟨g.nodes[node], by simp [NodeGraph.node, List.getElem?_eq_getElem hn]⟩
    unfold expression_node_append
    rw [hinst]
    simp only
    split
    · exact ⟨_, rfl, fun _ h => h, hr⟩
    · split
      · exact ⟨_, rfl, fun _ h => h, hr⟩
      · rename_i hnv
        have hlt := unvisited_cons_lt g visited node hn hnv
        obtain ⟨st1, e1, v1, r1⟩ := expression_inputs_returns g
          (expression_node_append g fuel) fuel ih inst.input_sockets (sorted, node :: visited)
          (fun inp hi m s hl => hclosed node m ⟨inst, hinst, inp, hi, s, hl⟩)
          (by
            intro x hx
            rcases List.mem_cons.1 hx with h | h
            · exact h ▸ hn
            · exact hr x h)
          (by simp only at hb ⊢; omega)
        rw [e1]
        exact ⟨_, rfl, fun x hx => v1 x (List.mem_cons_of_mem _ hx), r1⟩

theorem expr_sources_first_append (g : NodeGraph) (l : List Nat) (node : Nat)
    (hl : expr_sources_first g l)
    (hnode : ∀ M, g.linked node M → ¬ g.is_kernel M → M ∈ l) :
    expr_sources_first g (l ++ [node]) := by
  intro j N M hj hf hk
  by_cases hlt : j < l.length
  · rw [List.getElem?_append_left hlt] at hj
    obtain ⟨i, hi, he⟩ := hl j N M hj hf hk
    exact ⟨i, hi, by rw [List.getElem?_append_left (by omega)]; exact he⟩
  · rw [List.getElem?_append_right (by omega)] at hj
    have hj0 : j - l.length = 0 := by
      by_contra hne
      rw [List.getElem?_eq_none (by simp; omega)] at hj
      exact absurd hj (by simp)
    rw [hj0] at hj
    simp only [List.getElem?_cons_zero, Option.some.injEq] at hj
    subst hj
    obtain ⟨i, hi, he⟩ := List.getElem_of_mem (hnode M hf hk)
    exact ⟨i, by omega, by rw [List.getElem?_append_left hi, List.getElem?_eq_getElem hi, he]⟩

/-- The loop over the inputs of `node`, in an acyclic graph: afterwards the list
is still in source-first order and holds the sources of all links of the inputs,
kernel nodes apart. -/
theorem expression_inputs_sources (g : NodeGraph)
    (visit : Nat → NodeList × NodeSet → Option (NodeList × NodeSet)) (node : Nat)
    (hstep : ∀ m st st', visit m st = some st' → expr_inv g (fun _ => True) st →
      expr_inv g (fun _ => True) st' ∧ expr_step st st')
    (hvisit : ∀ m st st', visit m st = some st' → expr_inv g (fun _ => True) st →
      expr_sources_first g st.1 →
      (∀ x, x ∈ st.2 ∧ x ∉ st.1 → Relation.TransGen g.linked x m) →
      expr_sources_first g st'.1 ∧ (g.is_kernel m ∨ m ∈ st'.1)) :
    ∀ (inputs : List (NodeSocket × InputInstance)) (st st' : NodeList × NodeSet),
      expression_node_append.inputs visit inputs st = some st' →
      expr_inv g (fun _ => True) st → expr_sources_first g st.1 →
      (∀ x, x ∈ st.2 ∧ x ∉ st.1 → x = node ∨ Relation.TransGen g.linked x node) →
      (∀ inp ∈ inputs, ∀ m s, inp.2.link = some (m, s) → g.linked node m) →
      expr_inv g (fun _ => True) st' ∧ expr_step st st' ∧ expr_sources_first g st'.1 ∧
      ∀ inp ∈ inputs, ∀ m s, inp.2.link = some (m, s) → g.is_kernel m ∨ m ∈ st'.1 := by
  intro inputs
  induction inputs with
  | nil =>
    intro st st' h hi hs _ _
    simp only [expression_node_append.inputs, Option.some.injEq] at h
    subst h
    exact ⟨hi, expr_step_refl _, hs, fun inp hm => absurd hm (List.not_mem_nil _)⟩
  | cons inp rest ih =>
    intro st st' h hi hs hopen hfol
    obtain ⟨socket, inst⟩ := inp
    have hfol' : ∀ inp ∈ rest, ∀ m s, inp.2.link = some (m, s) → g.linked node m :=
      fun inp hm => hfol inp (List.mem_cons_of_mem _ hm)
    unfold expression_node_append.inputs at h
    split at h
    · rename_i link_node s0 hlink
      split at h
      · exact absurd h (by simp)
      · rename_i st1 hv
        have hf : g.linked node link_node := hfol _ (List.mem_cons_self _ _) _ _ hlink
        obtain ⟨i1, s1⟩ := hstep _ _ _ hv hi
        obtain ⟨o1, m1⟩ := hvisit _ _ _ hv hi hs (by
          intro x hx
          rcases hopen x hx with e | ht
          · subst e
            exact Relation.TransGen.single hf
          · exact Relation.TransGen.tail ht hf)
        obtain ⟨i2, s2, o2, m2⟩ := ih _ _ h i1 o1
          (fun x hx => hopen x ((s1.2.2 x).1 hx)) hfol'
        refine ⟨i2, expr_step_trans s1 s2, o2, fun inp hm m s hl => ?_⟩
        rcases List.mem_cons.1 hm with e | hm
        · subst e
          simp only at hl
          rw [hlink] at hl
          simp only [Option.some.injEq, Prod.mk.injEq] at hl
          rw [← hl.1]
          rcases m1 with hk | hin
          · exact Or.inl hk
          · obtain ⟨l, el⟩ := s2.2.1
            exact Or.inr (by rw [el]; exact List.mem_append_left _ hin)
        · exact m2 inp hm m s hl
    · rename_i hlink
      obtain ⟨i2, s2, o2, m2⟩ := ih _ _ h hi hs hopen hfol'
      refine ⟨i2, s2, o2, fun inp hm m s hl => ?_⟩
      rcases List.mem_cons.1 hm with e | hm
      · subst e
        simp only at hl
        rw [hlink] at hl
        exact absurd hl (by simp)
      · exact m2 inp hm m s hl

/-- In an acyclic graph a call of `expression_node_append` keeps the list in
source-first order and leaves the node in the list, unless it is a kernel node. -/
theorem expression_node_append_sources (g : NodeGraph) (hacyclic : g.acyclic) :
    ∀ (fuel node : Nat) (st st' : NodeList × NodeSet),
      expression_node_append g fuel node st = some st' → expr_inv g (fun _ => True) st →
      expr_sources_first g st.1 →
      (∀ x, x ∈ st.2 ∧ x ∉ st.1 → Relation.TransGen g.linked x node) →
      expr_sources_first g st'.1 ∧ (g.is_kernel node ∨ node ∈ st'.1) := by
  intro fuel
  induction fuel with
  | zero => intro node st st' h; simp [expression_node_append] at h
  | succ fuel ih =>
    intro node st st' h hi hs hopen
    obtain ⟨sorted, visited⟩ := st
    unfold expression_node_append at h
    split at h
    · exact absurd h (by simp)
    · rename_i inst hnode
      split at h
      · rename_i hk
        simp only [Option.some.injEq] at h
        subst h
        exact ⟨hs, Or.inl ⟨inst, hnode, hk⟩⟩
      · rename_i hk
        split at h
        · rename_i hv
          simp only [Option.some.injEq] at h
          subst h
          refine ⟨hs, Or.inr ?_⟩
          by_contra hns
          exact hacyclic node (hopen node ⟨hv, hns⟩)
        · rename_i hnv
          split at h
          · exact absurd h (by simp)
          · rename_i sorted1 visited1 hloop
            simp only [Option.some.injEq] at h
            subst h
            obtain ⟨a1, a2, a3, a4⟩ := hi
            simp only at a1 a2 a3 a4 hs hopen
            have hnk : ¬ g.is_kernel node := by
              rintro ⟨inst', hn', hk'⟩
              rw [hnode] at hn'
              simp only [Option.some.injEq] at hn'
              subst hn'
              exact hk hk'
            have hi0 : expr_inv g (fun _ => True) (sorted, node :: visited) := by
              refine ⟨fun x hx => List.mem_cons_of_mem _ (a1 x hx), a2, ?_, ?_⟩
              · intro x hx
                rcases List.mem_cons.1 hx with e | hx
                · subst e
                  exact ⟨hnk, trivial⟩
                · exact a3 x hx
              · intro x hx m hl hm
                exact List.mem_cons_of_mem _ (a4 x hx m hl hm)
            obtain ⟨_, _, h1, h2⟩ := expression_inputs_sources g
              (expression_node_append g fuel) node
              (fun m a b hab ha =>
                let r := expression_node_append_inv g (fun _ => True) (fun _ _ _ _ _ => trivial)
                  fuel m a b hab ha (Or.inr trivial)
                ⟨r.1, r.2.1⟩)
              (fun m a b hab ha hb hc => ih m a b hab ha hb hc)
              inst.input_sockets _ _ hloop hi0 hs
              (by
                intro x hx
                simp only [List.mem_cons] at hx
                rcases hx.1 with e | hv
                · exact Or.inl e
                · exact Or.inr (hopen x ⟨hv, hx.2⟩))
              (fun inp hm m s hl => ⟨inst, hnode, inp, hm, s, hl⟩)
            simp only at h1 h2
            refine ⟨expr_sources_first_append g _ node h1 ?_, Or.inr (by simp)⟩
            rintro M ⟨inst', hn', inp, hm, s, hl⟩ hkM
            rw [hnode] at hn'
            simp only [Option.some.injEq] at hn'
            subst hn'
            exact (h2 inp hm M s hl).resolve_left hkM

theorem expr_reach_source_not_kernel (g : NodeGraph) (src n : Nat) (h : g.expr_reach src n) :
    ¬ g.is_kernel src := by
  induction h with
  | source hk => exact hk
  | link _ _ _ ih => exact ih

theorem link_node_some (inst : NodeInstance) (name : String) (src : Nat)
    (h : (inst.link name).node = some src) :
    ∃ sock s v, inst.find_input name = some (sock, ⟨some (src, s), v⟩) := by
  unfold NodeInstance.link at h
  split at h
  · rename_i sock link_node link_socket v hfi
    simp only [Option.some.injEq] at h
    subst h
    exact ⟨sock, link_socket, v, hfi⟩
  · simp at h

theorem link_node_none (inst : NodeInstance) (name : String)
    (h : (inst.link name).node = none) :
    ∀ sock src s v, inst.find_input name ≠ some (sock, ⟨some (src, s), v⟩) := by
  intro sock src s v hfi
  unfold NodeInstance.link at h
  rw [hfi] at h
  simp at h

/-- C17: for an input socket of a node of a graph (whose links come from nodes of
the graph), `sort_expression_nodes` returns a list with no kernel node and no
node twice; the list is empty when the socket is not linked or linked to a kernel
node; when the socket is linked to the node `src`, the list consists of the
nodes that are reachable from `src` by following input links backwards along
paths without a kernel node; and in an acyclic graph every listed node stands
after the listed sources of its links. -/
theorem sort_expression_nodes_reachable (g : NodeGraph) (id : Nat) (inst : NodeInstance)
    (name : String) (hclosed : g.closed) (hnode : g.node id = some inst) :
    ∃ l, sort_expression_nodes g ⟨some id, name⟩ = .ok l ∧ l.Nodup ∧
      (∀ n ∈ l, ¬ g.is_kernel n) ∧
      ((inst.link name).node = none → l = []) ∧
      (∀ src, (inst.link name).node = some src →
        (g.is_kernel src → l = []) ∧ ∀ n, n ∈ l ↔ g.expr_reach src n) ∧
      (g.acyclic → ∀ (j N M : Nat), l[j]? = some N → g.linked N M → M ∈ l →
        ∃ i, i < j ∧ l[i]? = some M) := by
  by_cases hlink : ∃ src, (inst.link name).node = some src
  · obtain ⟨src, hsrc⟩ := hlink
    obtain ⟨sock, s, v, hfi⟩ := link_node_some inst name src hsrc
    have hmem : (sock, (⟨some (src, s), v⟩ : InputInstance)) ∈ inst.input_sockets :=
      List.mem_of_find?_eq_some hfi
    have hlt : src < g.nodes.length := hclosed id src ⟨inst, hnode, _, hmem, s, rfl⟩
    obtain ⟨st', he, _, _⟩ := expression_node_append_returns g hclosed (g.nodes.length + 1)
      src ([], []) hlt (fun x hx => absurd hx (List.not_mem_nil _))
      (Nat.lt_succ_of_le (unvisited_le g _))
    have hi0 : ∀ P : Nat → Prop, expr_inv g P ([], []) := fun P =>
      ⟨fun x hx => absurd hx (List.not_mem_nil _), List.nodup_nil,
       fun x hx => absurd hx (List.not_mem_nil _), fun x hx => absurd hx (List.not_mem_nil _)⟩
    obtain ⟨⟨b1, b2, b3, b4⟩, ⟨_, _, o1⟩, m1⟩ :=
      expression_node_append_inv g (g.expr_reach src)
        (fun n m hn hl hk => NodeGraph.expr_reach.link hn hl hk) _ src _ _ he (hi0 _)
        (by
          by_cases hk : g.is_kernel src
          · exact Or.inl hk
          · exact Or.inr (NodeGraph.expr_reach.source hk))
    have hclosedl : ∀ x, x ∈ st'.2 → x ∈ st'.1 := by
      intro x hx
      by_contra hns
      exact absurd ((o1 x).1 ⟨hx, hns⟩).1 (List.not_mem_nil _)
    have hall : ∀ n, n ∈ st'.1 ↔ g.expr_reach src n := by
      intro n
      constructor
      · exact fun hn => (b3 n (b1 n hn)).2
      · intro hr
        induction hr with
        | source hk => exact hclosedl _ (m1.resolve_left hk)
        | link _ hl hk ih => exact hclosedl _ (b4 _ ih _ hl hk)
    have hsort : sort_expression_nodes g ⟨some id, name⟩ = .ok st'.1 := by
      simp only [sort_expression_nodes, hnode, hfi, he]
    refine ⟨st'.1, hsort, b2, fun n hn => (b3 n (b1 n hn)).1, ?_, ?_, ?_⟩
    · intro hnone
      rw [hsrc] at hnone
      exact absurd hnone (by simp)
    · intro src' hsrc'
      rw [hsrc] at hsrc'
      simp only [Option.some.injEq] at hsrc'
      subst hsrc'
      refine ⟨fun hk => ?_, hall⟩
      apply List.eq_nil_iff_forall_not_mem.2
      intro n hn
      exact expr_reach_source_not_kernel g src n ((hall n).1 hn) hk
    · intro hacyclic j N M hj hl hM
      have hs := (expression_node_append_sources g hacyclic _ src _ _ he (hi0 _)
        (fun j N M hj => by simp at hj)
        (fun x hx => absurd hx.1 (List.not_mem_nil _))).1
      exact hs j N M hj hl (b3 M (b1 M hM)).1
  · have hnone : (inst.link name).node = none := by
      cases h : (inst.link name).node with
      | none => rfl
      | some src => exact absurd ⟨src, h⟩ hlink
    have hfi' := link_node_none inst name hnone
    have hsort : sort_expression_nodes g ⟨some id, name⟩ = .ok [] := by
      simp only [sort_expression_nodes, hnode]
    refine ⟨[], hsort, List.nodup_nil, fun n hn => absurd hn (List.not_mem_nil _),
      fun _ => rfl, ?_, fun _ j N M hj => by simp at hj⟩
    intro src hsrc
    rw [hnone] at hsrc
    exact absurd hsrc (by simp)

theorem expression_graph_linked (n m : Nat) (h : expression_graph.linked n m) :
    n < m ∧ m < 4 := by
  obtain ⟨inst, h1, inp, h2, s, h3⟩ := h
  unfold NodeGraph.node expression_graph at h1
  match n, h1 with
  | 0, h1 =>
    simp only [List.getElem?_cons_zero, Option.some.injEq] at h1
    subst h1
    simp only [NodeInstance.input_sockets, float_kernel_type, zip_inputs, List.mem_singleton] at h2
    subst h2
    simp only [Option.some.injEq, Prod.mk.injEq] at h3
    omega
  | 1, h1 =>
    simp only [List.getElem?_cons_succ, List.getElem?_cons_zero, Option.some.injEq] at h1
    subst h1
    simp only [NodeInstance.input_sockets, float_binary_type, zip_inputs, List.mem_cons,
      List.mem_singleton, List.not_mem_nil, or_false] at h2
    rcases h2 with h2 | h2 <;>
    · subst h2
      simp only [Option.some.injEq, Prod.mk.injEq] at h3
      omega
  | 2, h1 =>
    simp only [List.getElem?_cons_succ, List.getElem?_cons_zero, Option.some.injEq] at h1
    subst h1
    simp only [NodeInstance.input_sockets, float_kernel_type, zip_inputs, List.mem_singleton] at h2
    subst h2
    simp only [Option.some.injEq, Prod.mk.injEq] at h3
    omega
  | 3, h1 =>
    simp only [List.getElem?_cons_succ, List.getElem?_cons_zero, Option.some.injEq] at h1
    subst h1
    simp only [NodeInstance.input_sockets, float_constant_type, zip_inputs, List.mem_singleton] at h2
    subst h2
    simp at h3
  | k + 4, h1 => simp at h1

theorem sort_expression_nodes_reachable_witness :
    (expression_graph.closed ∧ expression_graph.acyclic ∧
      expression_graph.node 0 = some ⟨float_kernel_type, [⟨some (1, "value"), none⟩]⟩) ∧
    sort_expression_nodes expression_graph ⟨some 0, "factor"⟩ = .ok [3, 1] ∧
    expression_graph.linked 1 2 ∧ expression_graph.is_kernel 2 ∧
    ∃ l, sort_expression_nodes expression_graph ⟨some 0, "factor"⟩ = .ok l ∧ l.Nodup ∧
      (∀ n ∈ l, ¬ expression_graph.is_kernel n) ∧
      ((NodeInstance.link ⟨float_kernel_type, [⟨some (1, "value"), none⟩]⟩ "factor").node = none →
        l = []) ∧
      (∀ src,
        (NodeInstance.link ⟨float_kernel_type, [⟨some (1, "value"), none⟩]⟩ "factor").node =
          some src →
        (expression_graph.is_kernel src → l = []) ∧
          ∀ n, n ∈ l ↔ expression_graph.expr_reach src n) ∧
      (expression_graph.acyclic → ∀ (j N M : Nat), l[j]? = some N →
        expression_graph.linked N M → M ∈ l → ∃ i, i < j ∧ l[i]? = some M) :=
  ⟨⟨fun n m h => (expression_graph_linked n m h).2,
    acyclic_of_rank expression_graph id (fun n m h => (expression_graph_linked n m h).1), rfl⟩,
   by rfl,
   ⟨_, rfl, _, List.mem_cons_self _ _, "value", rfl⟩,
   ⟨_, rfl, rfl⟩,
   sort_expression_nodes_reachable expression_graph 0
     ⟨float_kernel_type, [⟨some (1, "value"), none⟩]⟩ "factor"
     (fun n m h => (expression_graph_linked n m h).2) rfl⟩

/-! ## The faults of a compile

The bound on the recursion depth is never the reason for which a compile of a
graph, whose links come from nodes of the graph, stops. -/

theorem prepare_inputs_fault (cfg : Config) (node : Nat) (output_index : SocketIndexMap) :
    ∀ (inputs : List (NodeSocket × InputInstance)) (c : BVMCompiler)
      (input_index : SocketIndexMap) (e : Fault),
      codegen_subgraph.prepare_inputs cfg node output_index inputs c input_index = .error e →
      e ≠ .no_termination := by
  intro inputs
  induction inputs with
  | nil => intro c ii e h; simp [codegen_subgraph.prepare_inputs] at h
  | cons inp rest ih =>
    intro c ii e h
    obtain ⟨input, inst⟩ := inp
    unfold codegen_subgraph.prepare_inputs at h
    simp only at h
    split at h
    · cases h; decide
    · split at h
      · exact ih _ _ _ h
      · split at h
        · split at h
          · cases h; decide
          · exact ih _ _ _ h
        · split at h
          · exact ih _ _ _ h
          · split at h
            · cases h; decide
            · exact ih _ _ _ h

theorem init_outputs_fault (cfg : Config) (node : Nat) (users : SocketUserMap) :
    ∀ (outs : List NodeSocket) (c : BVMCompiler) (oi : SocketIndexMap) (e : Fault),
      codegen_subgraph.init_outputs cfg node users outs c oi = .error e →
      e ≠ .no_termination := by
  intro outs
  induction outs with
  | nil => intro c oi e h; simp [codegen_subgraph.init_outputs] at h
  | cons out rest ih =>
    intro c oi e h
    unfold codegen_subgraph.init_outputs at h
    simp only at h
    split at h
    · split at h
      · cases h; decide
      · split at h
        · exact ih _ _ _ h
        · exact ih _ _ _ h
    · exact ih _ _ _ h

theorem write_inputs_fault (cfg : Config) (node : Nat) (ii : SocketIndexMap) :
    ∀ (inputs : List (NodeSocket × InputInstance)) (c : BVMCompiler) (e : Fault),
      codegen_subgraph.write_inputs cfg node ii inputs c = .error e → e ≠ .no_termination := by
  intro inputs
  induction inputs with
  | nil => intro c e h; simp [codegen_subgraph.write_inputs] at h
  | cons inp rest ih =>
    intro c e h
    obtain ⟨input, inst⟩ := inp
    unfold codegen_subgraph.write_inputs at h
    simp only at h
    split at h
    · split at h
      · cases h; decide
      · exact ih _ _ h
    · split at h
      · split at h
        · cases h; decide
        · exact ih _ _ h
      · split at h
        · cases h; decide
        · exact ih _ _ h

theorem write_outputs_fault (cfg : Config) (node : Nat) (oi : SocketIndexMap) :
    ∀ (outs : List NodeSocket) (c : BVMCompiler) (e : Fault),
      codegen_subgraph.write_outputs cfg node oi outs c = .error e → e ≠ .no_termination := by
  intro outs
  induction outs with
  | nil => intro c e h; simp [codegen_subgraph.write_outputs] at h
  | cons out rest ih =>
    intro c e h
    unfold codegen_subgraph.write_outputs at h
    split at h
    · cases h; decide
    · exact ih _ _ h

theorem release_inputs_fault (cfg : Config) (oi : SocketIndexMap) :
    ∀ (inputs : List (NodeSocket × InputInstance)) (c : BVMCompiler) (e : Fault),
      codegen_subgraph.release_inputs cfg oi inputs c = .error e → e ≠ .no_termination := by
  intro inputs
  induction inputs with
  | nil => intro c e h; simp [codegen_subgraph.release_inputs] at h
  | cons inp rest ih =>
    intro c e h
    obtain ⟨input, inst⟩ := inp
    unfold codegen_subgraph.release_inputs at h
    simp only at h
    split at h
    · exact ih _ _ h
    · split at h
      · split at h
        · cases h; decide
        · split at h
          · exact ih _ _ h
          · exact ih _ _ h
      · exact ih _ _ h

theorem codegen_node_fault (cfg : Config) (g : NodeGraph) (users : SocketUserMap)
    (id : Nat) (c : BVMCompiler) (oi : SocketIndexMap) (e : Fault)
    (h : codegen_subgraph.node cfg g users id c oi = .error e) : e ≠ .no_termination := by
  unfold codegen_subgraph.node at h
  split at h
  · cases h; decide
  · simp only at h
    split at h
    · exact absurd h (by simp)
    · split at h
      · rename_i e1 h1
        cases h
        exact prepare_inputs_fault cfg id oi _ _ _ _ h1
      · split at h
        · rename_i e1 h1
          cases h
          exact init_outputs_fault cfg id users _ _ _ _ h1
        · split at h
          · rename_i e1 h1
            cases h
            exact write_inputs_fault cfg id _ _ _ _ h1
          · split at h
            · rename_i e1 h1
              cases h
              exact write_outputs_fault cfg id _ _ _ _ h1
            · split at h
              · rename_i e1 h1
                cases h
                exact release_inputs_fault cfg _ _ _ _ h1
              · exact absurd h (by simp)

theorem codegen_nodes_fault (cfg : Config) (g : NodeGraph) (users : SocketUserMap) :
    ∀ (nodes : NodeList) (c : BVMCompiler) (oi : SocketIndexMap) (e : Fault),
      codegen_subgraph.nodes cfg g users nodes c oi = .error e → e ≠ .no_termination := by
  intro nodes
  induction nodes with
  | nil => intro c oi e h; simp [codegen_subgraph.nodes] at h
  | cons id rest ih =>
    intro c oi e h
    unfold codegen_subgraph.nodes at h
    split at h
    · rename_i e1 h1
      cases h
      exact codegen_node_fault cfg g users id c oi _ h1
    · exact ih _ _ _ h

theorem resolve_outputs_fault (cfg : Config) (oi : SocketIndexMap) :
    ∀ (outs : SubgraphOutputList) (c : BVMCompiler) (e : Fault),
      codegen_subgraph.resolve_outputs cfg oi outs c = .error e → e ≠ .no_termination := by
  intro outs
  induction outs with
  | nil => intro c e h; simp [codegen_subgraph.resolve_outputs] at h
  | cons out rest ih =>
    intro c e h
    unfold codegen_subgraph.resolve_outputs at h
    split at h
    · split at h
      · cases h; decide
      · split at h
        · rename_i e1 h1
          cases h
          exact ih _ _ h1
        · exact absurd h (by simp)
    · split at h
      · cases h; decide
      · simp only at h
        split at h
        · rename_i e1 h1
          cases h
          exact ih _ _ h1
        · exact absurd h (by simp)

theorem codegen_subgraph_fault (cfg : Config) (g : NodeGraph) (nodes : NodeList)
    (users : SocketUserMap) (outs : SubgraphOutputList) (c : BVMCompiler) (e : Fault)
    (h : codegen_subgraph cfg g nodes users outs c = .error e) : e ≠ .no_termination := by
  unfold codegen_subgraph at h
  simp only at h
  split at h
  · rename_i e1 h1
    cases h
    exact codegen_nodes_fault cfg g users _ _ _ _ h1
  · split at h
    · rename_i e1 h1
      cases h
      exact resolve_outputs_fault cfg _ _ _ _ h1
    · exact absurd h (by simp)

/-- `sort_expression_nodes` does not stop for lack of recursion depth. -/
theorem sort_expression_nodes_fault (g : NodeGraph) (hclosed : g.closed) (key : ConstSocketPair)
    (e : Fault) (h : sort_expression_nodes g key = .error e) : e ≠ .no_termination := by
  unfold sort_expression_nodes at h
  split at h
  · cases h; decide
  · rename_i id hid
    split at h
    · cases h; decide
    · rename_i inst hnode
      split at h
      · rename_i sock src s v hfi
        have hlt : src < g.nodes.length :=
          hclosed id src ⟨inst, hnode, _, List.mem_of_find?_eq_some hfi, s, rfl⟩
        obtain ⟨st', he, _, _⟩ := expression_node_append_returns g hclosed (g.nodes.length + 1)
          src ([], []) hlt (fun x hx => absurd hx (List.not_mem_nil _))
          (Nat.lt_succ_of_le (unvisited_le g _))
        rw [he] at h
        exact absurd h (by simp)
      · exact absurd h (by simp)

theorem kernels_fault (cfg : Config) (g : NodeGraph) (hclosed : g.closed)
    (users : SocketUserMap) :
    ∀ (keys : List ConstSocketPair) (c : BVMCompiler) (e : Fault),
      codegen_function.kernels cfg g users keys c = .error e → e ≠ .no_termination := by
  intro keys
  induction keys with
  | nil => intro c e h; simp [codegen_function.kernels] at h
  | cons key rest ih =>
    intro c e h
    unfold codegen_function.kernels at h
    split at h
    · rename_i e1 h1
      cases h
      exact sort_expression_nodes_fault g hclosed key _ h1
    · split at h
      · cases h; decide
      · simp only at h
        split at h
        · cases h; decide
        · split at h
          · rename_i e1 h1
            cases h
            exact codegen_subgraph_fault cfg g _ _ _ _ _ h1
          · split at h
            · cases h; decide
            · exact ih _ _ h

theorem main_outputs_fault (cfg : Config) (g : NodeGraph) :
    ∀ (gouts : List GraphOutput) (e : Fault),
      codegen_function.main_outputs cfg g gouts = .error e → e ≠ .no_termination := by
  intro gouts
  induction gouts with
  | nil => intro e h; simp [codegen_function.main_outputs] at h
  | cons output rest ih =>
    intro e h
    unfold codegen_function.main_outputs at h
    split at h
    · cases h; decide
    · split at h
      · cases h; decide
      · split at h
        · rename_i e1 h1
          cases h
          exact ih _ h1
        · exact absurd h (by simp)

theorem return_values_fault (g : NodeGraph) :
    ∀ (gouts : List GraphOutput) (outs : SubgraphOutputList) (fn0 : Function) (e : Fault),
      codegen_function.return_values g gouts outs fn0 = .error e → e ≠ .no_termination := by
  intro gouts
  induction gouts with
  | nil => intro outs fn0 e h; simp [codegen_function.return_values] at h
  | cons output rest ih =>
    intro outs fn0 e h
    cases outs with
    | nil => simp [codegen_function.return_values] at h
    | cons x xs =>
      unfold codegen_function.return_values at h
      split at h
      · cases h; decide
      · split at h
        · cases h; decide
        · exact ih _ _ _ h

/-- A compile of a graph whose links come from nodes of the graph does not stop
for lack of recursion depth: it returns a function, or an `assert` fails, or a
null pointer is dereferenced. -/
theorem codegen_function_fault (cfg : Config) (addr : Nat → Nat) (g : NodeGraph)
    (c : BVMCompiler) (hclosed : g.closed) :
    codegen_function cfg addr g c ≠ .error .no_termination := by
  intro h
  unfold codegen_function at h
  simp only at h
  split at h
  · rename_i hsort
    obtain ⟨st, e⟩ := sort_graph_nodes_loop_returns cfg g hclosed g.node_ids
      ⟨[], [], c.func_entry_map⟩ (fun n hn => List.mem_range.1 hn)
      (fun x hx => absurd hx (List.not_mem_nil _))
    unfold sort_graph_nodes at hsort
    rw [e] at hsort
    exact absurd hsort (by simp)
  · split at h
    · rename_i e1 h1
      cases h
      exact kernels_fault cfg g hclosed _ _ _ _ h1 rfl
    · split at h
      · rename_i e1 h1
        cases h
        exact main_outputs_fault cfg g _ _ h1 rfl
      · split at h
        · rename_i e1 h1
          cases h
          exact codegen_subgraph_fault cfg g _ _ _ _ _ h1 rfl
        · split at h
          · rename_i e1 h1
            cases h
            exact return_values_fault g _ _ _ _ h1 rfl
          · exact absurd h (by simp)

theorem mesh_fork_graph_closed : mesh_fork_graph.closed := by
  rintro n m ⟨inst, h1, inp, h2, s, h3⟩
  rcases mesh_fork_graph_node n inst h1 with rfl | rfl
  · simp only [NodeInstance.input_sockets, mesh_modifier_type, zip_inputs, List.mem_singleton] at h2
    subst h2
    simp only [Option.some.injEq, Prod.mk.injEq] at h3
    rw [← h3.1]
    decide
  · simp [NodeInstance.input_sockets, mesh_source_type, zip_inputs] at h2

theorem kernel_graph_closed : kernel_graph.closed := by
  rintro n m ⟨inst, h1, inp, h2, s, h3⟩
  unfold NodeGraph.node kernel_graph at h1
  match n, h1 with
  | 0, h1 =>
    simp only [List.getElem?_cons_zero, Option.some.injEq] at h1
    subst h1
    simp only [NodeInstance.input_sockets, float_kernel_type, zip_inputs, List.mem_singleton] at h2
    subst h2
    simp only [Option.some.injEq, Prod.mk.injEq] at h3
    rw [← h3.1]
    decide
  | 1, h1 =>
    simp only [List.getElem?_cons_succ, List.getElem?_cons_zero, Option.some.injEq] at h1
    subst h1
    simp only [NodeInstance.input_sockets, float_identity_type, zip_inputs, List.mem_singleton] at h2
    subst h2
    simp only [Option.some.injEq, Prod.mk.injEq] at h3
    rw [← h3.1]
    decide
  | 2, h1 =>
    simp only [List.getElem?_cons_succ, List.getElem?_cons_zero, Option.some.injEq] at h1
    subst h1
    simp only [NodeInstance.input_sockets, float_constant_type, zip_inputs, List.mem_singleton] at h2
    subst h2
    simp at h3
  | k + 3, h1 => simp at h1

/-- C19: a run of `codegen_function` on a graph whose links come from nodes of
the graph returns a function unless an `assert` fails or a null pointer is
dereferenced; the function that a run returns has one return binding per
declared graph output, in the order of declaration, and the binding of an output
carries the type descriptor of the output socket, the external name of the graph
output and the stack slot that the main subgraph assigned to the socket of the
output. -/
theorem codegen_function_return_bindings (cfg : Config) (addr : Nat → Nat) (g : NodeGraph)
    (c : BVMCompiler) :
    (g.closed → codegen_function cfg addr g c ≠ .error .no_termination) ∧
    ∀ (fn : Function) (c' : BVMCompiler), codegen_function cfg addr g c = .ok (fn, c') →
      fn.return_values.length = g.outputs.length ∧
      ∀ (i : Nat) (output : GraphOutput), g.outputs[i]? = some output →
        ∃ n inst socket slot, output.key.node = some n ∧ g.node n = some inst ∧
          inst.type.find_output output.key.socket = some socket ∧
          codegen_function.output_slot cfg addr g c output.key = some slot ∧
          fn.return_values[i]? = some ⟨socket.typedesc, output.name, slot⟩ := by
  refine ⟨codegen_function_fault cfg addr g c, ?_⟩
  intro fn c' hok
  obtain ⟨main_nodes, c1, c2, c3, oi, outs, outs', c4, hsort, hker, hnodes, hmain, hres, hret,
    _⟩ := codegen_function_parts cfg addr g c fn c' hok
  obtain ⟨ml, mk⟩ := main_outputs_spec cfg g _ _ hmain
  obtain ⟨rg, rl, rk⟩ := resolve_outputs_keys cfg oi _ _ _ _ hres
  obtain ⟨_, _, rvs, v1, v2, v3⟩ := return_values_spec g _ _ _ _ hret (by rw [rl, ml])
  have hempty : c4.fn.return_values = [] := by
    have k3 := (kernels_spec cfg g _ _ _ _ hker).2.2.1
    have n3 := (codegen_nodes_grows cfg g _ _ _ _ _ _ hnodes).2.2.1
    have r3 := rg.2.2.1
    rw [r3, push_opcode_eq, append_return_values, n3, k3]
    rfl
  have hrv : fn.return_values = rvs := by
    rw [v1]
    simp [Function.set_entry_point, hempty]
  refine ⟨by rw [hrv, v2], ?_⟩
  intro i output hi
  obtain ⟨o, ho, hkey, hsome⟩ := mk i output hi
  obtain ⟨o', ho', hkey', hslot⟩ := rk i o ho
  obtain ⟨n, inst, socket, e1, e2, e3, e4⟩ := v3 i output o' hi ho'
  refine ⟨n, inst, socket, o'.stack_index, e1, e2, e3, ?_, by rw [hrv]; exact e4⟩
  unfold codegen_function.output_slot codegen_function.output_index
  rw [hsort]
  simp only [hker, hnodes]
  rw [← hkey]
  exact hslot (by rw [hkey]; exact hsome)

theorem codegen_function_return_bindings_witness :
    (mesh_fork_graph.closed ∧
      codegen_function small_config id mesh_fork_graph (BVMCompiler.new small_config) =
        .ok (mesh_fork_function, compiler_with [1, 1, 1, 1, 1, 1, 0, 0])) ∧
    codegen_function small_config id mesh_fork_graph (BVMCompiler.new small_config) ≠
      .error .no_termination ∧
    mesh_fork_function.return_values = [⟨⟨.BVM_MESH⟩, "first", 2⟩, ⟨⟨.BVM_MESH⟩, "second", 4⟩] ∧
    mesh_fork_function.return_values.length = mesh_fork_graph.outputs.length ∧
    ∀ (i : Nat) (output : GraphOutput), mesh_fork_graph.outputs[i]? = some output →
      ∃ n inst socket slot, output.key.node = some n ∧ mesh_fork_graph.node n = some inst ∧
        inst.type.find_output output.key.socket = some socket ∧
        codegen_function.output_slot small_config id mesh_fork_graph
          (BVMCompiler.new small_config) output.key = some slot ∧
        mesh_fork_function.return_values[i]? = some ⟨socket.typedesc, output.name, slot⟩ :=
  ⟨⟨mesh_fork_graph_closed, by rfl⟩,
   (codegen_function_return_bindings small_config id mesh_fork_graph
     (BVMCompiler.new small_config)).1 mesh_fork_graph_closed,
   rfl,
   (codegen_function_return_bindings small_config id mesh_fork_graph
     (BVMCompiler.new small_config)).2 mesh_fork_function
     (compiler_with [1, 1, 1, 1, 1, 1, 0, 0]) (by rfl)⟩

/-- C20: a run of `codegen_function` on a fresh compiler, on a graph whose links
come from nodes of the graph, returns a function unless an `assert` fails or a
null pointer is dereferenced.  The entry point of the function that a run
returns is the number of words of the stream after the kernel function bodies
are generated; these words are the beginning of the stream of the function, and
the main subgraph follows them with at least one word.  The entry point is 0
when the graph has no function-typed input, and every entry point in the
Function Info map after the run is strictly smaller than the entry point of the
function. -/
theorem codegen_function_entry_point (cfg : Config) (addr : Nat → Nat) (g : NodeGraph) :
    (g.closed → codegen_function cfg addr g (BVMCompiler.new cfg) ≠ .error .no_termination) ∧
    ∀ (fn : Function) (c' : BVMCompiler),
      codegen_function cfg addr g (BVMCompiler.new cfg) = .ok (fn, c') →
      (∃ ck main_words,
        codegen_function.after_kernels cfg addr g (BVMCompiler.new cfg) = some ck ∧
        fn.entry_point = ck.fn.instructions.length ∧
        fn.instructions = ck.fn.instructions ++ main_words ∧ main_words ≠ []) ∧
      (g.no_function_inputs → fn.entry_point = 0) ∧
      ∀ key info, Map.find c'.func_entry_map key = some info →
        info.entry_point < fn.entry_point := by
  refine ⟨codegen_function_fault cfg addr g _, ?_⟩
  intro fn c' hok
  obtain ⟨main_nodes, c1, c2, c3, oi, outs, outs', c4, hsort, hker, hnodes, hmain, hres, hret,
    hc'⟩ := codegen_function_parts cfg addr g _ fn c' hok
  obtain ⟨ml, _⟩ := main_outputs_spec cfg g _ _ hmain
  obtain ⟨rg, rl, _⟩ := resolve_outputs_keys cfg oi _ _ _ _ hres
  obtain ⟨vi, ve, _⟩ := return_values_spec g _ _ _ _ hret (by rw [rl, ml])
  obtain ⟨kl, _, _, _, kk⟩ := kernels_spec cfg g _ _ _ _ hker
  have hentry : fn.entry_point = c2.fn.instructions.length := by rw [ve]; rfl
  have ng := codegen_nodes_grows cfg g _ _ _ _ _ _ hnodes
  refine ⟨⟨c2, ?_⟩, ?_, ?_⟩
  · obtain ⟨_, _, _, ws1, w1⟩ := ng
    obtain ⟨_, _, _, ws2, w2⟩ := rg
    refine ⟨ws1 ++ [.opcode .OP_END] ++ ws2, ?_, hentry, ?_, by simp⟩
    · unfold codegen_function.after_kernels
      rw [hsort]
      simp only [hker]
    · rw [vi]
      show c4.fn.instructions = _
      rw [w2, push_opcode_eq, append_instructions, w1]
      simp
  · intro hno
    have hfem : c1.func_entry_map = [] := by
      rw [sort_graph_nodes_func_entry_map cfg g _ _ _ hno hsort]
      rfl
    rw [hfem] at hker
    simp only [FunctionEntryMap.iteration, List.foldr_nil, codegen_function.kernels,
      Except.ok.injEq] at hker
    rw [hentry, ← hker]
    rfl
  · intro key info hf
    have hmap : c'.func_entry_map = c2.func_entry_map := by
      rw [hc']
      show c4.func_entry_map = _
      rw [rg.1, push_opcode_eq, append_func_entry_map, ng.1]
    rw [hmap] at hf
    rcases kk key info hf with ⟨_, _, hlt⟩ | ⟨hnot, hf1⟩
    · rw [hentry]
      exact hlt
    · exact absurd (mem_iteration_of_find addr key info _ hf1) hnot

theorem codegen_function_entry_point_witness :
    (kernel_graph.closed ∧
      codegen_function small_config id kernel_graph (BVMCompiler.new small_config) =
        .ok (kernel_function, kernel_compiler)) ∧
    codegen_function small_config id kernel_graph (BVMCompiler.new small_config) ≠
      .error .no_termination ∧
    kernel_function.entry_point = 7 ∧
    kernel_compiler.func_entry_map = [(⟨some 0, "factor"⟩, ⟨0, 1⟩)] ∧
    ((∃ ck main_words,
        codegen_function.after_kernels small_config id kernel_graph
          (BVMCompiler.new small_config) = some ck ∧
        kernel_function.entry_point = ck.fn.instructions.length ∧
        kernel_function.instructions = ck.fn.instructions ++ main_words ∧ main_words ≠ []) ∧
      (kernel_graph.no_function_inputs → kernel_function.entry_point = 0) ∧
      ∀ key info, Map.find kernel_compiler.func_entry_map key = some info →
        info.entry_point < kernel_function.entry_point) :=
  ⟨⟨kernel_graph_closed, by rfl⟩,
   (codegen_function_entry_point small_config id kernel_graph).1 kernel_graph_closed,
   rfl, rfl,
   (codegen_function_entry_point small_config id kernel_graph).2 kernel_function
     kernel_compiler (by rfl)⟩

/-! ## The two encodings of a value -/

theorem value_opcode_eq_spec (value : Value) :
    value.opcode = spec_value_opcode value.typedesc.base_type := by
  cases value <;> rfl

theorem appended_append (before ws : List Instruction) : appended before (before ++ ws) = ws := by
  simp [appended]

/-- `codegen_value` in terms of the words of a load instruction. -/
theorem codegen_value_load_words (cfg : Config) (c : BVMCompiler) (value : Value) :
    (codegen_value cfg c value).2.fn.instructions =
      c.fn.instructions ++ load_words cfg value (codegen_value cfg c value).1 := by
  rw [codegen_value_eq]
  simp [load_words, slot_word, assign_stack_index_fn, value_opcode_eq_spec]

/-- C30: for a value whose allocation succeeds, the words that `codegen_value`
appends are the value opcode of its base type, then the words that
`codegen_constant` appends for the same value (to any stream), then the
destination slot. -/
theorem codegen_value_constant_payload (cfg : Config) (c c0 : BVMCompiler) (value : Value)
    (hok : (assign_stack_index cfg c value.typedesc).1 ≠ cfg.BVM_STACK_INVALID) :
    appended c.fn.instructions (codegen_value cfg c value).2.fn.instructions =
      .opcode (spec_value_opcode value.typedesc.base_type) ::
        (appended c0.fn.instructions (codegen_constant c0 value).fn.instructions ++
          [.data (codegen_value cfg c value).1]) ∧
    (codegen_constant c0 value).fn.instructions =
      c0.fn.instructions ++ appended c0.fn.instructions (codegen_constant c0 value).fn.instructions ∧
    (codegen_value cfg c value).2.fn.instructions =
      c.fn.instructions ++
        appended c.fn.instructions (codegen_value cfg c value).2.fn.instructions ∧
    (codegen_value cfg c value).1 = (assign_stack_index cfg c value.typedesc).1 := by
  have hc : (codegen_constant c0 value).fn.instructions = c0.fn.instructions ++ value.words := by
    rw [codegen_constant_eq]
    rfl
  have hv := codegen_value_load_words cfg c value
  have h1 : (codegen_value cfg c value).1 = (assign_stack_index cfg c value.typedesc).1 := by
    rw [codegen_value_eq]
  have hs : slot_word cfg (codegen_value cfg c value).1 = [.data (codegen_value cfg c value).1] := by
    rw [h1]
    simp [slot_word, hok]
  refine ⟨?_, ?_, ?_, h1⟩
  · rw [hv, hc, appended_append, appended_append, load_words, hs]
  · rw [hc, appended_append]
  · rw [hv, appended_append]

theorem codegen_value_constant_payload_witness :
    (assign_stack_index small_config (BVMCompiler.new small_config)
        (Value.float3 ⟨⟨0x3f800000⟩, ⟨0⟩, ⟨0x40600000⟩⟩).typedesc).1 ≠
      small_config.BVM_STACK_INVALID ∧
    (codegen_constant (BVMCompiler.new small_config)
        (.float3 ⟨⟨0x3f800000⟩, ⟨0⟩, ⟨0x40600000⟩⟩)).fn.instructions =
      [.data 0x3f800000, .data 0, .data 0x40600000] ∧
    (codegen_value small_config (BVMCompiler.new small_config)
        (.float3 ⟨⟨0x3f800000⟩, ⟨0⟩, ⟨0x40600000⟩⟩)).2.fn.instructions =
      [.opcode .OP_VALUE_FLOAT3, .data 0x3f800000, .data 0, .data 0x40600000, .data 0] ∧
    appended (BVMCompiler.new small_config).fn.instructions
        (codegen_value small_config (BVMCompiler.new small_config)
          (.float3 ⟨⟨0x3f800000⟩, ⟨0⟩, ⟨0x40600000⟩⟩)).2.fn.instructions =
      .opcode (spec_value_opcode (Value.float3 ⟨⟨0x3f800000⟩, ⟨0⟩, ⟨0x40600000⟩⟩).typedesc.base_type) ::
        (appended (BVMCompiler.new small_config).fn.instructions
            (codegen_constant (BVMCompiler.new small_config)
              (.float3 ⟨⟨0x3f800000⟩, ⟨0⟩, ⟨0x40600000⟩⟩)).fn.instructions ++
          [.data (codegen_value small_config (BVMCompiler.new small_config)
            (.float3 ⟨⟨0x3f800000⟩, ⟨0⟩, ⟨0x40600000⟩⟩)).1]) :=
  ⟨by decide, by decide, by decide,
   (codegen_value_constant_payload small_config (BVMCompiler.new small_config)
     (BVMCompiler.new small_config) (.float3 ⟨⟨0x3f800000⟩, ⟨0⟩, ⟨0x40600000⟩⟩) (by decide)).1⟩

/-- C24: a call of `codegen_subgraph` that returns gives the number of words of
the stream at the moment of the call; it only appends to the stream, at least one
word, so that every word that was there before is unchanged and the first
appended word stands at the returned offset; entry point, return bindings and
Function Info map stay as they are. -/
theorem codegen_subgraph_entry_offset (cfg : Config) (g : NodeGraph) (nodes : NodeList)
    (users : SocketUserMap) (outs : SubgraphOutputList) (c : BVMCompiler) (entry : Nat)
    (outs' : SubgraphOutputList) (c' : BVMCompiler)
    (hok : codegen_subgraph cfg g nodes users outs c = .ok (entry, outs', c')) :
    entry = c.fn.instructions.length ∧
    c'.fn.instructions =
      c.fn.instructions ++ appended c.fn.instructions c'.fn.instructions ∧
    appended c.fn.instructions c'.fn.instructions ≠ [] ∧
    (∀ i : Nat, i < c.fn.instructions.length →
      c'.fn.instructions[i]? = c.fn.instructions[i]?) ∧
    c'.fn.instructions[entry]? = (appended c.fn.instructions c'.fn.instructions).head? ∧
    c'.fn.entry_point = c.fn.entry_point ∧ c'.fn.return_values = c.fn.return_values ∧
    c'.func_entry_map = c.func_entry_map := by
  obtain ⟨⟨g1, g2, g3, ws, g4⟩, he, hlt⟩ := codegen_subgraph_grows cfg g _ _ _ _ _ _ _ hok
  have ha : appended c.fn.instructions c'.fn.instructions = ws := by
    rw [g4, appended_append]
  have hne : ws ≠ [] := by
    intro h
    rw [g4, h, List.append_nil] at hlt
    exact lt_irrefl _ hlt
  refine ⟨he, by rw [ha, g4], by rw [ha]; exact hne, ?_, ?_, g2, g3, g1⟩
  · intro i hi
    rw [g4, List.getElem?_append_left hi]
  · rw [ha, he, g4, List.getElem?_append_right (le_refl _), Nat.sub_self]
    cases ws with
    | nil => exact absurd rfl hne
    | cons w ws => simp

theorem codegen_subgraph_entry_offset_witness :
    codegen_subgraph small_config scenario_constant [0] (count_output_users scenario_constant)
        subgraph_outputs subgraph_start = .ok (1, subgraph_outputs_resolved, subgraph_end) ∧
    subgraph_start.fn.instructions = [.opcode .OP_END] ∧
    (1 = subgraph_start.fn.instructions.length ∧
      subgraph_end.fn.instructions =
        subgraph_start.fn.instructions ++
          appended subgraph_start.fn.instructions subgraph_end.fn.instructions ∧
      appended subgraph_start.fn.instructions subgraph_end.fn.instructions ≠ [] ∧
      (∀ i : Nat, i < subgraph_start.fn.instructions.length →
        subgraph_end.fn.instructions[i]? = subgraph_start.fn.instructions[i]?) ∧
      subgraph_end.fn.instructions[1]? =
        (appended subgraph_start.fn.instructions subgraph_end.fn.instructions).head? ∧
      subgraph_end.fn.entry_point = subgraph_start.fn.entry_point ∧
      subgraph_end.fn.return_values = subgraph_start.fn.return_values ∧
      subgraph_end.func_entry_map = subgraph_start.func_entry_map) :=
  ⟨by rfl, rfl,
   codegen_subgraph_entry_offset small_config scenario_constant [0]
     (count_output_users scenario_constant) subgraph_outputs subgraph_start 1
     subgraph_outputs_resolved subgraph_end (by rfl)⟩

/-! ## The words of the stages of a node -/

theorem push_stack_index_slot_word (cfg : Config) (c : BVMCompiler) (arg : Nat) :
    push_stack_index cfg c arg = c.append (slot_word cfg arg) :=
  push_stack_index_eq cfg c arg

/-- The loop that prepares the inputs keeps the entries of the input-index map. -/
theorem prepare_inputs_keeps (cfg : Config) (node : Nat) (output_index : SocketIndexMap) :
    ∀ (inputs : List (NodeSocket × InputInstance)) (c : BVMCompiler)
      (input_index : SocketIndexMap) (c' : BVMCompiler) (input_index' : SocketIndexMap),
      codegen_subgraph.prepare_inputs cfg node output_index inputs c input_index =
        .ok (c', input_index') →
      ∀ k v, Map.find input_index k = some v → Map.find input_index' k = some v := by
  intro inputs
  induction inputs with
  | nil =>
    intro c ii c' ii' h k v hk
    simp only [codegen_subgraph.prepare_inputs, Except.ok.injEq, Prod.mk.injEq] at h
    rw [← h.2]
    exact hk
  | cons inp rest ih =>
    intro c ii c' ii' h k v hk
    obtain ⟨input, inst⟩ := inp
    unfold codegen_subgraph.prepare_inputs at h
    simp only at h
    split at h
    · exact absurd h (by simp)
    · rename_i hkey
      have hset : ∀ index, Map.find (Map.set ii ⟨some node, input.name⟩ index) k = some v := by
        intro index
        rw [map_find_set]
        split
        · rename_i e
          rw [e, hk] at hkey
          exact absurd rfl hkey
        · exact hk
      split at h
      · exact ih _ _ _ _ h k v hk
      · split at h
        · split at h
          · exact absurd h (by simp)
          · exact ih _ _ _ _ h k v (hset _)
        · split at h
          · exact ih _ _ _ _ h k v (hset _)
          · split at h
            · exact absurd h (by simp)
            · exact ih _ _ _ _ h k v (hset _)

/-- The loop that prepares the inputs of a node: it appends one load instruction
per input that is neither constant nor function-typed nor linked, in the order of
the inputs; the slot of a linked input is the slot of the source socket. -/
theorem prepare_inputs_trace (cfg : Config) (node : Nat) (output_index : SocketIndexMap) :
    ∀ (inputs : List (NodeSocket × InputInstance)) (c : BVMCompiler)
      (input_index : SocketIndexMap) (c' : BVMCompiler) (input_index' : SocketIndexMap),
      codegen_subgraph.prepare_inputs cfg node output_index inputs c input_index =
        .ok (c', input_index') →
      c'.fn.instructions =
        c.fn.instructions ++ inputs.flatMap (spec_load_words cfg node input_index') ∧
      (∀ inp ∈ inputs, needs_load inp = true →
        ∃ v slot, input_value inp = some v ∧
          Map.find input_index' ⟨some node, inp.1.name⟩ = some slot) ∧
      (∀ inp ∈ inputs, inp.1.value_type ≠ .VALUE_CONSTANT →
        inp.1.value_type ≠ .VALUE_FUNCTION → ∀ n s, inp.2.link = some (n, s) →
        ∃ slot, Map.find output_index ⟨some n, s⟩ = some slot ∧
          Map.find input_index' ⟨some node, inp.1.name⟩ = some slot) := by
  intro inputs
  induction inputs with
  | nil =>
    intro c ii c' ii' h
    simp only [codegen_subgraph.prepare_inputs, Except.ok.injEq, Prod.mk.injEq] at h
    rw [← h.1]
    exact ⟨by simp, fun inp hm => absurd hm (List.not_mem_nil _),
      fun inp hm => absurd hm (List.not_mem_nil _)⟩
  | cons inp rest ih =>
    intro c ii c' ii' h
    obtain ⟨input, inst⟩ := inp
    unfold codegen_subgraph.prepare_inputs at h
    simp only at h
    split at h
    · exact absurd h (by simp)
    · rename_i hkey
      split at h
      · rename_i hcf
        obtain ⟨t1, t2, t3⟩ := ih _ _ _ _ h
        have hnl : needs_load (input, inst) = false := by
          simp only [needs_load, Bool.and_eq_false_imp, decide_eq_true_eq]
          intro hh
          rcases hcf with e | e
          · exact absurd e hh.1
          · exact absurd e hh.2
        refine ⟨?_, ?_, ?_⟩
        · rw [t1, List.flatMap_cons]
          simp [spec_load_words, hnl]
        · intro inp hm hn
          rcases List.mem_cons.1 hm with e | hm
          · subst e
            rw [hnl] at hn
            exact absurd hn (by simp)
          · exact t2 inp hm hn
        · intro inp hm h1 h2 n s hl
          rcases List.mem_cons.1 hm with e | hm
          · subst e
            rcases hcf with e | e
            · exact absurd e h1
            · exact absurd e h2
          · exact t3 inp hm h1 h2 n s hl
      · rename_i hcf
        split at h
        · rename_i link_node link_socket hlink
          have hnl : needs_load (input, inst) = false := by
            simp [needs_load, hlink]
          split at h
          · exact absurd h (by simp)
          · rename_i index hindex
            obtain ⟨t1, t2, t3⟩ := ih _ _ _ _ h
            have hkeep := prepare_inputs_keeps cfg node output_index _ _ _ _ _ h
              ⟨some node, input.name⟩ index (by rw [map_find_set]; simp)
            refine ⟨?_, ?_, ?_⟩
            · rw [t1, List.flatMap_cons]
              simp [spec_load_words, hnl]
            · intro inp hm hn
              rcases List.mem_cons.1 hm with e | hm
              · subst e
                rw [hnl] at hn
                exact absurd hn (by simp)
              · exact t2 inp hm hn
            · intro inp hm h1 h2 n s hl
              rcases List.mem_cons.1 hm with e | hm
              · subst e
                simp only at hl
                rw [hlink] at hl
                simp only [Option.some.injEq, Prod.mk.injEq] at hl
                rw [← hl.1, ← hl.2]
                exact ⟨index, hindex, hkeep⟩
              · exact t3 inp hm h1 h2 n s hl
        · rename_i hlink
          have hnl : needs_load (input, inst) = true := by
            simp only [needs_load, Bool.and_eq_true, decide_eq_true_eq]
            exact ⟨⟨fun e => hcf (Or.inl e), fun e => hcf (Or.inr e)⟩, by simp [hlink]⟩
          have hstep : ∀ value, input_value (input, inst) = some value →
              codegen_subgraph.prepare_inputs cfg node output_index rest
                (codegen_value cfg c value).2
                (Map.set ii ⟨some node, input.name⟩ (codegen_value cfg c value).1) =
                .ok (c', ii') →
              c'.fn.instructions =
                c.fn.instructions ++
                  ((input, inst) :: rest).flatMap (spec_load_words cfg node ii') ∧
              (∀ inp ∈ (input, inst) :: rest, needs_load inp = true →
                ∃ v slot, input_value inp = some v ∧
                  Map.find ii' ⟨some node, inp.1.name⟩ = some slot) ∧
              (∀ inp ∈ (input, inst) :: rest, inp.1.value_type ≠ .VALUE_CONSTANT →
                inp.1.value_type ≠ .VALUE_FUNCTION → ∀ n s, inp.2.link = some (n, s) →
                ∃ slot, Map.find output_index ⟨some n, s⟩ = some slot ∧
                  Map.find ii' ⟨some node, inp.1.name⟩ = some slot) := by
            intro value hval h
            obtain ⟨t1, t2, t3⟩ := ih _ _ _ _ h
            have hkeep := prepare_inputs_keeps cfg node output_index _ _ _ _ _ h
              ⟨some node, input.name⟩ (codegen_value cfg c value).1 (by rw [map_find_set]; simp)
            refine ⟨?_, ?_, ?_⟩
            · rw [t1, codegen_value_load_words, List.flatMap_cons, List.append_assoc]
              congr 2
              simp only [spec_load_words, hnl, if_true, hval, hkeep]
            · intro inp hm hn
              rcases List.mem_cons.1 hm with e | hm
              · subst e
                exact ⟨value, _, hval, hkeep⟩
              · exact t2 inp hm hn
            · intro inp hm h1 h2 n s hl
              rcases List.mem_cons.1 hm with e | hm
              · subst e
                simp only at hl
                rw [hlink] at hl
                exact absurd hl (by simp)
              · exact t3 inp hm h1 h2 n s hl
          split at h
          · rename_i value hvalue
            exact hstep value (by simp [input_value, hvalue]) h
          · rename_i hvalue
            split at h
            · exact absurd h (by simp)
            · rename_i value hdefault
              exact hstep value (by simp [input_value, hvalue, hdefault]) h

/-- The loop that prepares the inputs, on a list that is put together from two. -/
theorem prepare_inputs_append (cfg : Config) (node : Nat) (output_index : SocketIndexMap) :
    ∀ (xs ys : List (NodeSocket × InputInstance)) (c : BVMCompiler) (ii : SocketIndexMap),
      codegen_subgraph.prepare_inputs cfg node output_index (xs ++ ys) c ii =
        match codegen_subgraph.prepare_inputs cfg node output_index xs c ii with
        | .error e => .error e
        | .ok (c1, ii1) => codegen_subgraph.prepare_inputs cfg node output_index ys c1 ii1 := by
  intro xs
  induction xs with
  | nil => intro ys c ii; simp [codegen_subgraph.prepare_inputs]
  | cons x xs ih =>
    intro ys c ii
    obtain ⟨input, inst⟩ := x
    simp only [List.cons_append]
    rw [codegen_subgraph.prepare_inputs, codegen_subgraph.prepare_inputs]
    simp only
    split
    · rfl
    · split
      · exact ih _ _ _
      · split
        · split
          · rfl
          · exact ih _ _ _
        · split
          · exact ih _ _ _
          · split
            · rfl
            · exact ih _ _ _

/-- What the loop that prepares the inputs does at an input that is neither
constant nor function-typed nor linked: `codegen_value` is called with the value
of the input on the compiler as the inputs before have left it, and its slot
becomes the slot of the input. -/
theorem prepare_inputs_at (cfg : Config) (node : Nat) (output_index : SocketIndexMap)
    (pre post : List (NodeSocket × InputInstance)) (inp : NodeSocket × InputInstance)
    (c : BVMCompiler) (ii : SocketIndexMap) (c' : BVMCompiler) (ii' : SocketIndexMap)
    (h : codegen_subgraph.prepare_inputs cfg node output_index (pre ++ inp :: post) c ii =
      .ok (c', ii'))
    (hn : needs_load inp = true) :
    ∃ cp iip v, codegen_subgraph.prepare_inputs cfg node output_index pre c ii = .ok (cp, iip) ∧
      input_value inp = some v ∧
      Map.find ii' ⟨some node, inp.1.name⟩ = some (codegen_value cfg cp v).1 ∧
      codegen_subgraph.prepare_inputs cfg node output_index post (codegen_value cfg cp v).2
        (Map.set iip ⟨some node, inp.1.name⟩ (codegen_value cfg cp v).1) = .ok (c', ii') := by
  rw [prepare_inputs_append] at h
  split at h
  · exact absurd h (by simp)
  · rename_i cp iip hpre
    obtain ⟨input, inst⟩ := inp
    simp only [needs_load, Bool.and_eq_true, decide_eq_true_eq, Option.isNone_iff_eq_none] at hn
    obtain ⟨⟨hc, hf⟩, hl⟩ := hn
    unfold codegen_subgraph.prepare_inputs at h
    simp only at h
    split at h
    · exact absurd h (by simp)
    · rw [if_neg (by rintro (e | e); exact hc e; exact hf e)] at h
      rw [hl] at h
      simp only at h
      have hfin : ∀ value,
          codegen_subgraph.prepare_inputs cfg node output_index post (codegen_value cfg cp value).2
            (Map.set iip ⟨some node, input.name⟩ (codegen_value cfg cp value).1) = .ok (c', ii') →
          Map.find ii' ⟨some node, input.name⟩ = some (codegen_value cfg cp value).1 :=
        fun value h => prepare_inputs_keeps cfg node output_index _ _ _ _ _ h _ _
          (by rw [map_find_set]; simp)
      split at h
      · rename_i value hvalue
        exact ⟨cp, iip, value, hpre, by simp [input_value, hvalue], hfin value h, h⟩
      · rename_i hvalue
        split at h
        · exact absurd h (by simp)
        · rename_i value hdefault
          exact ⟨cp, iip, value, hpre, by simp [input_value, hvalue, hdefault], hfin value h, h⟩

theorem ptr_init_opcode_mesh (td : TypeDesc) :
    ptr_init_opcode td ≠ .OP_NOOP ↔ td.base_type = .BVM_MESH := by
  obtain ⟨b⟩ := td
  cases b <;> simp [ptr_init_opcode]

theorem ptr_release_opcode_mesh (td : TypeDesc) :
    ptr_release_opcode td ≠ .OP_NOOP ↔ td.base_type = .BVM_MESH := by
  obtain ⟨b⟩ := td
  cases b <;> simp [ptr_release_opcode]

/-- The loop that assigns the output slots changes the entries of the outputs of
its list only. -/
theorem init_outputs_frame (cfg : Config) (node : Nat) (users : SocketUserMap) :
    ∀ (outs : List NodeSocket) (c : BVMCompiler) (oi : SocketIndexMap) (c' : BVMCompiler)
      (oi' : SocketIndexMap),
      codegen_subgraph.init_outputs cfg node users outs c oi = .ok (c', oi') →
      ∀ k, (∀ out ∈ outs, k ≠ ⟨some node, out.name⟩) → Map.find oi' k = Map.find oi k := by
  intro outs
  induction outs with
  | nil =>
    intro c oi c' oi' h k _
    simp only [codegen_subgraph.init_outputs, Except.ok.injEq, Prod.mk.injEq] at h
    rw [← h.2]
  | cons out rest ih =>
    intro c oi c' oi' h k hk
    have hk' : ∀ o ∈ rest, k ≠ ⟨some node, o.name⟩ := fun o ho => hk o (List.mem_cons_of_mem _ ho)
    have hne : (⟨some node, out.name⟩ : ConstSocketPair) ≠ k :=
      fun e => hk out (List.mem_cons_self _ _) e.symm
    have hset : ∀ index, Map.find (Map.set oi ⟨some node, out.name⟩ index) k = Map.find oi k := by
      intro index
      rw [map_find_set, if_neg hne]
    unfold codegen_subgraph.init_outputs at h
    simp only at h
    split at h
    · split at h
      · exact absurd h (by simp)
      · split at h
        · rw [ih _ _ _ _ h k hk', hset]
        · rw [ih _ _ _ _ h k hk', hset]
    · rw [ih _ _ _ _ h k hk', hset]

/-- The loop that assigns the output slots of a node (with distinct socket
names): it appends, in the order of the outputs, the initialize instruction of
every mesh output with a positive use-count, and nothing else. -/
theorem init_outputs_trace (cfg : Config) (node : Nat) (users : SocketUserMap) :
    ∀ (outs : List NodeSocket) (c : BVMCompiler) (oi : SocketIndexMap) (c' : BVMCompiler)
      (oi' : SocketIndexMap),
      codegen_subgraph.init_outputs cfg node users outs c oi = .ok (c', oi') →
      (outs.map (·.name)).Nodup →
      c'.fn.instructions =
        c.fn.instructions ++ outs.flatMap (spec_init_words cfg users node oi') ∧
      (∀ out ∈ outs, ∃ slot, Map.find oi' ⟨some node, out.name⟩ = some slot) ∧
      (∀ out ∈ outs, out.typedesc.base_type = .BVM_MESH →
        ∃ u, Map.find users ⟨some node, out.name⟩ = some u) := by
  intro outs
  induction outs with
  | nil =>
    intro c oi c' oi' h _
    simp only [codegen_subgraph.init_outputs, Except.ok.injEq, Prod.mk.injEq] at h
    rw [← h.1]
    exact ⟨by simp, fun o hm => absurd hm (List.not_mem_nil _),
      fun o hm => absurd hm (List.not_mem_nil _)⟩
  | cons out rest ih =>
    intro c oi c' oi' h hnd
    simp only [List.map_cons, List.nodup_cons, List.mem_map, not_exists, not_and] at hnd
    obtain ⟨hnot, hnd'⟩ := hnd
    have hslot : ∀ (c1 : BVMCompiler),
        codegen_subgraph.init_outputs cfg node users rest c1
          (Map.set oi ⟨some node, out.name⟩ (assign_stack_index cfg c out.typedesc).1) =
          .ok (c', oi') →
        Map.find oi' ⟨some node, out.name⟩ = some (assign_stack_index cfg c out.typedesc).1 := by
      intro c1 h1
      rw [init_outputs_frame cfg node users _ _ _ _ _ h1 _ (by
        intro o ho e
        simp only [ConstSocketPair.mk.injEq, true_and] at e
        exact hnot o ho e.symm)]
      rw [map_find_set]
      simp
    unfold codegen_subgraph.init_outputs at h
    simp only at h
    split at h
    · rename_i hop
      have hmesh := (ptr_init_opcode_mesh out.typedesc).1 hop
      have hopc := ptr_init_opcode_eq out.typedesc hop
      split at h
      · exact absurd h (by simp)
      · rename_i u hu
        split at h
        · rename_i hpos
          obtain ⟨t1, t2, t3⟩ := ih _ _ _ _ h hnd'
          have hs := hslot _ h
          refine ⟨?_, ?_, ?_⟩
          · rw [t1, push_int_eq, push_stack_index_slot_word, push_opcode_eq, append_append,
              append_append, append_instructions, assign_stack_index_fn, List.flatMap_cons,
              List.append_assoc]
            congr 2
            simp [spec_init_words, hmesh, hu, hs, hpos, hopc]
          · intro o hm
            rcases List.mem_cons.1 hm with e | hm
            · subst e
              exact ⟨_, hs⟩
            · exact t2 o hm
          · intro o hm hmo
            rcases List.mem_cons.1 hm with e | hm
            · subst e
              exact ⟨u, hu⟩
            · exact t3 o hm hmo
        · rename_i hpos
          obtain ⟨t1, t2, t3⟩ := ih _ _ _ _ h hnd'
          have hs := hslot _ h
          refine ⟨?_, ?_, ?_⟩
          · rw [t1, assign_stack_index_fn, List.flatMap_cons]
            congr 1
            simp [spec_init_words, hmesh, hu, hs, hpos]
          · intro o hm
            rcases List.mem_cons.1 hm with e | hm
            · subst e
              exact ⟨_, hs⟩
            · exact t2 o hm
          · intro o hm hmo
            rcases List.mem_cons.1 hm with e | hm
            · subst e
              exact ⟨u, hu⟩
            · exact t3 o hm hmo
    · rename_i hop
      have hmesh : ¬ out.typedesc.base_type = .BVM_MESH :=
        fun e => hop ((ptr_init_opcode_mesh out.typedesc).2 e)
      obtain ⟨t1, t2, t3⟩ := ih _ _ _ _ h hnd'
      have hs := hslot _ h
      refine ⟨?_, ?_, ?_⟩
      · rw [t1, assign_stack_index_fn, List.flatMap_cons]
        congr 1
        simp [spec_init_words, hmesh]
      · intro o hm
        rcases List.mem_cons.1 hm with e | hm
        · subst e
          exact ⟨_, hs⟩
        · exact t2 o hm
      · intro o hm hmo
        rcases List.mem_cons.1 hm with e | hm
        · subst e
          exact absurd hmo hmesh
        · exact t3 o hm hmo

/-- The loop that writes the input operands of the main instruction. -/
theorem write_inputs_trace (cfg : Config) (node : Nat) (ii : SocketIndexMap) :
    ∀ (inputs : List (NodeSocket × InputInstance)) (c c' : BVMCompiler),
      codegen_subgraph.write_inputs cfg node ii inputs c = .ok c' →
      c' = c.append (inputs.flatMap (spec_input_operand cfg c.func_entry_map ii node)) ∧
      ∀ inp ∈ inputs,
        (inp.1.value_type = .VALUE_CONSTANT → ∃ v, inp.2.value = some v) ∧
        (inp.1.value_type = .VALUE_FUNCTION →
          ∃ f, Map.find c.func_entry_map ⟨some node, inp.1.name⟩ = some f) ∧
        (inp.1.value_type ≠ .VALUE_CONSTANT → inp.1.value_type ≠ .VALUE_FUNCTION →
          ∃ slot, Map.find ii ⟨some node, inp.1.name⟩ = some slot) := by
  intro inputs
  induction inputs with
  | nil =>
    intro c c' h
    simp only [codegen_subgraph.write_inputs, Except.ok.injEq] at h
    subst h
    exact ⟨by simp [append_nil], fun inp hm => absurd hm (List.not_mem_nil _)⟩
  | cons inp rest ih =>
    intro c c' h
    obtain ⟨input, inst⟩ := inp
    unfold codegen_subgraph.write_inputs at h
    simp only at h
    split at h
    · rename_i hc
      split at h
      · exact absurd h (by simp)
      · rename_i value hvalue
        obtain ⟨t1, t2⟩ := ih _ _ h
        rw [codegen_constant_eq] at t1 t2
        refine ⟨?_, ?_⟩
        · rw [t1, append_append, List.flatMap_cons]
          simp [spec_input_operand, hc, hvalue]
        · intro inp hm
          rcases List.mem_cons.1 hm with e | hm
          · subst e
            exact ⟨fun _ => ⟨value, hvalue⟩, fun e => by simp [hc] at e,
              fun e => absurd hc e⟩
          · simpa using t2 inp hm
    · rename_i hc
      split at h
      · rename_i hf
        split at h
        · exact absurd h (by simp)
        · rename_i func hfunc
          obtain ⟨t1, t2⟩ := ih _ _ h
          rw [push_stack_index_slot_word, push_jump_address_eq, append_append] at t1 t2
          refine ⟨?_, ?_⟩
          · rw [t1, append_append, List.flatMap_cons]
            simp [spec_input_operand, hc, hf, hfunc]
          · intro inp hm
            rcases List.mem_cons.1 hm with e | hm
            · subst e
              exact ⟨fun e => absurd e hc, fun _ => ⟨func, hfunc⟩, fun _ e => absurd hf e⟩
            · simpa using t2 inp hm
      · rename_i hf
        split at h
        · exact absurd h (by simp)
        · rename_i index hindex
          obtain ⟨t1, t2⟩ := ih _ _ h
          rw [push_stack_index_slot_word] at t1 t2
          refine ⟨?_, ?_⟩
          · rw [t1, append_append, List.flatMap_cons]
            simp [spec_input_operand, hc, hf, hindex]
          · intro inp hm
            rcases List.mem_cons.1 hm with e | hm
            · subst e
              exact ⟨fun e => absurd e hc, fun e => absurd e hf, fun _ _ => ⟨index, hindex⟩⟩
            · simpa using t2 inp hm

/-- The loop that writes the output operands of the main instruction. -/
theorem write_outputs_trace (cfg : Config) (node : Nat) (oi : SocketIndexMap) :
    ∀ (outs : List NodeSocket) (c c' : BVMCompiler),
      codegen_subgraph.write_outputs cfg node oi outs c = .ok c' →
      c' = c.append (outs.flatMap (spec_output_operand cfg oi node)) ∧
      ∀ out ∈ outs, ∃ slot, Map.find oi ⟨some node, out.name⟩ = some slot := by
  intro outs
  induction outs with
  | nil =>
    intro c c' h
    simp only [codegen_subgraph.write_outputs, Except.ok.injEq] at h
    subst h
    exact ⟨by simp [append_nil], fun o hm => absurd hm (List.not_mem_nil _)⟩
  | cons out rest ih =>
    intro c c' h
    unfold codegen_subgraph.write_outputs at h
    split at h
    · exact absurd h (by simp)
    · rename_i index hindex
      obtain ⟨t1, t2⟩ := ih _ _ h
      rw [push_stack_index_slot_word] at t1
      refine ⟨?_, ?_⟩
      · rw [t1, append_append, List.flatMap_cons]
        simp [spec_output_operand, hindex]
      · intro o hm
        rcases List.mem_cons.1 hm with e | hm
        · subst e
          exact ⟨index, hindex⟩
        · exact t2 o hm

/-- The loop that releases the inputs after the main instruction. -/
theorem release_inputs_trace (cfg : Config) (oi : SocketIndexMap) :
    ∀ (inputs : List (NodeSocket × InputInstance)) (c c' : BVMCompiler),
      codegen_subgraph.release_inputs cfg oi inputs c = .ok c' →
      c' = c.append (inputs.flatMap (spec_release_words cfg oi)) := by
  intro inputs
  induction inputs with
  | nil =>
    intro c c' h
    simp only [codegen_subgraph.release_inputs, Except.ok.injEq] at h
    subst h
    simp [append_nil]
  | cons inp rest ih =>
    intro c c' h
    obtain ⟨input, inst⟩ := inp
    unfold codegen_subgraph.release_inputs at h
    simp only at h
    split at h
    · rename_i hcf
      rw [ih _ _ h, List.flatMap_cons]
      have : spec_release_words cfg oi (input, inst) = [] := by
        unfold spec_release_words
        rw [if_neg]
        rintro ⟨h1, h2, _⟩
        rcases hcf with e | e
        · exact h1 e
        · exact h2 e
      rw [this, List.nil_append]
    · rename_i hcf
      have hc : input.value_type ≠ .VALUE_CONSTANT := fun e => hcf (Or.inl e)
      have hf : input.value_type ≠ .VALUE_FUNCTION := fun e => hcf (Or.inr e)
      split at h
      · rename_i link_node link_socket hlink
        split at h
        · exact absurd h (by simp)
        · rename_i index hindex
          split at h
          · rename_i hop
            have hmesh := (ptr_release_opcode_mesh input.typedesc).1 hop
            have hopc := ptr_release_opcode_eq input.typedesc hop
            rw [ih _ _ h, push_stack_index_slot_word, push_opcode_eq, append_append,
              append_append, List.flatMap_cons]
            simp [spec_release_words, hc, hf, hmesh, hlink, hindex, hopc]
          · rename_i hop
            have hmesh : ¬ input.typedesc.base_type = .BVM_MESH :=
              fun e => hop ((ptr_release_opcode_mesh input.typedesc).2 e)
            rw [ih _ _ h, List.flatMap_cons]
            simp [spec_release_words, hmesh]
      · rename_i hlink
        rw [ih _ _ h, List.flatMap_cons]
        simp [spec_release_words, hlink]

/-- The loop over the requested outputs of a subgraph: it appends, in the order
of the outputs, the load instruction of every output without a source node; the
keys and the values of the outputs stay, and the slot of an output with a source
node is the one of the output-index map. -/
theorem resolve_outputs_trace (cfg : Config) (oi : SocketIndexMap) :
    ∀ (outs : SubgraphOutputList) (c : BVMCompiler) (outs' : SubgraphOutputList)
      (c' : BVMCompiler),
      codegen_subgraph.resolve_outputs cfg oi outs c = .ok (outs', c') →
      c'.fn.instructions = c.fn.instructions ++ outs'.flatMap (spec_output_load cfg) ∧
      outs'.length = outs.length ∧
      ∀ (i : Nat) (o : SubgraphOutput), outs[i]? = some o →
        ∃ o', outs'[i]? = some o' ∧ o'.key = o.key ∧ o'.value = o.value ∧
          (o.key.node.isSome → Map.find oi o.key = some o'.stack_index) ∧
          (o.key.node = none → ∃ v, o.value = some v) := by
  intro outs
  induction outs with
  | nil =>
    intro c outs' c' h
    simp only [codegen_subgraph.resolve_outputs, Except.ok.injEq, Prod.mk.injEq] at h
    obtain ⟨rfl, rfl⟩ := h
    exact ⟨by simp, rfl, fun i o hi => by simp at hi⟩
  | cons out rest ih =>
    intro c outs' c' h
    unfold codegen_subgraph.resolve_outputs at h
    split at h
    · rename_i hsome
      split at h
      · exact absurd h (by simp)
      · rename_i index hfind
        split at h
        · exact absurd h (by simp)
        · rename_i outs1 c1 hrest
          simp only [Except.ok.injEq, Prod.mk.injEq] at h
          obtain ⟨rfl, rfl⟩ := h
          obtain ⟨t1, l1, k1⟩ := ih _ _ _ hrest
          have hw : spec_output_load cfg { out with stack_index := index } = [] := by
            obtain ⟨n, hn⟩ := Option.isSome_iff_exists.1 hsome
            simp [spec_output_load, hn]
          refine ⟨by rw [t1, List.flatMap_cons, hw, List.nil_append], by simp [l1], ?_⟩
          intro i o hi
          cases i with
          | zero =>
            simp only [List.getElem?_cons_zero, Option.some.injEq] at hi
            subst hi
            exact ⟨{ out with stack_index := index }, by simp, rfl, rfl, fun _ => hfind,
              fun hn => by rw [hn] at hsome; simp at hsome⟩
          | succ i =>
            simp only [List.getElem?_cons_succ] at hi ⊢
            exact k1 i o hi
    · rename_i hnone
      split at h
      · exact absurd h (by simp)
      · rename_i value hvalue
        simp only at h
        split at h
        · exact absurd h (by simp)
        · rename_i outs1 c1 hrest
          simp only [Except.ok.injEq, Prod.mk.injEq] at h
          obtain ⟨rfl, rfl⟩ := h
          obtain ⟨t1, l1, k1⟩ := ih _ _ _ hrest
          have hn : out.key.node = none := by
            cases hk : out.key.node with
            | none => rfl
            | some n => rw [hk] at hnone; simp at hnone
          have hw : spec_output_load cfg
              { out with stack_index := (codegen_value cfg c value).1 } =
              load_words cfg value (codegen_value cfg c value).1 := by
            simp [spec_output_load, hn, hvalue]
          refine ⟨?_, by simp [l1], ?_⟩
          · rw [t1, codegen_value_load_words, List.flatMap_cons, hw, List.append_assoc]
          · intro i o hi
            cases i with
            | zero =>
              simp only [List.getElem?_cons_zero, Option.some.injEq] at hi
              subst hi
              exact ⟨{ out with stack_index := (codegen_value cfg c value).1 }, by simp, rfl, rfl,
                fun hs => absurd hs hnone, fun _ => ⟨value, hvalue⟩⟩
            | succ i =>
              simp only [List.getElem?_cons_succ] at hi ⊢
              exact k1 i o hi

/-- The stages of the body of the loop over the nodes, for a node with a mapped
opcode: the inputs are prepared, the output slots assigned, the main opcode and
its operands written, and the inputs released. -/
theorem codegen_node_stages (cfg : Config) (g : NodeGraph) (users : SocketUserMap)
    (id : Nat) (inst : NodeInstance) (c : BVMCompiler) (oi : SocketIndexMap) (c' : BVMCompiler)
    (oi' : SocketIndexMap) (hnode : g.node id = some inst)
    (hmapped : cfg.get_opcode_from_node_type inst.type.name ≠ .OP_NOOP)
    (h : codegen_subgraph.node cfg g users id c oi = .ok (c', oi')) :
    ∃ c1 ii c2 c3 c4,
      codegen_subgraph.prepare_inputs cfg id oi inst.input_sockets c [] = .ok (c1, ii) ∧
      codegen_subgraph.init_outputs cfg id users inst.type.outputs c1 oi = .ok (c2, oi') ∧
      codegen_subgraph.write_inputs cfg id ii inst.input_sockets
        (push_opcode c2 (cfg.get_opcode_from_node_type inst.type.name)) = .ok c3 ∧
      codegen_subgraph.write_outputs cfg id oi' inst.type.outputs c3 = .ok c4 ∧
      codegen_subgraph.release_inputs cfg oi' inst.input_sockets c4 = .ok c' := by
  unfold codegen_subgraph.node at h
  rw [hnode] at h
  simp only [hmapped, if_false] at h
  split at h
  · exact absurd h (by simp)
  · rename_i c1 ii hprep
    split at h
    · exact absurd h (by simp)
    · rename_i c2 oi2 hinit
      split at h
      · exact absurd h (by simp)
      · rename_i c3 hwi
        split at h
        · exact absurd h (by simp)
        · rename_i c4 hwo
          split at h
          · exact absurd h (by simp)
          · rename_i c5 hrel
            simp only [Except.ok.injEq, Prod.mk.injEq] at h
            obtain ⟨rfl, rfl⟩ := h
            exact ⟨c1, ii, c2, c3, c4, hprep, hinit, hwi, hwo, hrel⟩

/-- After the output slots of a node are assigned, the main opcode is the next
word of the stream. -/
theorem codegen_node_tail (cfg : Config) (node : Nat) (ii oi : SocketIndexMap)
    (inputs : List (NodeSocket × InputInstance)) (outs : List NodeSocket) (op : OpCode)
    (c2 c3 c4 c' : BVMCompiler)
    (hwi : codegen_subgraph.write_inputs cfg node ii inputs (push_opcode c2 op) = .ok c3)
    (hwo : codegen_subgraph.write_outputs cfg node oi outs c3 = .ok c4)
    (hrel : codegen_subgraph.release_inputs cfg oi inputs c4 = .ok c') :
    ∃ rest, c'.fn.instructions = c2.fn.instructions ++ .opcode op :: rest := by
  obtain ⟨w1, _⟩ := write_inputs_trace cfg node ii _ _ _ hwi
  obtain ⟨o1, _⟩ := write_outputs_trace cfg node oi _ _ _ hwo
  have r1 := release_inputs_trace cfg oi _ _ _ hrel
  refine ⟨inputs.flatMap (spec_input_operand cfg (push_opcode c2 op).func_entry_map ii node) ++
    outs.flatMap (spec_output_operand cfg oi node) ++
    inputs.flatMap (spec_release_words cfg oi), ?_⟩
  rw [r1, o1, w1, push_opcode_eq, append_append, append_append, append_append,
    append_instructions]
  simp

/-- The loop that releases the inputs finds the source socket of every linked
input that is neither constant nor function-typed. -/
theorem release_inputs_links (cfg : Config) (oi : SocketIndexMap) :
    ∀ (inputs : List (NodeSocket × InputInstance)) (c c' : BVMCompiler),
      codegen_subgraph.release_inputs cfg oi inputs c = .ok c' →
      ∀ inp ∈ inputs, inp.1.value_type ≠ .VALUE_CONSTANT →
        inp.1.value_type ≠ .VALUE_FUNCTION → ∀ n s, inp.2.link = some (n, s) →
        ∃ slot, Map.find oi ⟨some n, s⟩ = some slot := by
  intro inputs
  induction inputs with
  | nil => intro c c' _ inp hm; exact absurd hm (List.not_mem_nil _)
  | cons x rest ih =>
    intro c c' h inp hm h1 h2 n s hl
    obtain ⟨input, inst⟩ := x
    unfold codegen_subgraph.release_inputs at h
    simp only at h
    rcases List.mem_cons.1 hm with e | hm
    · subst e
      rw [if_neg (by rintro (e | e); exact h1 e; exact h2 e)] at h
      simp only at hl
      rw [hl] at h
      simp only at h
      split at h
      · exact absurd h (by simp)
      · rename_i index hindex
        exact ⟨index, hindex⟩
    · split at h
      · exact ih _ _ h inp hm h1 h2 n s hl
      · split at h
        · split at h
          · exact absurd h (by simp)
          · split at h
            · exact ih _ _ h inp hm h1 h2 n s hl
            · exact ih _ _ h inp hm h1 h2 n s hl
        · exact ih _ _ h inp hm h1 h2 n s hl

/-- C26: for a node with a mapped opcode, after the inputs are prepared and the
output slots assigned, `codegen_subgraph` appends the main instruction: the
opcode of the node, then for each input in declared order the payload words of
its value (constant input), the entry point and the return slot of its Function
Info entry (function-typed input) or the slot of the input (otherwise), then
the slot of each output in declared order; the release instructions follow.
(A slot that is the sentinel is left out.) -/
theorem codegen_node_main_instruction (cfg : Config) (g : NodeGraph) (users : SocketUserMap)
    (id : Nat) (inst : NodeInstance) (c : BVMCompiler) (oi : SocketIndexMap) (c' : BVMCompiler)
    (oi' : SocketIndexMap) (hnode : g.node id = some inst)
    (hmapped : cfg.get_opcode_from_node_type inst.type.name ≠ .OP_NOOP)
    (h : codegen_subgraph.node cfg g users id c oi = .ok (c', oi')) :
    ∃ c1 ii c2 c4,
      codegen_subgraph.prepare_inputs cfg id oi inst.input_sockets c [] = .ok (c1, ii) ∧
      codegen_subgraph.init_outputs cfg id users inst.type.outputs c1 oi = .ok (c2, oi') ∧
      c4.fn.instructions = c2.fn.instructions ++
        .opcode (cfg.get_opcode_from_node_type inst.type.name) ::
          (inst.input_sockets.flatMap (spec_input_operand cfg c.func_entry_map ii id) ++
            inst.type.outputs.flatMap (spec_output_operand cfg oi' id)) ∧
      codegen_subgraph.release_inputs cfg oi' inst.input_sockets c4 = .ok c' ∧
      (∀ inp ∈ inst.input_sockets,
        (inp.1.value_type = .VALUE_CONSTANT → ∃ v, inp.2.value = some v) ∧
        (inp.1.value_type = .VALUE_FUNCTION →
          ∃ f, Map.find c.func_entry_map ⟨some id, inp.1.name⟩ = some f) ∧
        (inp.1.value_type ≠ .VALUE_CONSTANT → inp.1.value_type ≠ .VALUE_FUNCTION →
          ∃ slot, Map.find ii ⟨some id, inp.1.name⟩ = some slot)) ∧
      (∀ out ∈ inst.type.outputs, ∃ slot, Map.find oi' ⟨some id, out.name⟩ = some slot) ∧
      (∀ slot, slot ≠ cfg.BVM_STACK_INVALID → slot_word cfg slot = [.data slot]) := by
  obtain ⟨c1, ii, c2, c3, c4, hprep, hinit, hwi, hwo, hrel⟩ :=
    codegen_node_stages cfg g users id inst c oi c' oi' hnode hmapped h
  have hfem : (push_opcode c2 (cfg.get_opcode_from_node_type inst.type.name)).func_entry_map =
      c.func_entry_map := by
    rw [push_opcode_eq, append_func_entry_map,
      (init_outputs_grows cfg id users _ _ _ _ _ hinit).1,
      (prepare_inputs_grows cfg id oi _ _ _ _ _ hprep).1]
  obtain ⟨w1, w2⟩ := write_inputs_trace cfg id ii _ _ _ hwi
  obtain ⟨o1, o2⟩ := write_outputs_trace cfg id oi' _ _ _ hwo
  rw [hfem] at w1 w2
  refine ⟨c1, ii, c2, c4, hprep, hinit, ?_, hrel, w2, o2, ?_⟩
  · rw [o1, w1, push_opcode_eq]
    simp
  · intro slot hs
    simp [slot_word, hs]

theorem codegen_node_main_instruction_witness :
    (kernel_graph.node 0 = some ⟨float_kernel_type, [⟨some (1, "value"), none⟩]⟩ ∧
      small_config.get_opcode_from_node_type float_kernel_type.name ≠ .OP_NOOP ∧
      codegen_subgraph.node small_config kernel_graph (count_output_users kernel_graph) 0
        kernel_compiler_before [] =
          .ok (kernel_compiler_after, [(⟨some 0, "value"⟩, 2)])) ∧
    kernel_compiler_after.fn.instructions =
      kernel_compiler_before.fn.instructions ++
        [.opcode (.OP_OTHER 2), .data 0, .data 1, .data 2] ∧
    ∃ c1 ii c2 c4,
      codegen_subgraph.prepare_inputs small_config 0 []
        (NodeInstance.input_sockets ⟨float_kernel_type, [⟨some (1, "value"), none⟩]⟩)
        kernel_compiler_before [] = .ok (c1, ii) ∧
      codegen_subgraph.init_outputs small_config 0 (count_output_users kernel_graph)
        float_kernel_type.outputs c1 [] = .ok (c2, [(⟨some 0, "value"⟩, 2)]) ∧
      c4.fn.instructions = c2.fn.instructions ++
        .opcode (small_config.get_opcode_from_node_type float_kernel_type.name) ::
          ((NodeInstance.input_sockets ⟨float_kernel_type, [⟨some (1, "value"), none⟩]⟩).flatMap
              (spec_input_operand small_config kernel_compiler_before.func_entry_map ii 0) ++
            float_kernel_type.outputs.flatMap
              (spec_output_operand small_config [(⟨some 0, "value"⟩, 2)] 0)) ∧
      codegen_subgraph.release_inputs small_config [(⟨some 0, "value"⟩, 2)]
        (NodeInstance.input_sockets ⟨float_kernel_type, [⟨some (1, "value"), none⟩]⟩) c4 =
          .ok kernel_compiler_after :=
  ⟨⟨rfl, by decide, by rfl⟩, by decide,
   (codegen_node_main_instruction small_config kernel_graph (count_output_users kernel_graph) 0
     ⟨float_kernel_type, [⟨some (1, "value"), none⟩]⟩ kernel_compiler_before []
     kernel_compiler_after [(⟨some 0, "value"⟩, 2)] rfl (by decide) (by rfl)).elim
     fun c1 h1 => h1.elim fun ii h2 => h2.elim fun c2 h3 => h3.elim fun c4 h4 =>
       ⟨c1, ii, c2, c4, h4.1, h4.2.1, h4.2.2.1, h4.2.2.2.1⟩⟩

/-- C27: for a node with a mapped opcode (and distinct output socket names),
between the preparation of the inputs and the main opcode `codegen_subgraph`
appends, in the order of the outputs, one instruction `OP_INIT_MESH_PTR`, slot,
use-count for every output whose type is mesh and whose use-count is positive,
and nothing for any other output: an output of float, float3, float4, int,
matrix44 or pointer type never receives one. -/
theorem codegen_node_init_instructions (cfg : Config) (g : NodeGraph) (users : SocketUserMap)
    (id : Nat) (inst : NodeInstance) (c : BVMCompiler) (oi : SocketIndexMap) (c' : BVMCompiler)
    (oi' : SocketIndexMap) (hnode : g.node id = some inst)
    (hmapped : cfg.get_opcode_from_node_type inst.type.name ≠ .OP_NOOP)
    (hnames : (inst.type.outputs.map (·.name)).Nodup)
    (h : codegen_subgraph.node cfg g users id c oi = .ok (c', oi')) :
    ∃ c1 ii c2 rest,
      codegen_subgraph.prepare_inputs cfg id oi inst.input_sockets c [] = .ok (c1, ii) ∧
      codegen_subgraph.init_outputs cfg id users inst.type.outputs c1 oi = .ok (c2, oi') ∧
      c2.fn.instructions =
        c1.fn.instructions ++ inst.type.outputs.flatMap (spec_init_words cfg users id oi') ∧
      c'.fn.instructions = c2.fn.instructions ++
        .opcode (cfg.get_opcode_from_node_type inst.type.name) :: rest ∧
      ∀ out ∈ inst.type.outputs,
        (spec_init_words cfg users id oi' out ≠ [] ↔
          out.typedesc.base_type = .BVM_MESH ∧
            ∃ u, Map.find users ⟨some id, out.name⟩ = some u ∧ 0 < u) ∧
        (out.typedesc.base_type = .BVM_MESH →
          ∀ u, Map.find users ⟨some id, out.name⟩ = some u → 0 < u →
          ∃ slot, Map.find oi' ⟨some id, out.name⟩ = some slot ∧
            spec_init_words cfg users id oi' out =
              .opcode .OP_INIT_MESH_PTR :: (slot_word cfg slot ++ [.data (u % WORD)])) ∧
        (out.typedesc.base_type ≠ .BVM_MESH → spec_init_words cfg users id oi' out = []) := by
  obtain ⟨c1, ii, c2, c3, c4, hprep, hinit, hwi, hwo, hrel⟩ :=
    codegen_node_stages cfg g users id inst c oi c' oi' hnode hmapped h
  obtain ⟨t1, t2, t3⟩ := init_outputs_trace cfg id users _ _ _ _ _ hinit hnames
  obtain ⟨rest, hrest⟩ := codegen_node_tail cfg id ii oi' _ _ _ c2 c3 c4 c' hwi hwo hrel
  refine ⟨c1, ii, c2, rest, hprep, hinit, t1, hrest, ?_⟩
  · intro out hout
    obtain ⟨slot, hslot⟩ := t2 out hout
    refine ⟨?_, ?_, ?_⟩
    · constructor
      · intro hne
        by_cases hm : out.typedesc.base_type = .BVM_MESH
        · obtain ⟨u, hu⟩ := t3 out hout hm
          refine ⟨hm, u, hu, ?_⟩
          by_contra hpos
          exact hne (by simp [spec_init_words, hm, hu, hslot, hpos])
        · exact absurd (by simp [spec_init_words, hm]) hne
      · rintro ⟨hm, u, hu, hpos⟩
        simp [spec_init_words, hm, hu, hslot, hpos]
    · intro hm u hu hpos
      exact ⟨slot, hslot, by
        simp [spec_init_words, hm, hu, hslot, hpos, int_to_instruction_nat]⟩
    · intro hm
      simp [spec_init_words, hm]

theorem codegen_node_init_instructions_witness :
    (mesh_fork_graph.node 0 = some ⟨mesh_modifier_type, [⟨some (2, "mesh"), none⟩]⟩ ∧
      small_config.get_opcode_from_node_type mesh_modifier_type.name ≠ .OP_NOOP ∧
      (mesh_modifier_type.outputs.map (·.name)).Nodup ∧
      codegen_subgraph.node small_config mesh_fork_graph (count_output_users mesh_fork_graph) 0
        mesh_fork_compiler_source [(⟨some 2, "mesh"⟩, 0)] =
          .ok (mesh_fork_compiler_modifier,
            [(⟨some 2, "mesh"⟩, 0), (⟨some 0, "mesh_out"⟩, 2)])) ∧
    mesh_modifier_type.outputs.flatMap
        (spec_init_words small_config (count_output_users mesh_fork_graph) 0
          [(⟨some 2, "mesh"⟩, 0), (⟨some 0, "mesh_out"⟩, 2)]) =
      [.opcode .OP_INIT_MESH_PTR, .data 2, .data 1] ∧
    ∃ c1 ii c2 rest,
      codegen_subgraph.prepare_inputs small_config 0 [(⟨some 2, "mesh"⟩, 0)]
        (NodeInstance.input_sockets ⟨mesh_modifier_type, [⟨some (2, "mesh"), none⟩]⟩)
        mesh_fork_compiler_source [] = .ok (c1, ii) ∧
      codegen_subgraph.init_outputs small_config 0 (count_output_users mesh_fork_graph)
        mesh_modifier_type.outputs c1 [(⟨some 2, "mesh"⟩, 0)] =
          .ok (c2, [(⟨some 2, "mesh"⟩, 0), (⟨some 0, "mesh_out"⟩, 2)]) ∧
      c2.fn.instructions =
        c1.fn.instructions ++ mesh_modifier_type.outputs.flatMap
          (spec_init_words small_config (count_output_users mesh_fork_graph) 0
            [(⟨some 2, "mesh"⟩, 0), (⟨some 0, "mesh_out"⟩, 2)]) ∧
      mesh_fork_compiler_modifier.fn.instructions = c2.fn.instructions ++
        .opcode (small_config.get_opcode_from_node_type mesh_modifier_type.name) :: rest :=
  ⟨⟨rfl, by decide, by decide, by rfl⟩, by decide,
   (codegen_node_init_instructions small_config mesh_fork_graph
     (count_output_users mesh_fork_graph) 0
     ⟨mesh_modifier_type, [⟨some (2, "mesh"), none⟩]⟩ mesh_fork_compiler_source
     [(⟨some 2, "mesh"⟩, 0)] mesh_fork_compiler_modifier
     [(⟨some 2, "mesh"⟩, 0), (⟨some 0, "mesh_out"⟩, 2)] rfl (by decide) (by decide)
     (by rfl)).elim
     fun c1 h1 => h1.elim fun ii h2 => h2.elim fun c2 h3 => h3.elim fun rest h4 =>
       ⟨c1, ii, c2, rest, h4.1, h4.2.1, h4.2.2.1, h4.2.2.2.1⟩⟩

/-- C28: for a node with a mapped opcode, after the main instruction
`codegen_subgraph` appends, in the order of the inputs, one instruction
`OP_RELEASE_MESH_PTR`, slot of the source output, for every input that is linked,
neither constant nor function-typed, and of mesh type, and nothing for any other
input; these are the last words of the node. -/
theorem codegen_node_release_instructions (cfg : Config) (g : NodeGraph)
    (users : SocketUserMap) (id : Nat) (inst : NodeInstance) (c : BVMCompiler)
    (oi : SocketIndexMap) (c' : BVMCompiler) (oi' : SocketIndexMap)
    (hnode : g.node id = some inst)
    (hmapped : cfg.get_opcode_from_node_type inst.type.name ≠ .OP_NOOP)
    (h : codegen_subgraph.node cfg g users id c oi = .ok (c', oi')) :
    ∃ c1 ii c2 c3 c4,
      codegen_subgraph.prepare_inputs cfg id oi inst.input_sockets c [] = .ok (c1, ii) ∧
      codegen_subgraph.init_outputs cfg id users inst.type.outputs c1 oi = .ok (c2, oi') ∧
      codegen_subgraph.write_inputs cfg id ii inst.input_sockets
        (push_opcode c2 (cfg.get_opcode_from_node_type inst.type.name)) = .ok c3 ∧
      codegen_subgraph.write_outputs cfg id oi' inst.type.outputs c3 = .ok c4 ∧
      c'.fn.instructions =
        c4.fn.instructions ++ inst.input_sockets.flatMap (spec_release_words cfg oi') ∧
      ∀ inp ∈ inst.input_sockets,
        (spec_release_words cfg oi' inp ≠ [] ↔
          inp.1.value_type ≠ .VALUE_CONSTANT ∧ inp.1.value_type ≠ .VALUE_FUNCTION ∧
            inp.1.typedesc.base_type = .BVM_MESH ∧ ∃ n s, inp.2.link = some (n, s)) ∧
        (inp.1.value_type ≠ .VALUE_CONSTANT → inp.1.value_type ≠ .VALUE_FUNCTION →
          inp.1.typedesc.base_type = .BVM_MESH → ∀ n s, inp.2.link = some (n, s) →
          ∃ slot, Map.find oi' ⟨some n, s⟩ = some slot ∧
            spec_release_words cfg oi' inp = .opcode .OP_RELEASE_MESH_PTR :: slot_word cfg slot) := by
  obtain ⟨c1, ii, c2, c3, c4, hprep, hinit, hwi, hwo, hrel⟩ :=
    codegen_node_stages cfg g users id inst c oi c' oi' hnode hmapped h
  have r1 := release_inputs_trace cfg oi' _ _ _ hrel
  have r2 := release_inputs_links cfg oi' _ _ _ hrel
  refine ⟨c1, ii, c2, c3, c4, hprep, hinit, hwi, hwo, by rw [r1]; rfl, ?_⟩
  intro inp hinp
  refine ⟨?_, ?_⟩
  · constructor
    · intro hne
      by_cases hcond : inp.1.value_type ≠ .VALUE_CONSTANT ∧ inp.1.value_type ≠ .VALUE_FUNCTION ∧
          inp.1.typedesc.base_type = .BVM_MESH
      · refine ⟨hcond.1, hcond.2.1, hcond.2.2, ?_⟩
        cases hl : inp.2.link with
        | none => exact absurd (by simp [spec_release_words, hl]) hne
        | some l => exact ⟨l.1, l.2, rfl⟩
      · exact absurd (by unfold spec_release_words; rw [if_neg hcond]) hne
    · rintro ⟨h1, h2, h3, n, s, hl⟩
      obtain ⟨slot, hslot⟩ := r2 inp hinp h1 h2 n s hl
      simp [spec_release_words, h1, h2, h3, hl, hslot]
  · intro h1 h2 h3 n s hl
    obtain ⟨slot, hslot⟩ := r2 inp hinp h1 h2 n s hl
    exact ⟨slot, hslot, by simp [spec_release_words, h1, h2, h3, hl, hslot]⟩

theorem codegen_node_release_instructions_witness :
    (mesh_fork_graph.node 0 = some ⟨mesh_modifier_type, [⟨some (2, "mesh"), none⟩]⟩ ∧
      small_config.get_opcode_from_node_type mesh_modifier_type.name ≠ .OP_NOOP ∧
      codegen_subgraph.node small_config mesh_fork_graph (count_output_users mesh_fork_graph) 0
        mesh_fork_compiler_source [(⟨some 2, "mesh"⟩, 0)] =
          .ok (mesh_fork_compiler_modifier,
            [(⟨some 2, "mesh"⟩, 0), (⟨some 0, "mesh_out"⟩, 2)])) ∧
    (NodeInstance.input_sockets ⟨mesh_modifier_type, [⟨some (2, "mesh"), none⟩]⟩).flatMap
        (spec_release_words small_config [(⟨some 2, "mesh"⟩, 0), (⟨some 0, "mesh_out"⟩, 2)]) =
      [.opcode .OP_RELEASE_MESH_PTR, .data 0] ∧
    ∃ c4 : BVMCompiler,
      mesh_fork_compiler_modifier.fn.instructions =
        c4.fn.instructions ++
          (NodeInstance.input_sockets ⟨mesh_modifier_type, [⟨some (2, "mesh"), none⟩]⟩).flatMap
            (spec_release_words small_config
              [(⟨some 2, "mesh"⟩, 0), (⟨some 0, "mesh_out"⟩, 2)]) :=
  ⟨⟨rfl, by decide, by rfl⟩, by decide,
   (codegen_node_release_instructions small_config mesh_fork_graph
     (count_output_users mesh_fork_graph) 0
     ⟨mesh_modifier_type, [⟨some (2, "mesh"), none⟩]⟩ mesh_fork_compiler_source
     [(⟨some 2, "mesh"⟩, 0)] mesh_fork_compiler_modifier
     [(⟨some 2, "mesh"⟩, 0), (⟨some 0, "mesh_out"⟩, 2)] rfl (by decide) (by rfl)).elim
     fun c1 h1 => h1.elim fun ii h2 => h2.elim fun c2 h3 => h3.elim fun c3 h4 =>
       h4.elim fun c4 h5 => ⟨c4, h5.2.2.2.2.1⟩⟩

/-- C29: for a node with a mapped opcode, `codegen_subgraph` first prepares the
inputs: for each input that is neither constant nor function-typed nor linked,
in declared order, it calls `codegen_value` with the value of the input (the
value of the node instance for the socket when there is one, the default value
of the socket type otherwise) on the compiler as the inputs before have left it;
the slot that `codegen_value` returns, the offset of `assign_stack_index`,
becomes the slot of the input, and the load instruction is appended.  Only then
the output slots are assigned, and the main opcode follows. -/
theorem codegen_node_input_loads (cfg : Config) (g : NodeGraph) (users : SocketUserMap)
    (id : Nat) (inst : NodeInstance) (c : BVMCompiler) (oi : SocketIndexMap) (c' : BVMCompiler)
    (oi' : SocketIndexMap) (hnode : g.node id = some inst)
    (hmapped : cfg.get_opcode_from_node_type inst.type.name ≠ .OP_NOOP)
    (h : codegen_subgraph.node cfg g users id c oi = .ok (c', oi')) :
    ∃ c1 ii c2 inits rest,
      codegen_subgraph.prepare_inputs cfg id oi inst.input_sockets c [] = .ok (c1, ii) ∧
      codegen_subgraph.init_outputs cfg id users inst.type.outputs c1 oi = .ok (c2, oi') ∧
      c1.fn.instructions =
        c.fn.instructions ++ inst.input_sockets.flatMap (spec_load_words cfg id ii) ∧
      c2.fn.instructions = c1.fn.instructions ++ inits ∧
      c'.fn.instructions = c2.fn.instructions ++
        .opcode (cfg.get_opcode_from_node_type inst.type.name) :: rest ∧
      (∀ inp ∈ inst.input_sockets, needs_load inp = false → spec_load_words cfg id ii inp = []) ∧
      ∀ pre inp post, inst.input_sockets = pre ++ inp :: post → needs_load inp = true →
        ∃ cp iip v,
          codegen_subgraph.prepare_inputs cfg id oi pre c [] = .ok (cp, iip) ∧
          input_value inp = some v ∧
          Map.find ii ⟨some id, inp.1.name⟩ = some (codegen_value cfg cp v).1 ∧
          (codegen_value cfg cp v).1 = (assign_stack_index cfg cp v.typedesc).1 ∧
          spec_load_words cfg id ii inp = load_words cfg v (codegen_value cfg cp v).1 ∧
          (codegen_value cfg cp v).2.fn.instructions =
            cp.fn.instructions ++ load_words cfg v (codegen_value cfg cp v).1 ∧
          codegen_subgraph.prepare_inputs cfg id oi post (codegen_value cfg cp v).2
            (Map.set iip ⟨some id, inp.1.name⟩ (codegen_value cfg cp v).1) = .ok (c1, ii) := by
  obtain ⟨c1, ii, c2, c3, c4, hprep, hinit, hwi, hwo, hrel⟩ :=
    codegen_node_stages cfg g users id inst c oi c' oi' hnode hmapped h
  obtain ⟨t1, _, _⟩ := prepare_inputs_trace cfg id oi _ _ _ _ _ hprep
  obtain ⟨_, _, _, inits, hin⟩ := init_outputs_grows cfg id users _ _ _ _ _ hinit
  obtain ⟨rest, hrest⟩ := codegen_node_tail cfg id ii oi' _ _ _ c2 c3 c4 c' hwi hwo hrel
  refine ⟨c1, ii, c2, inits, rest, hprep, hinit, t1, hin, hrest, ?_, ?_⟩
  · intro inp _ hn
    simp [spec_load_words, hn]
  · intro pre inp post hsplit hn
    rw [hsplit] at hprep
    obtain ⟨cp, iip, v, hpre, hv, hslot, hpost⟩ :=
      prepare_inputs_at cfg id oi pre post inp c [] c1 ii hprep hn
    refine ⟨cp, iip, v, hpre, hv, hslot, by rw [codegen_value_eq], ?_,
      codegen_value_load_words cfg cp v, hpost⟩
    simp only [spec_load_words, hn, if_true, hv, hslot]

theorem codegen_node_input_loads_witness :
    (load_graph.node 0 =
        some ⟨float_pair_type, [⟨none, some (.float ⟨0x40600000⟩)⟩, ⟨none, none⟩]⟩ ∧
      small_config.get_opcode_from_node_type float_pair_type.name ≠ .OP_NOOP ∧
      codegen_subgraph.node small_config load_graph (count_output_users load_graph) 0
        (BVMCompiler.new small_config) [] =
          .ok (load_graph_compiler, [(⟨some 0, "value"⟩, 2)])) ∧
    load_graph_compiler.fn.instructions =
      [.opcode .OP_VALUE_FLOAT, .data 0x40600000, .data 0,
       .opcode .OP_VALUE_FLOAT, .data 0x3f800000, .data 1,
       .opcode (.OP_OTHER 2), .data 0, .data 1, .data 2] ∧
    ∃ c1 ii c2 inits rest,
      codegen_subgraph.prepare_inputs small_config 0 []
        (NodeInstance.input_sockets
          ⟨float_pair_type, [⟨none, some (.float ⟨0x40600000⟩)⟩, ⟨none, none⟩]⟩)
        (BVMCompiler.new small_config) [] = .ok (c1, ii) ∧
      codegen_subgraph.init_outputs small_config 0 (count_output_users load_graph)
        float_pair_type.outputs c1 [] = .ok (c2, [(⟨some 0, "value"⟩, 2)]) ∧
      c1.fn.instructions =
        (BVMCompiler.new small_config).fn.instructions ++
          (NodeInstance.input_sockets
            ⟨float_pair_type, [⟨none, some (.float ⟨0x40600000⟩)⟩, ⟨none, none⟩]⟩).flatMap
            (spec_load_words small_config 0 ii) ∧
      c2.fn.instructions = c1.fn.instructions ++ inits ∧
      load_graph_compiler.fn.instructions = c2.fn.instructions ++
        .opcode (small_config.get_opcode_from_node_type float_pair_type.name) :: rest :=
  ⟨⟨rfl, by decide, by rfl⟩, rfl,
   (codegen_node_input_loads small_config load_graph (count_output_users load_graph) 0
     ⟨float_pair_type, [⟨none, some (.float ⟨0x40600000⟩)⟩, ⟨none, none⟩]⟩
     (BVMCompiler.new small_config) [] load_graph_compiler [(⟨some 0, "value"⟩, 2)]
     rfl (by decide) (by rfl)).elim
     fun c1 h1 => h1.elim fun ii h2 => h2.elim fun c2 h3 => h3.elim fun inits h4 =>
       h4.elim fun rest h5 =>
         ⟨c1, ii, c2, inits, rest, h5.1, h5.2.1, h5.2.2.1, h5.2.2.2.1, h5.2.2.2.2.1⟩⟩

/-! ## The end of a subgraph -/

theorem grows_without_refl (c : BVMCompiler) (w : Instruction) : c.grows_without c w :=
  ⟨[], by simp, List.not_mem_nil _⟩

theorem grows_without_trans {a b c : BVMCompiler} {w : Instruction}
    (h1 : a.grows_without b w) (h2 : b.grows_without c w) : a.grows_without c w := by
  obtain ⟨ws1, e1, n1⟩ := h1
  obtain ⟨ws2, e2, n2⟩ := h2
  refine ⟨ws1 ++ ws2, by rw [e2, e1, List.append_assoc], ?_⟩
  intro hm
  rcases List.mem_append.1 hm with h | h
  · exact n1 h
  · exact n2 h

theorem grows_without_append (c : BVMCompiler) (ws : List Instruction) (w : Instruction)
    (h : w ∉ ws) : c.grows_without (c.append ws) w :=
  ⟨ws, rfl, h⟩

theorem opcode_not_mem_data (op : OpCode) (ns : List Nat) :
    Instruction.opcode op ∉ ns.map Instruction.data := by
  simp

theorem opcode_not_mem_slot_word (cfg : Config) (op : OpCode) (slot : Nat) :
    Instruction.opcode op ∉ slot_word cfg slot := by
  unfold slot_word
  split <;> simp

theorem opcode_not_mem_words (op : OpCode) (value : Value) :
    Instruction.opcode op ∉ value.words := by
  intro h
  exact value_words_data value _ h

theorem end_not_mem_load_words (cfg : Config) (value : Value) (slot : Nat) :
    Instruction.opcode .OP_END ∉ load_words cfg value slot := by
  unfold load_words
  simp only [List.mem_cons, List.mem_append, not_or]
  refine ⟨?_, opcode_not_mem_words _ value, opcode_not_mem_slot_word cfg _ slot⟩
  cases value <;> simp [spec_value_opcode, Value.typedesc]

theorem codegen_value_no_end (cfg : Config) (c : BVMCompiler) (value : Value) :
    c.grows_without (codegen_value cfg c value).2 (.opcode .OP_END) :=
  ⟨_, codegen_value_load_words cfg c value, end_not_mem_load_words cfg value _⟩

theorem assign_stack_index_no_end (cfg : Config) (c : BVMCompiler) (td : TypeDesc) :
    c.grows_without (assign_stack_index cfg c td).2 (.opcode .OP_END) :=
  ⟨[], by simp [assign_stack_index_fn], List.not_mem_nil _⟩

theorem prepare_inputs_no_end (cfg : Config) (node : Nat) (output_index : SocketIndexMap) :
    ∀ (inputs : List (NodeSocket × InputInstance)) (c : BVMCompiler)
      (input_index : SocketIndexMap) (c' : BVMCompiler) (input_index' : SocketIndexMap),
      codegen_subgraph.prepare_inputs cfg node output_index inputs c input_index =
        .ok (c', input_index') →
      c.grows_without c' (.opcode .OP_END) := by
  intro inputs
  induction inputs with
  | nil =>
    intro c ii c' ii' h
    simp only [codegen_subgraph.prepare_inputs, Except.ok.injEq, Prod.mk.injEq] at h
    rw [← h.1]
    exact grows_without_refl c _
  | cons inp rest ih =>
    intro c ii c' ii' h
    obtain ⟨input, inst⟩ := inp
    unfold codegen_subgraph.prepare_inputs at h
    simp only at h
    split at h
    · exact absurd h (by simp)
    · split at h
      · exact ih _ _ _ _ h
      · split at h
        · split at h
          · exact absurd h (by simp)
          · exact ih _ _ _ _ h
        · split at h
          · exact grows_without_trans (codegen_value_no_end cfg c _) (ih _ _ _ _ h)
          · split at h
            · exact absurd h (by simp)
            · exact grows_without_trans (codegen_value_no_end cfg c _) (ih _ _ _ _ h)

theorem init_outputs_no_end (cfg : Config) (node : Nat) (users : SocketUserMap) :
    ∀ (outs : List NodeSocket) (c : BVMCompiler) (oi : SocketIndexMap) (c' : BVMCompiler)
      (oi' : SocketIndexMap),
      codegen_subgraph.init_outputs cfg node users outs c oi = .ok (c', oi') →
      c.grows_without c' (.opcode .OP_END) := by
  intro outs
  induction outs with
  | nil =>
    intro c oi c' oi' h
    simp only [codegen_subgraph.init_outputs, Except.ok.injEq, Prod.mk.injEq] at h
    rw [← h.1]
    exact grows_without_refl c _
  | cons out rest ih =>
    intro c oi c' oi' h
    unfold codegen_subgraph.init_outputs at h
    simp only at h
    have ha := assign_stack_index_no_end cfg c out.typedesc
    split at h
    · rename_i hop
      split at h
      · exact absurd h (by simp)
      · split at h
        · refine grows_without_trans (grows_without_trans ha ?_) (ih _ _ _ _ h)
          rw [push_int_eq, push_stack_index_slot_word, push_opcode_eq, append_append,
            append_append]
          apply grows_without_append
          intro hm
          rcases List.mem_append.1 hm with hm | hm
          · rw [List.mem_singleton, ptr_init_opcode_eq _ hop] at hm
            exact absurd hm (by simp)
          · rcases List.mem_append.1 hm with hm | hm
            · exact opcode_not_mem_slot_word cfg _ _ hm
            · rw [List.mem_singleton] at hm
              simp [int_to_instruction] at hm
        · exact grows_without_trans ha (ih _ _ _ _ h)
    · exact grows_without_trans ha (ih _ _ _ _ h)

theorem release_inputs_no_end (cfg : Config) (oi : SocketIndexMap) :
    ∀ (inputs : List (NodeSocket × InputInstance)) (c c' : BVMCompiler),
      codegen_subgraph.release_inputs cfg oi inputs c = .ok c' →
      c.grows_without c' (.opcode .OP_END) := by
  intro inputs
  induction inputs with
  | nil =>
    intro c c' h
    simp only [codegen_subgraph.release_inputs, Except.ok.injEq] at h
    rw [← h]
    exact grows_without_refl c _
  | cons inp rest ih =>
    intro c c' h
    obtain ⟨input, inst⟩ := inp
    unfold codegen_subgraph.release_inputs at h
    simp only at h
    split at h
    · exact ih _ _ h
    · split at h
      · split at h
        · exact absurd h (by simp)
        · split at h
          · rename_i hop
            refine grows_without_trans ?_ (ih _ _ h)
            rw [push_stack_index_slot_word, push_opcode_eq, append_append]
            apply grows_without_append
            intro hm
            rcases List.mem_append.1 hm with hm | hm
            · rw [List.mem_singleton, ptr_release_opcode_eq _ hop] at hm
              exact absurd hm (by simp)
            · exact opcode_not_mem_slot_word cfg _ _ hm
          · exact ih _ _ h
      · exact ih _ _ h

theorem codegen_node_no_end (cfg : Config) (g : NodeGraph) (users : SocketUserMap)
    (hreg : ∀ name, cfg.get_opcode_from_node_type name ≠ .OP_END)
    (id : Nat) (c : BVMCompiler) (oi : SocketIndexMap) (c' : BVMCompiler) (oi' : SocketIndexMap)
    (h : codegen_subgraph.node cfg g users id c oi = .ok (c', oi')) :
    c.grows_without c' (.opcode .OP_END) := by
  obtain ⟨inst, hnode⟩ := codegen_node_defined cfg g users id c oi _ h
  by_cases hmapped : cfg.get_opcode_from_node_type inst.type.name = .OP_NOOP
  · unfold codegen_subgraph.node at h
    rw [hnode] at h
    simp only [hmapped, if_true, Except.ok.injEq, Prod.mk.injEq] at h
    rw [← h.1]
    exact grows_without_refl c _
  · obtain ⟨c1, ii, c2, c3, c4, hprep, hinit, hwi, hwo, hrel⟩ :=
      codegen_node_stages cfg g users id inst c oi c' oi' hnode hmapped h
    obtain ⟨ws1, hws1⟩ := write_inputs_spec cfg id ii _ _ _ hwi
    obtain ⟨ws2, hws2⟩ := write_outputs_spec cfg id oi' _ _ _ hwo
    have h24 : c2.grows_without c4 (.opcode .OP_END) := by
      rw [hws2, hws1, push_opcode_eq, append_append, append_append]
      apply grows_without_append
      intro hm
      rcases List.mem_append.1 hm with hm | hm
      · rw [List.mem_singleton] at hm
        injection hm with e
        exact hreg _ e.symm
      · rcases List.mem_append.1 hm with hm | hm
        · exact opcode_not_mem_data _ _ hm
        · exact opcode_not_mem_data _ _ hm
    exact grows_without_trans
      (grows_without_trans (prepare_inputs_no_end cfg id oi _ _ _ _ _ hprep)
        (init_outputs_no_end cfg id users _ _ _ _ _ hinit))
      (grows_without_trans h24 (release_inputs_no_end cfg oi' _ _ _ hrel))

theorem codegen_nodes_no_end (cfg : Config) (g : NodeGraph) (users : SocketUserMap)
    (hreg : ∀ name, cfg.get_opcode_from_node_type name ≠ .OP_END) :
    ∀ (nodes : NodeList) (c : BVMCompiler) (oi : SocketIndexMap) (c' : BVMCompiler)
      (oi' : SocketIndexMap),
      codegen_subgraph.nodes cfg g users nodes c oi = .ok (c', oi') →
      c.grows_without c' (.opcode .OP_END) := by
  intro nodes
  induction nodes with
  | nil =>
    intro c oi c' oi' h
    simp only [codegen_subgraph.nodes, Except.ok.injEq, Prod.mk.injEq] at h
    rw [← h.1]
    exact grows_without_refl c _
  | cons id rest ih =>
    intro c oi c' oi' h
    unfold codegen_subgraph.nodes at h
    split at h
    · exact absurd h (by simp)
    · rename_i c1 oi1 hnode
      exact grows_without_trans (codegen_node_no_end cfg g users hreg id c oi c1 oi1 hnode)
        (ih _ _ _ _ h)

theorem end_not_mem_output_loads (cfg : Config) (outs : SubgraphOutputList) :
    Instruction.opcode .OP_END ∉ outs.flatMap (spec_output_load cfg) := by
  intro h
  obtain ⟨o, _, ho⟩ := List.mem_flatMap.1 h
  unfold spec_output_load at ho
  split at ho
  · exact end_not_mem_load_words cfg _ _ ho
  · exact absurd ho (List.not_mem_nil _)

/-- The loop over the requested outputs, on a list that is put together from
two. -/
theorem resolve_outputs_append (cfg : Config) (oi : SocketIndexMap) :
    ∀ (xs ys : SubgraphOutputList) (c : BVMCompiler),
      codegen_subgraph.resolve_outputs cfg oi (xs ++ ys) c =
        match codegen_subgraph.resolve_outputs cfg oi xs c with
        | .error e => .error e
        | .ok (xs', c1) =>
          match codegen_subgraph.resolve_outputs cfg oi ys c1 with
          | .error e => .error e
          | .ok (ys', c2) => .ok (xs' ++ ys', c2) := by
  intro xs
  induction xs with
  | nil =>
    intro ys c
    cases hy : codegen_subgraph.resolve_outputs cfg oi ys c with
    | error e => simp [codegen_subgraph.resolve_outputs, hy]
    | ok r => simp [codegen_subgraph.resolve_outputs, hy]
  | cons x xs ih =>
    intro ys c
    simp only [List.cons_append]
    by_cases hs : x.key.node.isSome = true
    · cases hf : Map.find oi x.key with
      | none => simp [codegen_subgraph.resolve_outputs, hs, hf]
      | some index =>
        cases hr : codegen_subgraph.resolve_outputs cfg oi xs c with
        | error e => simp [codegen_subgraph.resolve_outputs, hs, hf, ih, hr]
        | ok r =>
          obtain ⟨xs', c1⟩ := r
          cases hy : codegen_subgraph.resolve_outputs cfg oi ys c1 with
          | error e => simp [codegen_subgraph.resolve_outputs, hs, hf, ih, hr, hy]
          | ok r2 => simp [codegen_subgraph.resolve_outputs, hs, hf, ih, hr, hy]
    · cases hv : x.value with
      | none => simp [codegen_subgraph.resolve_outputs, hs, hv]
      | some value =>
        cases hr : codegen_subgraph.resolve_outputs cfg oi xs (codegen_value cfg c value).2 with
        | error e => simp [codegen_subgraph.resolve_outputs, hs, hv, ih, hr]
        | ok r =>
          obtain ⟨xs', c1⟩ := r
          cases hy : codegen_subgraph.resolve_outputs cfg oi ys c1 with
          | error e => simp [codegen_subgraph.resolve_outputs, hs, hv, ih, hr, hy]
          | ok r2 => simp [codegen_subgraph.resolve_outputs, hs, hv, ih, hr, hy]

/-- What the loop over the requested outputs does at an output without a source
node: `codegen_value` is called with the value of the output on the compiler as
the outputs before have left it, and its slot becomes the slot of the output. -/
theorem resolve_outputs_at (cfg : Config) (oi : SocketIndexMap)
    (pre post : SubgraphOutputList) (o : SubgraphOutput) (c : BVMCompiler)
    (outs' : SubgraphOutputList) (c' : BVMCompiler)
    (h : codegen_subgraph.resolve_outputs cfg oi (pre ++ o :: post) c = .ok (outs', c'))
    (hn : o.key.node = none) :
    ∃ pre' cp v post',
      codegen_subgraph.resolve_outputs cfg oi pre c = .ok (pre', cp) ∧ o.value = some v ∧
      codegen_subgraph.resolve_outputs cfg oi post (codegen_value cfg cp v).2 = .ok (post', c') ∧
      outs' = pre' ++ { o with stack_index := (codegen_value cfg cp v).1 } :: post' ∧
      pre'.length = pre.length := by
  rw [resolve_outputs_append] at h
  split at h
  · exact absurd h (by simp)
  · rename_i pre' cp hpre
    split at h
    · exact absurd h (by simp)
    · rename_i ys' c2 hys
      simp only [Except.ok.injEq, Prod.mk.injEq] at h
      obtain ⟨rfl, rfl⟩ := h
      unfold codegen_subgraph.resolve_outputs at hys
      rw [hn] at hys
      simp only [Option.isSome_none, Bool.false_eq_true, if_false] at hys
      split at hys
      · exact absurd hys (by simp)
      · rename_i value hvalue
        split at hys
        · exact absurd hys (by simp)
        · rename_i post' c3 hpost
          simp only [Except.ok.injEq, Prod.mk.injEq] at hys
          obtain ⟨rfl, rfl⟩ := hys
          exact ⟨pre', cp, value, post', hpre, hvalue, hpost, rfl,
            (resolve_outputs_trace cfg oi _ _ _ _ hpre).2.1⟩

/-- C25: a call of `codegen_subgraph` that returns appends the word `OP_END`
right after the instructions of all nodes, and after it, in the order of the
requested outputs, one load instruction for every output without a source node
and nothing else.  A requested output that names a socket gets the slot of the
output-index map for that socket and adds no word; a requested output without a
source node gets the slot that `codegen_value`, called with its value on the
compiler as it is at that moment, returns (the offset of `assign_stack_index`).
No word after `OP_END` is `OP_END`; when no node type is registered with the
opcode `OP_END`, the call appends `OP_END` exactly once. -/
theorem codegen_subgraph_end_and_outputs (cfg : Config) (g : NodeGraph) (nodes : NodeList)
    (users : SocketUserMap) (outs : SubgraphOutputList) (c : BVMCompiler) (entry : Nat)
    (outs' : SubgraphOutputList) (c' : BVMCompiler)
    (hok : codegen_subgraph cfg g nodes users outs c = .ok (entry, outs', c')) :
    ∃ c1 oi, codegen_subgraph.nodes cfg g users nodes c [] = .ok (c1, oi) ∧
      c'.fn.instructions =
        c1.fn.instructions ++ .opcode .OP_END :: outs'.flatMap (spec_output_load cfg) ∧
      Instruction.opcode .OP_END ∉ outs'.flatMap (spec_output_load cfg) ∧
      ((∀ name, cfg.get_opcode_from_node_type name ≠ .OP_END) →
        (appended c.fn.instructions c'.fn.instructions).count (.opcode .OP_END) = 1) ∧
      outs'.length = outs.length ∧
      (∀ (i : Nat) (o : SubgraphOutput), outs[i]? = some o →
        ∃ o', outs'[i]? = some o' ∧ o'.key = o.key ∧ o'.value = o.value ∧
          (o.key.node.isSome →
            Map.find oi o.key = some o'.stack_index ∧ spec_output_load cfg o' = []) ∧
          (o.key.node = none →
            ∃ v, o.value = some v ∧ spec_output_load cfg o' = load_words cfg v o'.stack_index)) ∧
      (∀ pre o post, outs = pre ++ o :: post → o.key.node = none →
        ∃ pre' cp v post',
          codegen_subgraph.resolve_outputs cfg oi pre (push_opcode c1 .OP_END) = .ok (pre', cp) ∧
          o.value = some v ∧
          outs' = pre' ++ { o with stack_index := (codegen_value cfg cp v).1 } :: post' ∧
          pre'.length = pre.length ∧
          (codegen_value cfg cp v).1 = (assign_stack_index cfg cp v.typedesc).1) := by
  unfold codegen_subgraph at hok
  simp only at hok
  split at hok
  · exact absurd hok (by simp)
  · rename_i c1 oi hnodes
    split at hok
    · exact absurd hok (by simp)
    · rename_i outs2 c2 hres
      simp only [Except.ok.injEq, Prod.mk.injEq] at hok
      obtain ⟨_, rfl, rfl⟩ := hok
      obtain ⟨t1, l1, k1⟩ := resolve_outputs_trace cfg oi _ _ _ _ hres
      have hstream : c2.fn.instructions =
          c1.fn.instructions ++ .opcode .OP_END :: outs2.flatMap (spec_output_load cfg) := by
        rw [t1, push_opcode_eq, append_instructions, List.append_assoc]
        rfl
      refine ⟨c1, oi, hnodes, hstream, end_not_mem_output_loads cfg _, ?_, l1, ?_, ?_⟩
      · intro hreg
        obtain ⟨ws, hws, hnot⟩ := codegen_nodes_no_end cfg g users hreg _ _ _ _ _ hnodes
        rw [hstream, hws, List.append_assoc, appended_append, List.count_append,
          List.count_cons_self, List.count_eq_zero_of_not_mem hnot,
          List.count_eq_zero_of_not_mem (end_not_mem_output_loads cfg _)]
      · intro i o hi
        obtain ⟨o', ho', hk, hv, hs, hn⟩ := k1 i o hi
        refine ⟨o', ho', hk, hv, fun hsome => ⟨hs hsome, ?_⟩, fun hnone => ?_⟩
        · obtain ⟨n, hn'⟩ := Option.isSome_iff_exists.1 hsome
          simp [spec_output_load, hk, hn']
        · obtain ⟨v, hval⟩ := hn hnone
          exact ⟨v, hval, by simp [spec_output_load, hk, hnone, hv, hval]⟩
      · intro pre o post hsplit hnone
        rw [hsplit] at hres
        obtain ⟨pre', cp, v, post', hpre, hval, _, hout, hlen⟩ :=
          resolve_outputs_at cfg oi pre post o _ _ _ hres hnone
        exact ⟨pre', cp, v, post', hpre, hval, hout, hlen, by rw [codegen_value_eq]⟩

theorem codegen_subgraph_end_and_outputs_witness :
    codegen_subgraph small_config scenario_constant [0] (count_output_users scenario_constant)
        subgraph_outputs subgraph_start = .ok (1, subgraph_outputs_resolved, subgraph_end) ∧
    subgraph_end.fn.instructions =
      subgraph_start.fn.instructions ++
        [.opcode .OP_VALUE_FLOAT, .data 0x40600000, .data 0, .opcode .OP_END,
         .opcode .OP_VALUE_FLOAT, .data 0x3f800000, .data 1] ∧
    subgraph_outputs_resolved.flatMap (spec_output_load small_config) =
      [.opcode .OP_VALUE_FLOAT, .data 0x3f800000, .data 1] ∧
    ∃ c1 oi,
      codegen_subgraph.nodes small_config scenario_constant
        (count_output_users scenario_constant) [0] subgraph_start [] = .ok (c1, oi) ∧
      subgraph_end.fn.instructions =
        c1.fn.instructions ++
          .opcode .OP_END :: subgraph_outputs_resolved.flatMap (spec_output_load small_config) ∧
      Instruction.opcode .OP_END ∉
        subgraph_outputs_resolved.flatMap (spec_output_load small_config) :=
  ⟨by rfl, by decide, by decide,
   (codegen_subgraph_end_and_outputs small_config scenario_constant [0]
     (count_output_users scenario_constant) subgraph_outputs subgraph_start 1
     subgraph_outputs_resolved subgraph_end (by rfl)).elim
     fun c1 h1 => h1.elim fun oi h2 => ⟨c1, oi, h2.1, h2.2.1, h2.2.2.1⟩⟩

/-! ## Upstream values -/

theorem unmapped_source_graph_linked (n m : Nat) (h : unmapped_source_graph.linked n m) :
    n = 0 ∧ m = 1 := by
  obtain ⟨inst, h1, inp, h2, s, h3⟩ := h
  unfold NodeGraph.node unmapped_source_graph at h1
  match n, h1 with
  | 0, h1 =>
    simp only [List.getElem?_cons_zero, Option.some.injEq] at h1
    subst h1
    simp only [NodeInstance.input_sockets, float_identity_type, zip_inputs, List.mem_singleton] at h2
    subst h2
    simp only [Option.some.injEq, Prod.mk.injEq] at h3
    exact ⟨rfl, h3.1.symm⟩
  | 1, h1 =>
    simp only [List.getElem?_cons_succ, List.getElem?_cons_zero, Option.some.injEq] at h1
    subst h1
    simp [NodeInstance.input_sockets, float_unknown_type, zip_inputs] at h2
  | k + 2, h1 => simp at h1

/-- C23, the claim as stated does not hold: `unmapped_source_graph` is acyclic,
its nodes are sorted sources first, and the mapped node 0 has a linked input
(neither constant nor function-typed); but the source node 1 has no mapped
opcode and is skipped, so the output-index map is empty when node 0 is
processed, and the compile stops at the failed `assert`. -/
theorem codegen_subgraph_missing_upstream_counterexample :
    unmapped_source_graph.acyclic ∧ unmapped_source_graph.closed ∧
    (sort_graph_nodes small_config unmapped_source_graph (BVMCompiler.new small_config)).map
      Prod.fst = some [1, 0] ∧
    (codegen_subgraph.nodes small_config unmapped_source_graph
      (count_output_users unmapped_source_graph) [1] (BVMCompiler.new small_config) []).toOption.map
      Prod.snd = some [] ∧
    unmapped_source_graph.node 0 = some ⟨float_identity_type, [⟨some (1, "value"), none⟩]⟩ ∧
    (NodeInstance.input_sockets ⟨float_identity_type, [⟨some (1, "value"), none⟩]⟩).map
      (fun inp => (inp.1.value_type, inp.2.link)) = [(.VALUE_VARIABLE, some (1, "value"))] ∧
    Map.find ([] : SocketIndexMap) ⟨some 1, "value"⟩ = none ∧
    codegen_function small_config id unmapped_source_graph (BVMCompiler.new small_config) =
      .error .assert_failed :=
  ⟨acyclic_of_rank unmapped_source_graph id (fun n m h => by
      obtain ⟨rfl, rfl⟩ := unmapped_source_graph_linked n m h
      decide),
   fun n m h => by
      obtain ⟨_, rfl⟩ := unmapped_source_graph_linked n m h
      decide,
   by decide, by rfl, rfl, by decide, rfl, by rfl⟩

/-- C23, amended: for an acyclic graph in which every link names an output
socket of a node with a mapped opcode (and comes from a node of the graph),
`sort_graph_nodes` returns a list such that, whenever `codegen_subgraph` has
processed the nodes before a node `N` of the list, every linked input of `N`
that is neither constant nor function-typed finds the source socket of its link
in the output-index map. -/
theorem codegen_subgraph_upstream_present (cfg : Config) (g : NodeGraph) (c : BVMCompiler)
    (hclosed : g.closed) (hacyclic : g.acyclic) (hmapped : g.sources_mapped cfg) :
    ∃ sorted_nodes c1, sort_graph_nodes cfg g c = some (sorted_nodes, c1) ∧
      ∀ pre N post, sorted_nodes = pre ++ N :: post →
        ∀ users c0 oi0 c2 oi2,
          codegen_subgraph.nodes cfg g users pre c0 oi0 = .ok (c2, oi2) →
          ∀ inst, g.node N = some inst → ∀ inp ∈ inst.input_sockets,
            inp.1.value_type ≠ .VALUE_CONSTANT → inp.1.value_type ≠ .VALUE_FUNCTION →
            ∀ M s, inp.2.link = some (M, s) →
            ∃ slot, Map.find oi2 ⟨some M, s⟩ = some slot := by
  obtain ⟨st, e, _, _, hs, _, _⟩ := sort_graph_nodes_loop_sources cfg g hclosed hacyclic
    g.node_ids ⟨[], [], c.func_entry_map⟩
    (fun n hn => List.mem_range.1 hn)
    ⟨fun x hx => absurd hx (List.not_mem_nil _), List.nodup_nil⟩
    (fun x hx => absurd hx.1 (List.not_mem_nil _))
    (fun j N M hj => by simp at hj)
    (fun x hx => absurd hx (List.not_mem_nil _))
  refine ⟨st.sorted_nodes, { c with func_entry_map := st.func_entry_map }, ?_, ?_⟩
  · unfold sort_graph_nodes
    rw [e]
  · intro pre N post hsplit users c0 oi0 c2 oi2 hnodes inst hN inp hinp hc hf M s hl
    have hj : st.sorted_nodes[pre.length]? = some N := by
      rw [hsplit, List.getElem?_append_right (le_refl _), Nat.sub_self,
        List.getElem?_cons_zero]
    obtain ⟨i, hi, hie⟩ := hs pre.length N M hj ⟨inst, hN, inp, hinp, hf, s, hl⟩
    have hmem : M ∈ pre := by
      rw [hsplit, List.getElem?_append_left hi] at hie
      obtain ⟨hlt, he⟩ := List.getElem?_eq_some_iff.1 hie
      rw [← he]
      exact List.getElem_mem hlt
    obtain ⟨source, hsrc, hop, out, hout, hname⟩ := hmapped N inst hN inp hinp M s hl
    have hdef := (codegen_nodes_defined_outputs cfg g users pre _ _ _ _ hnodes).2 M hmem source
      hsrc hop out hout
    rw [hname] at hdef
    exact Option.ne_none_iff_exists'.1 hdef

theorem scenario_chain_sources_mapped : scenario_chain.sources_mapped small_config := by
  intro N inst h1 inp h2 M s h3
  unfold NodeGraph.node scenario_chain at h1
  match N, h1 with
  | 0, h1 =>
    simp only [List.getElem?_cons_zero, Option.some.injEq] at h1
    subst h1
    simp only [NodeInstance.input_sockets, float_identity_type, zip_inputs, List.mem_singleton] at h2
    subst h2
    simp only [Option.some.injEq, Prod.mk.injEq] at h3
    obtain ⟨rfl, rfl⟩ := h3
    exact ⟨_, rfl, by decide, _, List.mem_singleton.2 rfl, rfl⟩
  | 1, h1 =>
    simp only [List.getElem?_cons_succ, List.getElem?_cons_zero, Option.some.injEq] at h1
    subst h1
    simp only [NodeInstance.input_sockets, float_constant_type, zip_inputs, List.mem_singleton] at h2
    subst h2
    simp at h3
  | k + 2, h1 => simp at h1

theorem codegen_subgraph_upstream_present_witness :
    (scenario_chain.closed ∧ scenario_chain.acyclic ∧
      scenario_chain.sources_mapped small_config) ∧
    (sort_graph_nodes small_config scenario_chain (BVMCompiler.new small_config)).map Prod.fst =
      some [1, 0] ∧
    ∃ sorted_nodes c1,
      sort_graph_nodes small_config scenario_chain (BVMCompiler.new small_config) =
        some (sorted_nodes, c1) ∧
      ∀ pre N post, sorted_nodes = pre ++ N :: post →
        ∀ users c0 oi0 c2 oi2,
          codegen_subgraph.nodes small_config scenario_chain users pre c0 oi0 = .ok (c2, oi2) →
          ∀ inst, scenario_chain.node N = some inst → ∀ inp ∈ inst.input_sockets,
            inp.1.value_type ≠ .VALUE_CONSTANT → inp.1.value_type ≠ .VALUE_FUNCTION →
            ∀ M s, inp.2.link = some (M, s) →
            ∃ slot, Map.find oi2 ⟨some M, s⟩ = some slot :=
  ⟨⟨fun n m h => by
      obtain ⟨_, rfl⟩ := scenario_chain_linked n m h
      decide,
    acyclic_of_rank scenario_chain id (fun n m h => by
      obtain ⟨rfl, rfl⟩ := scenario_chain_linked n m h
      decide),
    scenario_chain_sources_mapped⟩,
   by decide,
   codegen_subgraph_upstream_present small_config scenario_chain (BVMCompiler.new small_config)
     (fun n m h => by
      obtain ⟨_, rfl⟩ := scenario_chain_linked n m h
      decide)
     (acyclic_of_rank scenario_chain id (fun n m h => by
      obtain ⟨rfl, rfl⟩ := scenario_chain_linked n m h
      decide))
     scenario_chain_sources_mapped⟩

/-! ## The slot-usage table keeps its length -/

theorem codegen_value_stack_length (cfg : Config) (c : BVMCompiler) (value : Value) :
    (codegen_value cfg c value).2.stack_users.length = c.stack_users.length := by
  rw [codegen_value_eq]
  simp only [append_stack_users]
  exact assign_stack_index_length cfg c _

theorem prepare_inputs_stack_length (cfg : Config) (node : Nat) (output_index : SocketIndexMap) :
    ∀ (inputs : List (NodeSocket × InputInstance)) (c : BVMCompiler)
      (input_index : SocketIndexMap) (c' : BVMCompiler) (input_index' : SocketIndexMap),
      codegen_subgraph.prepare_inputs cfg node output_index inputs c input_index =
        .ok (c', input_index') →
      c'.stack_users.length = c.stack_users.length := by
  intro inputs
  induction inputs with
  | nil =>
    intro c ii c' ii' h
    simp only [codegen_subgraph.prepare_inputs, Except.ok.injEq, Prod.mk.injEq] at h
    rw [← h.1]
  | cons inp rest ih =>
    intro c ii c' ii' h
    obtain ⟨input, inst⟩ := inp
    unfold codegen_subgraph.prepare_inputs at h
    simp only at h
    split at h
    · exact absurd h (by simp)
    · split at h
      · exact ih _ _ _ _ h
      · split at h
        · split at h
          · exact absurd h (by simp)
          · exact ih _ _ _ _ h
        · split at h
          · exact (ih _ _ _ _ h).trans (codegen_value_stack_length cfg c _)
          · split at h
            · exact absurd h (by simp)
            · exact (ih _ _ _ _ h).trans (codegen_value_stack_length cfg c _)

theorem init_outputs_stack_length (cfg : Config) (node : Nat) (users : SocketUserMap) :
    ∀ (outs : List NodeSocket) (c : BVMCompiler) (oi : SocketIndexMap) (c' : BVMCompiler)
      (oi' : SocketIndexMap),
      codegen_subgraph.init_outputs cfg node users outs c oi = .ok (c', oi') →
      c'.stack_users.length = c.stack_users.length := by
  intro outs
  induction outs with
  | nil =>
    intro c oi c' oi' h
    simp only [codegen_subgraph.init_outputs, Except.ok.injEq, Prod.mk.injEq] at h
    rw [← h.1]
  | cons out rest ih =>
    intro c oi c' oi' h
    unfold codegen_subgraph.init_outputs at h
    simp only at h
    have hl := assign_stack_index_length cfg c out.typedesc
    split at h
    · split at h
      · exact absurd h (by simp)
      · split at h
        · exact (ih _ _ _ _ h).trans (by
            simpa [push_int_eq, push_stack_index_eq, push_opcode_eq] using hl)
        · exact (ih _ _ _ _ h).trans hl
    · exact (ih _ _ _ _ h).trans hl

theorem release_inputs_stack_length (cfg : Config) (oi : SocketIndexMap) :
    ∀ (inputs : List (NodeSocket × InputInstance)) (c c' : BVMCompiler),
      codegen_subgraph.release_inputs cfg oi inputs c = .ok c' →
      c'.stack_users.length = c.stack_users.length := by
  intro inputs
  induction inputs with
  | nil =>
    intro c c' h
    simp only [codegen_subgraph.release_inputs, Except.ok.injEq] at h
    rw [h]
  | cons inp rest ih =>
    intro c c' h
    obtain ⟨input, ins⟩ := inp
    unfold codegen_subgraph.release_inputs at h
    simp only at h
    split at h
    · exact ih _ _ h
    · split at h
      · split at h
        · exact absurd h (by simp)
        · split at h
          · rw [ih _ _ h, push_stack_index_eq, push_opcode_eq]
            rfl
          · exact ih _ _ h
      · exact ih _ _ h

theorem codegen_node_stack_length (cfg : Config) (g : NodeGraph) (users : SocketUserMap)
    (id : Nat) (c : BVMCompiler) (oi : SocketIndexMap) (c' : BVMCompiler) (oi' : SocketIndexMap)
    (h : codegen_subgraph.node cfg g users id c oi = .ok (c', oi')) :
    c'.stack_users.length = c.stack_users.length := by
  unfold codegen_subgraph.node at h
  split at h
  · exact absurd h (by simp)
  · simp only at h
    split at h
    · simp only [Except.ok.injEq, Prod.mk.injEq] at h
      rw [← h.1]
    · split at h
      · exact absurd h (by simp)
      · rename_i c1 ii hprep
        split at h
        · exact absurd h (by simp)
        · rename_i c2 oi2 hinit
          split at h
          · exact absurd h (by simp)
          · rename_i c3 hwi
            split at h
            · exact absurd h (by simp)
            · rename_i c4 hwo
              split at h
              · exact absurd h (by simp)
              · rename_i c5 hrel
                simp only [Except.ok.injEq, Prod.mk.injEq] at h
                obtain ⟨rfl, rfl⟩ := h
                obtain ⟨ws1, hws1⟩ := write_inputs_spec cfg id ii _ _ _ hwi
                obtain ⟨ws2, hws2⟩ := write_outputs_spec cfg id oi2 _ _ _ hwo
                rw [release_inputs_stack_length cfg oi2 _ _ _ hrel, hws2, hws1, push_opcode_eq]
                simp only [append_stack_users]
                exact (init_outputs_stack_length cfg id users _ _ _ _ _ hinit).trans
                  (prepare_inputs_stack_length cfg id oi _ _ _ _ _ hprep)

theorem codegen_nodes_stack_length (cfg : Config) (g : NodeGraph) (users : SocketUserMap) :
    ∀ (nodes : NodeList) (c : BVMCompiler) (oi : SocketIndexMap) (c' : BVMCompiler)
      (oi' : SocketIndexMap),
      codegen_subgraph.nodes cfg g users nodes c oi = .ok (c', oi') →
      c'.stack_users.length = c.stack_users.length := by
  intro nodes
  induction nodes with
  | nil =>
    intro c oi c' oi' h
    simp only [codegen_subgraph.nodes, Except.ok.injEq, Prod.mk.injEq] at h
    rw [← h.1]
  | cons id rest ih =>
    intro c oi c' oi' h
    unfold codegen_subgraph.nodes at h
    split at h
    · exact absurd h (by simp)
    · rename_i c1 oi1 h1
      exact (ih _ _ _ _ h).trans (codegen_node_stack_length cfg g users id _ _ _ _ h1)

theorem resolve_outputs_stack_length (cfg : Config) (oi : SocketIndexMap) :
    ∀ (outs : SubgraphOutputList) (c : BVMCompiler) (outs' : SubgraphOutputList)
      (c' : BVMCompiler),
      codegen_subgraph.resolve_outputs cfg oi outs c = .ok (outs', c') →
      c'.stack_users.length = c.stack_users.length := by
  intro outs
  induction outs with
  | nil =>
    intro c outs' c' h
    simp only [codegen_subgraph.resolve_outputs, Except.ok.injEq, Prod.mk.injEq] at h
    rw [← h.2]
  | cons out rest ih =>
    intro c outs' c' h
    unfold codegen_subgraph.resolve_outputs at h
    split at h
    · split at h
      · exact absurd h (by simp)
      · split at h
        · exact absurd h (by simp)
        · rename_i r hr
          simp only [Except.ok.injEq, Prod.mk.injEq] at h
          rw [← h.2]
          exact ih _ _ _ hr
    · split at h
      · exact absurd h (by simp)
      · rename_i value _
        simp only at h
        split at h
        · exact absurd h (by simp)
        · rename_i r hr
          simp only [Except.ok.injEq, Prod.mk.injEq] at h
          rw [← h.2]
          exact (ih _ _ _ hr).trans (codegen_value_stack_length cfg c value)

/-- A compiled subgraph leaves the length of the slot-usage table as it is, and
an out-of-bounds write that has happened stays recorded. -/
theorem codegen_subgraph_stack (cfg : Config) (g : NodeGraph) (nodes : NodeList)
    (users : SocketUserMap) (outs : SubgraphOutputList) (c : BVMCompiler) (entry : Nat)
    (outs' : SubgraphOutputList) (c' : BVMCompiler)
    (h : codegen_subgraph cfg g nodes users outs c = .ok (entry, outs', c')) :
    c'.stack_users.length = c.stack_users.length ∧
    (c.stack_overrun = true → c'.stack_overrun = true) := by
  unfold codegen_subgraph at h
  simp only at h
  split at h
  · exact absurd h (by simp)
  · rename_i c1 oi hnodes
    split at h
    · exact absurd h (by simp)
    · rename_i outs1 c2 hres
      simp only [Except.ok.injEq, Prod.mk.injEq] at h
      obtain ⟨_, _, rfl⟩ := h
      have l1 := codegen_nodes_stack_length cfg g users _ _ _ _ _ hnodes
      have l2 := resolve_outputs_stack_length cfg oi _ _ _ _ hres
      refine ⟨?_, ?_⟩
      · rw [l2, push_opcode_eq, append_stack_users, l1]
      · intro ho
        refine resolve_outputs_overrun_mono cfg oi _ _ _ _ hres ?_
        rw [push_opcode_eq, append_stack_overrun]
        exact codegen_nodes_overrun_mono cfg g users _ _ _ _ _ hnodes ho

/-! ## The entries of the Function Info map after the kernel loop -/

/-- The kernel loop keeps the length of the slot-usage table and the record of
an out-of-bounds write. -/
theorem kernels_stack (cfg : Config) (g : NodeGraph) (users : SocketUserMap) :
    ∀ (keys : List ConstSocketPair) (c c' : BVMCompiler),
      codegen_function.kernels cfg g users keys c = .ok c' →
      c'.stack_users.length = c.stack_users.length ∧
      (c.stack_overrun = true → c'.stack_overrun = true) := by
  intro keys
  induction keys with
  | nil =>
    intro c c' h
    simp only [codegen_function.kernels, Except.ok.injEq] at h
    subst h
    exact ⟨rfl, fun ho => ho⟩
  | cons key rest ih =>
    intro c c' h
    unfold codegen_function.kernels at h
    split at h
    · exact absurd h (by simp)
    · split at h
      · exact absurd h (by simp)
      · simp only at h
        split at h
        · exact absurd h (by simp)
        · split at h
          · exact absurd h (by simp)
          · rename_i entry outs c1 hsub
            split at h
            · exact absurd h (by simp)
            · obtain ⟨l1, o1⟩ := codegen_subgraph_stack cfg g _ _ _ _ _ _ _ hsub
              obtain ⟨l2, o2⟩ := ih _ _ h
              exact ⟨l2.trans l1, fun ho => o2 (o1 ho)⟩

/-- The keys of the Function Info map after the kernel loop: the keys that it
had, and the keys that the loop went through. -/
theorem kernels_keys (cfg : Config) (g : NodeGraph) (users : SocketUserMap) :
    ∀ (keys : List ConstSocketPair) (c c' : BVMCompiler),
      codegen_function.kernels cfg g users keys c = .ok c' →
      ∀ key, (Map.find c'.func_entry_map key).isSome ↔
        (key ∈ keys ∨ (Map.find c.func_entry_map key).isSome) := by
  intro keys
  induction keys with
  | nil =>
    intro c c' h key
    simp only [codegen_function.kernels, Except.ok.injEq] at h
    subst h
    simp
  | cons k rest ih =>
    intro c c' h key
    unfold codegen_function.kernels at h
    split at h
    · exact absurd h (by simp)
    · split at h
      · exact absurd h (by simp)
      · simp only at h
        split at h
        · exact absurd h (by simp)
        · split at h
          · exact absurd h (by simp)
          · rename_i entry outs c1 hsub
            split at h
            · exact absurd h (by simp)
            · obtain ⟨⟨g1, _⟩, _⟩ := codegen_subgraph_grows cfg g _ _ _ _ _ _ _ hsub
              rw [ih _ _ h key]
              simp only [map_find_set, g1, List.mem_cons]
              by_cases hk : k = key
              · simp [hk]
              · have hk' : ¬ key = k := fun e => hk e.symm
                simp [hk, hk']

/-- The entry that the kernel loop leaves for a key: either the entry that was
there, when the loop did not go through the key, or the entry point and the slot
of the requested output of a run of `codegen_subgraph` on the expression nodes
of the key. -/
theorem kernels_entries (cfg : Config) (g : NodeGraph) (users : SocketUserMap) :
    ∀ (keys : List ConstSocketPair) (c c' : BVMCompiler),
      codegen_function.kernels cfg g users keys c = .ok c' →
      ∀ key info, Map.find c'.func_entry_map key = some info →
        (key ∉ keys ∧ Map.find c.func_entry_map key = some info) ∨
        (key ∈ keys ∧ ∃ (cb : BVMCompiler) (expr_nodes : NodeList) (inst : NodeInstance)
            (socket : NodeSocket) (ii : InputInstance) (entry : Nat) (out : SubgraphOutput)
            (rest : SubgraphOutputList) (ca : BVMCompiler),
          sort_expression_nodes g key = .ok expr_nodes ∧
          key.node.bind g.node = some inst ∧
          inst.find_input key.socket = some (socket, ii) ∧
          codegen_subgraph cfg g expr_nodes users
            [⟨inst.link key.socket, socket.default_value, cfg.BVM_STACK_INVALID⟩] cb =
            .ok (entry, out :: rest, ca) ∧
          info = ⟨entry, out.stack_index⟩ ∧
          cb.stack_users.length = c.stack_users.length ∧
          (∃ ws, cb.fn.instructions = c.fn.instructions ++ ws) ∧
          (∃ ws, c'.fn.instructions = ca.fn.instructions ++ ws) ∧
          (ca.stack_overrun = true → c'.stack_overrun = true)) := by
  intro keys
  induction keys with
  | nil =>
    intro c c' h key info hf
    simp only [codegen_function.kernels, Except.ok.injEq] at h
    subst h
    exact Or.inl ⟨List.not_mem_nil _, hf⟩
  | cons k rest ih =>
    intro c c' h key info hf
    unfold codegen_function.kernels at h
    split at h
    · exact absurd h (by simp)
    · rename_i expr_nodes hexpr
      split at h
      · exact absurd h (by simp)
      · rename_i inst hinst
        simp only at h
        split at h
        · exact absurd h (by simp)
        · rename_i socket ii hfind
          split at h
          · exact absurd h (by simp)
          · rename_i entry outs c1 hsub
            split at h
            · exact absurd h (by simp)
            · rename_i output outs1
              obtain ⟨⟨g1, _, _, ws1, g4⟩, _, _⟩ :=
                codegen_subgraph_grows cfg g _ _ _ _ _ _ _ hsub
              obtain ⟨l1, _⟩ := codegen_subgraph_stack cfg g _ _ _ _ _ _ _ hsub
              obtain ⟨_, _, _, ⟨ws2, w2⟩, _⟩ := kernels_spec cfg g users _ _ _ h
              obtain ⟨_, o2⟩ := kernels_stack cfg g users _ _ _ h
              simp only at w2 o2
              rcases ih _ _ h key info hf with ⟨hm, hf1⟩ | ⟨hm, cb, en, i2, s2, ii2, e2, o, r, ca,
                  q1, q2, q3, q4, q5, q6, ⟨ws3, q7⟩, q8, q9⟩
              · rw [map_find_set] at hf1
                split at hf1
                · rename_i hk
                  simp only [Option.some.injEq] at hf1
                  subst hk
                  exact Or.inr ⟨List.mem_cons_self _ _, c, expr_nodes, inst, socket, ii, entry,
                    output, outs1, c1, hexpr, hinst, hfind, hsub, hf1.symm, rfl, ⟨[], by simp⟩,
                    ⟨ws2, w2⟩, o2⟩
                · rename_i hk
                  rw [g1] at hf1
                  refine Or.inl ⟨?_, hf1⟩
                  intro hmem
                  rcases List.mem_cons.1 hmem with h' | h'
                  · exact hk h'.symm
                  · exact hm h'
              · simp only at q6 q7
                exact Or.inr ⟨List.mem_cons_of_mem _ hm, cb, en, i2, s2, ii2, e2, o, r, ca,
                  q1, q2, q3, q4, q5, q6.trans l1,
                  ⟨ws1 ++ ws3, by rw [q7, g4, List.append_assoc]⟩, q8, q9⟩

/-- A key that the iteration over the Function Info map visits has an entry. -/
theorem find_of_mem_iteration (addr : Nat → Nat) (key : ConstSocketPair) :
    ∀ m : FunctionEntryMap, key ∈ FunctionEntryMap.iteration addr m →
      (Map.find m key).isSome := by
  intro m
  induction m with
  | nil => intro h; simp [FunctionEntryMap.iteration] at h
  | cons e m ih =>
    intro h
    obtain ⟨k, v⟩ := e
    unfold FunctionEntryMap.iteration at h
    rw [List.foldr_cons, mem_insert_key] at h
    unfold Map.find
    split
    · rfl
    · rename_i hk
      rcases h with h | h
      · exact absurd h.symm hk
      · exact ih h

/-! ## The keys of the Function Info map after the main traversal -/

theorem zip_inputs_mem_of_fst :
    ∀ (sockets : List NodeSocket) (insts : List InputInstance) (socket : NodeSocket),
      socket ∈ sockets → ∃ ii, (socket, ii) ∈ zip_inputs sockets insts := by
  intro sockets
  induction sockets with
  | nil => intro insts socket h; simp at h
  | cons s ss ih =>
    intro insts socket h
    cases insts with
    | nil =>
      rcases List.mem_cons.1 h with h | h
      · exact ⟨⟨none, none⟩, by simp [zip_inputs, h]⟩
      · obtain ⟨ii, hii⟩ := ih [] socket h
        exact ⟨ii, by simp [zip_inputs, hii]⟩
    | cons x xs =>
      rcases List.mem_cons.1 h with h | h
      · exact ⟨x, by simp [zip_inputs, h]⟩
      · obtain ⟨ii, hii⟩ := ih xs socket h
        exact ⟨ii, by simp [zip_inputs, hii]⟩

theorem keys_kept_refl (st : SortState) : st.keys_kept st := fun _ h => h

theorem keys_kept_trans (a b c : SortState) (h1 : a.keys_kept b) (h2 : b.keys_kept c) :
    a.keys_kept c := fun key h => h2 key (h1 key h)

/-- The registration of one function-typed input socket. -/
theorem registered_set (cfg : Config) (g : NodeGraph) (st : SortState) (node : Nat)
    (inst : NodeInstance) (socket : NodeSocket) (hnode : g.node node = some inst)
    (hsocket : socket ∈ inst.type.inputs) (hfun : socket.value_type = .VALUE_FUNCTION)
    (hreg : st.registered g) :
    SortState.registered g ⟨st.sorted_nodes, st.visited,
      Map.set st.func_entry_map ⟨some node, socket.name⟩ (FunctionInfo.empty cfg)⟩ ∧
    st.keys_kept ⟨st.sorted_nodes, st.visited,
      Map.set st.func_entry_map ⟨some node, socket.name⟩ (FunctionInfo.empty cfg)⟩ ∧
    (Map.find (Map.set st.func_entry_map ⟨some node, socket.name⟩ (FunctionInfo.empty cfg))
      ⟨some node, socket.name⟩).isSome := by
  have hkept : ∀ key, (Map.find st.func_entry_map key).isSome →
      (Map.find (Map.set st.func_entry_map ⟨some node, socket.name⟩ (FunctionInfo.empty cfg))
        key).isSome := by
    intro key h
    rw [map_find_set]
    split
    · rfl
    · exact h
  refine ⟨⟨?_, ?_⟩, hkept, by rw [map_find_set]; simp⟩
  · intro key h
    simp only at h
    rw [map_find_set] at h
    split at h
    · rename_i hk
      exact ⟨node, inst, socket, hnode, hsocket, hfun, hk.symm⟩
    · exact hreg.1 key h
  · intro n hn inst1 hn1 s hs hf
    exact hkept _ (hreg.2 n hn inst1 hn1 s hs hf)

theorem graph_node_append_inputs_registered (cfg : Config) (g : NodeGraph)
    (visit : Nat → SortState → Option SortState) (node : Nat) (inst0 : NodeInstance)
    (hnode : g.node node = some inst0)
    (hvisit : ∀ m st st', visit m st = some st' → st.registered g →
      st'.registered g ∧ st.keys_kept st') :
    ∀ (inputs : List (NodeSocket × InputInstance)) (st st' : SortState),
      (∀ inp ∈ inputs, inp.1 ∈ inst0.type.inputs) →
      graph_node_append.inputs cfg visit node inputs st = some st' → st.registered g →
      st'.registered g ∧ st.keys_kept st' ∧
      ∀ inp ∈ inputs, inp.1.value_type = .VALUE_FUNCTION →
        (Map.find st'.func_entry_map ⟨some node, inp.1.name⟩).isSome := by
  intro inputs
  induction inputs with
  | nil =>
    intro st st' _ h hreg
    simp only [graph_node_append.inputs, Option.some.injEq] at h
    subst h
    exact ⟨hreg, keys_kept_refl _, fun inp hi => absurd hi (List.not_mem_nil _)⟩
  | cons inp rest ih =>
    intro st st' hmem h hreg
    obtain ⟨socket, ii⟩ := inp
    have hrest : ∀ inp ∈ rest, inp.1 ∈ inst0.type.inputs :=
      fun inp hi => hmem inp (List.mem_cons_of_mem _ hi)
    unfold graph_node_append.inputs at h
    split at h
    · rename_i hfun
      obtain ⟨r1, r2, r3⟩ := registered_set cfg g st node inst0 socket hnode
        (hmem _ (List.mem_cons_self _ _)) hfun hreg
      obtain ⟨q1, q2, q3⟩ := ih _ _ hrest h r1
      refine ⟨q1, keys_kept_trans _ _ _ r2 q2, ?_⟩
      intro inp hi hf
      rcases List.mem_cons.1 hi with hi | hi
      · subst hi
        exact q2 _ r3
      · exact q3 inp hi hf
    · rename_i hfun
      split at h
      · split at h
        · exact absurd h (by simp)
        · rename_i st1 hv
          obtain ⟨r1, r2⟩ := hvisit _ _ _ hv hreg
          obtain ⟨q1, q2, q3⟩ := ih _ _ hrest h r1
          refine ⟨q1, keys_kept_trans _ _ _ r2 q2, ?_⟩
          intro inp hi hf
          rcases List.mem_cons.1 hi with hi | hi
          · subst hi
            exact absurd hf hfun
          · exact q3 inp hi hf
      · obtain ⟨q1, q2, q3⟩ := ih _ _ hrest h hreg
        refine ⟨q1, q2, ?_⟩
        intro inp hi hf
        rcases List.mem_cons.1 hi with hi | hi
        · subst hi
          exact absurd hf hfun
        · exact q3 inp hi hf

theorem graph_node_append_registered (cfg : Config) (g : NodeGraph) :
    ∀ (fuel node : Nat) (st st' : SortState),
      graph_node_append cfg g fuel node st = some st' → st.registered g →
      st'.registered g ∧ st.keys_kept st' := by
  intro fuel
  induction fuel with
  | zero => intro node st st' h; simp [graph_node_append] at h
  | succ fuel ih =>
    intro node st st' h hreg
    unfold graph_node_append at h
    split at h
    · simp only [Option.some.injEq] at h
      subst h
      exact ⟨hreg, keys_kept_refl _⟩
    · split at h
      · exact absurd h (by simp)
      · rename_i inst hnode
        split at h
        · exact absurd h (by simp)
        · rename_i st1 hloop
          simp only [Option.some.injEq] at h
          subst h
          obtain ⟨q1, q2, q3⟩ := graph_node_append_inputs_registered cfg g
            (graph_node_append cfg g fuel) node inst hnode ih inst.input_sockets
            { st with visited := node :: st.visited } st1
            (fun inp hi => zip_inputs_fst_mem _ _ _ hi) hloop hreg
          refine ⟨⟨q1.1, ?_⟩, q2⟩
          intro n hn inst1 hn1 s hs hf
          rcases List.mem_append.1 hn with hn | hn
          · exact q1.2 n hn inst1 hn1 s hs hf
          · rw [List.mem_singleton] at hn
            subst hn
            rw [hnode] at hn1
            simp only [Option.some.injEq] at hn1
            subst hn1
            obtain ⟨ii, hii⟩ := zip_inputs_mem_of_fst inst.type.inputs inst.inputs s hs
            exact q3 (s, ii) hii hf

theorem sort_graph_nodes_loop_registered (cfg : Config) (g : NodeGraph) :
    ∀ (ids : List Nat) (st st' : SortState), sort_graph_nodes.loop cfg g ids st = some st' →
      st.registered g → st'.registered g ∧ st.keys_kept st' := by
  intro ids
  induction ids with
  | nil =>
    intro st st' h hreg
    simp only [sort_graph_nodes.loop, Option.some.injEq] at h
    subst h
    exact ⟨hreg, keys_kept_refl _⟩
  | cons n rest ih =>
    intro st st' h hreg
    unfold sort_graph_nodes.loop at h
    split at h
    · exact absurd h (by simp)
    · rename_i st1 h1
      obtain ⟨r1, r2⟩ := graph_node_append_registered cfg g _ _ _ _ h1 hreg
      obtain ⟨q1, q2⟩ := ih _ _ h r1
      exact ⟨q1, keys_kept_trans _ _ _ r2 q2⟩

/-- After `sort_graph_nodes` on a compiler with an empty Function Info map, the
keys of the map are the function-typed input sockets of the nodes of the graph. -/
theorem sort_graph_nodes_keys (cfg : Config) (g : NodeGraph) (c c' : BVMCompiler)
    (l : NodeList) (hempty : c.func_entry_map = [])
    (h : sort_graph_nodes cfg g c = some (l, c')) (key : ConstSocketPair) :
    (Map.find c'.func_entry_map key).isSome ↔ g.function_input key := by
  have hperm := sort_graph_nodes_perm cfg g c c' l h
  unfold sort_graph_nodes at h
  split at h
  · exact absurd h (by simp)
  · rename_i st hloop
    simp only [Option.some.injEq, Prod.mk.injEq] at h
    obtain ⟨rfl, rfl⟩ := h
    have h0 : SortState.registered g ⟨[], [], c.func_entry_map⟩ := by
      rw [hempty]
      exact ⟨fun key hk => by simp [Map.find] at hk, fun n hn => absurd hn (List.not_mem_nil _)⟩
    obtain ⟨q1, _⟩ := sort_graph_nodes_loop_registered cfg g _ _ _ hloop h0
    constructor
    · exact q1.1 key
    · rintro ⟨n, inst, socket, hn, hs, hf, rfl⟩
      have hlt : n < g.nodes.length := by
        unfold NodeGraph.node at hn
        exact (List.getElem?_eq_some_iff.1 hn).1
      exact q1.2 n (hperm.mem_iff.2 (List.mem_range.2 hlt)) inst hn socket hs hf

/-! ## The life of a Function Info entry -/

theorem codegen_subgraph_outputs_length (cfg : Config) (g : NodeGraph) (nodes : NodeList)
    (users : SocketUserMap) (outs : SubgraphOutputList) (c : BVMCompiler) (entry : Nat)
    (outs' : SubgraphOutputList) (c' : BVMCompiler)
    (h : codegen_subgraph cfg g nodes users outs c = .ok (entry, outs', c')) :
    outs'.length = outs.length := by
  unfold codegen_subgraph at h
  simp only at h
  split at h
  · exact absurd h (by simp)
  · rename_i c1 oi hnodes
    split at h
    · exact absurd h (by simp)
    · rename_i outs1 c2 hres
      simp only [Except.ok.injEq, Prod.mk.injEq] at h
      obtain ⟨_, rfl, _⟩ := h
      exact (resolve_outputs_keys cfg oi _ _ _ _ hres).2.1

/-- The Function Info map after a run of `codegen_function` is the map that the
kernel loop leaves. -/
theorem codegen_function_entries (cfg : Config) (addr : Nat → Nat) (g : NodeGraph)
    (c : BVMCompiler) (fn : Function) (c' : BVMCompiler)
    (hok : codegen_function cfg addr g c = .ok (fn, c')) :
    ∃ main_nodes c1 c2,
      sort_graph_nodes cfg g c = some (main_nodes, c1) ∧
      codegen_function.kernels cfg g (count_output_users g) (c1.func_entry_map.iteration addr)
        { c1 with fn := Function.new } = .ok c2 ∧
      c'.func_entry_map = c2.func_entry_map ∧
      (∃ ws, fn.instructions = c2.fn.instructions ++ ws) ∧
      c'.stack_users.length = c2.stack_users.length ∧
      (c2.stack_overrun = true → c'.stack_overrun = true) := by
  obtain ⟨main_nodes, c1, c2, c3, oi, outs, outs', c4, hsort, hker, hnodes, hmain, hres, hret,
    hc'⟩ := codegen_function_parts cfg addr g _ fn c' hok
  obtain ⟨ml, _⟩ := main_outputs_spec cfg g _ _ hmain
  obtain ⟨rg, rl, _⟩ := resolve_outputs_keys cfg oi _ _ _ _ hres
  obtain ⟨vi, _, _⟩ := return_values_spec g _ _ _ _ hret (by rw [rl, ml])
  have ng := codegen_nodes_grows cfg g _ _ _ _ _ _ hnodes
  refine ⟨main_nodes, c1, c2, hsort, hker, ?_, ?_, ?_, ?_⟩
  · rw [hc']
    show c4.func_entry_map = _
    rw [rg.1, push_opcode_eq, append_func_entry_map, ng.1]
  · obtain ⟨_, _, _, ws1, w1⟩ := ng
    obtain ⟨_, _, _, ws2, w2⟩ := rg
    refine ⟨ws1 ++ [.opcode .OP_END] ++ ws2, ?_⟩
    rw [vi]
    show c4.fn.instructions = _
    rw [w2, push_opcode_eq, append_instructions, w1]
    simp
  · rw [hc']
    show c4.stack_users.length = _
    rw [resolve_outputs_stack_length cfg oi _ _ _ _ hres, push_opcode_eq, append_stack_users,
      codegen_nodes_stack_length cfg g _ _ _ _ _ _ hnodes]
  · intro ho
    rw [hc']
    show c4.stack_overrun = true
    refine resolve_outputs_overrun_mono cfg oi _ _ _ _ hres ?_
    rw [push_opcode_eq, append_stack_overrun]
    exact codegen_nodes_overrun_mono cfg g _ _ _ _ _ _ hnodes ho

/-- The kernel loop leaves the entries of the keys that it does not go through
as they are. -/
theorem kernels_frame (cfg : Config) (g : NodeGraph) (users : SocketUserMap)
    (key : ConstSocketPair) :
    ∀ (keys : List ConstSocketPair) (c c' : BVMCompiler),
      codegen_function.kernels cfg g users keys c = .ok c' → key ∉ keys →
      Map.find c'.func_entry_map key = Map.find c.func_entry_map key := by
  intro keys
  induction keys with
  | nil =>
    intro c c' h _
    simp only [codegen_function.kernels, Except.ok.injEq] at h
    subst h
    rfl
  | cons k rest ih =>
    intro c c' h hm
    unfold codegen_function.kernels at h
    split at h
    · exact absurd h (by simp)
    · split at h
      · exact absurd h (by simp)
      · simp only at h
        split at h
        · exact absurd h (by simp)
        · split at h
          · exact absurd h (by simp)
          · rename_i entry outs c1 hsub
            split at h
            · exact absurd h (by simp)
            · obtain ⟨⟨g1, _⟩, _⟩ := codegen_subgraph_grows cfg g _ _ _ _ _ _ _ hsub
              rw [ih _ _ h (fun hr => hm (List.mem_cons_of_mem _ hr))]
              simp only
              rw [map_find_set, if_neg (fun e => hm (by rw [← e]; exact List.mem_cons_self _ _)),
                g1]

/-- The kernel loop at the last place of a key in the list of keys: the loop
over the keys before it gives a compiler, on which the expression nodes of the
key are compiled with the link of the socket (or its default value) as the
single requested output; the entry that the whole loop leaves for the key holds
the entry point and the slot of the output of that call. -/
theorem kernels_last (cfg : Config) (g : NodeGraph) (users : SocketUserMap)
    (key : ConstSocketPair) :
    ∀ (keys : List ConstSocketPair) (c c' : BVMCompiler),
      codegen_function.kernels cfg g users keys c = .ok c' → key ∈ keys →
      ∃ (pre post : List ConstSocketPair) (cb : BVMCompiler) (expr_nodes : NodeList)
        (inst : NodeInstance) (socket : NodeSocket) (ii : InputInstance) (entry : Nat)
        (out : SubgraphOutput) (ca : BVMCompiler),
        keys = pre ++ key :: post ∧ key ∉ post ∧
        codegen_function.kernels cfg g users pre c = .ok cb ∧
        sort_expression_nodes g key = .ok expr_nodes ∧
        key.node.bind g.node = some inst ∧
        inst.find_input key.socket = some (socket, ii) ∧
        codegen_subgraph cfg g expr_nodes users
          [⟨inst.link key.socket, socket.default_value, cfg.BVM_STACK_INVALID⟩] cb =
          .ok (entry, [out], ca) ∧
        entry = cb.fn.instructions.length ∧
        codegen_function.kernels cfg g users post
          { ca with func_entry_map :=
              Map.set ca.func_entry_map key ⟨entry, out.stack_index⟩ } = .ok c' ∧
        Map.find c'.func_entry_map key = some ⟨entry, out.stack_index⟩ := by
  intro keys
  induction keys with
  | nil => intro c c' _ hm; exact absurd hm (List.not_mem_nil _)
  | cons k rest ih =>
    intro c c' h hm
    have h0 := h
    unfold codegen_function.kernels at h
    split at h
    · exact absurd h (by simp)
    · rename_i expr_nodes hexpr
      split at h
      · exact absurd h (by simp)
      · rename_i inst hinst
        simp only at h
        split at h
        · exact absurd h (by simp)
        · rename_i socket ii hfind
          split at h
          · exact absurd h (by simp)
          · rename_i entry outs c1 hsub
            split at h
            · exact absurd h (by simp)
            · rename_i output outs1
              by_cases hr : key ∈ rest
              · obtain ⟨pre, post, cb, en, i2, s2, ii2, e2, o2, ca, q1, q2, q3, q4, q5, q6, q7,
                  q8, q9, q10⟩ := ih _ _ h hr
                refine ⟨k :: pre, post, cb, en, i2, s2, ii2, e2, o2, ca, by rw [q1]; rfl, q2, ?_,
                  q4, q5, q6, q7, q8, q9, q10⟩
                unfold codegen_function.kernels
                simp only [hexpr, hinst, hfind, hsub]
                exact q3
              · have hk : key = k := by
                  rcases List.mem_cons.1 hm with e | e
                  · exact e
                  · exact absurd e hr
                subst hk
                have hl := codegen_subgraph_outputs_length cfg g _ _ _ _ _ _ _ hsub
                have hnil : outs1 = [] := by
                  cases outs1 with
                  | nil => rfl
                  | cons x xs => simp at hl
                subst hnil
                obtain ⟨_, he, _⟩ := codegen_subgraph_grows cfg g _ _ _ _ _ _ _ hsub
                refine ⟨[], rest, c, expr_nodes, inst, socket, ii, entry, output, c1, rfl, hr,
                  rfl, hexpr, hinst, hfind, hsub, he, h, ?_⟩
                rw [kernels_frame cfg g users key _ _ _ h hr]
                simp only
                rw [map_find_set, if_pos rfl]

/-- C22: on a fresh compiler, `sort_graph_nodes` returns for a graph whose links
come from nodes of the graph, and the keys of the Function Info map that it
leaves are exactly the function-typed input sockets of the nodes of the graph.
A run of `codegen_function` that returns keeps exactly these keys.  For each of
them, split the keys of the map after the sort, in the order of the loop, at the
last place of the key: the kernel loop over the keys before it gives a compiler;
on this compiler `codegen_subgraph` compiles the expression nodes of the socket,
with the link of the socket (or its default value) as the single requested
output; the entry point that this call returns, which is the length of the
stream at the call, and the stack slot of its output are the entry of the key in
the map after the run. -/
theorem function_info_lifecycle (cfg : Config) (addr : Nat → Nat) (g : NodeGraph) :
    (g.closed → ∃ l c1, sort_graph_nodes cfg g (BVMCompiler.new cfg) = some (l, c1)) ∧
    (∀ (l : NodeList) (c1 : BVMCompiler),
      sort_graph_nodes cfg g (BVMCompiler.new cfg) = some (l, c1) →
      ∀ key, (Map.find c1.func_entry_map key).isSome ↔ g.function_input key) ∧
    (g.closed → codegen_function cfg addr g (BVMCompiler.new cfg) ≠ .error .no_termination) ∧
    ∀ (fn : Function) (c' : BVMCompiler),
      codegen_function cfg addr g (BVMCompiler.new cfg) = .ok (fn, c') →
      (∀ key, (Map.find c'.func_entry_map key).isSome ↔ g.function_input key) ∧
      ∃ (main_nodes : NodeList) (c1 : BVMCompiler),
        sort_graph_nodes cfg g (BVMCompiler.new cfg) = some (main_nodes, c1) ∧
        ∀ key, g.function_input key →
          ∃ (pre post : List ConstSocketPair) (cb : BVMCompiler) (expr_nodes : NodeList)
            (inst : NodeInstance) (socket : NodeSocket) (ii : InputInstance) (entry : Nat)
            (out : SubgraphOutput) (ca : BVMCompiler),
            c1.func_entry_map.iteration addr = pre ++ key :: post ∧ key ∉ post ∧
            codegen_function.kernels cfg g (count_output_users g) pre
              { c1 with fn := Function.new } = .ok cb ∧
            sort_expression_nodes g key = .ok expr_nodes ∧
            key.node.bind g.node = some inst ∧
            inst.find_input key.socket = some (socket, ii) ∧
            codegen_subgraph cfg g expr_nodes (count_output_users g)
              [⟨inst.link key.socket, socket.default_value, cfg.BVM_STACK_INVALID⟩] cb =
              .ok (entry, [out], ca) ∧
            entry = cb.fn.instructions.length ∧
            Map.find c'.func_entry_map key = some ⟨entry, out.stack_index⟩ := by
  refine ⟨?_, ?_, codegen_function_fault cfg addr g _, ?_⟩
  · intro hclosed
    obtain ⟨st, e⟩ := sort_graph_nodes_loop_returns cfg g hclosed g.node_ids
      ⟨[], [], (BVMCompiler.new cfg).func_entry_map⟩ (fun n hn => List.mem_range.1 hn)
      (fun x hx => absurd hx (List.not_mem_nil _))
    refine ⟨st.sorted_nodes, { BVMCompiler.new cfg with func_entry_map := st.func_entry_map }, ?_⟩
    unfold sort_graph_nodes
    rw [e]
  · intro l c1 h key
    exact sort_graph_nodes_keys cfg g _ c1 l rfl h key
  · intro fn c' hok
    obtain ⟨main_nodes, c1, c2, hsort, hker, hmap, _, _, _⟩ :=
      codegen_function_entries cfg addr g _ fn c' hok
    have hkeys : ∀ key, (Map.find c'.func_entry_map key).isSome ↔ g.function_input key := by
      intro key
      rw [hmap, kernels_keys cfg g _ _ _ _ hker key,
        ← sort_graph_nodes_keys cfg g _ c1 main_nodes rfl hsort key]
      constructor
      · rintro (h | h)
        · exact find_of_mem_iteration addr key _ h
        · exact h
      · exact fun h => Or.inr h
    refine ⟨hkeys, main_nodes, c1, hsort, ?_⟩
    intro key hkey
    obtain ⟨info, hinfo⟩ := Option.isSome_iff_exists.1
      ((sort_graph_nodes_keys cfg g _ c1 main_nodes rfl hsort key).2 hkey)
    obtain ⟨pre, post, cb, en, inst, socket, ii, entry, out, ca, q1, q2, q3, q4, q5, q6, q7, q8,
      _, q10⟩ := kernels_last cfg g _ key _ _ _ hker (mem_iteration_of_find addr key info _ hinfo)
    exact ⟨pre, post, cb, en, inst, socket, ii, entry, out, ca, q1, q2, q3, q4, q5, q6, q7, q8,
      by rw [hmap]; exact q10⟩

theorem function_info_lifecycle_witness :
    kernel_graph.closed ∧ kernel_graph.function_input ⟨some 0, "factor"⟩ ∧
    codegen_function small_config id kernel_graph (BVMCompiler.new small_config) =
      .ok (kernel_function, kernel_compiler) ∧
    Map.find kernel_compiler.func_entry_map ⟨some 0, "factor"⟩ = some ⟨0, 1⟩ ∧
    (∃ l c1, sort_graph_nodes small_config kernel_graph (BVMCompiler.new small_config) =
      some (l, c1)) ∧
    codegen_function small_config id kernel_graph (BVMCompiler.new small_config) ≠
      .error .no_termination ∧
    (∀ key, (Map.find kernel_compiler.func_entry_map key).isSome ↔
      kernel_graph.function_input key) ∧
    ∃ (main_nodes : NodeList) (c1 : BVMCompiler),
      sort_graph_nodes small_config kernel_graph (BVMCompiler.new small_config) =
        some (main_nodes, c1) ∧
      ∀ key, kernel_graph.function_input key →
        ∃ (pre post : List ConstSocketPair) (cb : BVMCompiler) (expr_nodes : NodeList)
          (inst : NodeInstance) (socket : NodeSocket) (ii : InputInstance) (entry : Nat)
          (out : SubgraphOutput) (ca : BVMCompiler),
          c1.func_entry_map.iteration id = pre ++ key :: post ∧ key ∉ post ∧
          codegen_function.kernels small_config kernel_graph (count_output_users kernel_graph)
            pre { c1 with fn := Function.new } = .ok cb ∧
          sort_expression_nodes kernel_graph key = .ok expr_nodes ∧
          key.node.bind kernel_graph.node = some inst ∧
          inst.find_input key.socket = some (socket, ii) ∧
          codegen_subgraph small_config kernel_graph expr_nodes
            (count_output_users kernel_graph)
            [⟨inst.link key.socket, socket.default_value, small_config.BVM_STACK_INVALID⟩] cb =
            .ok (entry, [out], ca) ∧
          entry = cb.fn.instructions.length ∧
          Map.find kernel_compiler.func_entry_map key = some ⟨entry, out.stack_index⟩ :=
  ⟨kernel_graph_closed,
   ⟨0, _, ⟨"factor", ⟨.BVM_FLOAT⟩, some (.float ⟨0⟩), .VALUE_FUNCTION⟩, rfl,
     List.mem_singleton.2 rfl, rfl, rfl⟩,
   by rfl, by rfl,
   (function_info_lifecycle small_config id kernel_graph).1 kernel_graph_closed,
   (function_info_lifecycle small_config id kernel_graph).2.2.1 kernel_graph_closed,
   (function_info_lifecycle small_config id kernel_graph).2.2.2 kernel_function
     kernel_compiler (by rfl)⟩

/-! ## A function-typed input without a link -/

/-- The subgraph of a requested output without a key and with no nodes: the end
marker, then the load of the value of the output. -/
theorem codegen_subgraph_default (cfg : Config) (g : NodeGraph) (users : SocketUserMap)
    (s : String) (dv : Option Value) (idx : Nat) (cb : BVMCompiler) (entry : Nat)
    (outs' : SubgraphOutputList) (ca : BVMCompiler)
    (h : codegen_subgraph cfg g [] users [⟨⟨none, s⟩, dv, idx⟩] cb = .ok (entry, outs', ca)) :
    ∃ v, dv = some v ∧ entry = cb.fn.instructions.length ∧
      outs' = [⟨⟨none, s⟩, dv, (codegen_value cfg (push_opcode cb .OP_END) v).1⟩] ∧
      ca = (codegen_value cfg (push_opcode cb .OP_END) v).2 := by
  cases dv with
  | none =>
    simp [codegen_subgraph, codegen_subgraph.nodes, codegen_subgraph.resolve_outputs] at h
  | some v =>
    simp only [codegen_subgraph, codegen_subgraph.nodes, codegen_subgraph.resolve_outputs,
      Option.isSome_none, Bool.false_eq_true, if_false, Except.ok.injEq, Prod.mk.injEq] at h
    obtain ⟨h1, h2, h3⟩ := h
    exact ⟨v, rfl, h1.symm, h2.symm, h3.symm⟩

theorem find_input_function_input (g : NodeGraph) (n : Nat) (inst : NodeInstance)
    (name : String) (socket : NodeSocket) (ii : InputInstance) (hnode : g.node n = some inst)
    (hfind : inst.find_input name = some (socket, ii))
    (hfun : socket.value_type = .VALUE_FUNCTION) : g.function_input ⟨some n, name⟩ := by
  unfold NodeInstance.find_input at hfind
  have hmem := List.mem_of_find?_eq_some hfind
  have hname := List.find?_some hfind
  simp only [decide_eq_true_eq] at hname
  exact ⟨n, inst, socket, hnode, zip_inputs_fst_mem _ _ _ hmem, hfun, by rw [hname]⟩

theorem sort_graph_nodes_stack_users (cfg : Config) (g : NodeGraph) (c c' : BVMCompiler)
    (l : NodeList) (h : sort_graph_nodes cfg g c = some (l, c')) :
    c'.stack_users = c.stack_users := by
  unfold sort_graph_nodes at h
  split at h
  · exact absurd h (by simp)
  · simp only [Option.some.injEq, Prod.mk.injEq] at h
    rw [← h.2]

theorem default_kernel_graph_closed : default_kernel_graph.closed := by
  rintro n m ⟨inst, h1, inp, h2, s, h3⟩
  unfold NodeGraph.node default_kernel_graph at h1
  match n, h1 with
  | 0, h1 =>
    simp only [List.getElem?_cons_zero, Option.some.injEq] at h1
    subst h1
    simp only [NodeInstance.input_sockets, float_default_kernel_type, zip_inputs,
      List.mem_singleton] at h2
    subst h2
    simp at h3
  | n + 1, h1 => simp at h1

/-- C21, the claim as stated does not hold: in `matrix_default_graph` the
function-typed input "factor" of node 0 is not linked, and the default value of
its socket, a matrix, takes 16 slots of a stack of 8.  The compile on a fresh
compiler returns, the entry for the socket has the entry point 0, where `OP_END`
stands, but its return index is `BVM_STACK_INVALID`, and the load of the default
value carries no slot. -/
theorem codegen_function_unlinked_function_input_counterexample :
    small_config.sentinel_ok ∧
    matrix_default_graph.node 0 = some ⟨matrix_kernel_type, [⟨none, none⟩]⟩ ∧
    (NodeInstance.find_input ⟨matrix_kernel_type, [⟨none, none⟩]⟩ "factor").map
      (fun r => (r.1.value_type, r.2.link)) = some (.VALUE_FUNCTION, none) ∧
    small_config.stack_size ⟨.BVM_MATRIX44⟩ = 16 ∧ small_config.BVM_STACK_SIZE = 8 ∧
    (codegen_function small_config id matrix_default_graph
      (BVMCompiler.new small_config)).toOption.map
        (fun r => (Map.find r.2.func_entry_map ⟨some 0, "factor"⟩, r.1.instructions.take 2)) =
      some (some ⟨0, small_config.BVM_STACK_INVALID⟩,
        [.opcode .OP_END, .opcode .OP_VALUE_MATRIX44]) ∧
    (codegen_function small_config id matrix_default_graph
      (BVMCompiler.new small_config)).toOption.map (fun r => r.1.instructions.length) =
      some 21 :=
  ⟨by decide, rfl, by rfl, by rfl, rfl, by rfl, by rfl⟩

/-- C21, amended: a function-typed input socket without a link has no expression
nodes.  A run of `codegen_function` on a fresh compiler that returns leaves an
entry for the socket in the Function Info map: the entry point is an offset
inside the stream of the function, the word there is `OP_END`, and the words
after it are the load of the default value of the socket with the return index
of the entry as its slot (the slot word is left out when the return index is the
sentinel).  The return index is the sentinel or lies inside the stack; when the
run does not exhaust the stack it lies inside the stack and is not the sentinel.
(On a graph whose links come from nodes of the graph the run returns unless an
`assert` fails or a null pointer is dereferenced.  The allocator is assumed to
have a sentinel outside the stack and footprints of at least one slot.) -/
theorem codegen_function_unlinked_function_input (cfg : Config) (addr : Nat → Nat)
    (g : NodeGraph) (hsentinel : cfg.sentinel_ok) (hsizes : ∀ td, 1 ≤ cfg.stack_size td)
    (n : Nat) (inst : NodeInstance) (name : String) (socket : NodeSocket) (iv : Option Value)
    (hnode : g.node n = some inst)
    (hfind : inst.find_input name = some (socket, ⟨none, iv⟩))
    (hfun : socket.value_type = .VALUE_FUNCTION) :
    sort_expression_nodes g ⟨some n, name⟩ = .ok [] ∧
    (g.closed → codegen_function cfg addr g (BVMCompiler.new cfg) ≠ .error .no_termination) ∧
    ∀ (fn : Function) (c' : BVMCompiler),
      codegen_function cfg addr g (BVMCompiler.new cfg) = .ok (fn, c') →
      ∃ (info : FunctionInfo) (v : Value) (pre post : List Instruction),
        Map.find c'.func_entry_map ⟨some n, name⟩ = some info ∧
        socket.default_value = some v ∧
        info.entry_point < fn.instructions.length ∧
        fn.instructions[info.entry_point]? = some (.opcode .OP_END) ∧
        pre.length = info.entry_point ∧
        fn.instructions = pre ++ .opcode .OP_END :: load_words cfg v info.return_index ++ post ∧
        (info.return_index = cfg.BVM_STACK_INVALID ∨ info.return_index < cfg.BVM_STACK_SIZE) ∧
        (c'.stack_overrun = false →
          info.return_index ≠ cfg.BVM_STACK_INVALID ∧
          info.return_index < cfg.BVM_STACK_SIZE ∧
          load_words cfg v info.return_index =
            .opcode (spec_value_opcode v.typedesc.base_type) ::
              (v.words ++ [.data info.return_index])) := by
  have hkey := find_input_function_input g n inst name socket _ hnode hfind hfun
  have hexpr : sort_expression_nodes g ⟨some n, name⟩ = .ok [] := by
    simp only [sort_expression_nodes, hnode, hfind]
  refine ⟨hexpr, codegen_function_fault cfg addr g _, ?_⟩
  intro fn c' hok
  obtain ⟨main_nodes, c1, c2, hsort, hker, hmap, ⟨wsf, hwf⟩, _, hov⟩ :=
    codegen_function_entries cfg addr g _ fn c' hok
  have hsome : (Map.find c2.func_entry_map ⟨some n, name⟩).isSome :=
    (kernels_keys cfg g _ _ _ _ hker _).2
      (Or.inr ((sort_graph_nodes_keys cfg g _ c1 main_nodes rfl hsort _).2 hkey))
  obtain ⟨info, hinfo⟩ := Option.isSome_iff_exists.1 hsome
  rcases kernels_entries cfg g _ _ _ _ hker _ info hinfo with ⟨hnot, hf1⟩ |
    ⟨_, cb, en, inst1, socket1, ii1, entry, out, rest, ca, q1, q2, q3, q4, q5, q6, _,
      ⟨ws8, q8⟩, q9⟩
  · exact absurd (mem_iteration_of_find addr _ info _ hf1) hnot
  · rw [hexpr] at q1
    simp only [Except.ok.injEq] at q1
    subst q1
    have q2' : g.node n = some inst1 := q2
    rw [hnode] at q2'
    simp only [Option.some.injEq] at q2'
    subst q2'
    simp only at q3 q4
    rw [hfind] at q3
    simp only [Option.some.injEq, Prod.mk.injEq] at q3
    obtain ⟨rfl, rfl⟩ := q3
    have hlink : inst.link name = ⟨none, ""⟩ := by
      simp only [NodeInstance.link, hfind]
    rw [hlink] at q4
    obtain ⟨v, hv, he, ho, hca⟩ := codegen_subgraph_default cfg g _ _ _ _ _ _ _ _ q4
    simp only [List.cons.injEq] at ho
    obtain ⟨ho, _⟩ := ho
    have hslot : info.return_index = (codegen_value cfg (push_opcode cb .OP_END) v).1 := by
      rw [q5, ho]
    have hentry : info.entry_point = cb.fn.instructions.length := by
      rw [q5, ← he]
    have hlenb : (push_opcode cb .OP_END).stack_users.length = cfg.BVM_STACK_SIZE := by
      rw [push_opcode_eq, append_stack_users, q6]
      show c1.stack_users.length = _
      rw [sort_graph_nodes_stack_users cfg g _ _ _ hsort]
      simp [BVMCompiler.new]
    have h1 : (codegen_value cfg (push_opcode cb .OP_END) v).1 =
        find_stack_index cfg (push_opcode cb .OP_END) (cfg.stack_size v.typedesc) := by
      rw [codegen_value_eq]
      rfl
    have hs : (((cfg.stack_size v.typedesc).toNat : Nat) : Int) = cfg.stack_size v.typedesc :=
      Int.toNat_of_nonneg (by have := hsizes v.typedesc; omega)
    have hs1 : 1 ≤ (cfg.stack_size v.typedesc).toNat := by
      have := hsizes v.typedesc
      omega
    have hcases : (info.return_index = cfg.BVM_STACK_INVALID ∧
          (codegen_value cfg (push_opcode cb .OP_END) v).2.stack_overrun = true) ∨
        info.return_index < cfg.BVM_STACK_SIZE := by
      rw [hslot, h1]
      rcases find_stack_index_spec cfg (push_opcode cb .OP_END) _ hs1 hlenb with
        ⟨hfit, _⟩ | ⟨hinv, _⟩
      · rw [hs] at hfit
        right
        omega
      · rw [hs] at hinv
        have hbad := assign_stack_index_overrun_of_invalid cfg (push_opcode cb .OP_END)
          v.typedesc hsentinel hlenb (hsizes _) hinv
        left
        refine ⟨hinv, ?_⟩
        rw [codegen_value_eq]
        simp only [append_stack_overrun]
        exact hbad
    have hwords : ca.fn.instructions = cb.fn.instructions ++ .opcode .OP_END ::
        load_words cfg v info.return_index := by
      have hslot1 := hslot
      rw [push_opcode_eq] at hslot1
      rw [hca, codegen_value_load_words, push_opcode_eq, append_instructions, ← hslot1]
      simp
    have hsplit : fn.instructions = cb.fn.instructions ++ .opcode .OP_END ::
        load_words cfg v info.return_index ++ (ws8 ++ wsf) := by
      rw [hwf, q8, hwords]
      simp
    refine ⟨info, v, cb.fn.instructions, ws8 ++ wsf, ?_, hv, ?_, ?_, hentry.symm, hsplit, ?_, ?_⟩
    · rw [hmap]
      exact hinfo
    · rw [hsplit, hentry]
      simp
    · rw [hsplit, hentry, List.append_assoc, List.getElem?_append_right (le_refl _),
        Nat.sub_self]
      rfl
    · rcases hcases with h | h
      · exact Or.inl h.1
      · exact Or.inr h
    · intro hover
      have hvalid : info.return_index < cfg.BVM_STACK_SIZE := by
        rcases hcases with ⟨_, hbad⟩ | h
        · rw [← hca] at hbad
          rw [hov (q9 hbad)] at hover
          exact absurd hover (by simp)
        · exact h
      have hne : info.return_index ≠ cfg.BVM_STACK_INVALID := by
        have := hsentinel.1
        omega
      refine ⟨hne, hvalid, ?_⟩
      simp [load_words, slot_word, hne]

theorem codegen_function_unlinked_function_input_witness :
    (codegen_function small_config id default_kernel_graph (BVMCompiler.new small_config) =
        .ok (default_kernel_function, default_kernel_compiler) ∧
      default_kernel_compiler.stack_overrun = false ∧
      Map.find default_kernel_compiler.func_entry_map ⟨some 0, "factor"⟩ = some ⟨0, 0⟩) ∧
    sort_expression_nodes default_kernel_graph ⟨some 0, "factor"⟩ = .ok [] ∧
    codegen_function small_config id default_kernel_graph (BVMCompiler.new small_config) ≠
      .error .no_termination ∧
    ∃ (info : FunctionInfo) (v : Value) (pre post : List Instruction),
      Map.find default_kernel_compiler.func_entry_map ⟨some 0, "factor"⟩ = some info ∧
      some (Value.float ⟨0x3f000000⟩) = some v ∧
      info.entry_point < default_kernel_function.instructions.length ∧
      default_kernel_function.instructions[info.entry_point]? = some (.opcode .OP_END) ∧
      pre.length = info.entry_point ∧
      default_kernel_function.instructions =
        pre ++ .opcode .OP_END :: load_words small_config v info.return_index ++ post ∧
      (info.return_index = small_config.BVM_STACK_INVALID ∨
        info.return_index < small_config.BVM_STACK_SIZE) ∧
      (default_kernel_compiler.stack_overrun = false →
        info.return_index ≠ small_config.BVM_STACK_INVALID ∧
        info.return_index < small_config.BVM_STACK_SIZE ∧
        load_words small_config v info.return_index =
          .opcode (spec_value_opcode v.typedesc.base_type) ::
            (v.words ++ [.data info.return_index])) :=
  ⟨⟨by rfl, rfl, by rfl⟩,
   (codegen_function_unlinked_function_input small_config id default_kernel_graph (by decide)
     example_stack_size_pos 0 ⟨float_default_kernel_type, [⟨none, none⟩]⟩ "factor"
     ⟨"factor", ⟨.BVM_FLOAT⟩, some (.float ⟨0x3f000000⟩), .VALUE_FUNCTION⟩ none
     (by rfl) (by rfl) rfl).1,
   (codegen_function_unlinked_function_input small_config id default_kernel_graph (by decide)
     example_stack_size_pos 0 ⟨float_default_kernel_type, [⟨none, none⟩]⟩ "factor"
     ⟨"factor", ⟨.BVM_FLOAT⟩, some (.float ⟨0x3f000000⟩), .VALUE_FUNCTION⟩ none
     (by rfl) (by rfl) rfl).2.1 default_kernel_graph_closed,
   (codegen_function_unlinked_function_input small_config id default_kernel_graph (by decide)
     example_stack_size_pos 0 ⟨float_default_kernel_type, [⟨none, none⟩]⟩ "factor"
     ⟨"factor", ⟨.BVM_FLOAT⟩, some (.float ⟨0x3f000000⟩), .VALUE_FUNCTION⟩ none
     (by rfl) (by rfl) rfl).2.2 default_kernel_function default_kernel_compiler (by rfl)⟩

/-! ## Footprints that are not positive -/

/-- The search loop never returns a slot for a size that is not positive: the
count of free slots is at least 1 whenever it is compared with the size. -/
theorem find_stack_index_loop_nonpositive (cfg : Config) (stack_users : List Nat) (size : Int)
    (hsize : size ≤ 0) :
    ∀ (n i : Nat) (unused : Int), 0 ≤ unused →
      find_stack_index.loop cfg stack_users size n i unused = cfg.BVM_STACK_INVALID := by
  intro n
  induction n with
  | zero => intro i unused _; rfl
  | succ n ih =>
    intro i unused hu
    unfold find_stack_index.loop
    split
    · split
      · omega
      · exact ih _ _ (by omega)
    · exact ih _ _ (le_refl _)

/-- C36: for every slot-usage table, `find_stack_index` with a size that is not
positive returns `BVM_STACK_INVALID`, also when every slot is free; so
`assign_stack_index` returns the sentinel for every type whose footprint is not
positive. -/
theorem find_stack_index_nonpositive (cfg : Config) (c : BVMCompiler) (size : Int)
    (hsize : size ≤ 0) :
    find_stack_index cfg c size = cfg.BVM_STACK_INVALID ∧
    ∀ td, cfg.stack_size td = size →
      (assign_stack_index cfg c td).1 = cfg.BVM_STACK_INVALID := by
  have h := find_stack_index_loop_nonpositive cfg c.stack_users size hsize cfg.BVM_STACK_SIZE 0 0
    (le_refl _)
  refine ⟨h, ?_⟩
  intro td htd
  rw [assign_stack_index_fst, htd]
  exact h

theorem find_stack_index_nonpositive_witness :
    (BVMCompiler.new small_config).stack_users = [0, 0, 0, 0, 0, 0, 0, 0] ∧
    find_stack_index small_config (BVMCompiler.new small_config) 1 = 0 ∧
    find_stack_index small_config (BVMCompiler.new small_config) 0 = 0xFFFFFFFF ∧
    (find_stack_index small_config (BVMCompiler.new small_config) 0 =
        small_config.BVM_STACK_INVALID ∧
      ∀ td, small_config.stack_size td = 0 →
        (assign_stack_index small_config (BVMCompiler.new small_config) td).1 =
          small_config.BVM_STACK_INVALID) :=
  ⟨by decide, by decide, by decide,
   find_stack_index_nonpositive small_config (BVMCompiler.new small_config) 0 (le_refl _)⟩

/-! ## Nodes without an opcode -/

/-- A node whose type name maps to `OP_NOOP` leaves the compiler and the
output-index map as they are. -/
theorem codegen_node_noop (cfg : Config) (g : NodeGraph) (users : SocketUserMap) (id : Nat)
    (h : g.maps_to_noop cfg id = true) (c : BVMCompiler) (oi : SocketIndexMap) :
    codegen_subgraph.node cfg g users id c oi = .ok (c, oi) := by
  unfold NodeGraph.maps_to_noop at h
  unfold codegen_subgraph.node
  split at h
  · rename_i node hnode
    rw [hnode]
    simp only [decide_eq_true_eq] at h
    simp [h]
  · exact absurd h (by simp)

theorem codegen_nodes_remove_noop (cfg : Config) (g : NodeGraph) (users : SocketUserMap) :
    ∀ (nodes : NodeList) (c : BVMCompiler) (oi : SocketIndexMap),
      codegen_subgraph.nodes cfg g users nodes c oi =
        codegen_subgraph.nodes cfg g users (remove_noop_nodes cfg g nodes) c oi := by
  intro nodes
  induction nodes with
  | nil => intro c oi; rfl
  | cons id rest ih =>
    intro c oi
    unfold remove_noop_nodes at ih ⊢
    cases hn : g.maps_to_noop cfg id with
    | true =>
      rw [List.filter_cons_of_neg (by simp [hn])]
      rw [← ih]
      simp only [codegen_subgraph.nodes, codegen_node_noop cfg g users id hn]
    | false =>
      rw [List.filter_cons_of_pos (by simp [hn])]
      simp only [codegen_subgraph.nodes]
      cases codegen_subgraph.node cfg g users id c oi with
      | error e => rfl
      | ok r =>
        obtain ⟨c1, oi1⟩ := r
        exact ih c1 oi1

/-- C31: a node whose type name maps to `OP_NOOP` is skipped by
`codegen_subgraph`: its step leaves the compiler (stream, slot-usage table) and
the output-index map as they are.  For every node list, the node loop and the
whole of `codegen_subgraph` give the same result (compiler, output-index map,
entry point, slots of the requested outputs, or fault) on the list and on the
list without the nodes that map to `OP_NOOP`. -/
theorem codegen_subgraph_skips_noop (cfg : Config) (g : NodeGraph) (users : SocketUserMap) :
    (∀ (id : Nat) (c : BVMCompiler) (oi : SocketIndexMap), g.maps_to_noop cfg id = true →
      codegen_subgraph.node cfg g users id c oi = .ok (c, oi)) ∧
    (∀ (nodes : NodeList) (c : BVMCompiler) (oi : SocketIndexMap),
      codegen_subgraph.nodes cfg g users nodes c oi =
        codegen_subgraph.nodes cfg g users (remove_noop_nodes cfg g nodes) c oi) ∧
    ∀ (nodes : NodeList) (outs : SubgraphOutputList) (c : BVMCompiler),
      codegen_subgraph cfg g nodes users outs c =
        codegen_subgraph cfg g (remove_noop_nodes cfg g nodes) users outs c := by
  refine ⟨fun id c oi h => codegen_node_noop cfg g users id h c oi,
    codegen_nodes_remove_noop cfg g users, ?_⟩
  intro nodes outs c
  unfold codegen_subgraph
  rw [← codegen_nodes_remove_noop cfg g users nodes c []]

theorem codegen_subgraph_skips_noop_witness :
    (mesh_unknown_graph.maps_to_noop small_config 0 = true ∧
      remove_noop_nodes small_config mesh_unknown_graph [2, 0, 1] = [2]) ∧
    codegen_subgraph.node small_config mesh_unknown_graph
      (count_output_users mesh_unknown_graph) 0 (BVMCompiler.new small_config) [] =
      .ok (BVMCompiler.new small_config, []) ∧
    codegen_subgraph small_config mesh_unknown_graph [2, 0, 1]
      (count_output_users mesh_unknown_graph) [] (BVMCompiler.new small_config) =
      codegen_subgraph small_config mesh_unknown_graph
        (remove_noop_nodes small_config mesh_unknown_graph [2, 0, 1])
        (count_output_users mesh_unknown_graph) [] (BVMCompiler.new small_config) :=
  ⟨⟨by decide, by decide⟩,
   (codegen_subgraph_skips_noop small_config mesh_unknown_graph
     (count_output_users mesh_unknown_graph)).1 0 (BVMCompiler.new small_config) [] (by decide),
   (codegen_subgraph_skips_noop small_config mesh_unknown_graph
     (count_output_users mesh_unknown_graph)).2.2 [2, 0, 1] [] (BVMCompiler.new small_config)⟩

/-! ## Use-counts: pass-through nodes, skipped nodes, and the map of the caller -/

/-- C35: in `count_output_users` the use-count of a socket is the sum over the
nodes of the graph of what each node adds, plus the declared graph inputs and
outputs with that key.  A pass-through node adds nothing, whatever its links;
any other node adds the number of its inputs linked to the socket, also when its
type name maps to `OP_NOOP`, although `codegen_subgraph` then leaves the stream
as it is for that node and so emits no release for these links. -/
theorem count_output_users_pass_and_noop (cfg : Config) (g : NodeGraph)
    (key : ConstSocketPair) :
    (Map.find (count_output_users g) key).getD 0 =
      (g.nodes.map (counted_at key)).sum + declared_inputs g key + declared_outputs g key ∧
    (∀ node : NodeInstance, node.type.is_pass_node = true → counted_at key node = 0) ∧
    (∀ node : NodeInstance, node.type.is_pass_node = false →
      counted_at key node = links_in key node) ∧
    ∀ (id : Nat) (node : NodeInstance), g.node id = some node →
      cfg.get_opcode_from_node_type node.type.name = .OP_NOOP →
      released_by cfg key node = 0 ∧
      ∀ (users : SocketUserMap) (c : BVMCompiler) (oi : SocketIndexMap),
        codegen_subgraph.node cfg g users id c oi = .ok (c, oi) := by
  refine ⟨count_output_users_getD g key, ?_, ?_, ?_⟩
  · intro node hp
    simp [counted_at, hp]
  · intro node hp
    simp [counted_at, hp]
  · intro id node hnode hop
    refine ⟨by simp [released_by, hop], ?_⟩
    intro users c oi
    exact codegen_node_noop cfg g users id (by simp [NodeGraph.maps_to_noop, hnode, hop]) c oi

theorem count_output_users_pass_and_noop_witness :
    (links_in ⟨some 1, "value"⟩ ⟨float_pass_type, [⟨some (1, "value"), none⟩]⟩ = 1 ∧
      Map.find (count_output_users pass_graph) ⟨some 1, "value"⟩ = some 0) ∧
    (links_in ⟨some 2, "mesh"⟩ ⟨mesh_unknown_type, [⟨some (2, "mesh"), none⟩]⟩ = 1 ∧
      mesh_unknown_type.is_pass_node = false ∧
      Map.find (count_output_users mesh_unknown_graph) ⟨some 2, "mesh"⟩ = some 2) ∧
    released_by small_config ⟨some 2, "mesh"⟩
      ⟨mesh_unknown_type, [⟨some (2, "mesh"), none⟩]⟩ = 0 ∧
    ∀ (users : SocketUserMap) (c : BVMCompiler) (oi : SocketIndexMap),
      codegen_subgraph.node small_config mesh_unknown_graph users 0 c oi = .ok (c, oi) :=
  ⟨⟨by decide, by decide⟩, ⟨by decide, rfl, by decide⟩,
   (count_output_users_pass_and_noop small_config mesh_unknown_graph ⟨some 2, "mesh"⟩).2.2.2 0
     ⟨mesh_unknown_type, [⟨some (2, "mesh"), none⟩]⟩ rfl (by decide)⟩

theorem count_output_users_eq_loops (g : NodeGraph) :
    count_output_users g = count_output_users.loops g [] := rfl

/-- With an entry in the use-count map for every output, the initialization of
the outputs of a node never stops at the `assert`. -/
theorem init_outputs_returns (cfg : Config) (node : Nat) (users : SocketUserMap) :
    ∀ (outs : List NodeSocket),
      (∀ out ∈ outs, (Map.find users ⟨some node, out.name⟩).isSome) →
      ∀ (c : BVMCompiler) (oi : SocketIndexMap),
        ∃ r, codegen_subgraph.init_outputs cfg node users outs c oi = .ok r := by
  intro outs
  induction outs with
  | nil => intro _ c oi; exact ⟨(c, oi), rfl⟩
  | cons out rest ih =>
    intro hall c oi
    have hrest : ∀ o ∈ rest, (Map.find users ⟨some node, o.name⟩).isSome :=
      fun o ho => hall o (List.mem_cons_of_mem _ ho)
    obtain ⟨u, hu⟩ := Option.isSome_iff_exists.1 (hall out (List.mem_cons_self _ _))
    unfold codegen_subgraph.init_outputs
    simp only [hu]
    split
    · split
      · exact ih hrest _ _
      · exact ih hrest _ _
    · exact ih hrest _ _

/-- C37: a call of `count_output_users` clears the map of the caller, so its
result does not depend on what the map held, and a second call on the same graph
gives the map of the first.  The result has an entry for every output socket of
every node of the graph, with the number of counted links, declared graph inputs
and declared graph outputs of the socket (0 when there are none); so the
initialization of the outputs of a node of the graph in `codegen_subgraph`, which
looks up the use-count of every mesh-typed output, always finds it. -/
theorem count_output_users_total (cfg : Config) (g : NodeGraph) :
    (∀ users : SocketUserMap, count_output_users.call g users = count_output_users g) ∧
    (∀ users : SocketUserMap,
      count_output_users.call g (count_output_users.call g users) =
        count_output_users.call g users) ∧
    (∀ (n : Nat) (inst : NodeInstance) (out : NodeSocket), g.node n = some inst →
      out ∈ inst.type.outputs →
      Map.find (count_output_users g) ⟨some n, out.name⟩ =
        some (counted_links g ⟨some n, out.name⟩ + declared_inputs g ⟨some n, out.name⟩ +
          declared_outputs g ⟨some n, out.name⟩)) ∧
    ∀ (n : Nat) (inst : NodeInstance), g.node n = some inst →
      ∀ (c : BVMCompiler) (oi : SocketIndexMap),
        ∃ r, codegen_subgraph.init_outputs cfg n (count_output_users g) inst.type.outputs c oi =
          .ok r := by
  refine ⟨fun users => rfl, fun users => rfl, ?_, ?_⟩
  · intro n inst out hn ho
    have h1 := count_output_users_isSome g n inst out hn ho
    have h2 := count_output_users_getD g ⟨some n, out.name⟩
    obtain ⟨v, hv⟩ := Option.isSome_iff_exists.1 h1
    rw [hv] at h2 ⊢
    simp only [Option.getD_some] at h2
    rw [h2]
    rfl
  · intro n inst hn c oi
    exact init_outputs_returns cfg n (count_output_users g) inst.type.outputs
      (fun out ho => count_output_users_isSome g n inst out hn ho) c oi

theorem count_output_users_total_witness :
    (count_output_users.loops mesh_unknown_graph [(⟨none, "stale"⟩, 7)] ≠
        count_output_users mesh_unknown_graph ∧
      count_output_users.call mesh_unknown_graph [(⟨none, "stale"⟩, 7)] =
        count_output_users mesh_unknown_graph) ∧
    (counted_links mesh_unknown_graph ⟨some 0, "mesh_out"⟩ = 0 ∧
      declared_inputs mesh_unknown_graph ⟨some 0, "mesh_out"⟩ = 0 ∧
      declared_outputs mesh_unknown_graph ⟨some 0, "mesh_out"⟩ = 0) ∧
    Map.find (count_output_users mesh_unknown_graph) ⟨some 0, "mesh_out"⟩ =
      some (counted_links mesh_unknown_graph ⟨some 0, "mesh_out"⟩ +
        declared_inputs mesh_unknown_graph ⟨some 0, "mesh_out"⟩ +
        declared_outputs mesh_unknown_graph ⟨some 0, "mesh_out"⟩) ∧
    ∀ (c : BVMCompiler) (oi : SocketIndexMap),
      ∃ r, codegen_subgraph.init_outputs small_config 0 (count_output_users mesh_unknown_graph)
        mesh_unknown_type.outputs c oi = .ok r :=
  ⟨⟨by decide, by decide⟩, ⟨by decide, by decide, by decide⟩,
   (count_output_users_total small_config mesh_unknown_graph).2.2.1 0
     ⟨mesh_unknown_type, [⟨some (2, "mesh"), none⟩]⟩
     ⟨"mesh_out", ⟨.BVM_MESH⟩, some .mesh, .VALUE_VARIABLE⟩ rfl (by simp [mesh_unknown_type]),
   (count_output_users_total small_config mesh_unknown_graph).2.2.2 0
     ⟨mesh_unknown_type, [⟨some (2, "mesh"), none⟩]⟩ rfl⟩

/-! ## Expression nodes that read a kernel node -/

/-- The list of `sort_expression_nodes` holds no kernel node. -/
theorem sort_expression_nodes_no_kernel (g : NodeGraph) (key : ConstSocketPair) (l : NodeList)
    (h : sort_expression_nodes g key = .ok l) : ∀ n ∈ l, ¬ g.is_kernel n := by
  unfold sort_expression_nodes at h
  split at h
  · exact absurd h (by simp)
  · split at h
    · exact absurd h (by simp)
    · split at h
      · rename_i link_node _ _ _
        split at h
        · exact absurd h (by simp)
        · rename_i sorted_nodes visited he
          simp only [Except.ok.injEq] at h
          subst h
          have hi0 : expr_inv g (fun _ => True) ([], []) :=
            ⟨fun x hx => absurd hx (List.not_mem_nil _), List.nodup_nil,
             fun x hx => absurd hx (List.not_mem_nil _),
             fun x hx => absurd hx (List.not_mem_nil _)⟩
          obtain ⟨⟨b1, _, b3, _⟩, _, _⟩ :=
            expression_node_append_inv g (fun _ => True) (fun _ _ _ _ _ => trivial) _
              link_node _ _ he hi0 (Or.inr trivial)
          exact fun n hn => (b3 n (b1 n hn)).1
      · simp only [Except.ok.injEq] at h
        subst h
        exact fun n hn => absurd hn (List.not_mem_nil _)

theorem codegen_nodes_append (cfg : Config) (g : NodeGraph) (users : SocketUserMap) :
    ∀ (xs ys : NodeList) (c : BVMCompiler) (oi : SocketIndexMap),
      codegen_subgraph.nodes cfg g users (xs ++ ys) c oi =
        match codegen_subgraph.nodes cfg g users xs c oi with
        | .error e => .error e
        | .ok (c1, oi1) => codegen_subgraph.nodes cfg g users ys c1 oi1 := by
  intro xs
  induction xs with
  | nil => intro ys c oi; rfl
  | cons x xs ih =>
    intro ys c oi
    simp only [List.cons_append, codegen_subgraph.nodes]
    cases codegen_subgraph.node cfg g users x c oi with
    | error e => rfl
    | ok r =>
      obtain ⟨c1, oi1⟩ := r
      exact ih ys c1 oi1

/-- The step of a node changes the output-index map at the sockets of that node
only. -/
theorem codegen_node_index_frame (cfg : Config) (g : NodeGraph) (users : SocketUserMap)
    (id : Nat) (c : BVMCompiler) (oi : SocketIndexMap) (c' : BVMCompiler) (oi' : SocketIndexMap)
    (h : codegen_subgraph.node cfg g users id c oi = .ok (c', oi')) :
    ∀ k : ConstSocketPair, k.node ≠ some id → Map.find oi' k = Map.find oi k := by
  intro k hk
  unfold codegen_subgraph.node at h
  split at h
  · exact absurd h (by simp)
  · simp only at h
    split at h
    · simp only [Except.ok.injEq, Prod.mk.injEq] at h
      rw [← h.2]
    · split at h
      · exact absurd h (by simp)
      · rename_i c1 ii hprep
        split at h
        · exact absurd h (by simp)
        · rename_i c2 oi2 hinit
          split at h
          · exact absurd h (by simp)
          · split at h
            · exact absurd h (by simp)
            · split at h
              · exact absurd h (by simp)
              · simp only [Except.ok.injEq, Prod.mk.injEq] at h
                obtain ⟨_, rfl⟩ := h
                exact init_outputs_frame cfg id users _ _ _ _ _ hinit k
                  (fun out _ e => hk (by rw [e]))

theorem codegen_nodes_index_frame (cfg : Config) (g : NodeGraph) (users : SocketUserMap) :
    ∀ (nodes : NodeList) (c : BVMCompiler) (oi : SocketIndexMap) (c' : BVMCompiler)
      (oi' : SocketIndexMap),
      codegen_subgraph.nodes cfg g users nodes c oi = .ok (c', oi') →
      ∀ k : ConstSocketPair, (∀ n ∈ nodes, k.node ≠ some n) → Map.find oi' k = Map.find oi k := by
  intro nodes
  induction nodes with
  | nil =>
    intro c oi c' oi' h k _
    simp only [codegen_subgraph.nodes, Except.ok.injEq, Prod.mk.injEq] at h
    rw [← h.2]
  | cons id rest ih =>
    intro c oi c' oi' h k hk
    unfold codegen_subgraph.nodes at h
    split at h
    · exact absurd h (by simp)
    · rename_i c1 oi1 h1
      rw [ih _ _ _ _ h k (fun n hn => hk n (List.mem_cons_of_mem _ hn)),
        codegen_node_index_frame cfg g users id _ _ _ _ h1 k (hk id (List.mem_cons_self _ _))]

/-- The input preparation stops at the failed `assert` when it comes to a linked
input whose source socket is not in the output-index map. -/
theorem prepare_inputs_missing_head (cfg : Config) (node : Nat) (oi : SocketIndexMap)
    (inp : NodeSocket × InputInstance) (K : Nat) (s : String)
    (hc : inp.1.value_type ≠ .VALUE_CONSTANT) (hf : inp.1.value_type ≠ .VALUE_FUNCTION)
    (hl : inp.2.link = some (K, s)) (hmiss : Map.find oi ⟨some K, s⟩ = none)
    (rest : List (NodeSocket × InputInstance)) (c : BVMCompiler) (ii : SocketIndexMap) :
    codegen_subgraph.prepare_inputs cfg node oi (inp :: rest) c ii = .error .assert_failed := by
  obtain ⟨input, inst⟩ := inp
  simp only at hc hf hl
  unfold codegen_subgraph.prepare_inputs
  simp only [hc, hf, hl, hmiss, or_self, if_false]
  split <;> rfl

theorem prepare_inputs_missing (cfg : Config) (node : Nat) (oi : SocketIndexMap)
    (inp : NodeSocket × InputInstance) (K : Nat) (s : String)
    (hc : inp.1.value_type ≠ .VALUE_CONSTANT) (hf : inp.1.value_type ≠ .VALUE_FUNCTION)
    (hl : inp.2.link = some (K, s)) (hmiss : Map.find oi ⟨some K, s⟩ = none) :
    ∀ (inputs : List (NodeSocket × InputInstance)) (c : BVMCompiler) (ii : SocketIndexMap),
      inp ∈ inputs → ∃ e, codegen_subgraph.prepare_inputs cfg node oi inputs c ii = .error e := by
  intro inputs c ii hmem
  obtain ⟨pre, post, rfl⟩ := List.append_of_mem hmem
  rw [prepare_inputs_append]
  cases codegen_subgraph.prepare_inputs cfg node oi pre c ii with
  | error e => exact ⟨e, rfl⟩
  | ok r =>
    obtain ⟨c1, ii1⟩ := r
    exact ⟨.assert_failed, prepare_inputs_missing_head cfg node oi inp K s hc hf hl hmiss _ _ _⟩

/-- The step of a node with a mapped opcode that has a linked input whose source
socket is not in the output-index map does not return; it stops at the failed
`assert` when the inputs before that one are prepared without fault. -/
theorem codegen_node_missing (cfg : Config) (g : NodeGraph) (users : SocketUserMap)
    (N : Nat) (inst : NodeInstance) (hnode : g.node N = some inst)
    (hmapped : cfg.get_opcode_from_node_type inst.type.name ≠ .OP_NOOP)
    (inp : NodeSocket × InputInstance) (K : Nat) (s : String)
    (hc : inp.1.value_type ≠ .VALUE_CONSTANT) (hf : inp.1.value_type ≠ .VALUE_FUNCTION)
    (hl : inp.2.link = some (K, s)) (c : BVMCompiler) (oi : SocketIndexMap)
    (hmiss : Map.find oi ⟨some K, s⟩ = none) :
    (inp ∈ inst.input_sockets → ∃ e, codegen_subgraph.node cfg g users N c oi = .error e) ∧
    ∀ ipre ipost c3 ii3, inst.input_sockets = ipre ++ inp :: ipost →
      codegen_subgraph.prepare_inputs cfg N oi ipre c [] = .ok (c3, ii3) →
      codegen_subgraph.node cfg g users N c oi = .error .assert_failed := by
  constructor
  · intro hmem
    obtain ⟨e, he⟩ := prepare_inputs_missing cfg N oi inp K s hc hf hl hmiss
      inst.input_sockets c [] hmem
    refine ⟨e, ?_⟩
    unfold codegen_subgraph.node
    simp only [hnode, hmapped, if_false, he]
  · intro ipre ipost c3 ii3 hsplit hpre
    have he : codegen_subgraph.prepare_inputs cfg N oi inst.input_sockets c [] =
        .error .assert_failed := by
      rw [hsplit, prepare_inputs_append, hpre]
      exact prepare_inputs_missing_head cfg N oi inp K s hc hf hl hmiss _ _ _
    unfold codegen_subgraph.node
    simp only [hnode, hmapped, if_false, he]

/-- The node loop does not return on a list that holds a node with a mapped
opcode and a linked input whose source node is not in the list. -/
theorem codegen_nodes_missing (cfg : Config) (g : NodeGraph) (users : SocketUserMap)
    (N : Nat) (inst : NodeInstance) (hnode : g.node N = some inst)
    (hmapped : cfg.get_opcode_from_node_type inst.type.name ≠ .OP_NOOP)
    (inp : NodeSocket × InputInstance) (hinp : inp ∈ inst.input_sockets) (K : Nat) (s : String)
    (hc : inp.1.value_type ≠ .VALUE_CONSTANT) (hf : inp.1.value_type ≠ .VALUE_FUNCTION)
    (hl : inp.2.link = some (K, s)) (l : NodeList) (hN : N ∈ l) (hK : K ∉ l)
    (c : BVMCompiler) :
    ∃ e, codegen_subgraph.nodes cfg g users l c [] = .error e := by
  obtain ⟨pre, post, rfl⟩ := List.append_of_mem hN
  rw [codegen_nodes_append]
  cases hp : codegen_subgraph.nodes cfg g users pre c [] with
  | error e => exact ⟨e, rfl⟩
  | ok r =>
    obtain ⟨c2, oi2⟩ := r
    have hmiss : Map.find oi2 ⟨some K, s⟩ = none := by
      rw [codegen_nodes_index_frame cfg g users pre _ _ _ _ hp ⟨some K, s⟩
        (fun n hn e => hK (by
          simp only [Option.some.injEq] at e
          rw [e]
          exact List.mem_append_left _ hn))]
      rfl
    obtain ⟨e, he⟩ := (codegen_node_missing cfg g users N inst hnode hmapped inp K s hc hf hl
      c2 oi2 hmiss).1 hinp
    refine ⟨e, ?_⟩
    simp only [codegen_subgraph.nodes, he]

/-- A key whose step in the kernel loop does not return makes the loop not
return. -/
theorem kernels_error_of_mem (cfg : Config) (g : NodeGraph) (users : SocketUserMap)
    (key : ConstSocketPair)
    (hstep : ∀ (l : NodeList) (inst : NodeInstance) (socket : NodeSocket) (ii : InputInstance)
      (c : BVMCompiler), sort_expression_nodes g key = .ok l →
      key.node.bind g.node = some inst → inst.find_input key.socket = some (socket, ii) →
      ∃ e, codegen_subgraph cfg g l users
        [⟨inst.link key.socket, socket.default_value, cfg.BVM_STACK_INVALID⟩] c = .error e) :
    ∀ (keys : List ConstSocketPair) (c : BVMCompiler), key ∈ keys →
      ∃ e, codegen_function.kernels cfg g users keys c = .error e := by
  intro keys
  induction keys with
  | nil => intro c h; exact absurd h (List.not_mem_nil _)
  | cons k rest ih =>
    intro c hmem
    unfold codegen_function.kernels
    split
    · rename_i e _
      exact ⟨e, rfl⟩
    · rename_i expr_nodes hexpr
      split
      · exact ⟨_, rfl⟩
      · rename_i inst hinst
        simp only
        split
        · exact ⟨_, rfl⟩
        · rename_i socket ii hfind
          split
          · rename_i e _
            exact ⟨e, rfl⟩
          · rename_i entry outs c1 hsub
            split
            · exact ⟨_, rfl⟩
            · rcases List.mem_cons.1 hmem with hk | hk
              · subst hk
                obtain ⟨e, he⟩ := hstep _ _ _ _ c hexpr hinst hfind
                rw [he] at hsub
                exact absurd hsub (by simp)
              · exact ih _ hk

/-- A function-typed input whose step in the kernel loop does not return makes
`codegen_function` on a fresh compiler not return a function. -/
theorem codegen_function_error_of_key (cfg : Config) (addr : Nat → Nat) (g : NodeGraph)
    (key : ConstSocketPair) (hkey : g.function_input key)
    (hstep : ∀ (l : NodeList) (inst : NodeInstance) (socket : NodeSocket) (ii : InputInstance)
      (c : BVMCompiler), sort_expression_nodes g key = .ok l →
      key.node.bind g.node = some inst → inst.find_input key.socket = some (socket, ii) →
      ∃ e, codegen_subgraph cfg g l (count_output_users g)
        [⟨inst.link key.socket, socket.default_value, cfg.BVM_STACK_INVALID⟩] c = .error e) :
    ∃ e, codegen_function cfg addr g (BVMCompiler.new cfg) = .error e ∧
      (g.closed → e ≠ .no_termination) := by
  have hex : ∃ e, codegen_function cfg addr g (BVMCompiler.new cfg) = .error e := by
    cases hs : sort_graph_nodes cfg g (BVMCompiler.new cfg) with
    | none =>
      refine ⟨.no_termination, ?_⟩
      unfold codegen_function
      simp only [hs]
    | some r =>
      obtain ⟨main_nodes, c1⟩ := r
      obtain ⟨info, hinfo⟩ := Option.isSome_iff_exists.1
        ((sort_graph_nodes_keys cfg g _ c1 main_nodes rfl hs key).2 hkey)
      obtain ⟨e, he⟩ := kernels_error_of_mem cfg g (count_output_users g) key hstep
        (c1.func_entry_map.iteration addr) { c1 with fn := Function.new }
        (mem_iteration_of_find addr key info _ hinfo)
      refine ⟨e, ?_⟩
      unfold codegen_function
      simp only [hs, he]
  obtain ⟨e, he⟩ := hex
  refine ⟨e, he, fun hclosed hne => ?_⟩
  rw [hne] at he
  exact codegen_function_fault cfg addr g _ hclosed he

/-- C33: the list that `sort_expression_nodes` gives for an input socket holds
no kernel node.  When a listed node `N` with a mapped opcode has an input that
is neither constant nor function-typed and is linked to an output of a kernel
node `K`, the socket of `K` is not in the output-index map after the nodes
before `N`, the step of `N` does not return, and it stops at the failed `assert`
of the lookup when the inputs before that one are prepared without fault; so
`codegen_subgraph` on the list never returns, and neither does `codegen_function`
on a fresh compiler when the socket is function-typed.  When the input socket
itself is linked to an output of a kernel node, the list is empty, the requested
output is that socket of the kernel node, and `codegen_subgraph` stops at the
failed `assert` of the lookup of the requested output. -/
theorem codegen_subgraph_kernel_source_absent (cfg : Config) (addr : Nat → Nat) (g : NodeGraph)
    (id : Nat) (inst : NodeInstance) (name : String) (l : NodeList)
    (hnode : g.node id = some inst)
    (hsort : sort_expression_nodes g ⟨some id, name⟩ = .ok l) :
    (∀ K, g.is_kernel K → K ∉ l) ∧
    (∀ (N : Nat) (ninst : NodeInstance) (inp : NodeSocket × InputInstance) (K : Nat)
      (s : String), N ∈ l → g.node N = some ninst →
      cfg.get_opcode_from_node_type ninst.type.name ≠ .OP_NOOP → inp ∈ ninst.input_sockets →
      inp.1.value_type ≠ .VALUE_CONSTANT → inp.1.value_type ≠ .VALUE_FUNCTION →
      inp.2.link = some (K, s) → g.is_kernel K →
      (∀ (users : SocketUserMap) (c : BVMCompiler) (pre post : NodeList) (c2 : BVMCompiler)
        (oi2 : SocketIndexMap), l = pre ++ N :: post →
        codegen_subgraph.nodes cfg g users pre c [] = .ok (c2, oi2) →
        Map.find oi2 ⟨some K, s⟩ = none ∧
        (∃ e, codegen_subgraph.node cfg g users N c2 oi2 = .error e) ∧
        ∀ ipre ipost c3 ii3, ninst.input_sockets = ipre ++ inp :: ipost →
          codegen_subgraph.prepare_inputs cfg N oi2 ipre c2 [] = .ok (c3, ii3) →
          codegen_subgraph.node cfg g users N c2 oi2 = .error .assert_failed) ∧
      (∀ (users : SocketUserMap) (outs : SubgraphOutputList) (c : BVMCompiler),
        ∃ e, codegen_subgraph cfg g l users outs c = .error e) ∧
      (g.function_input ⟨some id, name⟩ →
        ∃ e, codegen_function cfg addr g (BVMCompiler.new cfg) = .error e ∧
          (g.closed → e ≠ .no_termination))) ∧
    ∀ (socket : NodeSocket) (K : Nat) (s : String) (v : Option Value),
      inst.find_input name = some (socket, ⟨some (K, s), v⟩) → g.is_kernel K →
      l = [] ∧ inst.link name = ⟨some K, s⟩ ∧
      (∀ (users : SocketUserMap) (dv : Option Value) (slot : Nat) (c : BVMCompiler),
        codegen_subgraph cfg g l users [⟨inst.link name, dv, slot⟩] c =
          .error .assert_failed) ∧
      (socket.value_type = .VALUE_FUNCTION →
        ∃ e, codegen_function cfg addr g (BVMCompiler.new cfg) = .error e ∧
          (g.closed → e ≠ .no_termination)) := by
  have hnk := sort_expression_nodes_no_kernel g _ l hsort
  refine ⟨fun K hK hmem => hnk K hmem hK, ?_, ?_⟩
  · intro N ninst inp K s hN hninst hmapped hinp hc hf hl hK
    have hKl : K ∉ l := fun hmem => hnk K hmem hK
    have hsub : ∀ (users : SocketUserMap) (outs : SubgraphOutputList) (c : BVMCompiler),
        ∃ e, codegen_subgraph cfg g l users outs c = .error e := by
      intro users outs c
      obtain ⟨e, he⟩ := codegen_nodes_missing cfg g users N ninst hninst hmapped inp hinp K s
        hc hf hl l hN hKl c
      refine ⟨e, ?_⟩
      unfold codegen_subgraph
      simp only [he]
    refine ⟨?_, hsub, ?_⟩
    · intro users c pre post c2 oi2 hsplit hpre
      have hmiss : Map.find oi2 ⟨some K, s⟩ = none := by
        rw [codegen_nodes_index_frame cfg g users pre _ _ _ _ hpre ⟨some K, s⟩
          (fun n hn e => hKl (by
            simp only [Option.some.injEq] at e
            rw [e, hsplit]
            exact List.mem_append_left _ hn))]
        rfl
      have hm := codegen_node_missing cfg g users N ninst hninst hmapped inp K s hc hf hl
        c2 oi2 hmiss
      exact ⟨hmiss, hm.1 hinp, hm.2⟩
    · intro hkey
      refine codegen_function_error_of_key cfg addr g _ hkey ?_
      intro l1 inst1 socket1 ii1 c h1 _ _
      rw [hsort] at h1
      simp only [Except.ok.injEq] at h1
      subst h1
      exact hsub _ _ c
  · intro socket K s v hfi hK
    obtain ⟨kinst, hk1, hk2⟩ := hK
    have hl : l = [] := by
      simp only [sort_expression_nodes, hnode, hfi, expression_node_append, hk1, hk2,
        if_true, Except.ok.injEq] at hsort
      exact hsort.symm
    have hlink : inst.link name = ⟨some K, s⟩ := by
      simp only [NodeInstance.link, hfi]
    have hsub : ∀ (users : SocketUserMap) (dv : Option Value) (slot : Nat) (c : BVMCompiler),
        codegen_subgraph cfg g l users [⟨inst.link name, dv, slot⟩] c =
          .error .assert_failed := by
      intro users dv slot c
      rw [hl, hlink]
      simp [codegen_subgraph, codegen_subgraph.nodes, codegen_subgraph.resolve_outputs, Map.find]
    refine ⟨hl, hlink, hsub, ?_⟩
    intro hfun
    refine codegen_function_error_of_key cfg addr g _
      (find_input_function_input g id inst name socket _ hnode hfi hfun) ?_
    intro l1 inst1 socket1 ii1 c h1 h2 _
    rw [hsort] at h1
    simp only [Except.ok.injEq] at h1
    subst h1
    have h2' : g.node id = some inst1 := h2
    rw [hnode] at h2'
    simp only [Option.some.injEq] at h2'
    subst h2'
    exact ⟨_, hsub _ _ _ c⟩

theorem codegen_subgraph_kernel_source_absent_witness :
    (sort_expression_nodes kernel_reader_graph ⟨some 0, "factor"⟩ = .ok [1] ∧
      sort_expression_nodes kernel_reader_graph ⟨some 2, "factor"⟩ = .ok [] ∧
      kernel_reader_graph.is_kernel 2 ∧ kernel_reader_graph.is_kernel 3 ∧
      codegen_function small_config id kernel_reader_graph (BVMCompiler.new small_config) =
        .error .assert_failed) ∧
    ((∀ (users : SocketUserMap) (c : BVMCompiler) (pre post : NodeList) (c2 : BVMCompiler)
        (oi2 : SocketIndexMap), [1] = pre ++ 1 :: post →
        codegen_subgraph.nodes small_config kernel_reader_graph users pre c [] = .ok (c2, oi2) →
        Map.find oi2 ⟨some 2, "value"⟩ = none ∧
        (∃ e, codegen_subgraph.node small_config kernel_reader_graph users 1 c2 oi2 =
          .error e) ∧
        ∀ ipre ipost c3 ii3,
          NodeInstance.input_sockets ⟨float_identity_type, [⟨some (2, "value"), none⟩]⟩ =
            ipre ++ (⟨"value", ⟨.BVM_FLOAT⟩, some (.float ⟨0⟩), .VALUE_VARIABLE⟩,
              ⟨some (2, "value"), none⟩) :: ipost →
          codegen_subgraph.prepare_inputs small_config 1 oi2 ipre c2 [] = .ok (c3, ii3) →
          codegen_subgraph.node small_config kernel_reader_graph users 1 c2 oi2 =
            .error .assert_failed) ∧
      (∀ (users : SocketUserMap) (outs : SubgraphOutputList) (c : BVMCompiler),
        ∃ e, codegen_subgraph small_config kernel_reader_graph [1] users outs c = .error e) ∧
      (kernel_reader_graph.function_input ⟨some 0, "factor"⟩ →
        ∃ e, codegen_function small_config id kernel_reader_graph
            (BVMCompiler.new small_config) = .error e ∧
          (kernel_reader_graph.closed → e ≠ .no_termination))) ∧
    ([] = ([] : NodeList) ∧
      NodeInstance.link ⟨float_kernel_type, [⟨some (3, "value"), none⟩]⟩ "factor" =
        ⟨some 3, "value"⟩ ∧
      (∀ (users : SocketUserMap) (dv : Option Value) (slot : Nat) (c : BVMCompiler),
        codegen_subgraph small_config kernel_reader_graph [] users
          [⟨NodeInstance.link ⟨float_kernel_type, [⟨some (3, "value"), none⟩]⟩ "factor", dv,
            slot⟩] c = .error .assert_failed) ∧
      (ValueType.VALUE_FUNCTION = .VALUE_FUNCTION →
        ∃ e, codegen_function small_config id kernel_reader_graph
            (BVMCompiler.new small_config) = .error e ∧
          (kernel_reader_graph.closed → e ≠ .no_termination))) :=
  ⟨⟨by rfl, by rfl, ⟨_, rfl, rfl⟩, ⟨_, rfl, rfl⟩, by rfl⟩,
   (codegen_subgraph_kernel_source_absent small_config id kernel_reader_graph 0
     ⟨float_kernel_type, [⟨some (1, "value"), none⟩]⟩ "factor" [1] rfl (by rfl)).2.1 1
     ⟨float_identity_type, [⟨some (2, "value"), none⟩]⟩
     (⟨"value", ⟨.BVM_FLOAT⟩, some (.float ⟨0⟩), .VALUE_VARIABLE⟩, ⟨some (2, "value"), none⟩)
     2 "value" (List.mem_singleton.2 rfl) rfl (by decide) (List.mem_singleton.2 rfl)
     (by decide) (by decide) rfl ⟨_, rfl, rfl⟩,
   (codegen_subgraph_kernel_source_absent small_config id kernel_reader_graph 2
     ⟨float_kernel_type, [⟨some (3, "value"), none⟩]⟩ "factor" [] rfl (by rfl)).2.2
     ⟨"factor", ⟨.BVM_FLOAT⟩, some (.float ⟨0⟩), .VALUE_FUNCTION⟩ 3 "value" none (by rfl)
     ⟨_, rfl, rfl⟩⟩

/-! ## The fill level of the slot-usage table during a compile -/

theorem codegen_value_alloc (cfg : Config) (c : BVMCompiler) (value : Value) (t : Nat)
    (hsentinel : cfg.sentinel_ok) (hsizes : ∀ td, 1 ≤ cfg.stack_size td) (h : alloc_ok cfg c t)
    (hfinal : (codegen_value cfg c value).2.stack_overrun = false) :
    (codegen_value cfg c value).1 = t ∧
    ∃ t', t < t' ∧ alloc_ok cfg (codegen_value cfg c value).2 t' := by
  obtain ⟨h1, t', _, ht', h2, _⟩ := codegen_value_spec cfg c value t hsentinel hsizes h hfinal
  exact ⟨h1, t', ht', h2⟩

theorem clean_of_mono {a b : BVMCompiler} (hmono : a.stack_overrun = true → b.stack_overrun = true)
    (hb : b.stack_overrun = false) : a.stack_overrun = false := by
  cases ha : a.stack_overrun with
  | false => rfl
  | true =>
    rw [hmono ha] at hb
    exact absurd hb (by simp)

/-- The loop that assigns the output slots, on a table whose first `t` slots are
claimed: the slots that it enters into the output-index map lie between `t` and
the new fill level. -/
theorem init_outputs_alloc (cfg : Config) (node : Nat) (users : SocketUserMap)
    (hsentinel : cfg.sentinel_ok) (hsizes : ∀ td, 1 ≤ cfg.stack_size td) :
    ∀ (outs : List NodeSocket) (c : BVMCompiler) (oi : SocketIndexMap) (c' : BVMCompiler)
      (oi' : SocketIndexMap) (t : Nat),
      codegen_subgraph.init_outputs cfg node users outs c oi = .ok (c', oi') →
      alloc_ok cfg c t → c'.stack_overrun = false →
      ∃ t', t ≤ t' ∧ alloc_ok cfg c' t' ∧ (outs ≠ [] → t < t') ∧
        ∀ k v, Map.find oi' k = some v → Map.find oi k = some v ∨ (t ≤ v ∧ v < t') := by
  intro outs
  induction outs with
  | nil =>
    intro c oi c' oi' t h ha _
    simp only [codegen_subgraph.init_outputs, Except.ok.injEq, Prod.mk.injEq] at h
    obtain ⟨rfl, rfl⟩ := h
    exact ⟨t, le_refl _, ha, fun hne => absurd rfl hne, fun k v hk => Or.inl hk⟩
  | cons out rest ih =>
    intro c oi c' oi' t h ha hfinal
    have hstep : ∃ cX : BVMCompiler,
        codegen_subgraph.init_outputs cfg node users rest cX
          (Map.set oi ⟨some node, out.name⟩ (assign_stack_index cfg c out.typedesc).1) =
          .ok (c', oi') ∧
        cX.stack_users = (assign_stack_index cfg c out.typedesc).2.stack_users ∧
        cX.stack_overrun = (assign_stack_index cfg c out.typedesc).2.stack_overrun := by
      unfold codegen_subgraph.init_outputs at h
      simp only at h
      split at h
      · split at h
        · exact absurd h (by simp)
        · split at h
          · exact ⟨_, h, by simp [push_int_eq, push_stack_index_eq, push_opcode_eq],
              by simp [push_int_eq, push_stack_index_eq, push_opcode_eq]⟩
          · exact ⟨_, h, rfl, rfl⟩
      · exact ⟨_, h, rfl, rfl⟩
    obtain ⟨cX, hrest, hsu, hso⟩ := hstep
    have hcX : cX.stack_overrun = false :=
      clean_of_mono (init_outputs_overrun_mono cfg node users _ _ _ _ _ hrest) hfinal
    obtain ⟨h1, t1, ht1, a1, a2, a3⟩ := assign_stack_index_alloc_ok cfg c out.typedesc t
      hsentinel (hsizes _) ha (by rw [← hso]; exact hcX)
    have haX : alloc_ok cfg cX t1 := ⟨by rw [hsu]; exact a1, a2, by rw [hso]; exact a3⟩
    obtain ⟨t', ht', b1, _, b3⟩ := ih _ _ _ _ t1 hrest haX hfinal
    refine ⟨t', by omega, b1, fun _ => by omega, ?_⟩
    intro k v hk
    rcases b3 k v hk with hold | hnew
    · rw [map_find_set] at hold
      split at hold
      · simp only [Option.some.injEq] at hold
        right
        omega
      · exact Or.inl hold
    · right
      omega

/-- The step of a node on a table whose first `t` slots are claimed. -/
theorem codegen_node_alloc (cfg : Config) (g : NodeGraph) (users : SocketUserMap)
    (hsentinel : cfg.sentinel_ok) (hsizes : ∀ td, 1 ≤ cfg.stack_size td)
    (id : Nat) (c : BVMCompiler) (oi : SocketIndexMap) (c' : BVMCompiler) (oi' : SocketIndexMap)
    (t : Nat) (h : codegen_subgraph.node cfg g users id c oi = .ok (c', oi'))
    (ha : alloc_ok cfg c t) (hfinal : c'.stack_overrun = false) :
    ∃ t', t ≤ t' ∧ alloc_ok cfg c' t' ∧
      (∀ inst, g.node id = some inst →
        cfg.get_opcode_from_node_type inst.type.name ≠ .OP_NOOP →
        inst.type.outputs ≠ [] → t < t') ∧
      ∀ k v, Map.find oi' k = some v → Map.find oi k = some v ∨ (t ≤ v ∧ v < t') := by
  unfold codegen_subgraph.node at h
  split at h
  · exact absurd h (by simp)
  · rename_i node hnode
    simp only at h
    split at h
    · rename_i hop
      simp only [Except.ok.injEq, Prod.mk.injEq] at h
      obtain ⟨rfl, rfl⟩ := h
      refine ⟨t, le_refl _, ha, ?_, fun k v hk => Or.inl hk⟩
      intro inst hinst hmapped _
      rw [hnode] at hinst
      simp only [Option.some.injEq] at hinst
      subst hinst
      exact absurd hop hmapped
    · split at h
      · exact absurd h (by simp)
      · rename_i c1 ii hprep
        split at h
        · exact absurd h (by simp)
        · rename_i c2 oi2 hinit
          split at h
          · exact absurd h (by simp)
          · rename_i c3 hwi
            split at h
            · exact absurd h (by simp)
            · rename_i c4 hwo
              split at h
              · exact absurd h (by simp)
              · rename_i c5 hrel
                simp only [Except.ok.injEq, Prod.mk.injEq] at h
                obtain ⟨rfl, rfl⟩ := h
                obtain ⟨ws1, hws1⟩ := write_inputs_spec cfg id ii _ _ _ hwi
                obtain ⟨ws2, hws2⟩ := write_outputs_spec cfg id oi2 _ _ _ hwo
                have hrel' := release_inputs_trace cfg oi2 _ _ _ hrel
                have heq : c5 = (c2.append [.opcode (cfg.get_opcode_from_node_type
                    node.type.name)]).append (ws1.map .data ++ (ws2.map .data ++
                    node.input_sockets.flatMap (spec_release_words cfg oi2))) := by
                  rw [hrel', hws2, hws1, push_opcode_eq, append_append, append_append]
                have hc2 : c2.stack_overrun = false := by
                  rw [heq] at hfinal
                  exact hfinal
                have hc1 : c1.stack_overrun = false :=
                  clean_of_mono (init_outputs_overrun_mono cfg id users _ _ _ _ _ hinit) hc2
                obtain ⟨t1, _, ht1, a1, _⟩ := prepare_inputs_spec cfg id oi hsentinel hsizes _ _ _ _
                  _ t hprep ha hc1
                obtain ⟨t2, ht2, a2, a3, a4⟩ := init_outputs_alloc cfg id users hsentinel hsizes
                  _ _ _ _ _ t1 hinit a1 hc2
                refine ⟨t2, by omega, ?_, ?_, ?_⟩
                · rw [heq]
                  exact a2
                · intro inst hinst _ hne
                  rw [hnode] at hinst
                  simp only [Option.some.injEq] at hinst
                  subst hinst
                  have := a3 hne
                  omega
                · intro k v hk
                  rcases a4 k v hk with hold | hnew
                  · exact Or.inl hold
                  · right
                    omega

/-- The node loop on a table whose first `t` slots are claimed: the table is
filled further, and every slot that the loop enters into the output-index map
lies between the old and the new fill level. -/
theorem codegen_nodes_alloc (cfg : Config) (g : NodeGraph) (users : SocketUserMap)
    (hsentinel : cfg.sentinel_ok) (hsizes : ∀ td, 1 ≤ cfg.stack_size td) :
    ∀ (nodes : NodeList) (c : BVMCompiler) (oi : SocketIndexMap) (c' : BVMCompiler)
      (oi' : SocketIndexMap) (t : Nat),
      codegen_subgraph.nodes cfg g users nodes c oi = .ok (c', oi') →
      alloc_ok cfg c t → c'.stack_overrun = false →
      ∃ t', t ≤ t' ∧ alloc_ok cfg c' t' ∧
        (∀ id ∈ nodes, ∀ inst, g.node id = some inst →
          cfg.get_opcode_from_node_type inst.type.name ≠ .OP_NOOP →
          inst.type.outputs ≠ [] → t < t') ∧
        ∀ k v, Map.find oi' k = some v → Map.find oi k = some v ∨ (t ≤ v ∧ v < t') := by
  intro nodes
  induction nodes with
  | nil =>
    intro c oi c' oi' t h ha _
    simp only [codegen_subgraph.nodes, Except.ok.injEq, Prod.mk.injEq] at h
    obtain ⟨rfl, rfl⟩ := h
    exact ⟨t, le_refl _, ha, fun id hid => absurd hid (List.not_mem_nil _),
      fun k v hk => Or.inl hk⟩
  | cons id rest ih =>
    intro c oi c' oi' t h ha hfinal
    unfold codegen_subgraph.nodes at h
    split at h
    · exact absurd h (by simp)
    · rename_i c1 oi1 h1
      have hc1 : c1.stack_overrun = false :=
        clean_of_mono (codegen_nodes_overrun_mono cfg g users _ _ _ _ _ h) hfinal
      obtain ⟨t1, ht1, a1, a2, a3⟩ := codegen_node_alloc cfg g users hsentinel hsizes id _ _ _ _
        t h1 ha hc1
      obtain ⟨t', ht', b1, b2, b3⟩ := ih _ _ _ _ t1 h a1 hfinal
      refine ⟨t', by omega, b1, ?_, ?_⟩
      · intro n hn inst hinst hmapped hne
        rcases List.mem_cons.1 hn with hn | hn
        · subst hn
          have := a2 inst hinst hmapped hne
          omega
        · have := b2 n hn inst hinst hmapped hne
          omega
      · intro k v hk
        rcases b3 k v hk with hold | hnew
        · rcases a3 k v hold with hold1 | hnew1
          · exact Or.inl hold1
          · right
            omega
        · right
          omega

theorem resolve_outputs_alloc (cfg : Config) (oi : SocketIndexMap)
    (hsentinel : cfg.sentinel_ok) (hsizes : ∀ td, 1 ≤ cfg.stack_size td) :
    ∀ (outs : SubgraphOutputList) (c : BVMCompiler) (outs' : SubgraphOutputList)
      (c' : BVMCompiler) (t : Nat),
      codegen_subgraph.resolve_outputs cfg oi outs c = .ok (outs', c') →
      alloc_ok cfg c t → c'.stack_overrun = false →
      ∃ t', t ≤ t' ∧ alloc_ok cfg c' t' := by
  intro outs
  induction outs with
  | nil =>
    intro c outs' c' t h ha _
    simp only [codegen_subgraph.resolve_outputs, Except.ok.injEq, Prod.mk.injEq] at h
    obtain ⟨_, rfl⟩ := h
    exact ⟨t, le_refl _, ha⟩
  | cons out rest ih =>
    intro c outs' c' t h ha hfinal
    unfold codegen_subgraph.resolve_outputs at h
    split at h
    · split at h
      · exact absurd h (by simp)
      · split at h
        · exact absurd h (by simp)
        · rename_i r1 r2 hr
          simp only [Except.ok.injEq, Prod.mk.injEq] at h
          obtain ⟨_, rfl⟩ := h
          exact ih _ _ _ t hr ha hfinal
    · split at h
      · exact absurd h (by simp)
      · rename_i value _
        simp only at h
        split at h
        · exact absurd h (by simp)
        · rename_i r1 r2 hr
          simp only [Except.ok.injEq, Prod.mk.injEq] at h
          obtain ⟨_, rfl⟩ := h
          have hcv : (codegen_value cfg c value).2.stack_overrun = false :=
            clean_of_mono (resolve_outputs_overrun_mono cfg oi _ _ _ _ hr) hfinal
          obtain ⟨_, t1, ht1, a1⟩ := codegen_value_alloc cfg c value t hsentinel hsizes ha hcv
          obtain ⟨t', ht', b1⟩ := ih _ _ _ t1 hr a1 hfinal
          exact ⟨t', by omega, b1⟩

/-- The stages of a call of `codegen_subgraph` that returns. -/
theorem codegen_subgraph_parts (cfg : Config) (g : NodeGraph) (nodes : NodeList)
    (users : SocketUserMap) (outs : SubgraphOutputList) (c : BVMCompiler) (entry : Nat)
    (outs' : SubgraphOutputList) (c' : BVMCompiler)
    (h : codegen_subgraph cfg g nodes users outs c = .ok (entry, outs', c')) :
    ∃ c1 oi, codegen_subgraph.nodes cfg g users nodes c [] = .ok (c1, oi) ∧
      codegen_subgraph.resolve_outputs cfg oi outs (push_opcode c1 .OP_END) = .ok (outs', c') ∧
      entry = c.fn.instructions.length := by
  unfold codegen_subgraph at h
  simp only at h
  split at h
  · exact absurd h (by simp)
  · rename_i c1 oi hnodes
    split at h
    · exact absurd h (by simp)
    · rename_i outs1 c2 hres
      simp only [Except.ok.injEq, Prod.mk.injEq] at h
      obtain ⟨rfl, rfl, rfl⟩ := h
      exact ⟨c1, oi, hnodes, hres, rfl⟩

theorem codegen_subgraph_alloc (cfg : Config) (g : NodeGraph) (nodes : NodeList)
    (users : SocketUserMap) (hsentinel : cfg.sentinel_ok) (hsizes : ∀ td, 1 ≤ cfg.stack_size td)
    (outs : SubgraphOutputList) (c : BVMCompiler) (entry : Nat)
    (outs' : SubgraphOutputList) (c' : BVMCompiler) (t : Nat)
    (h : codegen_subgraph cfg g nodes users outs c = .ok (entry, outs', c'))
    (ha : alloc_ok cfg c t) (hfinal : c'.stack_overrun = false) :
    ∃ t', t ≤ t' ∧ alloc_ok cfg c' t' := by
  obtain ⟨c1, oi, hnodes, hres, _⟩ := codegen_subgraph_parts cfg g nodes users outs c entry
    outs' c' h
  have hc1 : c1.stack_overrun = false := by
    have := clean_of_mono (resolve_outputs_overrun_mono cfg oi _ _ _ _ hres) hfinal
    rw [push_opcode_eq, append_stack_overrun] at this
    exact this
  obtain ⟨t1, ht1, a1, _⟩ := codegen_nodes_alloc cfg g users hsentinel hsizes _ _ _ _ _ t hnodes
    ha hc1
  obtain ⟨t', ht', b1⟩ := resolve_outputs_alloc cfg oi hsentinel hsizes _ _ _ _ t1 hres
    (by rw [push_opcode_eq]; exact alloc_ok_append cfg c1 t1 _ a1) hfinal
  exact ⟨t', by omega, b1⟩

theorem kernels_alloc (cfg : Config) (g : NodeGraph) (users : SocketUserMap)
    (hsentinel : cfg.sentinel_ok) (hsizes : ∀ td, 1 ≤ cfg.stack_size td) :
    ∀ (keys : List ConstSocketPair) (c c' : BVMCompiler) (t : Nat),
      codegen_function.kernels cfg g users keys c = .ok c' →
      alloc_ok cfg c t → c'.stack_overrun = false →
      ∃ t', t ≤ t' ∧ alloc_ok cfg c' t' := by
  intro keys
  induction keys with
  | nil =>
    intro c c' t h ha _
    simp only [codegen_function.kernels, Except.ok.injEq] at h
    subst h
    exact ⟨t, le_refl _, ha⟩
  | cons key rest ih =>
    intro c c' t h ha hfinal
    unfold codegen_function.kernels at h
    split at h
    · exact absurd h (by simp)
    · split at h
      · exact absurd h (by simp)
      · simp only at h
        split at h
        · exact absurd h (by simp)
        · split at h
          · exact absurd h (by simp)
          · rename_i entry outs c1 hsub
            split at h
            · exact absurd h (by simp)
            · have hc1 : c1.stack_overrun = false :=
                clean_of_mono (kernels_stack cfg g users _ _ _ h).2 hfinal
              obtain ⟨t1, ht1, a1⟩ := codegen_subgraph_alloc cfg g _ users hsentinel hsizes
                _ _ _ _ _ t hsub ha hc1
              obtain ⟨t', ht', b1⟩ := ih _ _ t1 h a1 hfinal
              exact ⟨t', by omega, b1⟩

/-! ## A second compile on the same compiler -/

theorem sort_graph_nodes_alloc (cfg : Config) (g : NodeGraph) (c c1 : BVMCompiler)
    (l : NodeList) (t : Nat) (f : Function) (h : sort_graph_nodes cfg g c = some (l, c1))
    (ha : alloc_ok cfg c t) : alloc_ok cfg { c1 with fn := f } t := by
  unfold sort_graph_nodes at h
  split at h
  · exact absurd h (by simp)
  · simp only [Option.some.injEq, Prod.mk.injEq] at h
    rw [← h.2]
    exact ha

theorem sort_graph_nodes_overrun (cfg : Config) (g : NodeGraph) (c c1 : BVMCompiler)
    (l : NodeList) (h : sort_graph_nodes cfg g c = some (l, c1)) :
    c1.stack_overrun = c.stack_overrun := by
  unfold sort_graph_nodes at h
  split at h
  · exact absurd h (by simp)
  · simp only [Option.some.injEq, Prod.mk.injEq] at h
    rw [← h.2]

/-- The result of `codegen_function` does not depend on the function that the
compiler holds at the call. -/
theorem codegen_function_fn_irrelevant (cfg : Config) (addr : Nat → Nat) (g : NodeGraph)
    (c : BVMCompiler) (f : Function) :
    codegen_function cfg addr g { c with fn := f } = codegen_function cfg addr g c := by
  unfold codegen_function sort_graph_nodes
  cases sort_graph_nodes.loop cfg g g.node_ids ⟨[], [], c.func_entry_map⟩ <;> rfl

/-- A run of `codegen_function` that ends without an out-of-bounds write began
without one. -/
theorem codegen_function_clean (cfg : Config) (addr : Nat → Nat) (g : NodeGraph)
    (c : BVMCompiler) (fn : Function) (c' : BVMCompiler)
    (hok : codegen_function cfg addr g c = .ok (fn, c')) (hfinal : c'.stack_overrun = false) :
    c.stack_overrun = false := by
  obtain ⟨main_nodes, c1, c2, hsort, hker, _, _, _, hov⟩ :=
    codegen_function_entries cfg addr g c fn c' hok
  have h2 : c2.stack_overrun = false := clean_of_mono hov hfinal
  have h1 := clean_of_mono (kernels_stack cfg g _ _ _ _ hker).2 h2
  rw [← sort_graph_nodes_overrun cfg g c c1 main_nodes hsort]
  exact h1

/-- A run of `codegen_function` on a table whose first `t` slots are claimed:
the table is filled further, and the slots of the main subgraph and of the
return bindings lie between the old and the new fill level. -/
theorem codegen_function_alloc (cfg : Config) (addr : Nat → Nat) (g : NodeGraph)
    (hsentinel : cfg.sentinel_ok) (hsizes : ∀ td, 1 ≤ cfg.stack_size td)
    (c : BVMCompiler) (fn : Function) (c' : BVMCompiler) (t : Nat)
    (hok : codegen_function cfg addr g c = .ok (fn, c')) (ha : alloc_ok cfg c t)
    (hfinal : c'.stack_overrun = false) :
    ∃ t', t ≤ t' ∧ alloc_ok cfg c' t' ∧ c'.fn = Function.new ∧
      (∀ id inst, g.node id = some inst →
        cfg.get_opcode_from_node_type inst.type.name ≠ .OP_NOOP →
        inst.type.outputs ≠ [] → t < t') ∧
      (∀ key v, codegen_function.output_slot cfg addr g c key = some v → t ≤ v ∧ v < t') ∧
      (∀ id inst out, g.node id = some inst →
        cfg.get_opcode_from_node_type inst.type.name ≠ .OP_NOOP → out ∈ inst.type.outputs →
        ∃ v, codegen_function.output_slot cfg addr g c ⟨some id, out.name⟩ = some v) ∧
      ∀ rv ∈ fn.return_values, t ≤ rv.stack_offset ∧ rv.stack_offset < t' := by
  obtain ⟨main_nodes, c1, c2, c3, oi, outs, outs', c4, hsort, hker, hnodes, hmain, hres, hret,
    hc'⟩ := codegen_function_parts cfg addr g _ fn c' hok
  have h4 : c4.stack_overrun = false := by
    rw [hc'] at hfinal
    exact hfinal
  have h3 : c3.stack_overrun = false := by
    have := clean_of_mono (resolve_outputs_overrun_mono cfg oi _ _ _ _ hres) h4
    rw [push_opcode_eq, append_stack_overrun] at this
    exact this
  have h2 : c2.stack_overrun = false :=
    clean_of_mono (codegen_nodes_overrun_mono cfg g _ _ _ _ _ _ hnodes) h3
  obtain ⟨t2, ht2, a2⟩ := kernels_alloc cfg g _ hsentinel hsizes _ _ _ t hker
    (sort_graph_nodes_alloc cfg g c c1 main_nodes t _ hsort ha) h2
  obtain ⟨t3, ht3, a3, n3, r3⟩ := codegen_nodes_alloc cfg g _ hsentinel hsizes _ _ _ _ _ t2
    hnodes a2 h3
  obtain ⟨t4, ht4, a4⟩ := resolve_outputs_alloc cfg oi hsentinel hsizes _ _ _ _ t3 hres
    (by rw [push_opcode_eq]; exact alloc_ok_append cfg c3 t3 _ a3) h4
  have hperm := sort_graph_nodes_perm cfg g c c1 main_nodes hsort
  have hmem : ∀ id inst, g.node id = some inst → id ∈ main_nodes := by
    intro id inst hn
    unfold NodeGraph.node at hn
    exact hperm.mem_iff.2 (List.mem_range.2 (List.getElem?_eq_some_iff.1 hn).1)
  have hslot : ∀ key, codegen_function.output_slot cfg addr g c key = Map.find oi key := by
    intro key
    unfold codegen_function.output_slot codegen_function.output_index
    simp only [hsort, hker, hnodes]
  have hrange : ∀ key v, Map.find oi key = some v → t2 ≤ v ∧ v < t3 := by
    intro key v hk
    rcases r3 key v hk with hold | hnew
    · simp [Map.find] at hold
    · exact hnew
  refine ⟨t4, by omega, ?_, by rw [hc'], ?_, ?_, ?_, ?_⟩
  · rw [hc']
    exact a4
  · intro id inst hn hmapped hne
    have := n3 id (hmem id inst hn) inst hn hmapped hne
    omega
  · intro key v hk
    rw [hslot] at hk
    have := hrange key v hk
    omega
  · intro id inst out hn hmapped hout
    rw [hslot]
    have hd := (codegen_nodes_defined_outputs cfg g _ _ _ _ _ _ hnodes).2 id (hmem id inst hn)
      inst hn hmapped out hout
    exact Option.ne_none_iff_exists'.1 hd
  · obtain ⟨ml, mk⟩ := main_outputs_spec cfg g _ _ hmain
    obtain ⟨rg, rl, rk⟩ := resolve_outputs_keys cfg oi _ _ _ _ hres
    obtain ⟨_, _, rvs, v1, v2, v3⟩ := return_values_spec g _ _ _ _ hret (by rw [rl, ml])
    have hempty : (c4.fn.set_entry_point c2.fn.instructions.length).return_values = [] := by
      show c4.fn.return_values = []
      rw [rg.2.2.1, push_opcode_eq, append_return_values,
        (codegen_nodes_grows cfg g _ _ _ _ _ _ hnodes).2.2.1,
        (kernels_spec cfg g _ _ _ _ hker).2.2.1]
      rfl
    rw [v1, hempty, List.nil_append]
    intro rv hrv
    obtain ⟨i, hi⟩ := List.mem_iff_getElem?.1 hrv
    have hilt : i < rvs.length := by
      by_contra hge
      rw [List.getElem?_eq_none (by omega)] at hi
      exact absurd hi (by simp)
    obtain ⟨output, hout⟩ : ∃ output, g.outputs[i]? = some output :=
      ⟨g.outputs[i], List.getElem?_eq_getElem (by omega)⟩
    obtain ⟨o, ho, hkey, hsome⟩ := mk i output hout
    obtain ⟨o', ho', hkey', hfind⟩ := rk i o ho
    obtain ⟨_, _, socket, _, _, _, hrvi⟩ := v3 i output o' hout ho'
    rw [hi] at hrvi
    simp only [Option.some.injEq] at hrvi
    subst hrvi
    have := hrange o.key o'.stack_index (hfind (by rw [hkey]; exact hsome))
    show t ≤ o'.stack_index ∧ o'.stack_index < t4
    omega

/-- The keys of the Function Info map after a run on a fresh compiler are the
function-typed input sockets of the graph. -/
theorem codegen_function_keys (cfg : Config) (addr : Nat → Nat) (g : NodeGraph)
    (fn : Function) (c' : BVMCompiler)
    (hok : codegen_function cfg addr g (BVMCompiler.new cfg) = .ok (fn, c'))
    (key : ConstSocketPair) :
    (Map.find c'.func_entry_map key).isSome ↔ g.function_input key := by
  obtain ⟨main_nodes, c1, c2, hsort, hker, hmap, _, _, _⟩ :=
    codegen_function_entries cfg addr g _ fn c' hok
  rw [hmap, kernels_keys cfg g _ _ _ _ hker key,
    ← sort_graph_nodes_keys cfg g _ c1 main_nodes rfl hsort key]
  constructor
  · rintro (h | h)
    · exact find_of_mem_iteration addr key _ h
    · exact h
  · exact fun h => Or.inr h

/-- A run of `codegen_function` keeps the keys of the Function Info map, when
these are function-typed input sockets of the graph. -/
theorem codegen_function_keys_kept (cfg : Config) (addr : Nat → Nat) (g : NodeGraph)
    (c : BVMCompiler) (fn : Function) (c' : BVMCompiler)
    (hok : codegen_function cfg addr g c = .ok (fn, c'))
    (hkeys : ∀ key, (Map.find c.func_entry_map key).isSome → g.function_input key)
    (key : ConstSocketPair) (h : (Map.find c.func_entry_map key).isSome) :
    (Map.find c'.func_entry_map key).isSome := by
  obtain ⟨main_nodes, c1, c2, hsort, hker, hmap, _, _, _⟩ :=
    codegen_function_entries cfg addr g _ fn c' hok
  rw [hmap, kernels_keys cfg g _ _ _ _ hker key]
  right
  unfold sort_graph_nodes at hsort
  split at hsort
  · exact absurd hsort (by simp)
  · rename_i st hloop
    simp only [Option.some.injEq, Prod.mk.injEq] at hsort
    obtain ⟨_, rfl⟩ := hsort
    exact (sort_graph_nodes_loop_registered cfg g _ _ _ hloop
      ⟨hkeys, fun n hn => absurd hn (List.not_mem_nil _)⟩).2 key h

/-! ## Counters of the slot-usage table never go down -/

theorem users_le_refl (c : BVMCompiler) : c.users_le c := ⟨rfl, fun _ => le_refl _⟩

theorem users_le_trans {a b c : BVMCompiler} (h1 : a.users_le b) (h2 : b.users_le c) :
    a.users_le c :=
  ⟨h2.1.trans h1.1, fun k => le_trans (h1.2 k) (h2.2 k)⟩

theorem users_le_append (c : BVMCompiler) (ws : List Instruction) : c.users_le (c.append ws) :=
  ⟨rfl, fun _ => le_refl _⟩

theorem users_le_of_eq {c c' : BVMCompiler} (h : c'.stack_users = c.stack_users) :
    c.users_le c' := by
  refine ⟨by rw [h], fun k => ?_⟩
  rw [h]

theorem stack_users_incr_users_le (c : BVMCompiler) (k : Nat) :
    c.users_le (stack_users_incr c k) := by
  refine ⟨stack_users_incr_length c k, fun j => ?_⟩
  by_cases hk : k < c.stack_users.length
  · rw [List.getD_eq_getElem?_getD, List.getD_eq_getElem?_getD, stack_users_incr_getElem? c k hk]
    split
    · cases h : c.stack_users[j]? <;> simp
    · exact le_refl _
  · unfold stack_users_incr
    rw [if_neg hk]

theorem assign_stack_index_loop_users_le (off : Nat) :
    ∀ (n i : Nat) (c : BVMCompiler), c.users_le (assign_stack_index.loop off n i c) := by
  intro n
  induction n with
  | zero => intro i c; exact users_le_refl c
  | succ n ih =>
    intro i c
    unfold assign_stack_index.loop
    exact users_le_trans (stack_users_incr_users_le _ _) (ih _ _)

theorem assign_stack_index_users_le (cfg : Config) (c : BVMCompiler) (td : TypeDesc) :
    c.users_le (assign_stack_index cfg c td).2 :=
  assign_stack_index_loop_users_le _ _ _ _

theorem codegen_value_users_le (cfg : Config) (c : BVMCompiler) (value : Value) :
    c.users_le (codegen_value cfg c value).2 := by
  rw [codegen_value_eq]
  exact users_le_trans (assign_stack_index_users_le cfg c _) (users_le_append _ _)

theorem prepare_inputs_users_le (cfg : Config) (node : Nat) (output_index : SocketIndexMap) :
    ∀ (inputs : List (NodeSocket × InputInstance)) (c : BVMCompiler)
      (input_index : SocketIndexMap) (c' : BVMCompiler) (input_index' : SocketIndexMap),
      codegen_subgraph.prepare_inputs cfg node output_index inputs c input_index =
        .ok (c', input_index') →
      c.users_le c' := by
  intro inputs
  induction inputs with
  | nil =>
    intro c ii c' ii' h
    simp only [codegen_subgraph.prepare_inputs, Except.ok.injEq, Prod.mk.injEq] at h
    rw [← h.1]
    exact users_le_refl c
  | cons inp rest ih =>
    intro c ii c' ii' h
    obtain ⟨input, inst⟩ := inp
    unfold codegen_subgraph.prepare_inputs at h
    simp only at h
    split at h
    · exact absurd h (by simp)
    · split at h
      · exact ih _ _ _ _ h
      · split at h
        · split at h
          · exact absurd h (by simp)
          · exact ih _ _ _ _ h
        · split at h
          · exact users_le_trans (codegen_value_users_le cfg c _) (ih _ _ _ _ h)
          · split at h
            · exact absurd h (by simp)
            · exact users_le_trans (codegen_value_users_le cfg c _) (ih _ _ _ _ h)

/-- A slot that `assign_stack_index` returns is the sentinel, or a slot that was
free before the call and is claimed after it. -/
theorem assign_stack_index_fresh (cfg : Config) (c : BVMCompiler) (td : TypeDesc)
    (hsentinel : cfg.sentinel_ok) (hsize : 1 ≤ cfg.stack_size td)
    (hlen : c.stack_users.length = cfg.BVM_STACK_SIZE) :
    fresh_slot cfg c (assign_stack_index cfg c td).2 (assign_stack_index cfg c td).1 := by
  have hs : (((cfg.stack_size td).toNat : Nat) : Int) = cfg.stack_size td :=
    Int.toNat_of_nonneg (by omega)
  have hs1 : 1 ≤ (cfg.stack_size td).toNat := by omega
  have hword : cfg.BVM_STACK_SIZE ≤ WORD := by
    have := hsentinel.1
    have := hsentinel.2
    omega
  rw [assign_stack_index_fst]
  rcases find_stack_index_spec cfg c _ hs1 hlen with ⟨hfit, hfree, _⟩ | ⟨hinv, _⟩
  · right
    obtain ⟨_, hk⟩ := assign_stack_index_ok cfg c td _ hs.symm hlen hword hfit
    rw [hs] at hfit hfree hk
    have h0 := hfree (find_stack_index cfg c (cfg.stack_size td)) (le_refl _) (by omega)
    have h1 := hk (find_stack_index cfg c (cfg.stack_size td))
    rw [if_pos ⟨le_refl _, by omega⟩, h0] at h1
    refine ⟨by omega, ?_, ?_⟩
    · rw [List.getD_eq_getElem?_getD, h0]
      rfl
    · rw [List.getD_eq_getElem?_getD, h1]
      simp
  · left
    rw [hs] at hinv
    exact hinv

theorem fresh_slot_left {cfg : Config} {a b c : BVMCompiler} {v : Nat} (h1 : a.users_le b)
    (h2 : fresh_slot cfg b c v) : fresh_slot cfg a c v := by
  rcases h2 with h | ⟨h3, h4, h5⟩
  · exact Or.inl h
  · refine Or.inr ⟨h3, ?_, h5⟩
    have := h1.2 v
    omega

theorem fresh_slot_right {cfg : Config} {a b c : BVMCompiler} {v : Nat}
    (h1 : fresh_slot cfg a b v) (h2 : b.users_le c) : fresh_slot cfg a c v := by
  rcases h1 with h | ⟨h3, h4, h5⟩
  · exact Or.inl h
  · refine Or.inr ⟨h3, h4, ?_⟩
    have := h2.2 v
    omega

/-- The loop that assigns the output slots: the counters of the table do not go
down, and every slot that the loop enters into the output-index map is the
sentinel or a slot that was free before the loop and is claimed after it. -/
theorem init_outputs_fresh (cfg : Config) (node : Nat) (users : SocketUserMap)
    (hsentinel : cfg.sentinel_ok) (hsizes : ∀ td, 1 ≤ cfg.stack_size td) :
    ∀ (outs : List NodeSocket) (c : BVMCompiler) (oi : SocketIndexMap) (c' : BVMCompiler)
      (oi' : SocketIndexMap),
      codegen_subgraph.init_outputs cfg node users outs c oi = .ok (c', oi') →
      c.users_le c' ∧
      (c.stack_users.length = cfg.BVM_STACK_SIZE →
        ∀ k v, Map.find oi' k = some v → Map.find oi k = some v ∨ fresh_slot cfg c c' v) := by
  intro outs
  induction outs with
  | nil =>
    intro c oi c' oi' h
    simp only [codegen_subgraph.init_outputs, Except.ok.injEq, Prod.mk.injEq] at h
    obtain ⟨rfl, rfl⟩ := h
    exact ⟨users_le_refl _, fun _ k v hk => Or.inl hk⟩
  | cons out rest ih =>
    intro c oi c' oi' h
    have hstep : ∃ cX : BVMCompiler,
        codegen_subgraph.init_outputs cfg node users rest cX
          (Map.set oi ⟨some node, out.name⟩ (assign_stack_index cfg c out.typedesc).1) =
          .ok (c', oi') ∧
        cX.stack_users = (assign_stack_index cfg c out.typedesc).2.stack_users := by
      unfold codegen_subgraph.init_outputs at h
      simp only at h
      split at h
      · split at h
        · exact absurd h (by simp)
        · split at h
          · exact ⟨_, h, by simp [push_int_eq, push_stack_index_eq, push_opcode_eq]⟩
          · exact ⟨_, h, rfl⟩
      · exact ⟨_, h, rfl⟩
    obtain ⟨cX, hrest, hsu⟩ := hstep
    have hle1 : c.users_le cX :=
      users_le_trans (assign_stack_index_users_le cfg c out.typedesc) (users_le_of_eq hsu)
    obtain ⟨hle2, hfresh2⟩ := ih _ _ _ _ hrest
    refine ⟨users_le_trans hle1 hle2, ?_⟩
    intro hlen k v hk
    have hf := assign_stack_index_fresh cfg c out.typedesc hsentinel (hsizes _) hlen
    have hfX : fresh_slot cfg c cX (assign_stack_index cfg c out.typedesc).1 := by
      rcases hf with h | ⟨h3, h4, h5⟩
      · exact Or.inl h
      · refine Or.inr ⟨h3, h4, ?_⟩
        rw [hsu]
        exact h5
    rcases hfresh2 (by rw [hle1.1, hlen]) k v hk with hold | hnew
    · rw [map_find_set] at hold
      split at hold
      · simp only [Option.some.injEq] at hold
        rw [← hold]
        exact Or.inr (fresh_slot_right hfX hle2)
      · exact Or.inl hold
    · exact Or.inr (fresh_slot_left hle1 hnew)

theorem codegen_node_fresh (cfg : Config) (g : NodeGraph) (users : SocketUserMap)
    (hsentinel : cfg.sentinel_ok) (hsizes : ∀ td, 1 ≤ cfg.stack_size td)
    (id : Nat) (c : BVMCompiler) (oi : SocketIndexMap) (c' : BVMCompiler) (oi' : SocketIndexMap)
    (h : codegen_subgraph.node cfg g users id c oi = .ok (c', oi')) :
    c.users_le c' ∧
    (c.stack_users.length = cfg.BVM_STACK_SIZE →
      ∀ k v, Map.find oi' k = some v → Map.find oi k = some v ∨ fresh_slot cfg c c' v) := by
  unfold codegen_subgraph.node at h
  split at h
  · exact absurd h (by simp)
  · rename_i node hnode
    simp only at h
    split at h
    · simp only [Except.ok.injEq, Prod.mk.injEq] at h
      obtain ⟨rfl, rfl⟩ := h
      exact ⟨users_le_refl _, fun _ k v hk => Or.inl hk⟩
    · split at h
      · exact absurd h (by simp)
      · rename_i c1 ii hprep
        split at h
        · exact absurd h (by simp)
        · rename_i c2 oi2 hinit
          split at h
          · exact absurd h (by simp)
          · rename_i c3 hwi
            split at h
            · exact absurd h (by simp)
            · rename_i c4 hwo
              split at h
              · exact absurd h (by simp)
              · rename_i c5 hrel
                simp only [Except.ok.injEq, Prod.mk.injEq] at h
                obtain ⟨rfl, rfl⟩ := h
                obtain ⟨ws1, hws1⟩ := write_inputs_spec cfg id ii _ _ _ hwi
                obtain ⟨ws2, hws2⟩ := write_outputs_spec cfg id oi2 _ _ _ hwo
                have hrel' := release_inputs_trace cfg oi2 _ _ _ hrel
                have hsu : c5.stack_users = c2.stack_users := by
                  rw [hrel', hws2, hws1, push_opcode_eq]
                  rfl
                have hle1 := prepare_inputs_users_le cfg id oi _ _ _ _ _ hprep
                obtain ⟨hle2, hf2⟩ := init_outputs_fresh cfg id users hsentinel hsizes _ _ _ _ _
                  hinit
                have hle3 : c2.users_le c5 := users_le_of_eq hsu
                refine ⟨users_le_trans hle1 (users_le_trans hle2 hle3), ?_⟩
                intro hlen k v hk
                rcases hf2 (by rw [hle1.1, hlen]) k v hk with hold | hnew
                · exact Or.inl hold
                · exact Or.inr (fresh_slot_left hle1 (fresh_slot_right hnew hle3))

theorem codegen_nodes_fresh (cfg : Config) (g : NodeGraph) (users : SocketUserMap)
    (hsentinel : cfg.sentinel_ok) (hsizes : ∀ td, 1 ≤ cfg.stack_size td) :
    ∀ (nodes : NodeList) (c : BVMCompiler) (oi : SocketIndexMap) (c' : BVMCompiler)
      (oi' : SocketIndexMap),
      codegen_subgraph.nodes cfg g users nodes c oi = .ok (c', oi') →
      c.users_le c' ∧
      (c.stack_users.length = cfg.BVM_STACK_SIZE →
        ∀ k v, Map.find oi' k = some v → Map.find oi k = some v ∨ fresh_slot cfg c c' v) := by
  intro nodes
  induction nodes with
  | nil =>
    intro c oi c' oi' h
    simp only [codegen_subgraph.nodes, Except.ok.injEq, Prod.mk.injEq] at h
    obtain ⟨rfl, rfl⟩ := h
    exact ⟨users_le_refl _, fun _ k v hk => Or.inl hk⟩
  | cons id rest ih =>
    intro c oi c' oi' h
    unfold codegen_subgraph.nodes at h
    split at h
    · exact absurd h (by simp)
    · rename_i c1 oi1 h1
      obtain ⟨hle1, hf1⟩ := codegen_node_fresh cfg g users hsentinel hsizes id _ _ _ _ h1
      obtain ⟨hle2, hf2⟩ := ih _ _ _ _ h
      refine ⟨users_le_trans hle1 hle2, ?_⟩
      intro hlen k v hk
      rcases hf2 (by rw [hle1.1, hlen]) k v hk with hold | hnew
      · rcases hf1 hlen k v hold with hold1 | hnew1
        · exact Or.inl hold1
        · exact Or.inr (fresh_slot_right hnew1 hle2)
      · exact Or.inr (fresh_slot_left hle1 hnew)

theorem resolve_outputs_users_le (cfg : Config) (oi : SocketIndexMap) :
    ∀ (outs : SubgraphOutputList) (c : BVMCompiler) (outs' : SubgraphOutputList)
      (c' : BVMCompiler),
      codegen_subgraph.resolve_outputs cfg oi outs c = .ok (outs', c') → c.users_le c' := by
  intro outs
  induction outs with
  | nil =>
    intro c outs' c' h
    simp only [codegen_subgraph.resolve_outputs, Except.ok.injEq, Prod.mk.injEq] at h
    rw [← h.2]
    exact users_le_refl c
  | cons out rest ih =>
    intro c outs' c' h
    unfold codegen_subgraph.resolve_outputs at h
    split at h
    · split at h
      · exact absurd h (by simp)
      · split at h
        · exact absurd h (by simp)
        · rename_i r1 r2 hr
          simp only [Except.ok.injEq, Prod.mk.injEq] at h
          rw [← h.2]
          exact ih _ _ _ hr
    · split at h
      · exact absurd h (by simp)
      · rename_i value _
        simp only at h
        split at h
        · exact absurd h (by simp)
        · rename_i r1 r2 hr
          simp only [Except.ok.injEq, Prod.mk.injEq] at h
          rw [← h.2]
          exact users_le_trans (codegen_value_users_le cfg c value) (ih _ _ _ hr)

theorem codegen_subgraph_users_le (cfg : Config) (g : NodeGraph) (nodes : NodeList)
    (users : SocketUserMap) (hsentinel : cfg.sentinel_ok) (hsizes : ∀ td, 1 ≤ cfg.stack_size td)
    (outs : SubgraphOutputList) (c : BVMCompiler) (entry : Nat)
    (outs' : SubgraphOutputList) (c' : BVMCompiler)
    (h : codegen_subgraph cfg g nodes users outs c = .ok (entry, outs', c')) :
    c.users_le c' := by
  obtain ⟨c1, oi, hnodes, hres, _⟩ := codegen_subgraph_parts cfg g nodes users outs c entry
    outs' c' h
  have h1 := (codegen_nodes_fresh cfg g users hsentinel hsizes _ _ _ _ _ hnodes).1
  have h2 := resolve_outputs_users_le cfg oi _ _ _ _ hres
  rw [push_opcode_eq] at h2
  exact users_le_trans h1 (users_le_trans (users_le_append _ _) h2)

theorem kernels_users_le (cfg : Config) (g : NodeGraph) (users : SocketUserMap)
    (hsentinel : cfg.sentinel_ok) (hsizes : ∀ td, 1 ≤ cfg.stack_size td) :
    ∀ (keys : List ConstSocketPair) (c c' : BVMCompiler),
      codegen_function.kernels cfg g users keys c = .ok c' → c.users_le c' := by
  intro keys
  induction keys with
  | nil =>
    intro c c' h
    simp only [codegen_function.kernels, Except.ok.injEq] at h
    subst h
    exact users_le_refl _
  | cons key rest ih =>
    intro c c' h
    unfold codegen_function.kernels at h
    split at h
    · exact absurd h (by simp)
    · split at h
      · exact absurd h (by simp)
      · simp only at h
        split at h
        · exact absurd h (by simp)
        · split at h
          · exact absurd h (by simp)
          · rename_i entry outs c1 hsub
            split at h
            · exact absurd h (by simp)
            · have h1 := codegen_subgraph_users_le cfg g _ users hsentinel hsizes _ _ _ _ _ hsub
              have h2 := ih _ _ h
              exact users_le_trans h1 (users_le_trans (users_le_of_eq rfl) h2)

/-! ## The main traversal removes no key of the Function Info map -/

theorem graph_node_append_inputs_keys_kept (cfg : Config)
    (visit : Nat → SortState → Option SortState) (node : Nat)
    (hvisit : ∀ m st st', visit m st = some st' → st.keys_kept st') :
    ∀ (inputs : List (NodeSocket × InputInstance)) (st st' : SortState),
      graph_node_append.inputs cfg visit node inputs st = some st' → st.keys_kept st' := by
  intro inputs
  induction inputs with
  | nil =>
    intro st st' h
    simp only [graph_node_append.inputs, Option.some.injEq] at h
    subst h
    exact keys_kept_refl _
  | cons inp rest ih =>
    intro st st' h
    obtain ⟨socket, ii⟩ := inp
    unfold graph_node_append.inputs at h
    split at h
    · refine keys_kept_trans _ _ _ ?_ (ih _ _ h)
      intro key hk
      show (Map.find (Map.set st.func_entry_map _ _) key).isSome = true
      rw [map_find_set]
      split
      · rfl
      · exact hk
    · split at h
      · split at h
        · exact absurd h (by simp)
        · rename_i st1 hv
          exact keys_kept_trans _ _ _ (hvisit _ _ _ hv) (ih _ _ h)
      · exact ih _ _ h

theorem graph_node_append_keys_kept (cfg : Config) (g : NodeGraph) :
    ∀ (fuel node : Nat) (st st' : SortState),
      graph_node_append cfg g fuel node st = some st' → st.keys_kept st' := by
  intro fuel
  induction fuel with
  | zero => intro node st st' h; simp [graph_node_append] at h
  | succ fuel ih =>
    intro node st st' h
    unfold graph_node_append at h
    split at h
    · simp only [Option.some.injEq] at h
      subst h
      exact keys_kept_refl _
    · split at h
      · exact absurd h (by simp)
      · split at h
        · exact absurd h (by simp)
        · rename_i st1 hloop
          simp only [Option.some.injEq] at h
          subst h
          intro key hk
          exact graph_node_append_inputs_keys_kept cfg (graph_node_append cfg g fuel) node ih
            _ _ _ hloop key hk

theorem sort_graph_nodes_loop_keys_kept (cfg : Config) (g : NodeGraph) :
    ∀ (ids : List Nat) (st st' : SortState), sort_graph_nodes.loop cfg g ids st = some st' →
      st.keys_kept st' := by
  intro ids
  induction ids with
  | nil =>
    intro st st' h
    simp only [sort_graph_nodes.loop, Option.some.injEq] at h
    subst h
    exact keys_kept_refl _
  | cons n rest ih =>
    intro st st' h
    unfold sort_graph_nodes.loop at h
    split at h
    · exact absurd h (by simp)
    · rename_i st1 h1
      exact keys_kept_trans _ _ _ (graph_node_append_keys_kept cfg g _ _ _ _ h1) (ih _ _ h)

/-- A run of `codegen_function` that returns, on any compiler: the slot-usage
table keeps its length and none of its counters goes down, and every key of the
Function Info map is still a key afterwards. -/
theorem codegen_function_no_reset (cfg : Config) (addr : Nat → Nat) (g : NodeGraph)
    (hsentinel : cfg.sentinel_ok) (hsizes : ∀ td, 1 ≤ cfg.stack_size td)
    (c : BVMCompiler) (fn : Function) (c' : BVMCompiler)
    (hok : codegen_function cfg addr g c = .ok (fn, c')) :
    c.users_le c' ∧
    ∀ key, (Map.find c.func_entry_map key).isSome → (Map.find c'.func_entry_map key).isSome := by
  obtain ⟨main_nodes, c1, c2, c3, oi, outs, outs', c4, hsort, hker, hnodes, hmain, hres, hret,
    hc'⟩ := codegen_function_parts cfg addr g _ fn c' hok
  obtain ⟨_, _, _, _, _, hmap, _⟩ := codegen_function_entries cfg addr g _ fn c' hok
  have hk := kernels_users_le cfg g _ hsentinel hsizes _ _ _ hker
  have hn := (codegen_nodes_fresh cfg g _ hsentinel hsizes _ _ _ _ _ hnodes).1
  have hr := resolve_outputs_users_le cfg oi _ _ _ _ hres
  rw [push_opcode_eq] at hr
  unfold sort_graph_nodes at hsort
  split at hsort
  · exact absurd hsort (by simp)
  · rename_i st hloop
    simp only [Option.some.injEq, Prod.mk.injEq] at hsort
    obtain ⟨_, rfl⟩ := hsort
    constructor
    · rw [hc']
      exact users_le_trans (users_le_of_eq rfl) (users_le_trans hk (users_le_trans hn
        (users_le_trans (users_le_append _ _) (users_le_trans hr (users_le_of_eq rfl)))))
    · intro key h
      have h1 := sort_graph_nodes_loop_keys_kept cfg g _ _ _ hloop key h
      obtain ⟨_, c1', c2', hsort', hker', hmap', _⟩ :=
        codegen_function_entries cfg addr g _ fn c' hok
      unfold sort_graph_nodes at hsort'
      rw [hloop] at hsort'
      simp only [Option.some.injEq, Prod.mk.injEq] at hsort'
      obtain ⟨_, rfl⟩ := hsort'
      rw [hmap', kernels_keys cfg g _ _ _ _ hker' key]
      exact Or.inr h1

/-- Two slots handed out in two consecutive spans of a compile differ, unless the
first is the sentinel. -/
theorem fresh_slot_ne {cfg : Config} {a b c : BVMCompiler} {s1 s2 : Nat}
    (h1 : fresh_slot cfg a b s1) (h2 : fresh_slot cfg b c s2)
    (hs : s1 ≠ cfg.BVM_STACK_INVALID) : s1 ≠ s2 := by
  rcases h1 with h1 | ⟨_, _, h1⟩
  · exact absurd h1 hs
  · rcases h2 with h2 | ⟨_, h2, _⟩
    · rw [h2]
      exact hs
    · intro h
      rw [h] at h1
      exact h1 h2

/-- The slots of the main subgraph and of the return bindings of a run of
`codegen_function` were handed out during the run. -/
theorem codegen_function_fresh (cfg : Config) (addr : Nat → Nat) (g : NodeGraph)
    (hsentinel : cfg.sentinel_ok) (hsizes : ∀ td, 1 ≤ cfg.stack_size td)
    (c : BVMCompiler) (fn : Function) (c' : BVMCompiler)
    (hok : codegen_function cfg addr g c = .ok (fn, c'))
    (hlen : c.stack_users.length = cfg.BVM_STACK_SIZE) :
    (∀ key v, codegen_function.output_slot cfg addr g c key = some v → fresh_slot cfg c c' v) ∧
    ∀ rv ∈ fn.return_values, fresh_slot cfg c c' rv.stack_offset := by
  obtain ⟨main_nodes, c1, c2, c3, oi, outs, outs', c4, hsort, hker, hnodes, hmain, hres, hret,
    hc'⟩ := codegen_function_parts cfg addr g _ fn c' hok
  have hk := kernels_users_le cfg g _ hsentinel hsizes _ _ _ hker
  obtain ⟨hn, hf⟩ := codegen_nodes_fresh cfg g _ hsentinel hsizes _ _ _ _ _ hnodes
  have hr := resolve_outputs_users_le cfg oi _ _ _ _ hres
  rw [push_opcode_eq] at hr
  have hsu : c1.stack_users = c.stack_users := by
    unfold sort_graph_nodes at hsort
    split at hsort
    · exact absurd hsort (by simp)
    · simp only [Option.some.injEq, Prod.mk.injEq] at hsort
      rw [← hsort.2]
  have h01 : c.users_le { c1 with fn := Function.new } := users_le_of_eq hsu
  have h02 : c.users_le c2 := users_le_trans h01 hk
  have h3' : c3.users_le c' := by
    rw [hc']
    exact users_le_trans (users_le_append _ _) (users_le_trans hr (users_le_of_eq rfl))
  have hslot : ∀ key, codegen_function.output_slot cfg addr g c key = Map.find oi key := by
    intro key
    unfold codegen_function.output_slot codegen_function.output_index
    simp only [hsort, hker, hnodes]
  have hrange : ∀ key v, Map.find oi key = some v → fresh_slot cfg c c' v := by
    intro key v hkv
    rcases hf (by rw [h02.1, hlen]) key v hkv with hold | hnew
    · simp [Map.find] at hold
    · exact fresh_slot_left h02 (fresh_slot_right hnew h3')
  refine ⟨fun key v hkv => hrange key v (by rw [← hslot]; exact hkv), ?_⟩
  obtain ⟨ml, mk⟩ := main_outputs_spec cfg g _ _ hmain
  obtain ⟨rg, rl, rk⟩ := resolve_outputs_keys cfg oi _ _ _ _ hres
  obtain ⟨_, _, rvs, v1, v2, v3⟩ := return_values_spec g _ _ _ _ hret (by rw [rl, ml])
  have hempty : (c4.fn.set_entry_point c2.fn.instructions.length).return_values = [] := by
    show c4.fn.return_values = []
    rw [rg.2.2.1, push_opcode_eq, append_return_values,
      (codegen_nodes_grows cfg g _ _ _ _ _ _ hnodes).2.2.1,
      (kernels_spec cfg g _ _ _ _ hker).2.2.1]
    rfl
  rw [v1, hempty, List.nil_append]
  intro rv hrv
  obtain ⟨i, hi⟩ := List.mem_iff_getElem?.1 hrv
  have hilt : i < rvs.length := by
    by_contra hge
    rw [List.getElem?_eq_none (by omega)] at hi
    exact absurd hi (by simp)
  obtain ⟨output, hout⟩ : ∃ output, g.outputs[i]? = some output :=
    ⟨g.outputs[i], List.getElem?_eq_getElem (by omega)⟩
  obtain ⟨o, ho, hkey, hsome⟩ := mk i output hout
  obtain ⟨o', ho', hkey', hfind⟩ := rk i o ho
  obtain ⟨_, _, socket, _, _, _, hrvi⟩ := v3 i output o' hout ho'
  rw [hi] at hrvi
  simp only [Option.some.injEq] at hrvi
  subst hrvi
  exact hrange o.key o'.stack_index (hfind (by rw [hkey]; exact hsome))

/-- The main subgraph of a run of `codegen_function` that returns assigns a slot
to every output of every mapped node of the graph. -/
theorem codegen_function_slot_defined (cfg : Config) (addr : Nat → Nat) (g : NodeGraph)
    (c : BVMCompiler) (fn : Function) (c' : BVMCompiler)
    (hok : codegen_function cfg addr g c = .ok (fn, c'))
    (id : Nat) (inst : NodeInstance) (out : NodeSocket) (hn : g.node id = some inst)
    (hmapped : cfg.get_opcode_from_node_type inst.type.name ≠ .OP_NOOP)
    (hout : out ∈ inst.type.outputs) :
    ∃ v, codegen_function.output_slot cfg addr g c ⟨some id, out.name⟩ = some v := by
  obtain ⟨main_nodes, c1, c2, c3, oi, outs, outs', c4, hsort, hker, hnodes, hmain, hres, hret,
    hc'⟩ := codegen_function_parts cfg addr g _ fn c' hok
  have hperm := sort_graph_nodes_perm cfg g c c1 main_nodes hsort
  have hmem : id ∈ main_nodes := by
    unfold NodeGraph.node at hn
    exact hperm.mem_iff.2 (List.mem_range.2 (List.getElem?_eq_some_iff.1 hn).1)
  have hslot : codegen_function.output_slot cfg addr g c ⟨some id, out.name⟩ =
      Map.find oi ⟨some id, out.name⟩ := by
    unfold codegen_function.output_slot codegen_function.output_index
    simp only [hsort, hker, hnodes]
  rw [hslot]
  exact Option.ne_none_iff_exists'.1
    ((codegen_nodes_defined_outputs cfg g _ _ _ _ _ _ hnodes).2 id hmem inst hn hmapped out hout)

/-- A slot handed out on a table whose first `t` slots are claimed is the
sentinel or lies at or after `t`. -/
theorem fresh_slot_filled {cfg : Config} {c c' : BVMCompiler} {t v : Nat}
    (ha : alloc_ok cfg c t) (h : fresh_slot cfg c c' v) :
    v = cfg.BVM_STACK_INVALID ∨ (t ≤ v ∧ v < cfg.BVM_STACK_SIZE) := by
  rcases h with h | ⟨h1, h2, _⟩
  · exact Or.inl h
  · refine Or.inr ⟨?_, h1⟩
    rw [getD_eq_zero_iff (by rw [ha.1, filled_length _ _ ha.2.1]; exact h1), ha.1,
      filled_getElem? _ _ _ ha.2.1] at h2
    by_contra hlt
    rw [if_pos (by omega)] at h2
    exact absurd h2 (by simp)
/-- C32, the claim as stated does not hold: `matrix_default_graph` has a mapped
node with an output, and its default of 16 slots exhausts the stack of 8 slots
of `small_config`.  Compiled on a fresh compiler and then a second time on the
same compiler it gives the same function both times: the slot of the output of
the node and the return binding are the sentinel in both runs. -/
theorem codegen_function_reuse_exhausted_counterexample :
    matrix_default_graph.node 0 = some ⟨matrix_kernel_type, [⟨none, none⟩]⟩ ∧
    small_config.get_opcode_from_node_type matrix_kernel_type.name = .OP_OTHER 2 ∧
    matrix_kernel_type.outputs ≠ [] ∧
    codegen_function small_config id matrix_default_graph (BVMCompiler.new small_config) =
      .ok (matrix_default_function, matrix_default_compiler) ∧
    codegen_function small_config id matrix_default_graph matrix_default_compiler =
      .ok (matrix_default_function, matrix_default_compiler_second) ∧
    matrix_default_function.return_values =
      [⟨⟨.BVM_FLOAT⟩, "result", small_config.BVM_STACK_INVALID⟩] ∧
    codegen_function.output_slot small_config id matrix_default_graph
      (BVMCompiler.new small_config) ⟨some 0, "value"⟩ = some small_config.BVM_STACK_INVALID ∧
    codegen_function.output_slot small_config id matrix_default_graph
      matrix_default_compiler ⟨some 0, "value"⟩ = some small_config.BVM_STACK_INVALID :=
  ⟨rfl, by decide, by simp [matrix_kernel_type], by rfl, by rfl, rfl, by rfl, by rfl⟩

/-- C32, amended: `codegen_function` resets neither the slot-usage table nor the
Function Info map: on every compiler, a run that returns keeps the length of the
table, lowers none of its counters, and keeps every key of the Function Info
map.  (On a graph whose links come from nodes of the graph a run returns unless
an `assert` fails or a null pointer is dereferenced; the sentinel lies outside
the stack, footprints are at least one slot.)  Let a graph be compiled on a
fresh compiler and then a second time on the same compiler.  Every output of a
mapped node gets a slot of the main subgraph in both runs, and every such slot
and every return binding is the sentinel or a slot that was free before its run
and is claimed after it; so a slot of the first function that is not the
sentinel differs from the slots of the second function.  When the first run does
not exhaust the stack, the first `t1` slots are claimed after it (`0 < t1` with
a mapped node that has an output), the slots of the first function lie below
`t1`, and those of the second function are the sentinel or lie in
`[t1, BVM_STACK_SIZE)`.  When the second run does not exhaust the stack either,
the first `t2` slots are claimed after it, `t1 < t2` with a mapped node that has
an output, and the slots of the second function lie in `[t1, t2)`.  A compiler
whose table and Function Info map are as those of a fresh one gives the first
result again. -/
theorem codegen_function_reuse (cfg : Config) (addr : Nat → Nat) (g : NodeGraph)
    (hsentinel : cfg.sentinel_ok) (hsizes : ∀ td, 1 ≤ cfg.stack_size td) :
    (g.closed → ∀ c : BVMCompiler, codegen_function cfg addr g c ≠ .error .no_termination) ∧
    (∀ (c : BVMCompiler) (fn : Function) (c' : BVMCompiler),
      codegen_function cfg addr g c = .ok (fn, c') →
      c.users_le c' ∧
      ∀ key, (Map.find c.func_entry_map key).isSome →
        (Map.find c'.func_entry_map key).isSome) ∧
    ∀ (fn1 : Function) (c1 : BVMCompiler) (fn2 : Function) (c2 : BVMCompiler),
    codegen_function cfg addr g (BVMCompiler.new cfg) = .ok (fn1, c1) →
    codegen_function cfg addr g c1 = .ok (fn2, c2) →
    (∀ id inst out, g.node id = some inst →
      cfg.get_opcode_from_node_type inst.type.name ≠ .OP_NOOP → out ∈ inst.type.outputs →
      ∃ s1 s2,
        codegen_function.output_slot cfg addr g (BVMCompiler.new cfg) ⟨some id, out.name⟩ =
          some s1 ∧
        codegen_function.output_slot cfg addr g c1 ⟨some id, out.name⟩ = some s2 ∧
        fresh_slot cfg (BVMCompiler.new cfg) c1 s1 ∧ fresh_slot cfg c1 c2 s2 ∧
        (s1 ≠ cfg.BVM_STACK_INVALID → s1 ≠ s2)) ∧
    (∀ rv1 ∈ fn1.return_values, ∀ rv2 ∈ fn2.return_values,
      fresh_slot cfg (BVMCompiler.new cfg) c1 rv1.stack_offset ∧
      fresh_slot cfg c1 c2 rv2.stack_offset ∧
      (rv1.stack_offset ≠ cfg.BVM_STACK_INVALID → rv1.stack_offset ≠ rv2.stack_offset)) ∧
    (c1.stack_overrun = false →
      ∃ t1, t1 ≤ cfg.BVM_STACK_SIZE ∧ c1.stack_users = filled cfg.BVM_STACK_SIZE t1 ∧
        (∀ id inst, g.node id = some inst →
          cfg.get_opcode_from_node_type inst.type.name ≠ .OP_NOOP →
          inst.type.outputs ≠ [] → 0 < t1) ∧
        (∀ key v, codegen_function.output_slot cfg addr g (BVMCompiler.new cfg) key = some v →
          v < t1) ∧
        (∀ key v, codegen_function.output_slot cfg addr g c1 key = some v →
          v = cfg.BVM_STACK_INVALID ∨ (t1 ≤ v ∧ v < cfg.BVM_STACK_SIZE)) ∧
        (∀ rv ∈ fn1.return_values, rv.stack_offset < t1) ∧
        (∀ rv ∈ fn2.return_values, rv.stack_offset = cfg.BVM_STACK_INVALID ∨
          (t1 ≤ rv.stack_offset ∧ rv.stack_offset < cfg.BVM_STACK_SIZE)) ∧
        (c2.stack_overrun = false →
          ∃ t2, t1 ≤ t2 ∧ t2 ≤ cfg.BVM_STACK_SIZE ∧
            c2.stack_users = filled cfg.BVM_STACK_SIZE t2 ∧
            (∀ id inst, g.node id = some inst →
              cfg.get_opcode_from_node_type inst.type.name ≠ .OP_NOOP →
              inst.type.outputs ≠ [] → t1 < t2) ∧
            (∀ key v, codegen_function.output_slot cfg addr g c1 key = some v →
              t1 ≤ v ∧ v < t2) ∧
            ∀ rv ∈ fn2.return_values, t1 ≤ rv.stack_offset ∧ rv.stack_offset < t2)) ∧
    (c2.stack_overrun = false → c1.stack_overrun = false) ∧
    ∀ c : BVMCompiler, c.stack_users = (BVMCompiler.new cfg).stack_users →
      c.func_entry_map = [] → c.stack_overrun = false →
      codegen_function cfg addr g c = .ok (fn1, c1) := by
  refine ⟨fun hclosed c => codegen_function_fault cfg addr g c hclosed,
    fun c fn c' hok => codegen_function_no_reset cfg addr g hsentinel hsizes c fn c' hok, ?_⟩
  intro fn1 c1 fn2 c2 h1 h2
  have hlen0 : (BVMCompiler.new cfg).stack_users.length = cfg.BVM_STACK_SIZE := by
    rw [(new_alloc_ok cfg Function.new []).1, filled_length _ _ (Nat.zero_le _)]
  have hle1 := (codegen_function_no_reset cfg addr g hsentinel hsizes _ fn1 c1 h1).1
  have hlen1 : c1.stack_users.length = cfg.BVM_STACK_SIZE := by rw [hle1.1, hlen0]
  obtain ⟨f1, g1⟩ := codegen_function_fresh cfg addr g hsentinel hsizes _ fn1 c1 h1 hlen0
  obtain ⟨f2, g2⟩ := codegen_function_fresh cfg addr g hsentinel hsizes _ fn2 c2 h2 hlen1
  refine ⟨?_, ?_, ?_, codegen_function_clean cfg addr g c1 fn2 c2 h2, ?_⟩
  · intro id inst out hn hmapped hout
    obtain ⟨v1, hv1⟩ := codegen_function_slot_defined cfg addr g _ fn1 c1 h1 id inst out hn
      hmapped hout
    obtain ⟨v2, hv2⟩ := codegen_function_slot_defined cfg addr g _ fn2 c2 h2 id inst out hn
      hmapped hout
    exact ⟨v1, v2, hv1, hv2, f1 _ _ hv1, f2 _ _ hv2, fresh_slot_ne (f1 _ _ hv1) (f2 _ _ hv2)⟩
  · intro rv1 hrv1 rv2 hrv2
    exact ⟨g1 rv1 hrv1, g2 rv2 hrv2, fresh_slot_ne (g1 rv1 hrv1) (g2 rv2 hrv2)⟩
  · intro hc1
    obtain ⟨t1, _, a1, _, n1, s1, _, r1⟩ := codegen_function_alloc cfg addr g hsentinel hsizes
      _ fn1 c1 0 h1 (new_alloc_ok cfg _ _) hc1
    refine ⟨t1, a1.2.1, a1.1, n1, fun key v hv => (s1 key v hv).2,
      fun key v hv => fresh_slot_filled a1 (f2 key v hv), fun rv hrv => (r1 rv hrv).2,
      fun rv hrv => fresh_slot_filled a1 (g2 rv hrv), ?_⟩
    intro hc2
    obtain ⟨t2, ht2, a2, _, n2, s2, _, r2⟩ := codegen_function_alloc cfg addr g hsentinel
      hsizes _ fn2 c2 t1 h2 a1 hc2
    exact ⟨t2, ht2, a2.2.1, a2.1, n2, s2, r2⟩
  · intro c hs hf ho
    rw [← codegen_function_fn_irrelevant cfg addr g c Function.new, ← h1]
    obtain ⟨su, fn, fem, so⟩ := c
    simp only at hs hf ho
    subst hs hf ho
    rfl

theorem codegen_function_reuse_witness :
    (codegen_function small_config id default_kernel_graph (BVMCompiler.new small_config) =
        .ok (default_kernel_function, default_kernel_compiler) ∧
      codegen_function small_config id default_kernel_graph default_kernel_compiler =
        .ok (default_kernel_function_second, default_kernel_compiler_second) ∧
      default_kernel_compiler.stack_users = filled 8 2 ∧
      default_kernel_compiler_second.stack_users = filled 8 4 ∧
      default_kernel_function.return_values = [⟨⟨.BVM_FLOAT⟩, "result", 1⟩] ∧
      default_kernel_function_second.return_values = [⟨⟨.BVM_FLOAT⟩, "result", 3⟩] ∧
      default_kernel_compiler.stack_overrun = false ∧
      default_kernel_compiler_second.stack_overrun = false ∧
      (codegen_function small_config id scenario_chain (BVMCompiler.new small_config)).toOption.map
          (fun r => (r.1.entry_point, r.2.func_entry_map)) = some (0, []) ∧
      (codegen_function small_config id scenario_chain
          { BVMCompiler.new small_config with
            func_entry_map := [(⟨some 0, "value"⟩, ⟨5, 7⟩)] }).toOption.map
          (fun r => (r.1.entry_point, r.2.func_entry_map)) =
        some (4, [(⟨some 0, "value"⟩, ⟨0, 0⟩)])) ∧
    (∀ c : BVMCompiler,
      codegen_function small_config id default_kernel_graph c ≠ .error .no_termination) ∧
    (default_kernel_compiler.users_le default_kernel_compiler_second ∧
      ∀ key, (Map.find default_kernel_compiler.func_entry_map key).isSome →
        (Map.find default_kernel_compiler_second.func_entry_map key).isSome) ∧
    (∀ (n : Nat) (inst : NodeInstance) (out : NodeSocket),
      default_kernel_graph.node n = some inst →
      small_config.get_opcode_from_node_type inst.type.name ≠ .OP_NOOP →
      out ∈ inst.type.outputs →
      ∃ s1 s2,
        codegen_function.output_slot small_config id default_kernel_graph
          (BVMCompiler.new small_config) ⟨some n, out.name⟩ = some s1 ∧
        codegen_function.output_slot small_config id default_kernel_graph
          default_kernel_compiler ⟨some n, out.name⟩ = some s2 ∧
        fresh_slot small_config (BVMCompiler.new small_config) default_kernel_compiler s1 ∧
        fresh_slot small_config default_kernel_compiler default_kernel_compiler_second s2 ∧
        (s1 ≠ small_config.BVM_STACK_INVALID → s1 ≠ s2)) ∧
    (∀ rv1 ∈ default_kernel_function.return_values,
      ∀ rv2 ∈ default_kernel_function_second.return_values,
      fresh_slot small_config (BVMCompiler.new small_config) default_kernel_compiler
        rv1.stack_offset ∧
      fresh_slot small_config default_kernel_compiler default_kernel_compiler_second
        rv2.stack_offset ∧
      (rv1.stack_offset ≠ small_config.BVM_STACK_INVALID →
        rv1.stack_offset ≠ rv2.stack_offset)) ∧
    (default_kernel_compiler.stack_overrun = false →
      ∃ t1, t1 ≤ small_config.BVM_STACK_SIZE ∧
        default_kernel_compiler.stack_users = filled small_config.BVM_STACK_SIZE t1 ∧
        (∀ (n : Nat) (inst : NodeInstance), default_kernel_graph.node n = some inst →
          small_config.get_opcode_from_node_type inst.type.name ≠ .OP_NOOP →
          inst.type.outputs ≠ [] → 0 < t1) ∧
        (∀ key v, codegen_function.output_slot small_config id default_kernel_graph
            (BVMCompiler.new small_config) key = some v → v < t1) ∧
        (∀ key v, codegen_function.output_slot small_config id default_kernel_graph
            default_kernel_compiler key = some v →
          v = small_config.BVM_STACK_INVALID ∨ (t1 ≤ v ∧ v < small_config.BVM_STACK_SIZE)) ∧
        (∀ rv ∈ default_kernel_function.return_values, rv.stack_offset < t1) ∧
        (∀ rv ∈ default_kernel_function_second.return_values,
          rv.stack_offset = small_config.BVM_STACK_INVALID ∨
          (t1 ≤ rv.stack_offset ∧ rv.stack_offset < small_config.BVM_STACK_SIZE)) ∧
        (default_kernel_compiler_second.stack_overrun = false →
          ∃ t2, t1 ≤ t2 ∧ t2 ≤ small_config.BVM_STACK_SIZE ∧
            default_kernel_compiler_second.stack_users =
              filled small_config.BVM_STACK_SIZE t2 ∧
            (∀ (n : Nat) (inst : NodeInstance), default_kernel_graph.node n = some inst →
              small_config.get_opcode_from_node_type inst.type.name ≠ .OP_NOOP →
              inst.type.outputs ≠ [] → t1 < t2) ∧
            (∀ key v, codegen_function.output_slot small_config id default_kernel_graph
                default_kernel_compiler key = some v → t1 ≤ v ∧ v < t2) ∧
            ∀ rv ∈ default_kernel_function_second.return_values,
              t1 ≤ rv.stack_offset ∧ rv.stack_offset < t2)) ∧
    (default_kernel_compiler_second.stack_overrun = false →
      default_kernel_compiler.stack_overrun = false) ∧
    ∀ c : BVMCompiler, c.stack_users = (BVMCompiler.new small_config).stack_users →
      c.func_entry_map = [] → c.stack_overrun = false →
      codegen_function small_config id default_kernel_graph c =
        .ok (default_kernel_function, default_kernel_compiler) :=
  ⟨⟨by rfl, by rfl, by decide, by decide, rfl, rfl, rfl, rfl, by rfl, by rfl⟩,
   (codegen_function_reuse small_config id default_kernel_graph (by decide)
     example_stack_size_pos).1 default_kernel_graph_closed,
   (codegen_function_reuse small_config id default_kernel_graph (by decide)
     example_stack_size_pos).2.1 default_kernel_compiler default_kernel_function_second
     default_kernel_compiler_second (by rfl),
   (codegen_function_reuse small_config id default_kernel_graph (by decide)
     example_stack_size_pos).2.2 default_kernel_function default_kernel_compiler
     default_kernel_function_second default_kernel_compiler_second (by rfl) (by rfl)⟩

/-! ## Expression nodes are compiled in the kernel body and in the main subgraph -/

/-- The list of `sort_expression_nodes` holds no node twice. -/
theorem sort_expression_nodes_nodup (g : NodeGraph) (key : ConstSocketPair) (l : NodeList)
    (h : sort_expression_nodes g key = .ok l) : l.Nodup := by
  unfold sort_expression_nodes at h
  split at h
  · exact absurd h (by simp)
  · split at h
    · exact absurd h (by simp)
    · split at h
      · rename_i link_node _ _ _
        split at h
        · exact absurd h (by simp)
        · rename_i sorted_nodes visited he
          simp only [Except.ok.injEq] at h
          subst h
          have hi0 : expr_inv g (fun _ => True) ([], []) :=
            ⟨fun x hx => absurd hx (List.not_mem_nil _), List.nodup_nil,
             fun x hx => absurd hx (List.not_mem_nil _),
             fun x hx => absurd hx (List.not_mem_nil _)⟩
          obtain ⟨⟨_, b2, _, _⟩, _, _⟩ :=
            expression_node_append_inv g (fun _ => True) (fun _ _ _ _ _ => trivial) _
              link_node _ _ he hi0 (Or.inr trivial)
          exact b2
      · simp only [Except.ok.injEq] at h
        subst h
        exact List.nodup_nil

/-- The step of a node with a mapped opcode appends the main instruction of the
node, between the words of its input loads and output initializations and the
words of its releases; the input-index map of the instruction is the one that
the loop over the inputs of the node builds. -/
theorem codegen_node_emits (cfg : Config) (g : NodeGraph) (users : SocketUserMap)
    (id : Nat) (inst : NodeInstance) (c : BVMCompiler) (oi : SocketIndexMap) (c' : BVMCompiler)
    (oi' : SocketIndexMap) (hnode : g.node id = some inst)
    (hmapped : cfg.get_opcode_from_node_type inst.type.name ≠ .OP_NOOP)
    (h : codegen_subgraph.node cfg g users id c oi = .ok (c', oi')) :
    ∃ cp ii a b,
      codegen_subgraph.prepare_inputs cfg id oi inst.input_sockets c [] = .ok (cp, ii) ∧
      c'.fn.instructions = c.fn.instructions ++ a ++
        spec_main_instruction cfg c.func_entry_map ii oi' id inst ++ b := by
  obtain ⟨c1, ii, c2, c3, c4, hprep, hinit, hwi, hwo, hrel⟩ :=
    codegen_node_stages cfg g users id inst c oi c' oi' hnode hmapped h
  obtain ⟨f1, _, _, x1, e1⟩ := prepare_inputs_grows cfg id oi _ _ _ _ _ hprep
  obtain ⟨f2, _, _, x2, e2⟩ := init_outputs_grows cfg id users _ _ _ _ _ hinit
  have hfem : (push_opcode c2 (cfg.get_opcode_from_node_type inst.type.name)).func_entry_map =
      c.func_entry_map := by
    rw [push_opcode_eq, append_func_entry_map, f2, f1]
  obtain ⟨w1, _⟩ := write_inputs_trace cfg id ii _ _ _ hwi
  obtain ⟨o1, _⟩ := write_outputs_trace cfg id oi' _ _ _ hwo
  rw [hfem] at w1
  have hr := release_inputs_trace cfg oi' _ _ _ hrel
  refine ⟨c1, ii, x1 ++ x2, inst.input_sockets.flatMap (spec_release_words cfg oi'), hprep, ?_⟩
  rw [hr, o1, w1, push_opcode_eq]
  simp only [append_instructions, e2, e1, spec_main_instruction]
  simp

/-- The node loop on a list `pre ++ N :: post`, where `N` has a mapped opcode and
is not in `pre`: the loop over `pre`, the step of `N` and the loop over `post`
return one after the other; the step of `N` appends the main instruction of `N`
and gives every output of `N` a slot that is the sentinel or was free before
the step and is claimed after it.  On a table whose first `t` slots are claimed
and when the stack is not exhausted, these slots lie between the fill levels
before and after the step. -/
theorem codegen_nodes_at (cfg : Config) (g : NodeGraph) (users : SocketUserMap)
    (hsentinel : cfg.sentinel_ok) (hsizes : ∀ td, 1 ≤ cfg.stack_size td)
    (N : Nat) (ninst : NodeInstance) (hnode : g.node N = some ninst)
    (hmapped : cfg.get_opcode_from_node_type ninst.type.name ≠ .OP_NOOP)
    (pre post : NodeList) (hNpre : N ∉ pre) (c c' : BVMCompiler) (oi' : SocketIndexMap)
    (h : codegen_subgraph.nodes cfg g users (pre ++ N :: post) c [] = .ok (c', oi')) :
    ∃ (ca : BVMCompiler) (oia : SocketIndexMap) (cp : BVMCompiler) (ii : SocketIndexMap)
      (cb : BVMCompiler) (oib : SocketIndexMap) (x a b y : List Instruction),
      codegen_subgraph.nodes cfg g users pre c [] = .ok (ca, oia) ∧
      codegen_subgraph.prepare_inputs cfg N oia ninst.input_sockets ca [] = .ok (cp, ii) ∧
      codegen_subgraph.node cfg g users N ca oia = .ok (cb, oib) ∧
      codegen_subgraph.nodes cfg g users post cb oib = .ok (c', oi') ∧
      ca.fn.instructions = c.fn.instructions ++ x ∧
      cb.fn.instructions = ca.fn.instructions ++ a ++
        spec_main_instruction cfg ca.func_entry_map ii oib N ninst ++ b ∧
      c'.fn.instructions = cb.fn.instructions ++ y ∧
      c.users_le ca ∧ ca.users_le cb ∧ cb.users_le c' ∧
      (∀ out ∈ ninst.type.outputs, ∃ s, Map.find oib ⟨some N, out.name⟩ = some s ∧
        (ca.stack_users.length = cfg.BVM_STACK_SIZE → fresh_slot cfg ca cb s)) ∧
      ∀ t, alloc_ok cfg c t → c'.stack_overrun = false →
        ∃ ta tb t', t ≤ ta ∧ ta ≤ tb ∧ tb ≤ t' ∧ alloc_ok cfg c' t' ∧
          ∀ out ∈ ninst.type.outputs, ∀ s, Map.find oib ⟨some N, out.name⟩ = some s →
            ta ≤ s ∧ s < tb := by
  rw [codegen_nodes_append] at h
  split at h
  · exact absurd h (by simp)
  · rename_i ca oia hpre
    have h0 := h
    unfold codegen_subgraph.nodes at h
    split at h
    · exact absurd h (by simp)
    · rename_i cb oib hstep
      have hold : ∀ s, Map.find oia ⟨some N, s⟩ = none := by
        intro s
        rw [codegen_nodes_index_frame cfg g users pre _ _ _ _ hpre ⟨some N, s⟩
          (fun n hn e => hNpre (by
            simp only [Option.some.injEq] at e
            rw [e]
            exact hn))]
        rfl
      obtain ⟨_, _, _, x, ex⟩ := codegen_nodes_grows cfg g users _ _ _ _ _ hpre
      obtain ⟨_, _, _, y, ey⟩ := codegen_nodes_grows cfg g users _ _ _ _ _ h
      obtain ⟨cp, ii, a, b, hprep, em⟩ :=
        codegen_node_emits cfg g users N ninst _ _ _ _ hnode hmapped hstep
      have hdef := (codegen_node_defined_outputs cfg g users N _ _ _ _ hstep).2 ninst hnode
        hmapped
      have u1 := (codegen_nodes_fresh cfg g users hsentinel hsizes _ _ _ _ _ hpre).1
      obtain ⟨u2, f2⟩ := codegen_node_fresh cfg g users hsentinel hsizes N _ _ _ _ hstep
      have u3 := (codegen_nodes_fresh cfg g users hsentinel hsizes _ _ _ _ _ h).1
      refine ⟨ca, oia, cp, ii, cb, oib, x, a, b, y, hpre, hprep, hstep, h, ex, em, ey, u1, u2,
        u3, ?_, ?_⟩
      · intro out ho
        obtain ⟨s, hs⟩ := Option.ne_none_iff_exists'.1 (hdef out ho)
        refine ⟨s, hs, fun hlen => ?_⟩
        rcases f2 hlen _ s hs with hold1 | hnew
        · rw [hold] at hold1
          exact absurd hold1 (by simp)
        · exact hnew
      · intro t ha hfinal
        have hcb : cb.stack_overrun = false :=
          clean_of_mono (codegen_nodes_overrun_mono cfg g users _ _ _ _ _ h) hfinal
        have hca : ca.stack_overrun = false :=
          clean_of_mono (codegen_node_overrun_mono cfg g users N _ _ _ _ hstep) hcb
        obtain ⟨ta, hta, a1, _, _⟩ := codegen_nodes_alloc cfg g users hsentinel hsizes _ _ _ _ _
          t hpre ha hca
        obtain ⟨tb, htb, a2, _, r2⟩ := codegen_node_alloc cfg g users hsentinel hsizes N _ _ _ _
          ta hstep a1 hcb
        obtain ⟨t', ht', a3, _, _⟩ := codegen_nodes_alloc cfg g users hsentinel hsizes _ _ _ _ _
          tb h a2 hfinal
        refine ⟨ta, tb, t', hta, htb, ht', a3, ?_⟩
        intro out _ s hs
        rcases r2 _ s hs with hold1 | hnew
        · rw [hold] at hold1
          exact absurd hold1 (by simp)
        · exact hnew
/-- C34, the claim as stated does not hold: in `matrix_expression_graph` the
mapped non-kernel node 1 is the expression subgraph of the function-typed input
"factor" of the kernel node 0, and its matrix output of 16 slots does not fit
the stack of 8 slots of `small_config`.  The compile returns and emits the
instruction of node 1 twice, before and after the entry point 2, but the output
of node 1 gets the sentinel as its slot both in the kernel function body and in
the main subgraph: no two distinct slots. -/
theorem codegen_function_expression_node_twice_exhausted_counterexample :
    matrix_expression_graph.node 1 = some ⟨matrix_source_type, []⟩ ∧
    small_config.get_opcode_from_node_type matrix_source_type.name = .OP_OTHER 1 ∧
    matrix_source_type.is_kernel_node = false ∧
    sort_expression_nodes matrix_expression_graph ⟨some 0, "factor"⟩ = .ok [1] ∧
    (codegen_function small_config id matrix_expression_graph
        (BVMCompiler.new small_config)).toOption.map (fun r => r.1) =
      some ⟨[.opcode (.OP_OTHER 1), .opcode .OP_END, .opcode (.OP_OTHER 2), .data 0,
             .opcode (.OP_OTHER 1), .opcode .OP_END], 2,
            [⟨⟨.BVM_FLOAT⟩, "result", small_config.BVM_STACK_INVALID⟩]⟩ ∧
    ((sort_graph_nodes small_config matrix_expression_graph (BVMCompiler.new small_config)).bind
      fun r => (codegen_subgraph.nodes small_config matrix_expression_graph
        (count_output_users matrix_expression_graph) [1]
        { r.2 with fn := Function.new } []).toOption.bind
          fun s => Map.find s.2 ⟨some 1, "value"⟩) = some small_config.BVM_STACK_INVALID ∧
    codegen_function.output_slot small_config id matrix_expression_graph
      (BVMCompiler.new small_config) ⟨some 1, "value"⟩ = some small_config.BVM_STACK_INVALID :=
  ⟨rfl, by decide, rfl, by rfl, by rfl, by rfl, by rfl⟩

/-- C34, amended: let `N` be a node with a mapped opcode in the list `l` of
expression nodes of a function-typed input `key` of the graph (so `N` is no
kernel node), and let `codegen_function` on a fresh compiler return a function
(on a graph whose links come from nodes of the graph it does, unless an `assert`
fails or a null pointer is dereferenced).  The list of the main subgraph holds
every node of the graph.  The step of `N` runs twice: once in the kernel
function body of `key`, in the node loop over `l` that the kernel loop starts
when it comes to `key`, and once in the node loop of the main subgraph, which
starts on the state that the kernel loop leaves.  Each step appends the main
instruction of `N`; the words of the first step lie before the entry point of
the function, those of the second at or after it.  Both steps give every output
of `N` a slot, which is the sentinel or a slot that was free before the step and
is claimed after it; the slot of the first step, unless it is the sentinel,
differs from that of the second, and when the stack is not exhausted (the
sentinel lies outside the stack, footprints are at least one slot) the slot of
the first step is smaller than the slot of the second, both inside the stack. -/
theorem codegen_function_expression_node_twice (cfg : Config) (addr : Nat → Nat)
    (g : NodeGraph) (hsentinel : cfg.sentinel_ok) (hsizes : ∀ td, 1 ≤ cfg.stack_size td)
    (key : ConstSocketPair) (l : NodeList) (N : Nat) (ninst : NodeInstance)
    (hkey : g.function_input key) (hsort : sort_expression_nodes g key = .ok l) (hN : N ∈ l)
    (hnode : g.node N = some ninst)
    (hmapped : cfg.get_opcode_from_node_type ninst.type.name ≠ .OP_NOOP) :
    (g.closed → codegen_function cfg addr g (BVMCompiler.new cfg) ≠ .error .no_termination) ∧
    ∀ (fn : Function) (c' : BVMCompiler),
    codegen_function cfg addr g (BVMCompiler.new cfg) = .ok (fn, c') →
    ¬ g.is_kernel N ∧
    ∃ (main_nodes : NodeList) (c1 c2 : BVMCompiler) (kpre kpost : List ConstSocketPair)
      (cbk : BVMCompiler) (lpre lpost mpre mpost : NodeList)
      (ca1 cp1 cb1 ca2 cp2 cb2 : BVMCompiler) (oia1 ii1 oib1 oia2 ii2 oib2 : SocketIndexMap)
      (a1 b1 r1 x2 a2 b2 r2 : List Instruction) (kinst : NodeInstance) (ksocket : NodeSocket)
      (kinput : InputInstance) (kentry : Nat) (kout : SubgraphOutput) (cak : BVMCompiler),
      sort_graph_nodes cfg g (BVMCompiler.new cfg) = some (main_nodes, c1) ∧
      (∀ n, n < g.nodes.length → n ∈ main_nodes) ∧
      c1.func_entry_map.iteration addr = kpre ++ key :: kpost ∧
      codegen_function.kernels cfg g (count_output_users g) kpre
        { c1 with fn := Function.new } = .ok cbk ∧
      key.node.bind g.node = some kinst ∧
      kinst.find_input key.socket = some (ksocket, kinput) ∧
      codegen_subgraph cfg g l (count_output_users g)
        [⟨kinst.link key.socket, ksocket.default_value, cfg.BVM_STACK_INVALID⟩] cbk =
        .ok (kentry, [kout], cak) ∧
      codegen_function.kernels cfg g (count_output_users g) kpost
        { cak with func_entry_map :=
            Map.set cak.func_entry_map key ⟨kentry, kout.stack_index⟩ } = .ok c2 ∧
      codegen_function.kernels cfg g (count_output_users g) (c1.func_entry_map.iteration addr)
        { c1 with fn := Function.new } = .ok c2 ∧
      fn.entry_point = c2.fn.instructions.length ∧
      l = lpre ++ N :: lpost ∧
      codegen_subgraph.nodes cfg g (count_output_users g) lpre cbk [] = .ok (ca1, oia1) ∧
      codegen_subgraph.prepare_inputs cfg N oia1 ninst.input_sockets ca1 [] = .ok (cp1, ii1) ∧
      codegen_subgraph.node cfg g (count_output_users g) N ca1 oia1 = .ok (cb1, oib1) ∧
      main_nodes = mpre ++ N :: mpost ∧
      codegen_subgraph.nodes cfg g (count_output_users g) mpre c2 [] = .ok (ca2, oia2) ∧
      codegen_subgraph.prepare_inputs cfg N oia2 ninst.input_sockets ca2 [] = .ok (cp2, ii2) ∧
      codegen_subgraph.node cfg g (count_output_users g) N ca2 oia2 = .ok (cb2, oib2) ∧
      cb1.fn.instructions = ca1.fn.instructions ++ a1 ++
        spec_main_instruction cfg ca1.func_entry_map ii1 oib1 N ninst ++ b1 ∧
      c2.fn.instructions = cb1.fn.instructions ++ r1 ∧
      ca2.fn.instructions = c2.fn.instructions ++ x2 ∧
      cb2.fn.instructions = ca2.fn.instructions ++ a2 ++
        spec_main_instruction cfg ca2.func_entry_map ii2 oib2 N ninst ++ b2 ∧
      fn.instructions = cb2.fn.instructions ++ r2 ∧
      fn.instructions =
        ca1.fn.instructions ++ a1 ++
          spec_main_instruction cfg ca1.func_entry_map ii1 oib1 N ninst ++
          (b1 ++ r1 ++ x2 ++ a2) ++
          spec_main_instruction cfg ca2.func_entry_map ii2 oib2 N ninst ++ (b2 ++ r2) ∧
      (ca1.fn.instructions ++ a1 ++
        spec_main_instruction cfg ca1.func_entry_map ii1 oib1 N ninst).length ≤
        fn.entry_point ∧
      fn.entry_point ≤
        (ca1.fn.instructions ++ a1 ++
          spec_main_instruction cfg ca1.func_entry_map ii1 oib1 N ninst ++
          (b1 ++ r1 ++ x2 ++ a2)).length ∧
      ∀ out ∈ ninst.type.outputs, ∃ s1 s2,
        Map.find oib1 ⟨some N, out.name⟩ = some s1 ∧
        Map.find oib2 ⟨some N, out.name⟩ = some s2 ∧
        fresh_slot cfg ca1 cb1 s1 ∧ fresh_slot cfg ca2 cb2 s2 ∧
        (s1 ≠ cfg.BVM_STACK_INVALID → s1 ≠ s2) ∧
        (c'.stack_overrun = false → s1 < s2 ∧ s2 < cfg.BVM_STACK_SIZE) := by
  refine ⟨codegen_function_fault cfg addr g _, ?_⟩
  intro fn c' hok
  obtain ⟨main_nodes, c1, c2, c3, oi, outs, outs', c4, hsortm, hker, hnodes, hmain, hres, hret,
    hc'⟩ := codegen_function_parts cfg addr g _ fn c' hok
  have hperm := sort_graph_nodes_perm cfg g _ c1 main_nodes hsortm
  have hall : ∀ n, n < g.nodes.length → n ∈ main_nodes :=
    fun n hn => hperm.mem_iff.2 (List.mem_range.2 hn)
  have hNlt : N < g.nodes.length := by
    unfold NodeGraph.node at hnode
    exact (List.getElem?_eq_some_iff.1 hnode).1
  refine ⟨fun hk => sort_expression_nodes_no_kernel g key l hsort N hN hk, ?_⟩
  -- the kernel function body of the key
  obtain ⟨info, hinfo⟩ := Option.isSome_iff_exists.1
    ((sort_graph_nodes_keys cfg g _ c1 main_nodes rfl hsortm key).2 hkey)
  obtain ⟨kpre, kpost, cbk, l1, kinst, ksock, kii, entry, kout, cak, hsplit, _, hkpre, q1, hkinst,
    hkfind, hsub, _, hkpost, _⟩ := kernels_last cfg g _ key _ _ _ hker
      (mem_iteration_of_find addr key info _ hinfo)
  rw [hsort] at q1
  simp only [Except.ok.injEq] at q1
  subst q1
  have hsub0 := hsub
  obtain ⟨cn, oik, hnodesk, hresk, _⟩ := codegen_subgraph_parts cfg g _ _ _ _ _ _ _ hsub
  have hnodup := sort_expression_nodes_nodup g key l hsort
  obtain ⟨lpre, lpost, hl⟩ := List.append_of_mem hN
  have hNlpre : N ∉ lpre := by
    intro hm
    rw [hl] at hnodup
    exact (List.nodup_append.1 hnodup).2.2 hm (List.mem_cons_self _ _)
  rw [hl] at hnodesk
  obtain ⟨ca1, oia1, cp1, ii1, cb1, oib1, x1, a1, b1, y1, pre1, prep1, step1, post1, ex1, em1,
    ey1, u1, v1, w1, def1, al1⟩ :=
    codegen_nodes_at cfg g _ hsentinel hsizes N ninst hnode hmapped lpre lpost hNlpre _ _ _
      hnodesk
  obtain ⟨⟨_, _, _, wr, ewr⟩, _, _⟩ := resolve_outputs_keys cfg oik _ _ _ _ hresk
  rw [push_opcode_eq, append_instructions] at ewr
  obtain ⟨_, _, _, ⟨wk, ewk⟩, _⟩ := kernels_spec cfg g _ _ _ _ hkpost
  simp only at ewk
  -- the main subgraph
  have hmnodup : main_nodes.Nodup := hperm.nodup_iff.2 (List.nodup_range _)
  obtain ⟨mpre, mpost, hm⟩ := List.append_of_mem (hall N hNlt)
  have hNmpre : N ∉ mpre := by
    intro hmm
    rw [hm] at hmnodup
    exact (List.nodup_append.1 hmnodup).2.2 hmm (List.mem_cons_self _ _)
  have hnodes0 := hnodes
  rw [hm] at hnodes
  obtain ⟨ca2, oia2, cp2, ii2, cb2, oib2, x2, a2, b2, y2, pre2, prep2, step2, post2, ex2, em2,
    ey2, u2, v2, w2, def2, al2⟩ :=
    codegen_nodes_at cfg g _ hsentinel hsizes N ninst hnode hmapped mpre mpost hNmpre _ _ _
      hnodes
  obtain ⟨ml, _⟩ := main_outputs_spec cfg g _ _ hmain
  obtain ⟨⟨_, _, _, wr2, ewr2⟩, rl, _⟩ := resolve_outputs_keys cfg oi _ _ _ _ hres
  rw [push_opcode_eq, append_instructions] at ewr2
  obtain ⟨vi, ve, _⟩ := return_values_spec g _ _ _ _ hret (by rw [rl, ml])
  have hentry : fn.entry_point = c2.fn.instructions.length := by rw [ve]; rfl
  have hfn : fn.instructions = c4.fn.instructions := by rw [vi]; rfl
  have hc2 : c2.fn.instructions = cb1.fn.instructions ++ (y1 ++ [.opcode .OP_END] ++ wr ++ wk) := by
    rw [ewk, ewr, ey1]
    simp only [List.append_assoc]
  have hfn2 : fn.instructions = cb2.fn.instructions ++ (y2 ++ [.opcode .OP_END] ++ wr2) := by
    rw [hfn, ewr2, ey2]
    simp only [List.append_assoc]
  -- the tables
  have hlen0 : (BVMCompiler.new cfg).stack_users.length = cfg.BVM_STACK_SIZE := by
    rw [(new_alloc_ok cfg Function.new []).1, filled_length _ _ (Nat.zero_le _)]
  have hsu1 : c1.stack_users = (BVMCompiler.new cfg).stack_users := by
    unfold sort_graph_nodes at hsortm
    split at hsortm
    · exact absurd hsortm (by simp)
    · simp only [Option.some.injEq, Prod.mk.injEq] at hsortm
      rw [← hsortm.2]
  have uk1 := kernels_users_le cfg g _ hsentinel hsizes _ _ _ hkpre
  have uk2 := kernels_users_le cfg g _ hsentinel hsizes _ _ _ hkpost
  have ur1 := resolve_outputs_users_le cfg oik _ _ _ _ hresk
  rw [push_opcode_eq] at ur1
  have hlenca1 : ca1.stack_users.length = cfg.BVM_STACK_SIZE := by
    rw [u1.1, uk1.1]
    show c1.stack_users.length = _
    rw [hsu1, hlen0]
  have ucb1ca2 : cb1.users_le ca2 :=
    users_le_trans w1 (users_le_trans (users_le_append _ _) (users_le_trans ur1
      (users_le_trans (users_le_of_eq rfl) (users_le_trans uk2 u2))))
  have hlenca2 : ca2.stack_users.length = cfg.BVM_STACK_SIZE := by
    rw [ucb1ca2.1, v1.1, hlenca1]
  refine ⟨main_nodes, c1, c2, kpre, kpost, cbk, lpre, lpost, mpre, mpost, ca1, cp1, cb1, ca2,
    cp2, cb2, oia1, ii1, oib1, oia2, ii2, oib2, a1, b1, y1 ++ [.opcode .OP_END] ++ wr ++ wk, x2,
    a2, b2, y2 ++ [.opcode .OP_END] ++ wr2, kinst, ksock, kii, entry, kout, cak, hsortm, hall,
    hsplit, hkpre, hkinst, hkfind, hsub0, hkpost, hker, hentry, hl, pre1,
    prep1, step1, hm, pre2, prep2, step2, em1, hc2, ex2, em2, hfn2, ?_, ?_, ?_, ?_⟩
  · rw [hfn2, em2, ex2, hc2, em1]
    simp only [List.append_assoc]
  · rw [hentry, hc2, em1]
    simp only [List.length_append]
    omega
  · rw [hentry, hc2, em1]
    simp only [List.length_append]
    omega
  · intro out hout
    obtain ⟨s1, hs1, hf1⟩ := def1 out hout
    obtain ⟨s2, hs2, hf2⟩ := def2 out hout
    have f1 := hf1 hlenca1
    have f2 := hf2 hlenca2
    refine ⟨s1, s2, hs1, hs2, f1, f2, fresh_slot_ne (fresh_slot_right f1 ucb1ca2) f2, ?_⟩
    intro hclean
    have h4 : c4.stack_overrun = false := by
      rw [hc'] at hclean
      exact hclean
    have h3 : c3.stack_overrun = false := by
      have := clean_of_mono (resolve_outputs_overrun_mono cfg oi _ _ _ _ hres) h4
      rw [push_opcode_eq, append_stack_overrun] at this
      exact this
    have h2 : c2.stack_overrun = false :=
      clean_of_mono (codegen_nodes_overrun_mono cfg g _ _ _ _ _ _ hnodes0) h3
    have hak : cak.stack_overrun = false :=
      clean_of_mono (kernels_stack cfg g _ _ _ _ hkpost).2 h2
    have hcn : cn.stack_overrun = false := by
      have := clean_of_mono (resolve_outputs_overrun_mono cfg oik _ _ _ _ hresk) hak
      rw [push_opcode_eq, append_stack_overrun] at this
      exact this
    have hbk : cbk.stack_overrun = false :=
      clean_of_mono (codegen_nodes_overrun_mono cfg g _ _ _ _ _ _ hnodesk) hcn
    obtain ⟨tk, _, k1⟩ := kernels_alloc cfg g _ hsentinel hsizes _ _ _ 0 hkpre
      (sort_graph_nodes_alloc cfg g _ c1 main_nodes 0 _ hsortm (new_alloc_ok cfg _ _)) hbk
    obtain ⟨ta1, tb1, tn, _, _, m3, m4, m5⟩ := al1 tk k1 hcn
    obtain ⟨tr, htr, m6⟩ := resolve_outputs_alloc cfg oik hsentinel hsizes _ _ _ _ tn hresk
      (by rw [push_opcode_eq]; exact alloc_ok_append cfg cn tn _ m4) hak
    obtain ⟨t2, ht2, m7⟩ := kernels_alloc cfg g _ hsentinel hsizes _ _ _ tr hkpost m6 h2
    obtain ⟨ta2, tb2, t3, n1, _, n3, n4, n5⟩ := al2 t2 m7 h3
    have r1 := m5 out hout s1 hs1
    have r2 := n5 out hout s2 hs2
    have := n4.2.1
    omega

theorem codegen_function_expression_node_twice_witness :
    (sort_expression_nodes kernel_graph ⟨some 0, "factor"⟩ = .ok [2, 1] ∧
      codegen_function small_config id kernel_graph (BVMCompiler.new small_config) =
        .ok (kernel_function, kernel_compiler) ∧
      kernel_compiler.stack_overrun = false ∧
      kernel_function.entry_point = 7 ∧
      kernel_function.instructions =
        [.opcode .OP_VALUE_FLOAT, .data 0x3f800000, .data 0] ++
          [.opcode (.OP_OTHER 0), .data 0, .data 1] ++
          [.opcode .OP_END, .opcode (.OP_OTHER 2), .data 0, .data 1, .data 2,
           .opcode .OP_VALUE_FLOAT, .data 0x3f800000, .data 3] ++
          [.opcode (.OP_OTHER 0), .data 3, .data 4] ++ [.opcode .OP_END] ∧
      codegen_function.output_slot small_config id kernel_graph (BVMCompiler.new small_config)
        ⟨some 1, "value"⟩ = some 4) ∧
    codegen_function small_config id kernel_graph (BVMCompiler.new small_config) ≠
      .error .no_termination ∧
    ¬ kernel_graph.is_kernel 1 ∧
    ∃ (main_nodes : NodeList) (c1 c2 : BVMCompiler) (kpre kpost : List ConstSocketPair)
      (cbk : BVMCompiler) (lpre lpost mpre mpost : NodeList)
      (ca1 cp1 cb1 ca2 cp2 cb2 : BVMCompiler) (oia1 ii1 oib1 oia2 ii2 oib2 : SocketIndexMap)
      (a1 b1 r1 x2 a2 b2 r2 : List Instruction) (kinst : NodeInstance) (ksocket : NodeSocket)
      (kinput : InputInstance) (kentry : Nat) (kout : SubgraphOutput) (cak : BVMCompiler),
      sort_graph_nodes small_config kernel_graph (BVMCompiler.new small_config) =
        some (main_nodes, c1) ∧
      (∀ n, n < kernel_graph.nodes.length → n ∈ main_nodes) ∧
      c1.func_entry_map.iteration id = kpre ++ ⟨some 0, "factor"⟩ :: kpost ∧
      codegen_function.kernels small_config kernel_graph (count_output_users kernel_graph) kpre
        { c1 with fn := Function.new } = .ok cbk ∧
      (some 0 : Option Nat).bind kernel_graph.node = some kinst ∧
      kinst.find_input "factor" = some (ksocket, kinput) ∧
      codegen_subgraph small_config kernel_graph [2, 1] (count_output_users kernel_graph)
        [⟨kinst.link "factor", ksocket.default_value, small_config.BVM_STACK_INVALID⟩] cbk =
        .ok (kentry, [kout], cak) ∧
      codegen_function.kernels small_config kernel_graph (count_output_users kernel_graph) kpost
        { cak with func_entry_map :=
            Map.set cak.func_entry_map ⟨some 0, "factor"⟩ ⟨kentry, kout.stack_index⟩ } =
        .ok c2 ∧
      codegen_function.kernels small_config kernel_graph (count_output_users kernel_graph)
        (c1.func_entry_map.iteration id) { c1 with fn := Function.new } = .ok c2 ∧
      kernel_function.entry_point = c2.fn.instructions.length ∧
      [2, 1] = lpre ++ 1 :: lpost ∧
      codegen_subgraph.nodes small_config kernel_graph (count_output_users kernel_graph) lpre
        cbk [] = .ok (ca1, oia1) ∧
      codegen_subgraph.prepare_inputs small_config 1 oia1
        (NodeInstance.input_sockets ⟨float_identity_type, [⟨some (2, "value"), none⟩]⟩)
        ca1 [] = .ok (cp1, ii1) ∧
      codegen_subgraph.node small_config kernel_graph (count_output_users kernel_graph) 1
        ca1 oia1 = .ok (cb1, oib1) ∧
      main_nodes = mpre ++ 1 :: mpost ∧
      codegen_subgraph.nodes small_config kernel_graph (count_output_users kernel_graph) mpre
        c2 [] = .ok (ca2, oia2) ∧
      codegen_subgraph.prepare_inputs small_config 1 oia2
        (NodeInstance.input_sockets ⟨float_identity_type, [⟨some (2, "value"), none⟩]⟩)
        ca2 [] = .ok (cp2, ii2) ∧
      codegen_subgraph.node small_config kernel_graph (count_output_users kernel_graph) 1
        ca2 oia2 = .ok (cb2, oib2) ∧
      cb1.fn.instructions = ca1.fn.instructions ++ a1 ++
        spec_main_instruction small_config ca1.func_entry_map ii1 oib1 1
          ⟨float_identity_type, [⟨some (2, "value"), none⟩]⟩ ++ b1 ∧
      c2.fn.instructions = cb1.fn.instructions ++ r1 ∧
      ca2.fn.instructions = c2.fn.instructions ++ x2 ∧
      cb2.fn.instructions = ca2.fn.instructions ++ a2 ++
        spec_main_instruction small_config ca2.func_entry_map ii2 oib2 1
          ⟨float_identity_type, [⟨some (2, "value"), none⟩]⟩ ++ b2 ∧
      kernel_function.instructions = cb2.fn.instructions ++ r2 ∧
      kernel_function.instructions =
        ca1.fn.instructions ++ a1 ++
          spec_main_instruction small_config ca1.func_entry_map ii1 oib1 1
            ⟨float_identity_type, [⟨some (2, "value"), none⟩]⟩ ++
          (b1 ++ r1 ++ x2 ++ a2) ++
          spec_main_instruction small_config ca2.func_entry_map ii2 oib2 1
            ⟨float_identity_type, [⟨some (2, "value"), none⟩]⟩ ++ (b2 ++ r2) ∧
      (ca1.fn.instructions ++ a1 ++
        spec_main_instruction small_config ca1.func_entry_map ii1 oib1 1
          ⟨float_identity_type, [⟨some (2, "value"), none⟩]⟩).length ≤
        kernel_function.entry_point ∧
      kernel_function.entry_point ≤
        (ca1.fn.instructions ++ a1 ++
          spec_main_instruction small_config ca1.func_entry_map ii1 oib1 1
            ⟨float_identity_type, [⟨some (2, "value"), none⟩]⟩ ++
          (b1 ++ r1 ++ x2 ++ a2)).length ∧
      ∀ out ∈ float_identity_type.outputs, ∃ s1 s2,
        Map.find oib1 ⟨some 1, out.name⟩ = some s1 ∧
        Map.find oib2 ⟨some 1, out.name⟩ = some s2 ∧
        fresh_slot small_config ca1 cb1 s1 ∧ fresh_slot small_config ca2 cb2 s2 ∧
        (s1 ≠ small_config.BVM_STACK_INVALID → s1 ≠ s2) ∧
        (kernel_compiler.stack_overrun = false → s1 < s2 ∧ s2 < small_config.BVM_STACK_SIZE) :=
  ⟨⟨by rfl, by rfl, rfl, rfl, rfl, by rfl⟩,
   (codegen_function_expression_node_twice small_config id kernel_graph (by decide)
     example_stack_size_pos ⟨some 0, "factor"⟩ [2, 1] 1
     ⟨float_identity_type, [⟨some (2, "value"), none⟩]⟩
     ⟨0, _, ⟨"factor", ⟨.BVM_FLOAT⟩, some (.float ⟨0⟩), .VALUE_FUNCTION⟩, rfl,
       List.mem_singleton.2 rfl, rfl, rfl⟩
     (by rfl) (by decide) rfl (by decide)).1 kernel_graph_closed,
   (codegen_function_expression_node_twice small_config id kernel_graph (by decide)
     example_stack_size_pos ⟨some 0, "factor"⟩ [2, 1] 1
     ⟨float_identity_type, [⟨some (2, "value"), none⟩]⟩
     ⟨0, _, ⟨"factor", ⟨.BVM_FLOAT⟩, some (.float ⟨0⟩), .VALUE_FUNCTION⟩, rfl,
       List.mem_singleton.2 rfl, rfl, rfl⟩
     (by rfl) (by decide) rfl (by decide)).2 kernel_function kernel_compiler (by rfl)⟩

end bvm
